import Mathlib

/-!
# open-lmake : path handling of the autodep core

Shallow embedding of the path functions of `src/disk.cc`, `src/disk.hh` and of the `getcwd`
post-processing of `src/autodep/autodep_ld.cc`, followed by theorems about them.

Conventions of the embedding :
* a `::string` is a `List Char` ;
* a failed `SWEAR`, an exception and an access out of the bounds of a string are `none` ;
* the outside world (the file system, `errno`, `sysconf`) is an explicit argument, `World` ;
* the loop of `RealPath::solve` is iterated with a fuel, `none` standing for "fuel exhausted".
-/

namespace Disk

/-! ## Strings -/

/-- The C++ `s.rfind(c)` : index of the last occurrence of `c`, `none` for `Npos`. -/
def rfind : List Char → Char → Option Nat
  | [], _ => none
  | x :: xs, c =>
    match rfind xs c with
    | some i => some (i + 1)
    | none => if x = c then some 0 else none

/-- The C++ `s.starts_with(p)`. -/
def starts_with (s p : List Char) : Bool := p.isPrefixOf s

/-! ## `is_canon` (disk.cc:24) -/

inductive CanonState
  | First
  | Empty
  | Dot
  | DotDot
  | Plain
  deriving DecidableEq, Repr

/-- The `for( char c : name )` loop of `is_canon` followed by its final `switch`,
carrying the two local variables `accept_dot_dot` and `state`. -/
def is_canon_loop : Bool → CanonState → List Char → Bool
  | _, state, [] =>
    match state with
    | .First => true
    | .Empty => true
    | .Dot => false
    | .DotDot => false
    | .Plain => true
  | accept_dot_dot, state, c :: cs =>
    if c = '/' then
      match state with
      | .Empty => false
      | .Dot => false
      | .DotDot => if !accept_dot_dot then false else is_canon_loop accept_dot_dot .Empty cs
      | .First => is_canon_loop false .Empty cs
      | .Plain => is_canon_loop false .Empty cs
    else if c = '.' then
      match state with
      | .First => is_canon_loop accept_dot_dot .Dot cs
      | .Empty => is_canon_loop accept_dot_dot .Dot cs
      | .Dot => is_canon_loop accept_dot_dot .DotDot cs
      | .DotDot => is_canon_loop accept_dot_dot .Plain cs
      | .Plain => is_canon_loop accept_dot_dot .Plain cs
    else is_canon_loop accept_dot_dot .Plain cs

def is_canon (name : List Char) : Bool := is_canon_loop true .First name

/-! ## `is_abs`, `is_abs_s` (disk.hh:240) -/

/-- Source : `!name || name[0]=='/'`, the empty name is absolute. -/
def is_abs (name : List Char) : Bool := name.isEmpty || name.head? == some '/'

/-- Source : `name_s[0]=='/'`, the empty name is relative (`name_s[0]` is then the final NUL). -/
def is_abs_s (name_s : List Char) : Bool := name_s.head? == some '/'

/-- Source : `!( is_abs(name) || name.starts_with("../") || name==".." )` (disk.hh:243). -/
def is_lcl (name : List Char) : Bool :=
  !(is_abs name || starts_with name "../".toList || name == "..".toList)

/-! ## `mk_lcl` (disk.cc:234) -/

/-- The first loop of `mk_lcl` : `i` runs over `file`, the argument list is `file.substr(i)`.
`dir_s[i]` is the final NUL at `i==dir_s.size()` and is out of bounds beyond. -/
def mk_lcl_scan (dir_s : List Char) : List Char → Nat → Nat → Option Nat
  | [], _, last_slash1 => some last_slash1
  | c :: cs, i, last_slash1 =>
    if dir_s.length < i then none
    else if c ≠ dir_s.getD i '\x00' then some last_slash1
    else mk_lcl_scan dir_s cs (i + 1) (if c = '/' then i + 1 else last_slash1)

/-- The second loop of `mk_lcl` : one `../` for each `/` of its argument. -/
def mk_lcl_ups : List Char → List Char
  | [] => []
  | c :: cs => if c = '/' then '.' :: '.' :: '/' :: mk_lcl_ups cs else mk_lcl_ups cs

def mk_lcl (file dir_s : List Char) : Option (List Char) :=
  if is_abs file ≠ is_abs_s dir_s then none
  else if !(dir_s.isEmpty || dir_s.getLast? == some '/') then none
  else
    match mk_lcl_scan dir_s file 0 0 with
    | none => none
    | some last_slash1 =>
      if dir_s.length < last_slash1 ∨ file.length < last_slash1 then none
      else some (mk_lcl_ups (dir_s.drop last_slash1) ++ file.drop last_slash1)

/-! ## `mk_glb` (disk.cc:248) -/

/-- The loop of `mk_glb` over the leading `../` of `f_v`, then the final `to_string(d_sv,f_v)`. -/
def mk_glb_loop : List Char → List Char → Option (List Char)
  | d_sv, '.' :: '.' :: '/' :: f_v =>
    if d_sv.isEmpty then none
    else
      let d1 := d_sv.take (d_sv.length - 1)
      match rfind d1 '/' with
      | none => if d1.isEmpty then none else mk_glb_loop [] f_v
      | some last_slash => mk_glb_loop (d1.take (last_slash + 1)) f_v
  | d_sv, f_v => some (d_sv ++ f_v)

def mk_glb (file dir_s : List Char) : Option (List Char) :=
  if is_abs file then some file else mk_glb_loop dir_s file

/-- The composition the round trip is about : `mk_glb(mk_lcl(f,d),d)`. -/
def mk_glb_mk_lcl (f d : List Char) : Option (List Char) :=
  (mk_lcl f d).bind fun r => mk_glb r d

/-- The leading run of `../` of a name. -/
def leading_ups : List Char → List Char
  | '.' :: '.' :: '/' :: r => '.' :: '.' :: '/' :: leading_ups r
  | _ => []

/-! ## Enumerations

`LnkSupport` and `Bool3` are declared outside the files at hand, their members are taken from
their uses (`lnk_support>=LnkSupport::File`, `No`, `Maybe`, `Yes`) ; `FileLoc` is disk.hh:34. -/

inductive LnkSupport
  | None
  | File
  | Full
  deriving DecidableEq, Repr

/-- Rank of a link support, for `lnk_support>=LnkSupport::File`. -/
def LnkSupport.rank : LnkSupport → Nat
  | .None => 0
  | .File => 1
  | .Full => 2

inductive Bool3
  | No
  | Maybe
  | Yes
  deriving DecidableEq, Repr

inductive FileLoc
  | Repo
  | SrcDirs
  | Root
  | Tmp
  | Proc
  | Admin
  | Ext
  | Unknown
  deriving DecidableEq, Repr

/-! ## The outside world -/

/-- What `RealPath::solve` asks the system.
* `read_lnk p` is `Disk::read_lnk(p)` (disk.hh:200) : the target, empty when `readlinkat` failed ;
* `enoent p` is `errno==ENOENT` as tested after `read_lnk(p)` returned an empty string ;
* `open_dir p` tells whether `::open(p,O_RDONLY|O_DIRECTORY|O_NOFOLLOW|O_NOATIME)` succeeds ;
* `symloop_max` is the value of `::sysconf(_SC_SYMLOOP_MAX)`. -/
structure World where
  read_lnk : List Char → List Char
  enoent : List Char → Bool
  open_dir : List Char → Bool
  symloop_max : Int

/-- Source : `_get_symloop_max` (disk.cc:404), `_POSIX_SYMLOOP_MAX` is 8. -/
def _get_symloop_max (w : World) : Int :=
  if w.symloop_max ≥ 0 then w.symloop_max else 8

/-! ## `RealPathEnv`, `RealPath` (disk.hh:298) -/

structure RealPathEnv where
  lnk_support : LnkSupport := .Full
  reliable_dirs : Bool := false
  root_dir : List Char := []
  tmp_dir : List Char := []
  tmp_view : List Char := []
  src_dirs_s : List (List Char) := []
  deriving DecidableEq, Repr

structure SolveReport where
  real : List Char := []
  lnks : List (List Char) := []
  file_accessed : Bool3 := .No
  file_loc : FileLoc := .Ext
  mapped : Bool := false
  deriving DecidableEq, Repr

/-- The helper class `RealPath::_Dvg` (disk.hh:321). -/
structure Dvg where
  ok : Bool := false
  dvg : Nat := 0
  deriving DecidableEq, Repr

/-- The `for( size_t i=start ; i<dvg ; i++ )` loop of `_Dvg::update` : the first argument counts
the iterations left, the result is the first `i` with `domain[i]!=chk[i]`. -/
def Dvg.scan (domain chk : List Char) : Nat → Nat → Option Nat
  | 0, _ => none
  | n + 1, i =>
    if domain.getD i '\x00' ≠ chk.getD i '\x00' then some i
    else Dvg.scan domain chk n (i + 1)

/-- Source : `_Dvg::update` (disk.hh:326). -/
def Dvg.update (self : Dvg) (domain chk : List Char) : Dvg :=
  let start := self.dvg
  let ok := decide (domain.length ≤ chk.length)
  let dvg := if ok then domain.length else chk.length
  match Dvg.scan domain chk (dvg - start) start with
  | some i => { ok := false, dvg := i }
  | none =>
    if domain.length < chk.length then { ok := chk.getD domain.length '\x00' == '/', dvg := dvg }
    else { ok := ok, dvg := dvg }

/-- The constructor `_Dvg( domain , chk )` : an update of the default object. -/
def Dvg.mk_upd (domain chk : List Char) : Dvg := ({} : Dvg).update domain chk

structure RealPath where
  pid : Int := 0
  has_tmp_view : Bool := false
  cwd_ : List Char := []
  _env : RealPathEnv := {}
  _tmp_view : List Char := []
  _admin_dir : List Char := []
  _abs_src_dirs_s : List (List Char) := []
  _root_dir_sz1 : Nat := 0
  deriving DecidableEq, Repr

/-- Source : `RealPath::init` (disk.cc:379). `AdminDir` is a constant of a header that is not at
hand, it is an argument here. `_tmp_view` is the pointed string. The `SWEAR`s and those of the
`mk_glb` calls make the result optional. -/
def RealPath.init (AdminDir : List Char) (rpe : RealPathEnv) (cwd : List Char) (p : Int) :
    Option RealPath :=
  if !is_abs rpe.root_dir then none
  else if !is_abs rpe.tmp_dir then none
  else if !rpe.tmp_view.isEmpty && !is_abs rpe.tmp_view then none
  else
    let has_tmp_view := !rpe.tmp_view.isEmpty
    (rpe.src_dirs_s.mapM fun sd_s => mk_glb sd_s rpe.root_dir).map fun abs =>
      { pid := p
        has_tmp_view := has_tmp_view
        cwd_ := cwd
        _env := rpe
        _tmp_view := if has_tmp_view then rpe.tmp_view else rpe.tmp_dir
        _admin_dir := rpe.root_dir ++ '/' :: AdminDir
        _abs_src_dirs_s := abs
        _root_dir_sz1 := rpe.root_dir.length + 1 }

/-- Source : `RealPath::chdir` (disk.hh:368). -/
def RealPath.chdir (rp : RealPath) (dir : List Char) : Option RealPath :=
  if !is_abs dir then none
  else if rp.has_tmp_view && starts_with dir rp._env.tmp_dir then
    some { rp with cwd_ := rp._tmp_view ++ dir.drop rp._env.tmp_dir.length }
  else some { rp with cwd_ := dir }

/-- The loop of `RealPath::_find_src_idx` (disk.cc:395) from index `i` on. -/
def _find_src_idx_from (real : List Char) : List (List Char) → Nat → Option Nat
  | [], _ => none
  | sd :: sds, i => if starts_with real sd then some i else _find_src_idx_from real sds (i + 1)

/-- Source : `RealPath::_find_src_idx`, `none` for `Npos`. -/
def RealPath._find_src_idx (rp : RealPath) (real : List Char) : Option Nat :=
  _find_src_idx_from real rp._abs_src_dirs_s 0

/-! ## `RealPath::solve` (disk.cc:412) -/

/-- The local variables of `RealPath::solve` that live across the iterations of its loop.
`cur` and `pos` are kept as the unread part of the walked path : `cur = some r` stands for
`pos<=cur->size()` and `r = cur->substr(pos)`, `cur = none` stands for `pos>cur->size()`.
`exists_` is the local `exists`. -/
structure SolveState where
  lnks : List (List Char) := []
  exists_ : Bool := true
  cur : Option (List Char) := none
  real : List Char := []
  in_repo : Dvg := {}
  in_tmp : Dvg := {}
  in_admin : Dvg := {}
  in_proc : Dvg := {}
  is_in_tmp : Bool := false
  n_lnks : Nat := 0
  mapped : Bool := false
  deriving DecidableEq, Repr

/-- The static string `proc`. -/
def proc : List Char := ['/', 'p', 'r', 'o', 'c']

/-- How one pass through the body of the loop ends : `next` is a `continue` or the end of the
body (the state is the one the increment part of the `for` starts from, its `cur` being already
what `pos = end+1` makes of it), `ret` is the `return` of the loop bound on links. -/
inductive Flow
  | next (st : SolveState)
  | ret (r : SolveReport)
  deriving DecidableEq, Repr

/-- The path given to `read_lnk` at the label `HandleLnk` (disk.cc:488-489) : in disk space. -/
def lnk_path (rp : RealPath) (st : SolveState) : List Char :=
  if rp.has_tmp_view && st.is_in_tmp then rp._env.tmp_dir ++ st.real.drop rp._tmp_view.length
  else st.real

/-- The recording of the link just read, of target `nxt` (disk.cc:490-498) ; `none` is one of
its two `continue`. -/
def record_lnk (rp : RealPath) (st : SolveState) (nxt : List Char) : Option SolveState :=
  if !st.is_in_tmp && !st.in_proc.ok then
    if st.in_repo.ok then
      if st.real.length < rp._root_dir_sz1 then none
      else if !nxt.isEmpty then
        some { st with lnks := st.lnks ++ [st.real.drop rp._root_dir_sz1] }
      else some st
    else
      match rp._find_src_idx st.real with
      | none => none
      | some i =>
        if !nxt.isEmpty then
          some { st with lnks := st.lnks ++
            [rp._env.src_dirs_s.getD i [] ++ st.real.drop (rp._abs_src_dirs_s.getD i []).length] }
        else some st
  else some st

/-- The end of the body, once the link is read and recorded (disk.cc:499-515) : nothing to
follow when `nxt` is empty, else the bound on links, then the walk restarts on the target
followed by the unprocessed part, from the directory of the link or from the root. -/
def follow_lnk (w : World) (rp : RealPath) (st : SolveState) (nxt : List Char) (last : Bool)
    (prev_real_size : Nat) : Flow :=
  if nxt.isEmpty then
    .next (if w.enoent (lnk_path rp st) then { st with exists_ := false } else st)
  else if (st.n_lnks : Int) ≥ _get_symloop_max w then .ret { real := [], lnks := st.lnks }
  else
    let st := { st with n_lnks := st.n_lnks + 1 }
    let nxt := if !last then nxt ++ '/' :: (st.cur.getD []) else nxt
    if nxt.head? = some '/' then .next { st with real := [], cur := some (nxt.drop 1) }
    else .next { st with real := st.real.take prev_real_size, cur := some nxt }

/-- The part of the body from the label `HandleLnk` on (disk.cc:487-515).
`st` is the state at the label (`real` holds the component, `cur` is the path after it),
`last` and `prev_real_size` are the locals of the same names. -/
def handle_lnk (w : World) (rp : RealPath) (st : SolveState) (last : Bool)
    (prev_real_size : Nat) : Flow :=
  let nxt := w.read_lnk (lnk_path rp st)
  let st := { st with mapped := st.mapped || (rp.has_tmp_view && st.is_in_tmp) }
  match record_lnk rp st nxt with
  | none => .next st
  | some st => follow_lnk w rp st nxt last prev_real_size

/-- The component `comp` is appended to `real` and `in_admin` is updated (disk.cc:464-468). -/
def push_comp (rp : RealPath) (st : SolveState) (comp : List Char) : SolveState :=
  let real := st.real ++ '/' :: comp
  { st with real := real, in_admin := st.in_admin.update rp._admin_dir real }

/-- The decision of disk.cc:469-486, `st` being the state once the component is appended :
`true` for a `goto HandleLnk`, `false` for a `continue`. -/
def lnk_wanted (w : World) (rp : RealPath) (no_follow : Bool) (st : SolveState) (last : Bool) :
    Bool :=
  if !st.exists_ then false
  else if no_follow && last then false
  else if st.is_in_tmp then true
  else if st.in_admin.ok then false
  else if st.in_proc.ok then true
  else if !st.in_repo.ok then false
  else if !last && !rp._env.reliable_dirs && w.open_dir st.real then false
  else
    match rp._env.lnk_support with
    | .None => false
    | .File => last
    | .Full => true

/-- The component at `pos` : `cur->substr(pos,end-pos)`, `end` being the next `/` or the end
of `cur` (disk.cc:453-455). -/
def next_comp (rest : List Char) : List Char := rest.takeWhile (· ≠ '/')

/-- The local `last` : `cur->find('/',pos)==Npos`. -/
def is_last (rest : List Char) : Bool := decide ((next_comp rest).length = rest.length)

/-- What `pos = end+1` leaves to be read of `cur`. -/
def after_comp (rest : List Char) : Option (List Char) :=
  if is_last rest then none else some (rest.drop ((next_comp rest).length + 1))

/-- One pass through the body of the loop (disk.cc:453-515), `rest` being `cur->substr(pos)`.
The result is `none` when `real.resize(real.rfind('/'))` is reached with no `/` in `real`. -/
def solve_body (w : World) (rp : RealPath) (no_follow : Bool) (st : SolveState)
    (rest : List Char) : Option Flow :=
  let comp := next_comp rest
  let last := is_last rest
  let st := { st with cur := after_comp rest }
  if comp.isEmpty then some (.next st)
  else if comp.head? = some '.' ∧ comp.length = 1 then some (.next st)
  else if comp.head? = some '.' ∧ comp.length = 2 ∧ comp.getD 1 '\x00' = '.' then
    if !st.real.isEmpty then
      (rfind st.real '/').map fun i => .next { st with real := st.real.take i }
    else some (.next st)
  else
    let prev_real_size := st.real.length
    let st := push_comp rp st comp
    if lnk_wanted w rp no_follow st last then some (handle_lnk w rp st last prev_real_size)
    else some (.next st)

/-- The increment part of the `for` (disk.cc:447-451), `pos = end+1` apart (see `Flow`). -/
def solve_incr (rp : RealPath) (st : SolveState) : SolveState :=
  let in_repo := st.in_repo.update rp._env.root_dir st.real
  let in_tmp := st.in_tmp.update rp._tmp_view st.real
  let in_proc := st.in_proc.update proc st.real
  { st with
    in_repo := in_repo
    in_tmp := in_tmp
    in_proc := in_proc
    is_in_tmp := !rp._tmp_view.isEmpty && in_tmp.ok }

/-- How the loop is left : the condition `pos <= cur->size()` is false, or a `return`. -/
inductive LoopExit
  | fall (st : SolveState)
  | ret (r : SolveReport)
  deriving DecidableEq, Repr

/-- The `for` loop of `RealPath::solve`, at most `fuel` tests of its condition. -/
def solve_loop (w : World) (rp : RealPath) (no_follow : Bool) : Nat → SolveState → Option LoopExit
  | 0, _ => none
  | fuel + 1, st =>
    match st.cur with
    | none => some (.fall st)
    | some rest =>
      match solve_body w rp no_follow st rest with
      | none => none
      | some (.ret r) => some (.ret r)
      | some (.next st) => solve_loop w rp no_follow fuel (solve_incr rp st)

/-- The code after the loop (disk.cc:517-544). -/
def solve_finish (rp : RealPath) (no_follow : Bool) (st : SolveState) : SolveReport :=
  if st.is_in_tmp then
    if !rp.has_tmp_view then
      { real := st.real, lnks := st.lnks, file_accessed := .No, file_loc := .Tmp, mapped := false }
    else
      { real := rp._env.tmp_dir ++ st.real.drop rp._tmp_view.length, lnks := st.lnks,
        file_accessed := .No, file_loc := .Tmp, mapped := true }
  else if st.in_proc.ok then
    { real := st.real, lnks := st.lnks, file_accessed := .No, file_loc := .Proc,
      mapped := st.mapped }
  else if st.in_admin.ok then
    { real := st.real, lnks := st.lnks, file_accessed := .No, file_loc := .Admin,
      mapped := st.mapped }
  else if st.in_repo.ok then
    if st.real.length < rp._root_dir_sz1 then
      { real := st.real, lnks := st.lnks, file_accessed := .No, file_loc := .Root,
        mapped := st.mapped }
    else
      let real := st.real.drop rp._root_dir_sz1
      if rp._env.lnk_support.rank ≥ LnkSupport.File.rank && !no_follow then
        { real := real, lnks := st.lnks, file_accessed := .Yes, file_loc := .Repo,
          mapped := st.mapped }
      else if rp._env.lnk_support.rank ≥ LnkSupport.Full.rank && real.contains '/' then
        { real := real, lnks := st.lnks, file_accessed := .Maybe, file_loc := .Repo,
          mapped := st.mapped }
      else
        { real := real, lnks := st.lnks, file_accessed := .No, file_loc := .Repo,
          mapped := st.mapped }
  else
    match rp._find_src_idx st.real with
    | some i =>
      let src_dir_s := rp._env.src_dirs_s.getD i []
      let real := src_dir_s ++ st.real.drop (rp._abs_src_dirs_s.getD i []).length
      if rp._env.lnk_support.rank ≥ LnkSupport.File.rank && !no_follow then
        { real := real, lnks := st.lnks, file_accessed := .Yes, file_loc := .SrcDirs,
          mapped := st.mapped }
      else if rp._env.lnk_support.rank ≥ LnkSupport.Full.rank
          && (real.drop src_dir_s.length).contains '/' then
        { real := real, lnks := st.lnks, file_accessed := .Maybe, file_loc := .SrcDirs,
          mapped := st.mapped }
      else
        { real := real, lnks := st.lnks, file_accessed := .No, file_loc := .SrcDirs,
          mapped := st.mapped }
    | none =>
      { real := st.real, lnks := st.lnks, file_accessed := .No, file_loc := .Ext,
        mapped := st.mapped }

/-- The value of `Fd::Cwd`, that is `AT_FDCWD`. -/
def Fd_Cwd : Int := -100

/-- The anchor of a relative path (disk.cc:424-430) : the directory `file` is relative to, in
view space. `at` is the file descriptor. -/
def solve_anchor (w : World) (rp : RealPath) (at_ : Int) : List Char :=
  if at_ = Fd_Cwd then rp.cwd_
  else
    let real :=
      if rp.pid ≠ 0 then
        w.read_lnk (proc ++ '/' :: (toString rp.pid).toList ++ "/fd/".toList ++ (toString at_).toList)
      else w.read_lnk (proc ++ "/self/fd/".toList ++ (toString at_).toList)
    if rp.has_tmp_view && starts_with real rp._env.tmp_dir then
      rp._tmp_view ++ real.drop rp._env.tmp_dir.length
    else real

/-- The state the loop of `RealPath::solve` starts from (disk.cc:416-444), `none` for the early
`return {}` taken when the anchor is not absolute. -/
def solve_start (w : World) (rp : RealPath) (at_ : Int) (file : List Char) : Option SolveState :=
  let pos1 := file.head? = some '/'
  let real0 : Option (List Char) :=
    if pos1 then some []
    else
      let real := solve_anchor w rp at_
      if !is_abs real then none
      else if real.length = 1 then some []
      else some real
  real0.map fun real =>
    let in_tmp := Dvg.mk_upd rp._tmp_view real
    let is_in_tmp := !rp._tmp_view.isEmpty && in_tmp.ok
    { lnks := []
      exists_ := true
      cur := some (if pos1 then file.drop 1 else file)
      real := real
      in_repo := Dvg.mk_upd rp._env.root_dir real
      in_tmp := in_tmp
      in_admin := Dvg.mk_upd rp._admin_dir real
      in_proc := Dvg.mk_upd proc real
      is_in_tmp := is_in_tmp
      n_lnks := 0
      mapped := rp.has_tmp_view && is_in_tmp }

/-- Source : `RealPath::solve( Fd at , ::string const& file , bool no_follow )`, its loop being
given `fuel` iterations. -/
def RealPath.solve (fuel : Nat) (w : World) (rp : RealPath) (at_ : Int) (file : List Char)
    (no_follow : Bool) : Option SolveReport :=
  match solve_start w rp at_ file with
  | none => some {}
  | some st =>
    match solve_loop w rp no_follow fuel st with
    | none => none
    | some (.ret r) => some r
    | some (.fall st) => some (solve_finish rp no_follow st)

/-! ## `_fix_cwd` (autodep_ld.cc:247)

A `char*` is `none` for the null pointer, else the bytes of the memory it points to, as many as
were allocated. An access out of these bytes is `none` for the whole call. -/

/-- The C `strlen` : index of the first NUL, `none` when there is none in the allocation. -/
def strlen : List Char → Option Nat
  | [] => none
  | c :: cs => if c = '\x00' then some 0 else (strlen cs).map (· + 1)

/-- The C `memmove(buf+dst,buf+src,n)` within one buffer. -/
def memmove (buf : List Char) (dst src n : Nat) : Option (List Char) :=
  if src + n ≤ buf.length ∧ dst + n ≤ buf.length then
    some (buf.take dst ++ (buf.drop src).take n ++ buf.drop (dst + n))
  else none

/-- The C `memcpy(buf,data,data.size())`. -/
def memcpy (buf data : List Char) : Option (List Char) :=
  if data.length ≤ buf.length then some (data ++ buf.drop data.length) else none

/-- The C `realloc(buf,n)` when it succeeds : the first bytes are kept, the allocation is `n` long
(the bytes gained are indeterminate, they are NUL here). -/
def realloc (buf : List Char) (n : Nat) : List Char :=
  buf.take n ++ List.replicate (n - buf.length) '\x00'

/-- Source : `_fix_cwd( buf , sz , allocated , getcwd_ )`, `tmp_dir` and `tmp_view` being those of
the autodep environment. The outer `none` is an access out of bounds, the inner one is
`nullptr`. -/
def _fix_cwd (tmp_dir tmp_view : List Char) (buf : Option (List Char)) (sz : Nat)
    (allocated : Bool3) : Option (Option (List Char)) :=
  match buf with
  | none => some none
  | some b =>
    if tmp_view.isEmpty then some (some b)
    else if !(starts_with (b.take sz) tmp_dir
        && (b.getD tmp_dir.length '\x00' == '/' || b.getD tmp_dir.length '\x00' == '\x00')) then
      some (some b)
    else
      (strlen b).bind fun len =>
        let new_len := len + tmp_view.length - tmp_dir.length
        let realloced : Option (List Char) :=
          if allocated = .Yes then some (realloc b new_len)
          else if new_len ≥ sz then none
          else some b
        match realloced with
        | none => some none
        | some b =>
          (if tmp_view.length > tmp_dir.length then
              memmove b tmp_view.length tmp_dir.length (new_len - tmp_view.length + 1)
            else some b).bind fun b =>
          (memcpy b tmp_view).bind fun b =>
          (if tmp_view.length < tmp_dir.length then
              memmove b tmp_view.length tmp_dir.length (new_len - tmp_view.length + 1)
            else some b).map fun b => some b

/-- The `allocated` argument the interposed `getcwd(buf,sz)` passes : `buf?No:sz?Maybe:Yes`. -/
def getcwd_allocated (buf_is_null : Bool) (sz : Nat) : Bool3 :=
  if !buf_is_null then .No else if sz ≠ 0 then .Maybe else .Yes

/-- The C string held by a buffer : its bytes before the first NUL. -/
def c_str (buf : List Char) : List Char := buf.takeWhile (· ≠ '\x00')

/-! ## `RealPath::exec` (disk.cc:547)

The content of the files is an argument : `files p` is what an `::ifstream` opened on `p` gives
to read, `none` when nothing can be read of it. -/

/-- The enumeration `Access` (disk.hh:20). -/
inductive Access
  | Lnk
  | Reg
  | Stat
  deriving DecidableEq, Repr

/-- Modelled from the spec: `Accesses` is a `BitMap<Access>`, whose header is not part of these
sources : a set of accesses, that is one flag for each `Access`. -/
structure Accesses where
  Lnk : Bool := false
  Reg : Bool := false
  Stat : Bool := false
  deriving DecidableEq, Repr

/-- Modelled from the spec: `Accesses(a)`, the set made of the single access `a`. -/
def Accesses.of : Access → Accesses
  | .Lnk => { Lnk := true }
  | .Reg => { Reg := true }
  | .Stat => { Stat := true }

/-- Modelled from the spec: `a |= b`, the union of two sets of accesses. -/
def Accesses.or (a b : Accesses) : Accesses :=
  { Lnk := a.Lnk || b.Lnk, Reg := a.Reg || b.Reg, Stat := a.Stat || b.Stat }

/-- The order of the values of `FileLoc` (disk.hh:34). -/
def FileLoc.val : FileLoc → Nat
  | .Repo => 0
  | .SrcDirs => 1
  | .Root => 2
  | .Tmp => 3
  | .Proc => 4
  | .Admin => 5
  | .Ext => 6
  | .Unknown => 7

/-- The alias `FileLoc::Dep` : up to it, a file must be reported as a dep. -/
def FileLoc.Dep : FileLoc := .SrcDirs

/-- Source : `mk_abs` (disk.hh:248), `none` when its `SWEAR` or the one of `mk_glb` fails. -/
def mk_abs (file dir_s : List Char) : Option (List Char) :=
  if !is_abs_s dir_s then none else mk_glb file dir_s

/-- What `std::istream::getline(s,n)` stores in `s` out of the text `rest` left in the stream,
and whether it extracts the end of line : characters are stored up to the end of the stream, up
to a newline, which is extracted and not stored, or until `n-1` of them are stored, these being
tested in this order. -/
def getline (rest : List Char) (n : Nat) : List Char × Bool :=
  let stored := (rest.takeWhile (· ≠ '\n')).take (n - 1)
  (stored, decide ((rest.drop stored.length).head? = some '\n'))

/-- The value of `gcount()` after `getline` : the number of characters extracted. -/
def gcount (r : List Char × Bool) : Nat := r.1.length + (if r.2 then 1 else 0)

/-- Source : `::string::find(c)`, `none` being `Npos`. -/
def find (s : List Char) (c : Char) : Option Nat :=
  if c ∈ s then some (s.indexOf c) else none

/-- The interpreter `exec` makes of the text `rest` that follows `#!` (disk.cc:569-574). After
`resize(256)` and `getline`, `interpreter` holds what was stored, then a NUL ; what a previous
iteration left lies further than `gcount()`. -/
def exec_word (rest : List Char) : List Char :=
  let r := getline rest 256
  let interpreter := (r.1 ++ List.replicate (256 - r.1.length) '\x00').take (gcount r)
  match find interpreter ' ' with
  | some pos => interpreter.take pos
  | none =>
    match find interpreter '\x00' with
    | some pos => interpreter.take pos
    | none => interpreter

/-- The interpreter `exec` reads in a file of content `content` (disk.cc:563-574), `none` when
the loop is left : the 2 characters of the header cannot be read, they are not `#!`, or nothing
was extracted by `getline`. -/
def exec_interpreter (content : List Char) : Option (List Char) :=
  if content.length < 2 then none
  else if content.take 2 ≠ ['#', '!'] then none
  else if gcount (getline (content.drop 2) 256) = 0 then none
  else some (exec_word (content.drop 2))

/-- How a call of `exec` ends : it returns its accesses, it throws its message, an assertion
fails, or a call to `solve` was not given enough iterations. -/
inductive ExecEnd
  | ret (res : List (List Char × Accesses))
  | thrown
  | abort
  | no_fuel
  deriving DecidableEq, Repr

/-- The loop of `RealPath::exec` (disk.cc:552-576), with `n` iterations left, each `solve` being
given `fuel` iterations. -/
def RealPath.exec_loop (fuel : Nat) (w : World) (files : List Char → Option (List Char))
    (rp : RealPath) : Nat → SolveReport → List (List Char × Accesses) → ExecEnd
  | 0, _, res => .ret res
  | n + 1, sr, res =>
    let res1 := res ++ sr.lnks.map fun l => (l, Accesses.of .Lnk)
    if sr.file_loc.val > FileLoc.Dep.val ∧ sr.file_loc ≠ .Tmp then .ret res1
    else if sr.mapped then .thrown
    else
      match mk_abs sr.real (rp._env.root_dir ++ ['/']) with
      | none => .abort
      | some path =>
        let a :=
          if sr.file_accessed = .Yes then (Accesses.of .Reg).or (Accesses.of .Lnk)
          else Accesses.of .Reg
        let res2 := if sr.file_loc.val ≤ FileLoc.Dep.val then res1 ++ [(sr.real, a)] else res1
        match (files path).bind exec_interpreter with
        | none => .ret res2
        | some interpreter =>
          match RealPath.solve fuel w rp Fd_Cwd interpreter false with
          | none => .no_fuel
          | some sr1 => RealPath.exec_loop fuel w files rp n sr1 res2

/-- Source : `RealPath::exec` (disk.cc:547), as to the accesses it returns. -/
def RealPath.exec (fuel : Nat) (w : World) (files : List Char → Option (List Char))
    (rp : RealPath) (sr : SolveReport) : ExecEnd :=
  RealPath.exec_loop fuel w files rp 5 sr []

/-! ## Vocabulary of the statements -/

/-- The path `p` lies strictly inside the directory `dom` : `dom` followed by `/` starts `p`. -/
def inside (dom p : List Char) : Prop := (dom ++ ['/']) <+: p

/-- The path `p` is the directory `dom` or lies strictly inside it. -/
def at_or_inside (dom p : List Char) : Prop := p = dom ∨ inside dom p

/-- The components of a path, that is its pieces between the `/`. -/
def components : List Char → List (List Char)
  | [] => [[]]
  | c :: cs =>
    if c = '/' then [] :: components cs
    else
      match components cs with
      | [] => [[c]]
      | h :: t => (c :: h) :: t

/-- Lexical normalisation, one component : empty and `.` are dropped, `..` removes the last
kept component, anything else is kept. -/
def norm_step (kept : List (List Char)) (comp : List Char) : List (List Char) :=
  if comp = [] ∨ comp = ['.'] then kept
  else if comp = ['.', '.'] then kept.dropLast
  else kept ++ [comp]

/-- Lexical normalisation of a list of components, from the kept ones so far. -/
def lex_norm (kept : List (List Char)) (comps : List (List Char)) : List (List Char) :=
  comps.foldl norm_step kept

/-- The absolute path made of components : each one preceded by `/`, empty for the root. -/
def abs_path (comps : List (List Char)) : List Char :=
  (comps.map fun c => '/' :: c).flatten

/-- A string that is empty or ends with `/`. -/
def dir_like (s : List Char) : Prop := s = [] ∨ s.getLast? = some '/'

/-- The text `../` repeated. -/
def ups_n : Nat → List Char
  | 0 => []
  | n + 1 => '.' :: '.' :: '/' :: ups_n n

/-- No directory, that is no text ending with `/`, starts both `a` and `b`. -/
def no_common_dir (a b : List Char) : Prop :=
  ∀ q : List Char, (q ++ ['/']) <+: a → (q ++ ['/']) <+: b → False

/-- A component that a canonical path may hold. -/
def plain_comp (c : List Char) : Prop := c ≠ [] ∧ c ≠ ['.'] ∧ c ≠ ['.', '.'] ∧ '/' ∉ c

/-- The state is one the increment part of the loop, or the code before the loop, leaves. -/
def tmp_synced (rp : RealPath) (st : SolveState) : Prop :=
  ∃ d : Dvg, st.in_tmp = d.update rp._tmp_view st.real
    ∧ st.is_in_tmp = (!rp._tmp_view.isEmpty && st.in_tmp.ok)

/-- A string that is empty or starts with `/`, as `real` is all along the walk. -/
def abs_like (s : List Char) : Prop := s = [] ∨ s.head? = some '/'

/-- What is left to be read of the walked path : `cur->size()+1-pos`, 0 once the loop is left. -/
def cur_size : Option (List Char) → Nat
  | none => 0
  | some r => r.length + 1

/-- What `_Dvg::update` relies on : `domain` and `chk` are the same before `dvg`. -/
def Dvg.agrees (d : Dvg) (domain chk : List Char) : Prop :=
  ∀ j, j < d.dvg → j < domain.length → j < chk.length →
    domain.getD j '\x00' = chk.getD j '\x00'

/-- What C4 tells of an entry `l` of `lnks` : it is the name, relative to the root of the repo,
of a path strictly inside the repo, whose link was read with a non-empty target, and this path
is neither strictly inside tmp (as seen by the walk : the view when there is one) nor inside
`/proc`, nor is it the admin dir or inside it. -/
def recorded_lnk (w : World) (rp : RealPath) (l : List Char) : Prop :=
  l ≠ [] ∧ w.read_lnk (rp._env.root_dir ++ '/' :: l) ≠ []
    ∧ (rp._tmp_view ≠ [] → ¬ inside rp._tmp_view (rp._env.root_dir ++ '/' :: l))
    ∧ ¬ inside proc (rp._env.root_dir ++ '/' :: l)
    ∧ ¬ at_or_inside rp._admin_dir (rp._env.root_dir ++ '/' :: l)

/-- The invariant of the loop of `RealPath::solve` behind C4, at the test of its condition :
`in_tmp` and `in_proc` come from an update against `real`, `in_repo` is sound for `real`, and
the links recorded so far are as C4 tells. -/
def walk_inv (w : World) (rp : RealPath) (st : SolveState) : Prop :=
  tmp_synced rp st
    ∧ (∃ d : Dvg, st.in_proc = d.update proc st.real)
    ∧ st.in_repo.dvg ≤ st.real.length
    ∧ st.in_repo.agrees rp._env.root_dir st.real
    ∧ (st.in_repo.ok = true → at_or_inside rp._env.root_dir st.real)
    ∧ ∀ l ∈ st.lnks, recorded_lnk w rp l

/-- A name is canonical, as the documentation words it : of its components, none is `.`, none is
empty but the first one and the last one, and those that are `..` are the first ones, followed
by another component. -/
def canon_worded (name : List Char) : Prop :=
  ['.'] ∉ components name
    ∧ [] ∉ (components name).tail.dropLast
    ∧ ∃ k, k < (components name).length
        ∧ (∀ c ∈ (components name).take k, c = ['.', '.'])
        ∧ ['.', '.'] ∉ (components name).drop k

/-- The state of `is_canon` once it has read the component `comp` from the state `st`, the one
of the start of a component. -/
def canon_state_after (st : CanonState) (comp : List Char) : CanonState :=
  if comp = [] then st
  else if comp = ['.'] then .Dot
  else if comp = ['.', '.'] then .DotDot
  else .Plain

/-- What `canon_worded` asks of the components that are left, once some were read : `first`
tells that none was, `acc` that those that were are `..`. -/
def canon_left (acc first : Bool) (cs : List (List Char)) : Prop :=
  ['.'] ∉ cs
    ∧ [] ∉ (if first then cs.tail.dropLast else cs.dropLast)
    ∧ (if acc then
        ∃ k, k < cs.length ∧ (∀ c ∈ cs.take k, c = ['.', '.']) ∧ ['.', '.'] ∉ cs.drop k
       else ['.', '.'] ∉ cs)

/-- A report of a file that lies in the repo, in a source dir or in tmp. -/
def SolveReport.within (sr : SolveReport) : Bool :=
  sr.file_loc = .Repo || sr.file_loc = .SrcDirs || sr.file_loc = .Tmp

/-- The file of a hop, as an absolute path. -/
def hop_file (rp : RealPath) (sr : SolveReport) : Option (List Char) :=
  mk_abs sr.real (rp._env.root_dir ++ ['/'])

/-- The interpreter a hop leads to : there is none when the file cannot be read, when it does
not start with `#!`, and when nothing follows `#!`. -/
def hop_interpreter (content : Option (List Char)) : Option (List Char) :=
  match content with
  | none => none
  | some c =>
    if ['#', '!'] <+: c ∧ c ≠ ['#', '!'] then some (exec_word (c.drop 2)) else none

/-- The hops of `exec`, at most `n` of them, from the report `sr` : the chain stops after a hop
that is not within the repo, the source dirs and tmp, and after one that leads to no
interpreter. -/
def exec_hops (fuel : Nat) (w : World) (files : List Char → Option (List Char)) (rp : RealPath) :
    Nat → SolveReport → List SolveReport
  | 0, _ => []
  | n + 1, sr =>
    sr ::
      (if !sr.within then []
       else
        match hop_interpreter ((hop_file rp sr).bind files) with
        | none => []
        | some i =>
          match RealPath.solve fuel w rp Fd_Cwd i false with
          | none => []
          | some sr1 => exec_hops fuel w files rp n sr1)

/-- The accesses of a hop : its links with access `Lnk`, then its file when it lies in the repo
or in a source dir, with access `Reg`, and `Lnk` when `file_accessed` is `Yes`. -/
def hop_accesses (sr : SolveReport) : List (List Char × Accesses) :=
  sr.lnks.map (fun l => (l, ({ Lnk := true } : Accesses)))
    ++ (if sr.file_loc = .Repo ∨ sr.file_loc = .SrcDirs then
          [(sr.real, ({ Reg := true, Lnk := decide (sr.file_accessed = .Yes) } : Accesses))]
        else [])

/-- The state of the loop of `RealPath::solve` at the test of its condition, once the body was
passed through `k` times from `st` ; `none` when the loop is left before. -/
def solve_reach (w : World) (rp : RealPath) (no_follow : Bool) :
    Nat → SolveState → Option SolveState
  | 0, st => some st
  | k + 1, st =>
    match st.cur with
    | none => none
    | some rest =>
      match solve_body w rp no_follow st rest with
      | some (.next st1) => solve_reach w rp no_follow k (solve_incr rp st1)
      | _ => none

/-- A world without any symbolic link, where nothing is missing and nothing is a directory. -/
def no_lnk_world : World :=
  { read_lnk := fun _ => [], enoent := fun _ => false, open_dir := fun _ => false,
    symloop_max := 40 }

/-- A world whose only symbolic link is `/repo/a/b`, of target `target`. -/
def ab_world (target : List Char) : World :=
  { read_lnk := fun p => if p = "/repo/a/b".toList then target else []
    enoent := fun _ => false
    open_dir := fun p => p = "/repo/a".toList
    symloop_max := 40 }

/-- A repo at `/repo`, a tmp dir at `/tmp` without view, full link support, admin dir `LMAKE`,
the current directory being the root of the repo. -/
def repo_rp : RealPath :=
  { pid := 0
    has_tmp_view := false
    cwd_ := "/repo".toList
    _env := { lnk_support := .Full, root_dir := "/repo".toList, tmp_dir := "/tmp".toList }
    _tmp_view := "/tmp".toList
    _admin_dir := "/repo/LMAKE".toList
    _abs_src_dirs_s := []
    _root_dir_sz1 := 6 }

/-- The same repo with the tmp dir `/disk` seen as `/view`. -/
def view_rp : RealPath :=
  { pid := 0
    has_tmp_view := true
    cwd_ := "/repo".toList
    _env := { lnk_support := .Full, root_dir := "/repo".toList, tmp_dir := "/disk".toList,
              tmp_view := "/view".toList }
    _tmp_view := "/view".toList
    _admin_dir := "/repo/LMAKE".toList
    _abs_src_dirs_s := []
    _root_dir_sz1 := 6 }

/-- The files of a repo : the script `s` starts with `#!`, a blank, then `/repo/bin/sh -e`, the
script `v` is the same without the blank, the script `t` names the interpreter `/view/sh`, the
file `u` holds `#!` and nothing else, and `bin/sh` is a binary. Nothing else can be read. -/
def script_files (p : List Char) : Option (List Char) :=
  if p = "/repo/s".toList then some "#! /repo/bin/sh -e\necho\n".toList
  else if p = "/repo/v".toList then some "#!/repo/bin/sh -e\necho\n".toList
  else if p = "/repo/t".toList then some "#!/view/sh\n".toList
  else if p = "/repo/u".toList then some "#!".toList
  else if p = "/repo/bin/sh".toList then some "\x7fELF".toList
  else none

/-- The repo of `repo_rp`, the current directory being its sub-directory `d`. -/
def sub_rp : RealPath := { repo_rp with cwd_ := "/repo/d".toList }

/-- A world whose only symbolic link is `/repo/a`, a link to itself, where 2 links at most are
followed. -/
def loop_world : World :=
  { read_lnk := fun p => if p = "/repo/a".toList then "a".toList else []
    enoent := fun _ => false
    open_dir := fun _ => false
    symloop_max := 2 }

end Disk

/-! # `Fopen::mk_flags` (autodep_ld.cc:104, ld_common.x.cc:185)

The mode of a `fopen` is a C string : the list of its characters, read up to its end or to a NUL.
The values of `O_RDONLY`, ... come from `<fcntl.h>` : they are an argument. -/

/-- The constants of `<fcntl.h>` that `mk_flags` returns. -/
structure OFlags where
  O_RDONLY : Nat
  O_WRONLY : Nat
  O_RDWR : Nat
  O_TRUNC : Nat
  O_PATH : Nat
  deriving DecidableEq, Repr

/-- The values of these constants on Linux. -/
def linux_oflags : OFlags :=
  { O_RDONLY := 0, O_WRONLY := 1, O_RDWR := 2, O_TRUNC := 0o1000, O_PATH := 0o10000000 }

/-- The five local flags of `mk_flags`. -/
structure ModeBits where
  a : Bool := false
  c : Bool := false
  p : Bool := false
  r : Bool := false
  w : Bool := false
  deriving DecidableEq, Repr

namespace autodep_ld.Fopen

/-- The `switch (*m)` of the loop. -/
def mk_flags_switch (s : ModeBits) (m : Char) : ModeBits :=
  if m = 'a' then { s with a := true }
  else if m = 'c' then { s with c := true }
  else if m = '+' then { s with p := true }
  else if m = 'r' then { s with r := true }
  else if m = 'w' then { s with w := true }
  else s

/-- The loop `for( m=mode ; *m && *m!=',' ; m++ )`. -/
def mk_flags_loop : List Char → ModeBits → ModeBits
  | [], s => s
  | m :: ms, s => if m = '\x00' ∨ m = ',' then s else mk_flags_loop ms (mk_flags_switch s m)

/-- The function `Fopen::mk_flags` of autodep_ld.cc. -/
def mk_flags (fl : OFlags) (mode : List Char) : Nat :=
  let s := mk_flags_loop mode {}
  if s.a.toNat + s.r.toNat + s.w.toNat ≠ 1 then fl.O_PATH
  else if s.c then fl.O_PATH
  else (if s.p then fl.O_RDWR else if s.r then fl.O_RDONLY else fl.O_WRONLY)
    ||| (if s.w then fl.O_TRUNC else 0)

end autodep_ld.Fopen

namespace ld_common.Fopen

/-- The `switch (*m)` of the loop. -/
def mk_flags_switch (s : ModeBits) (m : Char) : ModeBits :=
  if m = 'a' then { s with a := true }
  else if m = 'c' then { s with c := true }
  else if m = '+' then { s with p := true }
  else if m = 'r' then { s with r := true }
  else if m = 'w' then { s with w := true }
  else s

/-- The loop `for( m=mode ; *m && *m!=',' ; m++ )`. -/
def mk_flags_loop : List Char → ModeBits → ModeBits
  | [], s => s
  | m :: ms, s => if m = '\x00' ∨ m = ',' then s else mk_flags_loop ms (mk_flags_switch s m)

/-- The function `Fopen::mk_flags` of ld_common.x.cc. -/
def mk_flags (fl : OFlags) (mode : List Char) : Nat :=
  let s := mk_flags_loop mode {}
  if s.a.toNat + s.r.toNat + s.w.toNat ≠ 1 then fl.O_PATH
  else if s.c then fl.O_PATH
  else (if s.p then fl.O_RDWR else if s.r then fl.O_RDONLY else fl.O_WRONLY)
    ||| (if s.w then fl.O_TRUNC else 0)

end ld_common.Fopen

namespace Autodep

/-- The characters of a mode that count : those of the C string before its first `,`. -/
def before_comma (mode : List Char) : List Char :=
  (mode.takeWhile (fun m => m ≠ '\x00')).takeWhile (fun m => m ≠ ',')

/-- The letters among `a`, `r`, `w` that occur in `pre`. -/
def access_letters (pre : List Char) : List Char :=
  ['a', 'r', 'w'].filter (fun l => pre.contains l)

/-- The flags of a mode as the documentation words them : no access (`O_PATH`) unless exactly one
of the letters `a`, `r`, `w` occurs and `c` does not ; else read-write with a `+`, read-only for
`r`, write-only for `a` and `w`, truncating for `w`. -/
def flags_of_mode (fl : OFlags) (mode : List Char) : Nat :=
  let pre := before_comma mode
  let ls := access_letters pre
  if ls.length ≠ 1 ∨ pre.contains 'c' then fl.O_PATH
  else (if pre.contains '+' then fl.O_RDWR else if ls = ['r'] then fl.O_RDONLY else fl.O_WRONLY)
    ||| (if ls = ['w'] then fl.O_TRUNC else 0)

end Autodep

/-! # The engine : chronology of jobs (job.x.hh:69) -/

namespace Engine

open Disk (Bool3)

/-- The static data `Job::s_chrono` and `Job::s_chrono_is_end`. A `Chrono` is a 32 bits unsigned
integer. -/
structure JobStatics where
  s_chrono : Nat
  s_chrono_is_end : Bool
  deriving DecidableEq, Repr

/-- The conversion `Chrono(x)` of an integer : its value modulo 2^32. -/
def Chrono (x : Int) : Nat := (x % 2 ^ 32).toNat

/-- The function `Job::s_tick(is_end)`. -/
def Job.s_tick (is_end : Bool) (st : JobStatics) : Option JobStatics :=
  if st.s_chrono = 0 then none
  else
    let c :=
      if !st.s_chrono_is_end && is_end then
        let c1 := (st.s_chrono + 1) % 2 ^ 32
        if c1 = 0 then (c1 + 1) % 2 ^ 32 else c1
      else st.s_chrono
    some { s_chrono := c, s_chrono_is_end := is_end }

/-- The function `Job::s_now(is_end)` : the chrono after a tick, and the new static data. -/
def Job.s_now (is_end : Bool) (st : JobStatics) : Option (Nat × JobStatics) :=
  match Job.s_tick is_end st with
  | none => none
  | some st1 => if st1.s_chrono = 0 then none else some (st1.s_chrono, st1)

/-- The function `Job::s_now()`, without tick. -/
def Job.s_now0 (st : JobStatics) : Option Nat :=
  if st.s_chrono = 0 then none else some st.s_chrono

/-- The function `Job::s_start_before_end(start,end)`. -/
def Job.s_start_before_end (st : JobStatics) (start end_ : Nat) : Option Bool :=
  if start = 0 ∨ end_ = 0 then none
  else some (decide (Chrono ((start : Int) - st.s_chrono) < Chrono ((end_ : Int) - st.s_chrono)))

/-- A sequence of calls of `s_tick`, one per element of `ticks`. -/
def Job.s_ticks : List Bool → JobStatics → Option JobStatics
  | [], st => some st
  | is_end :: ticks, st =>
    match Job.s_tick is_end st with
    | none => none
    | some st1 => Job.s_ticks ticks st1

/-! ## Enumerations of the engine

An enumeration is the list of its values in the order of their declaration, `val` being the rank
of a value : the comparisons of the code are comparisons of ranks. The `ENUM` macro adds a value
`Unknown` after the declared ones. -/

/-- The enumeration `Buildable` (node.x.hh:26). -/
inductive Buildable
  | LongName
  | DynAnti
  | Anti
  | SrcDir
  | No
  | Maybe
  | SubSrcDir
  | Yes
  | DynSrc
  | Src
  | SubSrc
  | Loop
  | Unknown
  deriving DecidableEq, Repr

/-- The rank of a `Buildable`. -/
def Buildable.val : Buildable → Nat
  | .LongName => 0
  | .DynAnti => 1
  | .Anti => 2
  | .SrcDir => 3
  | .No => 4
  | .Maybe => 5
  | .SubSrcDir => 6
  | .Yes => 7
  | .DynSrc => 8
  | .Src => 9
  | .SubSrc => 10
  | .Loop => 11
  | .Unknown => 12

/-- Modelled from the spec: the operator `|` of two values of an enumeration, which the sources
use and do not define : the greater of the two, buildability only moving "toward a more specific
value". -/
def Buildable.or (a b : Buildable) : Buildable := if a.val ≤ b.val then b else a

/-- Modelled from the spec: the operator `&` of two values of an enumeration : the lesser of the
two. -/
def Buildable.and (a b : Buildable) : Buildable := if a.val ≤ b.val then a else b

/-- The enumeration `NodeStatus` (node.x.hh:47). -/
inductive NodeStatus
  | Plain
  | Multi
  | Src
  | SrcDir
  | None
  | Transcient
  | Uphill
  | Unknown
  deriving DecidableEq, Repr

/-- The rank of a `NodeStatus`. -/
def NodeStatus.val : NodeStatus → Nat
  | .Plain => 0
  | .Multi => 1
  | .Src => 2
  | .SrcDir => 3
  | .None => 4
  | .Transcient => 5
  | .Uphill => 6
  | .Unknown => 7

/-- The conversion `NodeStatus(v)` of an integer. -/
def NodeStatus.of_val : Nat → NodeStatus
  | 0 => .Plain
  | 1 => .Multi
  | 2 => .Src
  | 3 => .SrcDir
  | 4 => .None
  | 5 => .Transcient
  | 6 => .Uphill
  | _ => .Unknown

/-- The number `NodeStatus::N` of declared values. -/
def NodeStatus.N : Nat := 7

/-- The enumeration `RunStatus` (job.x.hh:236). -/
inductive RunStatus
  | Complete
  | NoDep
  | NoFile
  | TargetErr
  | DepErr
  | RsrcsErr
  deriving DecidableEq, Repr

/-- The rank of a `RunStatus`. -/
def RunStatus.val : RunStatus → Nat
  | .Complete => 0
  | .NoDep => 1
  | .NoFile => 2
  | .TargetErr => 3
  | .DepErr => 4
  | .RsrcsErr => 5

/-- The alias `Err = TargetErr`. -/
def RunStatus.Err : RunStatus := .TargetErr

/-- Modelled from the spec: the enumeration `RunAction`, whose declaration is not in these
sources, by increasing demand : a node is made for `Makable`, `Status` or `Dsk`. -/
inductive RunAction
  | None
  | Makable
  | Status
  | Dsk
  | Run
  deriving DecidableEq, Repr

/-- The rank of a `RunAction`. -/
def RunAction.val : RunAction → Nat
  | .None => 0
  | .Makable => 1
  | .Status => 2
  | .Dsk => 3
  | .Run => 4

/-- Modelled from the spec: the operator `&` of two `RunAction` : the lesser of the two. -/
def RunAction.and (a b : RunAction) : RunAction := if a.val ≤ b.val then a else b

/-- The tags of `JobReasonTag` that node.cc uses. -/
inductive JobReasonTag
  | None
  | NoTarget
  | PolutedTarget
  deriving DecidableEq, Repr

/-- A `JobReason` : a tag and the index of a node. `JobReason()` has tag `None`. -/
structure JobReason where
  tag : JobReasonTag := .None
  node : Nat := 0
  deriving DecidableEq, Repr

/-- The values of `Special` that these sources name. -/
inductive Special
  | Plain
  | Req
  | Infinite
  | Src
  | GenericSrc
  | Anti
  deriving DecidableEq, Repr

/-! ## Rules, jobs and nodes

A `Job` and a `Node` are the index of their data in a store, 0 being the null handle. A store is
a function from the indices to the data. -/

/-- What the code reads of a rule : `prio`, `special`, `is_special()`, `is_sure()` and `old()`. -/
structure Rule where
  prio : Int := 0
  special : Special := .Plain
  is_special : Bool := false
  is_sure : Bool := false
  old : Bool := false
  deriving DecidableEq, Repr

/-- A `RuleTgt` : a rule, the index of one of its targets, and the answer of `rt.sure()`. -/
structure RuleTgt where
  rule : Rule := {}
  tgt_idx : Nat := 0
  sure : Bool := false
  deriving DecidableEq, Repr

/-- A `Dep` : a node and whether the flag `Dflag::Static` is set. -/
structure Dep where
  node : Nat
  static : Bool
  deriving DecidableEq, Repr

/-- A `Target` : a node and the bit `is_unexpected`. -/
structure Target where
  node : Nat
  is_unexpected : Bool := false
  deriving DecidableEq, Repr

/-- A `JobTgt` (job.x.hh:102) : a job and the bit `is_sure`. -/
structure JobTgt where
  job : Nat := 0
  is_sure : Bool := false
  deriving DecidableEq, Repr

/-- The constructor `JobTgt( Job j , bool is )`. -/
def JobTgt.mk_is (j : Nat) (is_ : Bool) : JobTgt := { job := j, is_sure := decide (j ≠ 0) && is_ }

/-- The data of a job (job.x.hh:246) that the code below reads. `status` is the code of a
`Status`, an enumeration of rpc_job.hh. -/
structure JobData where
  star_targets : List Target := []
  deps : List Dep := []
  rule : Rule := {}
  match_gen : Nat := 0
  run_status : RunStatus := .Complete
  status : Nat := 0
  _sure : Bool := false
  deriving DecidableEq, Repr

/-- The data of a node (node.x.hh:174) that the code below reads. `date` and `crc` are the code
of a `Ddate` and of a `Crc`, 0 being the null date and 3 the code of `Crc::None`, the crc of a
node that was just constructed. -/
structure NodeData where
  name : List Char := []
  date : Nat := 0
  crc : Nat := 3
  dir : Nat := 0
  job_tgts : List JobTgt := []
  rule_tgts : List RuleTgt := []
  actual_job_tgt : JobTgt := {}
  match_gen : Nat := 0
  buildable : Buildable := .Unknown
  unlinked : Bool := false
  _conform_idx : Nat := 2 ^ 16 - NodeStatus.Unknown.val
  deriving DecidableEq, Repr

/-- The nodes and the jobs. -/
structure Store where
  nodes : Nat → NodeData
  jobs : Nat → JobData

/-- The store where the data of node `n` is `nd`. -/
def Store.set_node (st : Store) (n : Nat) (nd : NodeData) : Store :=
  { st with nodes := fun k => if k = n then nd else st.nodes k }

/-- The store where the data of job `j` is `jd`. -/
def Store.set_job (st : Store) (j : Nat) (jd : JobData) : Store :=
  { st with jobs := fun k => if k = j then jd else st.jobs k }

/-- Modelled from the spec: what `_make_raw` reads of the `ReqInfo` of a node, the base class
`ReqInfo` being of req.x.hh, which is not in these sources : the requested action, the "done
level", the "wait count" `n_wait` and the flag `live_out`, then the fields of `NodeReqInfo`
(node.x.hh:149). -/
structure NodeReqInfo where
  action : RunAction := .None
  done_ : RunAction := .None
  n_wait : Nat := 0
  live_out : Bool := false
  prio_idx : Nat := 2 ^ 16 - 1
  single : Bool := false
  overwritten : Bool := false
  deriving DecidableEq, Repr

/-- Modelled from the spec: what `_make_raw` reads of the `ReqInfo` of a job : the requested
action, the "done level", the "wait count" `n_wait` and the flag `live_out`. -/
structure JobReqInfo where
  action : RunAction := .None
  done_ : RunAction := .None
  n_wait : Nat := 0
  live_out : Bool := false
  deriving DecidableEq, Repr

/-- What the engine is configured with, and the parts of it that are not in these sources. -/
structure Env where
  /-- The limit `g_config.path_max`. -/
  path_max : Nat
  /-- The limit `g_config.max_dep_depth`. -/
  max_dep_depth : Nat
  /-- The generation `Rule::s_match_gen`. -/
  s_match_gen : Nat
  /-- The function `is_ok` of rpc_job.hh on the code of a `Status`. -/
  is_ok : Nat → Bool3
  /-- The comparison `d->buildable!=Yes` of job.x.hh:454. -/
  ne_Yes : Buildable → Bool
  /-- The search `::binary_search(star_targets,t)`. -/
  binary_search : List Target → Nat → Bool
  /-- The rule targets `Node::s_rule_tgts(name)` whose suffix fits a name. -/
  s_rule_tgts : List Char → List RuleTgt
  /-- The test `+rt.pattern().match(name)`. -/
  pattern_match : RuleTgt → List Char → Bool
  /-- The test `+Rule::FullMatch(rt,name)`. -/
  full_match : RuleTgt → List Char → Bool
  /-- The constructor `Job(rt,name,req,lvl)` : an exception with its nodes, or a job, 0 when the
  rule target makes no job of this name. -/
  new_job : RuleTgt → List Char → Nat → Except (List Nat) Nat
  /-- The constructor `Job(Special::Infinite,node,deps)`. -/
  new_infinite : Nat → List Nat → Nat
  /-- The method `JobData::make(jri,action,reason,asking)` of job.cc, called on job `j` : the
  data and the `ReqInfo` of the job afterwards. -/
  job_make : Nat → JobData → JobReqInfo → RunAction → JobReason → Nat → JobData × JobReqInfo
  /-- The date `Disk::file_date(name)` of a file, 0 when there is no file. -/
  file_date : List Char → Nat
  /-- The date and the crc that the constructor `Crc(date,name,algo)` reads of a file. -/
  file_crc : List Char → Nat × Nat
  /-- The test `crc.match(other)` of hash.hh. -/
  crc_match : Nat → Nat → Bool

/-! ## Jobs (job.x.hh) -/

/-- The method `JobData::err` (job.x.hh:303). -/
def JobData.err (env : Env) (jd : JobData) : Bool :=
  if jd.run_status.val ≥ RunStatus.Err.val then true
  else if jd.run_status ≠ .Complete then false
  else decide (env.is_ok jd.status ≠ .Yes)

/-- The method `JobData::missing` (job.x.hh:308). -/
def JobData.missing (jd : JobData) : Bool :=
  decide (jd.run_status.val < RunStatus.Err.val) && decide (jd.run_status ≠ .Complete)

/-- The loop on the deps of `JobData::sure` : true when it runs to its end. -/
def JobData.sure_deps (env : Env) (nodes : Nat → NodeData) : List Dep → Bool
  | [] => true
  | d :: ds =>
    if !d.static then JobData.sure_deps env nodes ds
    else if env.ne_Yes (nodes d.node).buildable then false
    else JobData.sure_deps env nodes ds

/-- The method `JobData::sure` (job.x.hh:447) : its result and the data of the job afterwards. -/
def JobData.sure (env : Env) (nodes : Nat → NodeData) (jd : JobData) : Bool × JobData :=
  if jd.match_gen < env.s_match_gen then
    let jd1 := { jd with _sure := false, match_gen := env.s_match_gen }
    if !jd1.rule.is_sure then (jd1._sure, jd1)
    else if JobData.sure_deps env nodes jd1.deps then (true, { jd1 with _sure := true })
    else (jd1._sure, jd1)
  else (jd._sure, jd)

/-- The method `JobTgt::sure` (job.x.hh:401) : its result and the store afterwards. -/
def JobTgt.sure (env : Env) (st : Store) (jt : JobTgt) : Bool × Store :=
  if jt.is_sure then
    let r := JobData.sure env st.nodes (st.jobs jt.job)
    (r.1, st.set_job jt.job r.2)
  else (false, st)

/-- The method `NodeData::has_actual_job()` (node.x.hh:206). -/
def NodeData.has_actual_job (st : Store) (nd : NodeData) : Bool :=
  decide (nd.actual_job_tgt.job ≠ 0) && !(st.jobs nd.actual_job_tgt.job).rule.old

/-- The method `NodeData::has_actual_job(Job)` (node.x.hh:207). -/
def NodeData.has_actual_job_of (st : Store) (nd : NodeData) (j : Nat) : Option Bool :=
  if (st.jobs j).rule.old then none else some (decide (nd.actual_job_tgt.job = j))

/-- The method `NodeData::has_actual_job_tgt(JobTgt)` (node.x.hh:208). -/
def NodeData.has_actual_job_tgt (st : Store) (nd : NodeData) (jt : JobTgt) : Option Bool :=
  if (st.jobs jt.job).rule.old then none else some (decide (nd.actual_job_tgt = jt))

/-- The method `JobTgt::produces(t,sure)` (job.x.hh:403). -/
def JobTgt.produces (env : Env) (st : Store) (jt : JobTgt) (t : Nat) (sure : Bool) :
    Option Bool :=
  if (st.jobs jt.job).missing then some false
  else if jt.is_sure then some true
  else if (st.jobs jt.job).err env then some (!sure)
  else
    match (st.nodes t).has_actual_job_tgt st jt with
    | none => none
    | some true => some true
    | some false => some (env.binary_search (st.jobs jt.job).star_targets t)

/-! ## Nodes : the accessors of node.x.hh

A `RuleIdx` is a 16 bits unsigned integer. -/

/-- The constant `Node::NoIdx`, -1 as a `RuleIdx`. -/
def Node.NoIdx : Nat := 2 ^ 16 - 1

/-- The constant `Node::MaxRuleIdx`, `-(+NodeStatus::N+1)` as a `RuleIdx`. -/
def Node.MaxRuleIdx : Nat := 2 ^ 16 - (NodeStatus.N + 1)

/-- The method `NodeData::match_ok` (node.x.hh:205). -/
def NodeData.match_ok (env : Env) (nd : NodeData) : Bool := decide (nd.match_gen ≥ env.s_match_gen)

/-- The getter `NodeData::conform_idx()` (node.x.hh:217). -/
def NodeData.conform_idx (nd : NodeData) : Nat :=
  if nd._conform_idx ≤ Node.MaxRuleIdx then nd._conform_idx else Node.NoIdx

/-- The setter `NodeData::conform_idx(idx)` (node.x.hh:218). -/
def NodeData.set_conform_idx (idx : Nat) (nd : NodeData) : Option NodeData :=
  if idx ≤ Node.MaxRuleIdx then some { nd with _conform_idx := idx } else none

/-- The getter `NodeData::status()` (node.x.hh:219) : `-_conform_idx` is between 1 and
`NodeStatus::N` when `_conform_idx` is above `MaxRuleIdx`. -/
def NodeData.status (nd : NodeData) : NodeStatus :=
  if nd._conform_idx > Node.MaxRuleIdx then NodeStatus.of_val (2 ^ 16 - nd._conform_idx)
  else .Plain

/-- The setter `NodeData::status(s)` (node.x.hh:220). -/
def NodeData.set_status (s : NodeStatus) (nd : NodeData) : Option NodeData :=
  if s.val = 0 then none else some { nd with _conform_idx := (2 ^ 16 - s.val) % 2 ^ 16 }

/-- The method `NodeData::raw_rule_tgts` (node.x.hh:398). -/
def NodeData.raw_rule_tgts (env : Env) (nd : NodeData) : List RuleTgt :=
  (env.s_rule_tgts nd.name).filter (fun rt => env.pattern_match rt nd.name)

/-- The method `NodeData::_set_match_gen` (node.x.hh:412). -/
def NodeData._set_match_gen (env : Env) (ok : Bool) (nd : NodeData) : Option NodeData :=
  if !ok then some { nd with buildable := .Unknown, match_gen := 0 }
  else if nd.match_gen < env.s_match_gen then
    if nd.buildable = .Unknown then none else some { nd with match_gen := env.s_match_gen }
  else some nd

/-- The method `NodeData::_set_buildable` (node.x.hh:417). -/
def NodeData._set_buildable (b : Buildable) (nd : NodeData) : Option NodeData :=
  if b = .Unknown then none else some { nd with buildable := b }

/-! ## `set_buildable` (node.cc:122, node.x.hh:422) -/

/-- How a call ends : it returns, it leaves by the exception `::vector<Node>` of an infinite dep
path, a `SWEAR` or a `FAIL` stops the program, or the fuel of the embedding is exhausted. -/
inductive Ended (α : Type)
  | ret : α → Ended α
  | thrown : Store → List Nat → Ended α
  | abort : Ended α
  | no_fuel : Ended α

/-- The loop of `_gather_special_rule_tgts` : `rule_tgts_` is the whole vector, `n` the number of
rule targets already seen. -/
def NodeData.gather_special_loop (env : Env) (name_ : List Char) (rule_tgts_ : List RuleTgt) :
    List RuleTgt → Nat → NodeData → Option (Buildable × NodeData)
  | [], _, nd => some (.Maybe, { nd with rule_tgts := [] })
  | rt :: rts, n, nd =>
    if !rt.rule.is_special then some (.Maybe, { nd with rule_tgts := rule_tgts_.drop n })
    else if env.full_match rt name_ then
      match rt.rule.special with
      | .GenericSrc => some (.DynSrc, { nd with rule_tgts := [rt] })
      | .Anti => some (.DynAnti, { nd with rule_tgts := [rt] })
      | _ => none
    else NodeData.gather_special_loop env name_ rule_tgts_ rts ((n + 1) % 2 ^ 16) nd

/-- The method `NodeData::_gather_special_rule_tgts` (node.cc:122), `none` for its `FAIL`. -/
def NodeData._gather_special_rule_tgts (env : Env) (name_ : List Char) (nd : NodeData) :
    Option (Buildable × NodeData) :=
  let rule_tgts_ := nd.raw_rule_tgts env
  NodeData.gather_special_loop env name_ rule_tgts_ rule_tgts_ 0 { nd with job_tgts := [] }

/-- The locals `prio`, `n`, `buildable` and `jts` of `_gather_prio_job_tgts`, `prio` being `none`
for `-Infinity`. -/
structure GatherAcc where
  prio : Option Int := none
  n : Nat := 0
  buildable : Buildable := .No
  jts : List JobTgt := []
  deriving DecidableEq, Repr

/-- The test `rt->prio<prio`. -/
def prio_lt (p : Int) : Option Int → Bool
  | none => false
  | some q => decide (p < q)

/-- The constructor `JobTgt(rt,name,req,lvl)` (job.x.hh:399). -/
def JobTgt.of_rule_tgt (env : Env) (rt : RuleTgt) (name_ : List Char) (lvl : Nat) :
    Except (List Nat) JobTgt :=
  match env.new_job rt name_ lvl with
  | .error e => .error e
  | .ok j => .ok (JobTgt.mk_is j rt.sure)

/-- What the loop of `_gather_prio_job_tgts` does of a job target that is not null. -/
def NodeData.gather_job (env : Env) (rt : RuleTgt) (jt : JobTgt) (acc : GatherAcc) (st : Store) :
    GatherAcc × Store :=
  let r := jt.sure env st
  ({ prio := some rt.rule.prio
     n := if r.1 then Node.NoIdx else acc.n
     buildable := if r.1 then .Yes else acc.buildable.or .Maybe
     jts := acc.jts ++ [jt] }, r.2)

/-- The end of the body of the loop : `if (n!=NoIdx) n++`. -/
def GatherAcc.incr (acc : GatherAcc) : GatherAcc :=
  if acc.n ≠ Node.NoIdx then { acc with n := (acc.n + 1) % 2 ^ 16 } else acc

/-- The loop of `_gather_prio_job_tgts` on the rule targets that are left, up to the label
`Done`. -/
def NodeData.gather_prio_loop (env : Env) (name_ : List Char) (lvl : Nat) :
    List RuleTgt → GatherAcc → Store → Ended (GatherAcc × Store)
  | [], acc, st => .ret ({ acc with n := Node.NoIdx }, st)
  | rt :: rts, acc, st =>
    if rt.rule.is_special then .abort
    else if prio_lt rt.rule.prio acc.prio then .ret (acc, st)
    else
      match JobTgt.of_rule_tgt env rt name_ (lvl + 1) with
      | .error e => .thrown st e
      | .ok jt =>
        if jt.job ≠ 0 then
          let r := NodeData.gather_job env rt jt acc st
          NodeData.gather_prio_loop env name_ lvl rts r.1.incr r.2
        else NodeData.gather_prio_loop env name_ lvl rts acc.incr st

/-- Modelled from the spec: `RuleTgts::shorten_by(n)`, of a class that is not in these sources,
takes the first `n` rule targets away : candidate jobs are instantiated "at the first matching
priority tier only", the rule targets of the next tiers being left for later. -/
def shorten_by (rule_tgts : List RuleTgt) (n : Nat) : List RuleTgt := rule_tgts.drop n

/-- What `_gather_prio_job_tgts` does from its label `Done`. -/
def NodeData.gather_done (acc : GatherAcc) (nd : NodeData) : NodeData :=
  let nd1 := if acc.jts ≠ [] then { nd with job_tgts := nd.job_tgts ++ acc.jts } else nd
  if acc.n = Node.NoIdx then { nd1 with rule_tgts := [] }
  else { nd1 with rule_tgts := shorten_by nd1.rule_tgts acc.n }

/-- The method `NodeData::_gather_prio_job_tgts(name,req,lvl)` (node.cc:146) on node `n`. -/
def NodeData._gather_prio_job_tgts (env : Env) (n : Nat) (name_ : List Char) (lvl : Nat)
    (st : Store) : Ended (Buildable × Store) :=
  if !Disk.is_lcl name_ then .abort
  else
    match NodeData.gather_prio_loop env name_ lvl (st.nodes n).rule_tgts {} st with
    | .ret (acc, st1) => .ret (acc.buildable, st1.set_node n (NodeData.gather_done acc (st1.nodes n)))
    | .thrown st1 e => .thrown st1 e
    | .abort => .abort
    | .no_fuel => .no_fuel

/-- The method `NodeData::_gather_prio_job_tgts(req,lvl)` (node.x.hh:299). -/
def NodeData._gather_prio_job_tgts_req (env : Env) (n : Nat) (lvl : Nat) (st : Store) :
    Ended (Buildable × Store) :=
  if (st.nodes n).rule_tgts.isEmpty then .ret (.No, st)
  else NodeData._gather_prio_job_tgts env n (st.nodes n).name lvl st

/-- The label `Return` of `_set_buildable_raw` : `_set_match_gen(true)`. -/
def NodeData.set_buildable_return (env : Env) (n : Nat) (st : Store) : Ended Store :=
  match (st.nodes n)._set_match_gen env true with
  | none => .abort
  | some nd => .ret (st.set_node n nd)

/-- The pair `_set_buildable(b) ; goto Return ;`. -/
def NodeData.set_buildable_to (env : Env) (n : Nat) (b : Buildable) (st : Store) : Ended Store :=
  match (st.nodes n)._set_buildable b with
  | none => .abort
  | some nd => NodeData.set_buildable_return env n (st.set_node n nd)

/-- The end of the `try` block of `_set_buildable_raw` (node.cc:222), `db` being the buildable of
the dir. The result of a `goto Return` is that of the label `Return`. -/
def NodeData.set_buildable_jobs (env : Env) (n lvl : Nat) (name_ : List Char) (db : Buildable)
    (st : Store) : Ended Store :=
  if !Disk.is_lcl name_ then NodeData.set_buildable_to env n .No st
  else
    match NodeData._gather_prio_job_tgts env n name_ lvl st with
    | .ret (buildable, st1) =>
      NodeData.set_buildable_to env n (if db = .Maybe then buildable.or .Maybe else buildable) st1
    | .thrown st1 e => .thrown st1 e
    | .abort => .abort
    | .no_fuel => .no_fuel

/-- The `try` block of `_set_buildable_raw` (node.cc:200), `set_buildable` being the method of
this name. -/
def NodeData.set_buildable_try (env : Env) (set_buildable : Nat → Nat → Store → Ended Store)
    (n lvl : Nat) (name_ : List Char) (st : Store) : Ended Store :=
  if (st.nodes n).dir ≠ 0 then
    if lvl ≥ env.max_dep_depth then .thrown st []
    else
      match set_buildable (st.nodes n).dir (lvl + 1) st with
      | .ret st1 =>
        match (st1.nodes (st1.nodes n).dir).buildable with
        | .DynAnti => NodeData.set_buildable_jobs env n lvl name_ .DynAnti st1
        | .Anti => NodeData.set_buildable_jobs env n lvl name_ .Anti st1
        | .No => NodeData.set_buildable_jobs env n lvl name_ .No st1
        | .Maybe => NodeData.set_buildable_jobs env n lvl name_ .Maybe st1
        | .Yes => NodeData.set_buildable_to env n .Yes st1
        | .DynSrc => NodeData.set_buildable_to env n .SubSrc st1
        | .Src => NodeData.set_buildable_to env n .SubSrc st1
        | .SubSrc => NodeData.set_buildable_to env n .SubSrc st1
        | .SrcDir => NodeData.set_buildable_to env n .SubSrcDir st1
        | .SubSrcDir => NodeData.set_buildable_to env n .SubSrcDir st1
        | _ => .abort
      | .thrown st1 e => .thrown st1 e
      | .abort => .abort
      | .no_fuel => .no_fuel
  else NodeData.set_buildable_jobs env n lvl name_ .No st

/-- The handler `catch (::vector<Node>& e)` of `_set_buildable_raw` (node.cc:230). -/
def NodeData.set_buildable_catch (env : Env) (n : Nat) : Ended Store → Ended Store
  | .thrown st e =>
    match (st.nodes n)._set_match_gen env false with
    | none => .abort
    | some nd => .thrown (st.set_node n nd) (e ++ [n])
  | r => r

/-- The method `NodeData::_set_buildable_raw` (node.cc:179) on node `n`. -/
def NodeData._set_buildable_raw (env : Env) (set_buildable : Nat → Nat → Store → Ended Store)
    (n lvl : Nat) (st : Store) : Ended Store :=
  let nd := st.nodes n
  if nd.buildable = .Src ∨ nd.buildable = .SrcDir ∨ nd.buildable = .Anti then
    if nd.rule_tgts ≠ [] then .abort else NodeData.set_buildable_return env n st
  else
    match nd.set_status .Unknown with
    | none => .abort
    | some nd1 =>
      let name_ := nd1.name
      match nd1._gather_special_rule_tgts env name_ with
      | none => .abort
      | some (buildable, nd2) =>
        let st2 := st.set_node n nd2
        if buildable.val ≤ Buildable.No.val then NodeData.set_buildable_to env n .No st2
        else if name_.length > env.path_max then NodeData.set_buildable_to env n .LongName st2
        else if buildable.val ≥ Buildable.Yes.val then NodeData.set_buildable_to env n buildable st2
        else
          match nd2._set_buildable .Loop with
          | none => .abort
          | some nd3 =>
            NodeData.set_buildable_catch env n
              (NodeData.set_buildable_try env set_buildable n lvl name_ (st.set_node n nd3))

/-- The method `NodeData::set_buildable(req,lvl)` (node.x.hh:422) on node `n`, a call using one
unit of fuel. -/
def NodeData.set_buildable (env : Env) : Nat → Nat → Nat → Store → Ended Store
  | 0, _, _, _ => .no_fuel
  | fuel + 1, n, lvl, st =>
    if (st.nodes n).match_ok env then .ret st
    else NodeData._set_buildable_raw env (NodeData.set_buildable env fuel) n lvl st

/-! ## `make` of a node (node.cc:369)

`_make_raw` is embedded from the point where the `ReqInfo` of the node holds a priority level
(`else` of node.cc:393), and from its label `Make`. What it reads and writes : the nodes, the
jobs, the `ReqInfo` of the node and the `ReqInfo` of the jobs, for the one request `req`. The
auditing, the pressure and the list of the watchers are left out, and `JobData::make` is taken to
change the job it is called on only, whose rule stays what it is (job.x.hh:268). -/

/-- Modelled from the spec: `ReqInfo::waiting()`, "the number of outstanding dependents we are
still waiting for" is not null. -/
def NodeReqInfo.waiting (ri : NodeReqInfo) : Bool := decide (ri.n_wait ≠ 0)

/-- Modelled from the spec: `ReqInfo::done(action)`, the "done level" has reached `action`. -/
def NodeReqInfo.done (ri : NodeReqInfo) (ra : RunAction) : Bool := decide (ra.val ≤ ri.done_.val)

/-- Modelled from the spec: `ReqInfo::waiting()` for a job. -/
def JobReqInfo.waiting (jri : JobReqInfo) : Bool := decide (jri.n_wait ≠ 0)

/-- Source : `JobReqInfo::done` (job.x.hh:203), that is `done_>=ra`, `done()` being
`done(Status)`. -/
def JobReqInfo.done (jri : JobReqInfo) (ra : RunAction) : Bool := decide (ra.val ≤ jri.done_.val)

/-- What `_make_raw` works on : the store, the `ReqInfo` of the node and those of the jobs. -/
structure MakeState where
  st : Store
  ri : NodeReqInfo
  jris : Nat → JobReqInfo

/-- The code of `Crc::None` (hash.hh:33). -/
def Crc.None : Nat := 3

/-- The method `NodeData::manual(date)` (node.x.hh:376). -/
def NodeData.manual (nd : NodeData) (d : Nat) : Bool3 :=
  if nd.crc = Crc.None then (if d = 0 then .No else .Yes)
  else if d = 0 then .Maybe
  else if d = nd.date then .No
  else .Yes

/-- The function `_manual_refresh` (node.cc:561) : its two results and the node afterwards. -/
def _manual_refresh (env : Env) (nd : NodeData) (d : Nat) : Bool3 × Bool × NodeData :=
  let m := nd.manual d
  if m ≠ .Yes then (m, false, nd)
  else if nd.crc = Crc.None then (m, false, nd)
  else
    let r := env.file_crc nd.name
    if !env.crc_match nd.crc r.2 then (.Yes, false, nd)
    else (.No, true, { nd with date := r.1 })

/-- The method `NodeData::manual_refresh(req)` (node.cc:574, node.x.hh:214). -/
def NodeData.manual_refresh (env : Env) (nd : NodeData) : Bool3 × NodeData :=
  let r := _manual_refresh env nd (env.file_date nd.name)
  (r.1, r.2.2)

/-- The loop of `set_infinite` on the deps. -/
def NodeData.set_infinite_loop (nodes : Nat → NodeData) : List Nat → Buildable → Buildable
  | [], b => b
  | d :: ds, b =>
    NodeData.set_infinite_loop nodes ds
      (if (nodes d).buildable = .Unknown then b.and .Maybe else b.and (nodes d).buildable)

/-- The method `NodeData::set_infinite` (node.cc:58) on node `n`, `none` for its `SWEAR`. -/
def NodeData.set_infinite (env : Env) (n : Nat) (deps : List Nat) (st : Store) : Option Store :=
  let nd1 := { st.nodes n with job_tgts := [JobTgt.mk_is (env.new_infinite n deps) true] }
  let buildable := NodeData.set_infinite_loop st.nodes deps .Yes
  if ¬ (Buildable.No.val < buildable.val) then none
  else
    let nd2 := if buildable.val ≥ Buildable.Yes.val then { nd1 with rule_tgts := [] } else nd1
    match nd2._set_buildable buildable with
    | none => none
    | some nd3 => some (st.set_node n nd3)

/-- The loop of `prio_job_tgts` : the number `sz` of job targets of the level. -/
def NodeData.prio_job_tgts_loop (st : Store) : List JobTgt → Option Int → Nat → Nat
  | [], _, sz => sz
  | jt :: jts, prio, sz =>
    if prio_lt (st.jobs jt.job).rule.prio prio then sz
    else NodeData.prio_job_tgts_loop st jts (some (st.jobs jt.job).rule.prio) ((sz + 1) % 2 ^ 16)

/-- The method `NodeData::prio_job_tgts` (node.cc:73), `none` for its `SWEAR`. -/
def NodeData.prio_job_tgts (st : Store) (nd : NodeData) (prio_idx : Nat) : Option (List JobTgt) :=
  if prio_idx = Node.NoIdx then some []
  else if prio_idx ≥ nd.job_tgts.length then
    if prio_idx = nd.job_tgts.length then some [] else none
  else
    some ((nd.job_tgts.drop prio_idx).take
      (NodeData.prio_job_tgts_loop st (nd.job_tgts.drop prio_idx) none 0))

/-- The iterator `JobTgtIter` (node.cc:92) on the jobs of a node, `_prev_prio` being `none` for
`-Infinity`. The node it refers to is an argument of its methods. -/
structure JobTgtIter where
  idx : Nat
  single : Bool
  _prev_prio : Option Int := none
  deriving DecidableEq, Repr

/-- The constructor `JobTgtIter(node,ri)`. -/
def JobTgtIter.of_ri (ri : NodeReqInfo) : JobTgtIter := { idx := ri.prio_idx, single := ri.single }

/-- The operator `*it`. -/
def JobTgtIter.deref (nd : NodeData) (it : JobTgtIter) : JobTgt := nd.job_tgts.getD it.idx {}

/-- The method `_cur_prio`. -/
def JobTgtIter._cur_prio (st : Store) (nd : NodeData) (it : JobTgtIter) : Int :=
  (st.jobs (it.deref nd).job).rule.prio

/-- The test `_cur_prio()>=_prev_prio`. -/
def prio_ge (p : Int) : Option Int → Bool
  | none => true
  | some q => decide (q ≤ p)

/-- The conversion of the iterator to `bool`. -/
def JobTgtIter.valid (st : Store) (nd : NodeData) (it : JobTgtIter) : Bool :=
  decide (it.idx < nd.job_tgts.length) && prio_ge (it._cur_prio st nd) it._prev_prio

/-- The operator `it++`. -/
def JobTgtIter.incr (st : Store) (nd : NodeData) (it : JobTgtIter) : JobTgtIter :=
  { it with
    _prev_prio := some (it._cur_prio st nd)
    idx := if it.single then nd.job_tgts.length % 2 ^ 16 else (it.idx + 1) % 2 ^ 16 }

/-- The method `reset(i)`. -/
def JobTgtIter.reset (i : Nat) (it : JobTgtIter) : JobTgtIter :=
  { it with idx := i, _prev_prio := none }

/-- The locals `prod_idx` and `multi` of `_make_raw`. -/
structure Found where
  prod_idx : Nat := Node.NoIdx
  multi : Bool := false
  deriving DecidableEq, Repr

/-- The statement `if (prod_idx==NoIdx) prod_idx = it.idx ; else multi = true ;`. -/
def Found.add (p : Found) (idx : Nat) : Found :=
  if p.prod_idx = Node.NoIdx then { p with prod_idx := idx } else { p with multi := true }

/-- How the loop of the fast path ends : by `goto Make` (`prod_idx` is then `NoIdx`), or at the
end of the level. -/
inductive FastEnd
  | retry : Bool → FastEnd
  | out : JobTgtIter → Found → FastEnd
  | abort : FastEnd
  | no_fuel : FastEnd

/-- The loop of the fast path (node.cc:406), an iteration using one unit of fuel. -/
def NodeData.make_fast_loop (env : Env) (n : Nat) (s : MakeState) :
    Nat → JobTgtIter → Found → FastEnd
  | 0, _, _ => .no_fuel
  | k + 1, it, p =>
    if !it.valid s.st (s.st.nodes n) then .out it p
    else
      let jt := it.deref (s.st.nodes n)
      if !(s.jris jt.job).done (s.ri.action.and .Status) then .retry p.multi
      else
        match jt.produces env s.st n false with
        | none => .abort
        | some b =>
          NodeData.make_fast_loop env n s k (it.incr s.st (s.st.nodes n))
            (if b then p.add it.idx else p)

/-- Where `_make_raw` goes : to one of its labels, `Make` with the value of `multi`, `DoWakeup`
with the values of `prod_idx` and `multi`. -/
inductive Goto
  | Make : MakeState → Bool → Goto
  | DoWakeup : MakeState → Found → Goto
  | Wakeup : MakeState → Goto
  | Done : MakeState → Goto
  | abort : Goto
  | no_fuel : Goto

/-- The `else` branch of node.cc:393, for a `ReqInfo` that holds a priority level. -/
def NodeData.make_check (env : Env) (n : Nat) (s : MakeState) : Goto :=
  if s.ri.done s.ri.action then
    if !(s.st.nodes n).unlinked then .Wakeup s
    else if s.ri.action.val ≤ RunAction.Status.val then .Wakeup s
    else if (s.st.nodes n).status ≠ .Plain then .Wakeup s
    else
      .Make { s with ri := { s.ri with done_ := .Status
                                       prio_idx := (s.st.nodes n).conform_idx
                                       single := true } } false
  else
    match NodeData.make_fast_loop env n s ((s.st.nodes n).job_tgts.length + 1)
        (JobTgtIter.of_ri s.ri) {} with
    | .retry multi => .Make s multi
    | .out it p =>
      if p.prod_idx ≠ Node.NoIdx then .DoWakeup s p
      else .Make { s with ri := { s.ri with prio_idx := it.idx } } p.multi
    | .abort => .abort
    | .no_fuel => .no_fuel

/-- How the loop that looks for several jobs ends : by `goto DoWakeup`, or at the end of the
level. -/
inductive EarlyEnd
  | several : MakeState → Found → EarlyEnd
  | out : MakeState → EarlyEnd
  | abort : EarlyEnd
  | no_fuel : EarlyEnd

/-- The end of the body of the loop of node.cc:433 for a job that counts. -/
def NodeData.make_early_count (it : JobTgtIter) (p : Found) :
    Found ⊕ Found :=
  if p.prod_idx ≠ Node.NoIdx then .inl { p with multi := true }
  else .inr { p with prod_idx := it.idx }

/-- The loop of node.cc:433, that looks for several jobs before any is made. -/
def NodeData.make_early_loop (env : Env) (n : Nat) : Nat → MakeState → JobTgtIter → Found → EarlyEnd
  | 0, _, _, _ => .no_fuel
  | k + 1, s, it, p =>
    if !it.valid s.st (s.st.nodes n) then .out s
    else
      let jt := it.deref (s.st.nodes n)
      let r := jt.sure env s.st
      if r.1 then
        match (r.2.nodes n)._set_buildable .Yes with
        | none => .abort
        | some nd =>
          let s1 := { s with st := r.2.set_node n nd }
          match NodeData.make_early_count it p with
          | .inl p1 => .several s1 p1
          | .inr p1 => NodeData.make_early_loop env n k s1 (it.incr s1.st (s1.st.nodes n)) p1
      else
        let s1 := { s with st := r.2 }
        if !(s1.jris jt.job).done .Status then
          NodeData.make_early_loop env n k s1 (it.incr s1.st (s1.st.nodes n)) p
        else
          match jt.produces env s1.st n false with
          | none => .abort
          | some false => NodeData.make_early_loop env n k s1 (it.incr s1.st (s1.st.nodes n)) p
          | some true =>
            match NodeData.make_early_count it p with
            | .inl p1 => .several s1 p1
            | .inr p1 => NodeData.make_early_loop env n k s1 (it.incr s1.st (s1.st.nodes n)) p1

/-- The lazy evaluation of `manual_` (node.cc:458), `none` being `Bool3::Unknown`. -/
def NodeData.make_manual (env : Env) (n : Nat) (s : MakeState) (manual_ : Option Bool3) :
    Bool3 × MakeState :=
  match manual_ with
  | some m => (m, s)
  | none =>
    let r := (s.st.nodes n).manual_refresh env
    (r.1, { s with st := s.st.set_node n r.2 })

/-- The action and the reason for which job `jt` is made (node.cc:448), with `manual_` and the
state afterwards ; `none` for a `SWEAR` or a `FAIL`. -/
def NodeData.make_reason (env : Env) (n : Nat) (s : MakeState) (jt : JobTgt)
    (manual_ : Option Bool3) : Option (RunAction × JobReason × Option Bool3 × MakeState) :=
  match s.ri.action with
  | .Makable => some (if jt.is_sure then .Makable else .Status, {}, manual_, s)
  | .Status => some (.Status, {}, manual_, s)
  | .Dsk =>
    match jt.produces env s.st n false with
    | none => none
    | some false => some (.Status, {}, manual_, s)
    | some true =>
      if !(s.st.nodes n).has_actual_job s.st then
        some (.Status, { tag := .NoTarget, node := n }, manual_, s)
      else
        match (s.st.nodes n).has_actual_job_of s.st jt.job with
        | none => none
        | some false => some (.Status, { tag := .PolutedTarget, node := n }, manual_, s)
        | some true =>
          let r := NodeData.make_manual env n s manual_
          match r.1 with
          | .Yes => some (.Status, { tag := .PolutedTarget, node := n }, some r.1, r.2)
          | .Maybe => some (.Status, { tag := .NoTarget, node := n }, some r.1, r.2)
          | .No => some (.Status, {}, some r.1, r.2)
  | _ => none

/-- The call `jt->make(jri,action,reason,idx())` (node.cc:470), after `live_out` was passed to
the job. -/
def NodeData.make_call (env : Env) (n : Nat) (s : MakeState) (jt : JobTgt) (action : RunAction)
    (reason : JobReason) : MakeState :=
  let jri := s.jris jt.job
  let jri1 := if s.ri.live_out then { jri with live_out := s.ri.live_out } else jri
  let r := env.job_make jt.job (s.st.jobs jt.job) jri1 action reason n
  { s with
    st := s.st.set_job jt.job { r.1 with rule := (s.st.jobs jt.job).rule }
    jris := fun j => if j = jt.job then r.2 else s.jris j }

/-- Modelled from the spec: `jt->add_watcher(jri,idx(),ri,pressure)` (job.x.hh:426) makes the
node a watcher of the job : the node has one more "outstanding dependent" to wait for. -/
def NodeData.add_watcher (s : MakeState) : MakeState :=
  { s with ri := { s.ri with n_wait := s.ri.n_wait + 1 } }

/-- The body of the loop that makes the jobs (node.cc:447) for the job under the iterator. -/
def NodeData.make_job (env : Env) (n : Nat) (s : MakeState) (it : JobTgtIter) (p : Found)
    (manual_ : Option Bool3) : Option (MakeState × Found × Option Bool3) :=
  let jt := it.deref (s.st.nodes n)
  match NodeData.make_reason env n s jt manual_ with
  | none => none
  | some (action, reason, manual1, s1) =>
    let s2 := NodeData.make_call env n s1 jt action reason
    if (s2.jris jt.job).waiting then some (NodeData.add_watcher s2, p, manual1)
    else
      match jt.produces env s2.st n false with
      | none => none
      | some true => some (s2, p.add it.idx, manual1)
      | some false => some (s2, p, manual1)

/-- The loop that makes the jobs of the level (node.cc:446) : the state, the iterator, the
locals, and `manual_` at its end. -/
def NodeData.make_jobs_loop (env : Env) (n : Nat) :
    Nat → MakeState → JobTgtIter → Found → Option Bool3 →
      Option (Option (MakeState × JobTgtIter × Found × Option Bool3))
  | 0, _, _, _, _ => some none
  | k + 1, s, it, p, manual_ =>
    if !it.valid s.st (s.st.nodes n) then some (some (s, it, p, manual_))
    else
      match NodeData.make_job env n s it p manual_ with
      | none => none
      | some (s1, p1, manual1) =>
        NodeData.make_jobs_loop env n k s1 (it.incr s1.st (s1.st.nodes n)) p1 manual1

/-- How a turn of the loop of the label `Make` ends : by `goto DoWakeup` or `break`, by
`goto Done`, or by the next turn with the values of `multi` and `manual_`. -/
inductive PassEnd
  | DoWakeup : MakeState → Found → PassEnd
  | Done : MakeState → PassEnd
  | next : MakeState → Bool → Option Bool3 → PassEnd
  | abort : PassEnd
  | no_fuel : PassEnd

/-- The end of a turn, from `JobTgtIter it{*this,ri}` (node.cc:431). -/
def NodeData.make_level (env : Env) (n : Nat) (s : MakeState) (multi : Bool)
    (manual_ : Option Bool3) : PassEnd :=
  let it := JobTgtIter.of_ri s.ri
  let early :=
    if !s.ri.single then
      NodeData.make_early_loop env n ((s.st.nodes n).job_tgts.length + 1) s it { multi := multi }
    else .out s
  match early with
  | .several s1 p => .DoWakeup s1 p
  | .abort => .abort
  | .no_fuel => .no_fuel
  | .out s1 =>
    let it1 := if !s.ri.single then it.reset s1.ri.prio_idx else it
    let s2 := { s1 with ri := { s1.ri with n_wait := s1.ri.n_wait + 1 } }
    match NodeData.make_jobs_loop env n ((s2.st.nodes n).job_tgts.length + 1) s2 it1
        { multi := multi } manual_ with
    | none => .abort
    | some none => .no_fuel
    | some (some (s3, it3, p, manual3)) =>
      let s4 := { s3 with ri := { s3.ri with n_wait := s3.ri.n_wait - 1 } }
      if s4.ri.waiting then .Done s4
      else if p.prod_idx ≠ Node.NoIdx then .DoWakeup s4 p
      else .next { s4 with ri := { s4.ri with prio_idx := it3.idx } } p.multi manual3

/-- A turn of the loop of the label `Make` (node.cc:418). -/
def NodeData.make_pass (env : Env) (n : Nat) (s : MakeState) (multi : Bool)
    (manual_ : Option Bool3) : PassEnd :=
  if s.ri.prio_idx ≥ (s.st.nodes n).job_tgts.length then
    if s.ri.single then .abort
    else
      match NodeData._gather_prio_job_tgts_req env n 0 s.st with
      | .ret (b, st1) =>
        let st2 := st1.set_node n { st1.nodes n with buildable := (st1.nodes n).buildable.or b }
        if s.ri.prio_idx ≥ (st2.nodes n).job_tgts.length then
          .DoWakeup { s with st := st2 } { multi := multi }
        else NodeData.make_level env n { s with st := st2 } multi manual_
      | .thrown st1 e =>
        match NodeData.set_infinite env n e st1 with
        | none => .abort
        | some st2 => .DoWakeup { s with st := st2 } { multi := multi }
      | .abort => .abort
      | .no_fuel => .no_fuel
  else NodeData.make_level env n s multi manual_

/-- The loop of the label `Make` (node.cc:417), a turn using one unit of fuel. -/
def NodeData.make_loop (env : Env) (n : Nat) : Nat → MakeState → Bool → Option Bool3 → Goto
  | 0, _, _, _ => .no_fuel
  | fuel + 1, s, multi, manual_ =>
    match NodeData.make_pass env n s multi manual_ with
    | .DoWakeup s1 p => .DoWakeup s1 p
    | .Done s1 => .Done s1
    | .next s1 multi1 manual1 => NodeData.make_loop env n fuel s1 multi1 manual1
    | .abort => .abort
    | .no_fuel => .no_fuel

/-- The label `Make` (node.cc:416). -/
def NodeData.make_Make (env : Env) (fuel n : Nat) (s : MakeState) (multi : Bool) : Goto :=
  NodeData.make_loop env n fuel s multi (if (s.st.nodes n).unlinked then some .Maybe else none)

/-- The check of the jobs listed after `several rules match` (node.cc:490) : false when the
`SWEAR` of a `produces` fails. -/
def NodeData.wakeup_audit (env : Env) (n : Nat) (s : MakeState) : Bool :=
  match NodeData.prio_job_tgts s.st (s.st.nodes n) s.ri.prio_idx with
  | none => false
  | some jts => jts.all (fun jt => (jt.produces env s.st n false).isSome)

/-- The label `DoWakeup` (node.cc:484), `none` for a `SWEAR`. -/
def NodeData.make_DoWakeup (env : Env) (n : Nat) (s : MakeState) (p : Found) : Option MakeState :=
  let nd1 :=
    if p.prod_idx = Node.NoIdx then (s.st.nodes n).set_status .None
    else if !p.multi then (s.st.nodes n).set_conform_idx p.prod_idx
    else
      match (s.st.nodes n).set_status .Multi with
      | none => none
      | some nd =>
        if NodeData.wakeup_audit env n { s with st := s.st.set_node n nd } then some nd else none
  match nd1 with
  | none => none
  | some nd => some { s with st := s.st.set_node n nd, ri := { s.ri with done_ := s.ri.action } }

/-- How the embedded part of `_make_raw` ends : after the label `DoWakeup`, by a jump to the
label `Wakeup`, or by a jump to the label `Done`. -/
inductive MakeEnd
  | woken : MakeState → Found → MakeEnd
  | Wakeup : MakeState → MakeEnd
  | Done : MakeState → MakeEnd
  | abort : MakeEnd
  | no_fuel : MakeEnd

/-- What follows a jump. -/
def NodeData.make_end (env : Env) (n : Nat) : Goto → MakeEnd
  | .DoWakeup s p =>
    match NodeData.make_DoWakeup env n s p with
    | none => .abort
    | some s1 => .woken s1 p
  | .Wakeup s => .Wakeup s
  | .Done s => .Done s
  | .Make _ _ => .abort
  | .abort => .abort
  | .no_fuel => .no_fuel

/-- The method `NodeData::_make_raw` from its label `Make`. -/
def NodeData._make_raw_Make (env : Env) (fuel n : Nat) (s : MakeState) : MakeEnd :=
  NodeData.make_end env n (NodeData.make_Make env fuel n s false)

/-- The method `NodeData::_make_raw` from the `else` of node.cc:393. -/
def NodeData._make_raw_check (env : Env) (fuel n : Nat) (s : MakeState) : MakeEnd :=
  match NodeData.make_check env n s with
  | .Make s1 multi => NodeData.make_end env n (NodeData.make_Make env fuel n s1 multi)
  | g => NodeData.make_end env n g

/-! ## `conform_job_tgts` (node.x.hh:389) -/

/-- The loop `while ( prio_idx && job_tgts[prio_idx-1]->rule->prio==prio ) prio_idx--` of
`conform_job_tgts`, from the value `prio_idx` of its variable. -/
def NodeData.rewind (st : Store) (nd : NodeData) (prio : Int) : Nat → Nat
  | 0 => 0
  | i + 1 =>
    if (st.jobs (nd.job_tgts.getD i {}).job).rule.prio = prio then NodeData.rewind st nd prio i
    else i + 1

/-- The method `NodeData::conform_job_tgts()` (node.x.hh:389), `none` when `job_tgts` is read
out of its bounds, or for the `SWEAR` of `prio_job_tgts`. -/
def NodeData.conform_job_tgts (st : Store) (nd : NodeData) : Option (List JobTgt) :=
  if nd.status ≠ .Plain then some []
  else
    let prio_idx := nd.conform_idx
    if prio_idx ≥ nd.job_tgts.length then none
    else
      let prio := (st.jobs (nd.job_tgts.getD prio_idx {}).job).rule.prio
      nd.prio_job_tgts st (NodeData.rewind st nd prio prio_idx)

/-! ## Vocabulary of the statements on the engine -/

/-- The rule target `rt` yields a job for the name `name_` : the constructor of `JobTgt` called
by `_gather_prio_job_tgts` gives a job target that is not null. -/
def yields_job (env : Env) (name_ : List Char) (lvl : Nat) (rt : RuleTgt) : Bool :=
  match JobTgt.of_rule_tgt env rt name_ (lvl + 1) with
  | .ok jt => decide (jt.job ≠ 0)
  | .error _ => false

/-- The job target that `_gather_prio_job_tgts` makes of the rule target `rt`. -/
def job_tgt_of (env : Env) (name_ : List Char) (lvl : Nat) (rt : RuleTgt) : JobTgt :=
  match JobTgt.of_rule_tgt env rt name_ (lvl + 1) with
  | .ok jt => jt
  | .error _ => {}

/-- The answer of `jt.sure()` in the store `st`. -/
def JobTgt.sure_val (env : Env) (st : Store) (jt : JobTgt) : Bool := (jt.sure env st).1

/-- What `_gather_prio_job_tgts` leaves in `rule_tgts` when its local `n` ends at `n`. -/
def rule_tgts_left (rule_tgts : List RuleTgt) (n : Nat) : List RuleTgt :=
  if n = Node.NoIdx then [] else shorten_by rule_tgts n

/-- The job targets made of the rule targets of `rts` that have priority `p` and yield a job. -/
def tier_job_tgts (env : Env) (name_ : List Char) (lvl : Nat) (p : Int) (rts : List RuleTgt) :
    List JobTgt :=
  (rts.filter (fun rt => yields_job env name_ lvl rt && decide (rt.rule.prio = p))).map
    (job_tgt_of env name_ lvl)

/-- What is read of the way a call ended : whether it returned (`true`) or left by an exception
(`false`), and the data of node `n`. -/
def Ended.view (n : Nat) : Ended Store → Option (Bool × NodeData)
  | .ret st => some (true, st.nodes n)
  | .thrown st _ => some (false, st.nodes n)
  | .abort => none
  | .no_fuel => none

/-- The store in which a call ended, return or exception, satisfies `P`. -/
def Ended.stores (P : Store → Prop) : Ended Store → Prop
  | .ret st => P st
  | .thrown st _ => P st
  | .abort => True
  | .no_fuel => True

/-- The dir of a node has a shorter name than the node. -/
def Store.dirs_ok (st : Store) : Prop :=
  ∀ k, (st.nodes k).dir ≠ 0 → (st.nodes (st.nodes k).dir).name.length < (st.nodes k).name.length

/-- The nodes of `st'` have the name and the dir they have in `st`, and the nodes whose name is
longer than `L` are the same in `st'` as in `st`. -/
def Store.upd_le (L : Nat) (st st' : Store) : Prop :=
  (∀ k, (st'.nodes k).name = (st.nodes k).name ∧ (st'.nodes k).dir = (st.nodes k).dir)
    ∧ ∀ k, L < (st.nodes k).name.length → st'.nodes k = st.nodes k

/-- The node is classified : its buildable is neither Loop nor Unknown and its match is up to
date. -/
def NodeData.classified (env : Env) (nd : NodeData) : Prop :=
  nd.buildable ≠ .Loop ∧ nd.buildable ≠ .Unknown ∧ nd.match_ok env = true

/-- The first of the leading special rule targets of a node that matches its name, if any. -/
def first_special (env : Env) (nd : NodeData) : Option RuleTgt :=
  ((nd.raw_rule_tgts env).takeWhile (fun rt => rt.rule.is_special)).find?
    (fun rt => env.full_match rt nd.name)

/-- What is read of the way `_make_raw` ended on a node : whether it went through `DoWakeup`,
then the status, the `conform_idx` and the buildable of the node, and `done_`, `prio_idx` and
`n_wait` of its `ReqInfo`. -/
structure MakeView where
  woken : Bool
  status : NodeStatus
  conform_idx : Nat
  buildable : Buildable
  done_ : RunAction
  prio_idx : Nat
  n_wait : Nat
  deriving DecidableEq, Repr

/-- The view of a state on node `n`. -/
def MakeState.view (n : Nat) (woken : Bool) (s : MakeState) : MakeView :=
  { woken := woken
    status := (s.st.nodes n).status
    conform_idx := (s.st.nodes n).conform_idx
    buildable := (s.st.nodes n).buildable
    done_ := s.ri.done_
    prio_idx := s.ri.prio_idx
    n_wait := s.ri.n_wait }

/-- The view of the way `_make_raw` ended on node `n`. -/
def MakeEnd.view (n : Nat) : MakeEnd → Option MakeView
  | .woken s _ => some (s.view n true)
  | .Wakeup s => some (s.view n false)
  | .Done s => some (s.view n false)
  | .abort => none
  | .no_fuel => none

/-- The answer of the manual check for the node : the value of the local `manual_` when it has
one (Maybe from the label `Make` on for a node that is flagged unlinked, or the answer that was
given before), else the answer of `manual_refresh`. -/
def manual_answer (env : Env) (n : Nat) (s : MakeState) (manual_ : Option Bool3) : Bool3 :=
  match manual_ with
  | some m => m
  | none => ((s.st.nodes n).manual_refresh env).1

/-- The reason for which a job is made, as the documentation words it : for the action `Dsk` and
a job that produces the node, NoTarget when the node has no actual job, PolutedTarget when its
actual job is another job, else PolutedTarget, NoTarget or no reason when the manual check
answers Yes, Maybe or No ; no reason in the other cases. -/
def worded_reason (env : Env) (n : Nat) (s : MakeState) (jt : JobTgt) (manual_ : Option Bool3) :
    JobReason :=
  if s.ri.action = .Dsk ∧ jt.produces env s.st n false = some true then
    if (s.st.nodes n).has_actual_job s.st = false then { tag := .NoTarget, node := n }
    else if (s.st.nodes n).actual_job_tgt.job ≠ jt.job then { tag := .PolutedTarget, node := n }
    else
      match manual_answer env n s manual_ with
      | .Yes => { tag := .PolutedTarget, node := n }
      | .Maybe => { tag := .NoTarget, node := n }
      | .No => {}
  else {}

/-- The number of job targets at the head of `jts` that an iterator goes through before it stops,
`prev` being the priority of the job target it comes from : those whose priority is not below
the priority of the one before. -/
def level_len (jobs : Nat → JobData) : List JobTgt → Option Int → Nat
  | [], _ => 0
  | jt :: jts, prev =>
    if prio_ge (jobs jt.job).rule.prio prev then
      level_len jobs jts (some (jobs jt.job).rule.prio) + 1
    else 0

/-- The job targets of the priority level that starts at index `prio_idx` of `job_tgts`. -/
def NodeData.level (st : Store) (nd : NodeData) (prio_idx : Nat) : List JobTgt :=
  (nd.job_tgts.drop prio_idx).take (level_len st.jobs (nd.job_tgts.drop prio_idx) none)

/-- The indexes, from `i` on, of the job targets of `jts` that produce node `n`. -/
def prod_idxs (env : Env) (st : Store) (n : Nat) : List JobTgt → Nat → List Nat
  | [], _ => []
  | jt :: jts, i =>
    if jt.produces env st n false = some true then i :: prod_idxs env st n jts (i + 1)
    else prod_idxs env st n jts (i + 1)

/-- The indexes in `job_tgts` of the job targets of the level at `prio_idx` that produce node
`n`. -/
def NodeData.producers (env : Env) (st : Store) (n : Nat) (prio_idx : Nat) : List Nat :=
  prod_idxs env st n ((st.nodes n).level st prio_idx) prio_idx

/-- The job targets that are left to an iterator that goes through a whole level. -/
def JobTgtIter.rest (st : Store) (nd : NodeData) (it : JobTgtIter) : List JobTgt :=
  (nd.job_tgts.drop it.idx).take (level_len st.jobs (nd.job_tgts.drop it.idx) it._prev_prio)

/-- The store `st1` has, for node `n`, the job targets and the actual job of the store `st`, and
its jobs have the rules they have in `st`. -/
def Store.frame (n : Nat) (st st1 : Store) : Prop :=
  (st1.nodes n).job_tgts = (st.nodes n).job_tgts
    ∧ (st1.nodes n).actual_job_tgt = (st.nodes n).actual_job_tgt
    ∧ ∀ j, (st1.jobs j).rule = (st.jobs j).rule

/-- Job `j` has in `st1` the outcome it has in `st` : run status, status and star targets. -/
def Store.kept (st st1 : Store) (j : Nat) : Prop :=
  (st1.jobs j).run_status = (st.jobs j).run_status
    ∧ (st1.jobs j).status = (st.jobs j).status
    ∧ (st1.jobs j).star_targets = (st.jobs j).star_targets

/-- The jobs whose cache of `sure` is up to date in `st` are the same in `st1`. -/
def Store.cached (env : Env) (st st1 : Store) : Prop :=
  ∀ j, env.s_match_gen ≤ (st.jobs j).match_gen → st1.jobs j = st.jobs j

/-- The job target is known to be sure : `jt.sure()` answers true from the cache of the job. -/
def JobTgt.marked (env : Env) (st : Store) (jt : JobTgt) : Bool :=
  jt.is_sure && (st.jobs jt.job)._sure && decide (env.s_match_gen ≤ (st.jobs jt.job).match_gen)

/-- The job target is one that the loop of node.cc:433 counts, once it went through it : it is
known to be sure, or it produces node `n`. -/
def JobTgt.counted (env : Env) (st : Store) (n : Nat) (jt : JobTgt) : Bool :=
  jt.marked env st || decide (jt.produces env st n false = some true)

/-- What the label `DoWakeup` is reached with, for the level at `prio_idx` : no job was found
when no job of the level produces the node, else the job that was found is the one that
produces the node unless `multi` is set, and `multi` is set when several jobs produce it. -/
def Found.fits (env : Env) (n : Nat) (s : MakeState) (p : Found) : Prop :=
  (p.prod_idx = Node.NoIdx → NodeData.producers env s.st n s.ri.prio_idx = [])
    ∧ (p.prod_idx ≠ Node.NoIdx →
        (p.multi = false → NodeData.producers env s.st n s.ri.prio_idx = [p.prod_idx])
          ∧ (p.multi = true → 2 ≤ (NodeData.producers env s.st n s.ri.prio_idx).length))

/-- What the loop of node.cc:433 leaves, from the state `s` with the iterator `it` and the locals
`p` : the store keeps its frame and the outcome of its jobs, the `ReqInfo` are untouched, and
when the loop leaves by `goto DoWakeup`, `multi` is set and at least two of the job targets it
went through count, the one that was found before being one of them. -/
def EarlyEnd.fits (env : Env) (n : Nat) (s : MakeState) (it : JobTgtIter) (p : Found) :
    EarlyEnd → Prop
  | .out s1 =>
    Store.frame n s.st s1.st ∧ (∀ j, Store.kept s.st s1.st j) ∧ Store.cached env s.st s1.st
      ∧ s1.ri = s.ri ∧ s1.jris = s.jris
  | .several s1 p1 =>
    Store.frame n s.st s1.st ∧ (∀ j, Store.kept s.st s1.st j) ∧ Store.cached env s.st s1.st
      ∧ s1.ri = s.ri ∧ s1.jris = s.jris ∧ p1.multi = true ∧ p1.prod_idx ≠ Node.NoIdx
      ∧ (if p.prod_idx = Node.NoIdx then 2 else 1)
          ≤ ((it.rest s1.st (s1.st.nodes n)).filter (JobTgt.counted env s1.st n)).length
  | .abort => True
  | .no_fuel => True

/-- The state in which a run ended after the label `DoWakeup`, else the state `s`. -/
def MakeEnd.state (s : MakeState) : MakeEnd → MakeState
  | .woken s1 _ => s1
  | _ => s

/-- The locals `prod_idx` and `multi` with which a run came to the label `DoWakeup`. -/
def MakeEnd.found : MakeEnd → Found
  | .woken _ p => p
  | _ => {}

/-! ## `NodeReqInfo::update` (node.x.hh:332) -/

/-- The enumeration `NodeMakeAction` (node.x.hh:41). -/
inductive NodeMakeAction
  | None
  | Wakeup
  deriving DecidableEq, Repr

/-- The rank of a `NodeMakeAction`. -/
def NodeMakeAction.val : NodeMakeAction → Nat
  | .None => 0
  | .Wakeup => 1

/-- The alias `Dec = Wakeup`. -/
def NodeMakeAction.Dec : NodeMakeAction := .Wakeup

/-- The method `NodeReqInfo::update` (node.x.hh:332), `zombie` being `req->zombie` ; `none` for
its `SWEAR`. -/
def NodeReqInfo.update (zombie : Bool) (run_action : RunAction) (make_action : NodeMakeAction)
    (node : NodeData) (ri : NodeReqInfo) : Option NodeReqInfo :=
  let r1 : Option NodeReqInfo :=
    if make_action.val ≥ NodeMakeAction.Dec.val then
      if ri.n_wait = 0 then none else some { ri with n_wait := ri.n_wait - 1 }
    else some ri
  r1.map fun ri1 =>
    let ri2 :=
      if run_action.val > ri1.action.val then
        { ri1 with action := run_action
                   prio_idx := if run_action ≠ .Dsk then Node.NoIdx else ri1.prio_idx }
      else ri1
    if ri2.n_wait ≠ 0 then ri2
    else if zombie then { ri2 with done_ := .Dsk }
    else if node.buildable.val ≥ Buildable.Yes.val ∧ ri2.action = .Makable then
      { ri2 with done_ := .Makable }
    else ri2

/-- The priority of the rule of the job of a job target. -/
def JobTgt.prio (st : Store) (jt : JobTgt) : Int := (st.jobs jt.job).rule.prio

/-- The job targets are ordered by non increasing priority of their rule. -/
def by_prio (st : Store) (jts : List JobTgt) : Prop :=
  jts.Pairwise (fun a b => b.prio st ≤ a.prio st)

/-! ## Scenarios of the engine -/

/-- A store whose job 1 did not run because of a dep in error, and whose job 2 did not run
because a static dep is missing. -/
def err_store : Store :=
  { nodes := fun _ => {}
    jobs := fun j =>
      if j = 1 then { run_status := .DepErr } else if j = 2 then { run_status := .NoDep } else {} }

/-- An environment where a status is ok when its code is 1. -/
def plain_env : Env :=
  { path_max := 10
    max_dep_depth := 4
    s_match_gen := 1
    is_ok := fun s => if s = 1 then .Yes else .No
    ne_Yes := fun b => decide (b ≠ .Yes)
    binary_search := fun ts t => ts.any (fun x => x.node = t)
    s_rule_tgts := fun _ => []
    pattern_match := fun _ _ => true
    full_match := fun _ _ => true
    new_job := fun _ _ _ => .ok 0
    new_infinite := fun _ _ => 9
    job_make := fun _ jd jri _ _ _ => (jd, jri)
    file_date := fun _ => 0
    file_crc := fun _ => (0, 0)
    crc_match := fun a b => a == b }

/-- An anti rule target. -/
def anti_rt : RuleTgt := { rule := { special := .Anti, is_special := true } }

/-- A generic source rule target. -/
def gsrc_rt : RuleTgt := { rule := { special := .GenericSrc, is_special := true } }

/-- A plain rule target of priority `prio`, sure when `sure`, whose job is `j` (no job for 0). -/
def plain_rt (prio : Int) (sure : Bool) (j : Nat) : RuleTgt :=
  { rule := { prio := prio, is_sure := sure }, tgt_idx := j, sure := sure }

/-- An environment with three rule targets for the name `a`, an anti rule for the names that
start with `x`, a generic source rule for the names that start with `y`, the special rules
matching all the names they are listed for. The job of a rule target is its `tgt_idx`. -/
def rules_env : Env :=
  { plain_env with
    s_rule_tgts := fun name =>
      if name = "a".toList then [plain_rt 2 false 0, plain_rt 1 true 5, plain_rt 1 false 6,
        plain_rt 0 false 7]
      else if name.head? = some 'x' then [anti_rt, plain_rt 1 true 5]
      else if name.head? = some 'y' then [gsrc_rt]
      else []
    full_match := fun rt _ => rt.rule.is_special
    new_job := fun rt _ _ => .ok rt.tgt_idx }

/-- A store of nodes that were never analysed : node 1 is `a`, node 2 `x_long_name`, node 3
`y_long_name`, node 4 `z_long_name`, node 5 `d`, node 6 `d/e` whose dir is node 5. The rule of
job `j` is sure for job 5. -/
def fresh_store : Store :=
  { nodes := fun n =>
      if n = 1 then { name := "a".toList }
      else if n = 2 then { name := "x_long_name".toList }
      else if n = 3 then { name := "y_long_name".toList }
      else if n = 4 then { name := "z_long_name".toList }
      else if n = 5 then { name := "d".toList }
      else if n = 6 then { name := "d/e".toList, dir := 5 }
      else {}
    jobs := fun j => if j = 5 then { rule := { prio := 1, is_sure := true } } else {} }

/-- The store `fresh_store` where node 1 is under analysis with the rule targets of its name. -/
def gather_store : Store :=
  fresh_store.set_node 1
    { name := "a".toList, buildable := .Loop, rule_tgts := rules_env.s_rule_tgts "a".toList }

/-- The store `fresh_store` where node 6, whose match is out of date, holds a job of an older
analysis. -/
def stale_store : Store :=
  fresh_store.set_node 6
    { name := "d/e".toList, dir := 5, job_tgts := [⟨5, true⟩], buildable := .Yes }

/-- The environment `rules_env` where a job that is made ends at once : it is complete, with the
status of code 1, and done for the action it is made for ; job 7 stays waiting. -/
def make_env : Env :=
  { rules_env with
    job_make := fun j jd jri action _ _ =>
      if j = 7 then (jd, { jri with n_wait := 1 })
      else ({ jd with run_status := .Complete, status := 1 }, { jri with done_ := action }) }

/-- A store where node 1, `a`, is buildable with the jobs 5 and 6 of priority 1 and the job 7 of
priority 0 ; the target is sure for job 5 and a star target of the jobs 6 and 7 ; the jobs 5 and
6 ran and are ok. -/
def made_store : Store :=
  { nodes := fun n =>
      if n = 1 then
        { name := "a".toList, buildable := .Yes, match_gen := 1,
          job_tgts := [⟨5, true⟩, ⟨6, false⟩, ⟨7, false⟩] }
      else {}
    jobs := fun j =>
      if j = 5 then { rule := { prio := 1, is_sure := true }, status := 1 }
      else if j = 6 then { rule := { prio := 1 }, status := 1, star_targets := [⟨1, false⟩] }
      else if j = 7 then { rule := { prio := 0 }, status := 1, star_targets := [⟨1, false⟩] }
      else {} }

/-- The state of a request for `made_store` where the jobs 5 and 6 are done for `Dsk`, and the
`ReqInfo` of node 1 is `ri`. -/
def made_state (ri : NodeReqInfo) : MakeState :=
  { st := made_store
    ri := ri
    jris := fun j => if j = 5 ∨ j = 6 then { action := .Dsk, done_ := .Dsk } else {} }

/-- The state of a request for `made_store` where no job is done yet. -/
def fresh_state (ri : NodeReqInfo) : MakeState :=
  { st := made_store, ri := ri, jris := fun _ => {} }

/-- The state `made_state` where the actual job of node 1 is job 6. -/
def polluted_state (ri : NodeReqInfo) : MakeState :=
  { made_state ri with
    st := made_store.set_node 1 { made_store.nodes 1 with actual_job_tgt := ⟨6, false⟩ } }

/-- The state `fresh_state` where the file of node 1 is asked for, from the first level on. -/
def asked_state : MakeState := fresh_state { action := .Dsk, prio_idx := 0 }

/-- The run of `_make_raw` from its label `Make` in the state `asked_state`. -/
def asked_run : MakeEnd := NodeData._make_raw_Make make_env 4 1 asked_state

/-- The state `made_state` in the course of the regeneration of node 1 by its conform job, job 5
at index 0 : the `ReqInfo` of the node is done for `Status` and asks for the file with `single`
set. -/
def regen_state : MakeState :=
  made_state { action := .Dsk, done_ := .Status, prio_idx := 0, single := true }

/-- The run of `_make_raw` from the `else` of node.cc:393 in the state `regen_state`. -/
def regen_run : MakeEnd := NodeData._make_raw_check make_env 4 1 regen_state

end Engine

/-! # `Crc` (hash.hh:50) -/

namespace Hash

/-- The enumeration `CrcSpecial` (hash.hh:28). -/
inductive CrcSpecial
  | Unknown
  | Lnk
  | Reg
  | None
  | Empty
  | Plain
  deriving DecidableEq, Repr

/-- The rank of a `CrcSpecial`. -/
def CrcSpecial.val : CrcSpecial → Nat
  | .Unknown => 0
  | .Lnk => 1
  | .Reg => 2
  | .None => 3
  | .Empty => 4
  | .Plain => 5

/-- The number `N<CrcSpecial>` of values of `CrcSpecial`. -/
def CrcSpecial.N : Nat := 6

/-- The class `Crc` : its field `_val`, a `uint64_t`. -/
structure Crc where
  _val : Nat := CrcSpecial.Unknown.val
  deriving DecidableEq, Repr

/-- The private constructor `Crc(CrcSpecial)`. -/
def Crc.of_special (special : CrcSpecial) : Crc := { _val := special.val }

/-- The constant `Crc::Unknown` (hash.hh:213). -/
def Crc.Unknown : Crc := Crc.of_special .Unknown

/-- The constant `Crc::Lnk`. -/
def Crc.Lnk : Crc := Crc.of_special .Lnk

/-- The constant `Crc::Reg`. -/
def Crc.Reg : Crc := Crc.of_special .Reg

/-- The constant `Crc::None`. -/
def Crc.None : Crc := Crc.of_special .None

/-- The constant `Crc::Empty`. -/
def Crc.Empty : Crc := Crc.of_special .Empty

/-- Modelled from the spec: `bit(v,0,b)`, of a header that is not in these sources, is "v with
its lowest bit replaced by" `b`. -/
def bit_0 (v : Nat) (b : Bool) : Nat := v / 2 * 2 + (if b then 1 else 0)

/-- The constructor `Crc( uint64_t v , bool is_lnk )` (hash.hh:70). -/
def Crc.of_val (v : Nat) (is_lnk : Bool) : Crc := { _val := bit_0 (v % 2 ^ 64) is_lnk }

/-- The tags of `FileTag` that `Crc(FileTag)` knows of, the declaration of the enumeration being
out of these sources. -/
inductive FileTag
  | None
  | Dir
  | Lnk
  | Reg
  | Exe
  | Empty
  deriving DecidableEq, Repr

/-- The constructor `Crc(FileTag)` (hash.hh:71). -/
def Crc.of_tag : FileTag → Crc
  | .None => Crc.None
  | .Dir => Crc.None
  | .Lnk => Crc.Lnk
  | .Reg => Crc.Reg
  | .Exe => Crc.Reg
  | .Empty => Crc.Empty

/-- The method `Crc::_plain` (hash.hh:102). -/
def Crc._plain (c : Crc) : Bool := decide (c._val ≥ CrcSpecial.N)

/-- The method `Crc::is_lnk` (hash.hh:99). -/
def Crc.is_lnk (c : Crc) : Bool :=
  if c._plain then decide (c._val % 2 ≠ 0) else decide (c = Crc.Lnk)

/-- The method `Crc::is_reg` (hash.hh:100). -/
def Crc.is_reg (c : Crc) : Bool :=
  if c._plain then !decide (c._val % 2 ≠ 0) else decide (c = Crc.Reg) || decide (c = Crc.Empty)

end Hash

/-! # The live output of `job_exec` (job_exec.cc:234) -/

namespace JobExec

/-- The callback `live_out_cb` (job_exec.cc:235) called with `txt` while `live_out_buf` holds
`live_out_buf` : the message that is sent, if any, and `live_out_buf` afterwards. -/
def live_out_cb (live_out_buf txt : List Char) : Option (List Char) × List Char :=
  let buf := live_out_buf ++ txt
  match Disk.rfind buf '\n' with
  | none => (none, buf)
  | some pos => (some (buf.take (pos + 1)), buf.drop (pos + 1))

/-- The callback fed with a sequence of chunks, from a given `live_out_buf` : the messages it
sends, in order, and `live_out_buf` afterwards. -/
def live_out_run : List (List Char) → List Char → List (List Char) × List Char
  | [], buf => ([], buf)
  | txt :: txts, buf =>
    let r := live_out_cb buf txt
    let rs := live_out_run txts r.2
    (match r.1 with
      | some m => m :: rs.1
      | none => rs.1, rs.2)

end JobExec

namespace Disk

/-! # Theorems -/

theorem repo_rp_init :
    RealPath.init "LMAKE".toList
      { lnk_support := .Full, root_dir := "/repo".toList, tmp_dir := "/tmp".toList }
      "/repo".toList 0 = some repo_rp := by decide

theorem view_rp_init :
    RealPath.init "LMAKE".toList
      { lnk_support := .Full, root_dir := "/repo".toList, tmp_dir := "/disk".toList,
        tmp_view := "/view".toList }
      "/repo".toList 0 = some view_rp := by decide

/-! ## C1 : `mk_lcl` then `mk_glb` -/

theorem rfind_cons (x : Char) (xs : List Char) (c : Char) :
    rfind (x :: xs) c =
      match rfind xs c with
      | some i => some (i + 1)
      | none => if x = c then some 0 else none := rfl

theorem rfind_nil_of_not_mem (comp : List Char) (c : Char) (h : c ∉ comp) :
    rfind comp c = none := by
  induction comp with
  | nil => rfl
  | cons x xs ih =>
    simp only [List.mem_cons, not_or] at h
    rw [rfind_cons, ih h.2]
    simp [Ne.symm h.1]

theorem rfind_append_of_not_mem (p comp : List Char) (c : Char) (h : c ∉ comp) :
    rfind (p ++ comp) c = rfind p c := by
  induction p with
  | nil => simpa [rfind] using rfind_nil_of_not_mem comp c h
  | cons x xs ih => rw [List.cons_append, rfind_cons, rfind_cons, ih]

theorem rfind_concat (p : List Char) (c : Char) : rfind (p ++ [c]) c = some p.length := by
  induction p with
  | nil => simp [rfind]
  | cons x xs ih => rw [List.cons_append, rfind_cons, ih]; simp

theorem getLast?_cons_of_ne_nil (x : Char) (s : List Char) (h : s ≠ []) :
    (x :: s).getLast? = s.getLast? := by
  cases s with
  | nil => exact absurd rfl h
  | cons y ys => simp [List.getLast?_cons_cons]

theorem dir_like_split (s : List Char) :
    ∃ s0 comp, s = s0 ++ comp ∧ '/' ∉ comp ∧ dir_like s0 := by
  induction s with
  | nil => exact ⟨[], [], rfl, by simp, Or.inl rfl⟩
  | cons x xs ih =>
    obtain ⟨s0, comp, hs, hc, hd⟩ := ih
    by_cases h0 : s0 = []
    · subst h0
      by_cases hx : x = '/'
      · exact ⟨[x], comp, by simp [hs], hc, Or.inr (by simp [hx])⟩
      · refine ⟨[], x :: comp, by simp [hs], ?_, Or.inl rfl⟩
        simp only [List.mem_cons, not_or]
        exact ⟨fun h => hx h.symm, hc⟩
    · refine ⟨x :: s0, comp, by simp [hs], hc, Or.inr ?_⟩
      rcases hd with hd | hd
      · exact absurd hd h0
      · rw [getLast?_cons_of_ne_nil x s0 h0, hd]

theorem dir_like_eq_concat (s : List Char) (h : dir_like s) (hne : s ≠ []) :
    ∃ s0, s = s0 ++ ['/'] := by
  rcases h with h | h
  · exact absurd h hne
  · exact ⟨s.dropLast, by
      have := List.dropLast_append_getLast? '/' h
      exact this.symm⟩

theorem mk_lcl_ups_eq (dt : List Char) : mk_lcl_ups dt = ups_n (dt.count '/') := by
  induction dt with
  | nil => rfl
  | cons c cs ih =>
    by_cases hc : c = '/'
    · subst hc; simp [mk_lcl_ups, ih, ups_n]
    · have : ('/' : Char) ≠ c := fun h => hc h.symm
      simp [mk_lcl_ups, hc, ih, List.count_cons, this]
theorem mk_glb_loop_up (d_sv f_v : List Char) :
    mk_glb_loop d_sv ('.' :: '.' :: '/' :: f_v) =
      if d_sv.isEmpty then none
      else
        match rfind (d_sv.take (d_sv.length - 1)) '/' with
        | none => if (d_sv.take (d_sv.length - 1)).isEmpty then none else mk_glb_loop [] f_v
        | some last_slash =>
          mk_glb_loop ((d_sv.take (d_sv.length - 1)).take (last_slash + 1)) f_v := by
  rw [mk_glb_loop]

theorem mk_glb_loop_strip (k : Nat) : ∀ (dt p ft : List Char), dt.count '/' = k →
    dir_like dt → dir_like p → (p = [] → dt.head? ≠ some '/') →
    mk_glb_loop (p ++ dt) (ups_n k ++ ft) = mk_glb_loop p ft := by
  induction k with
  | zero =>
    intro dt p ft hk hdt _ _
    have hdt0 : dt = [] := by
      by_contra hne
      obtain ⟨s0, hs0⟩ := dir_like_eq_concat dt hdt hne
      rw [hs0] at hk
      simp at hk
    simp [hdt0, ups_n]
  | succ k ih =>
    intro dt p ft hk hdt hp hhead
    have hne : dt ≠ [] := by
      intro h; rw [h] at hk; simp at hk
    obtain ⟨i, hi⟩ := dir_like_eq_concat dt hdt hne
    obtain ⟨dt0, comp, hsplit, hcomp, hdt0⟩ := dir_like_split i
    have hdt_eq : dt = dt0 ++ comp ++ ['/'] := by rw [hi, hsplit]
    have hk0 : dt0.count '/' = k := by
      rw [hdt_eq] at hk
      simp only [List.count_append, List.count_cons_self, List.count_nil] at hk
      have : comp.count '/' = 0 := List.count_eq_zero_of_not_mem hcomp
      omega
    have hP : dir_like (p ++ dt0) := by
      rcases hdt0 with h | h
      · simpa [h] using hp
      · right
        rw [List.getLast?_append, h]; rfl
    have htake : (p ++ dt).take ((p ++ dt).length - 1) = (p ++ dt0) ++ comp := by
      rw [hdt_eq]
      have : p ++ (dt0 ++ comp ++ ['/']) = (p ++ dt0 ++ comp) ++ ['/'] := by simp
      rw [this, List.length_append, List.length_singleton, Nat.add_sub_cancel,
        List.take_left']
      rfl
    show mk_glb_loop (p ++ dt) ('.' :: '.' :: '/' :: (ups_n k ++ ft)) = _
    rw [mk_glb_loop_up, htake, rfind_append_of_not_mem _ _ _ hcomp]
    have hnonempty : (p ++ dt).isEmpty = false := by
      cases h : p ++ dt with
      | nil => simp at h; exact absurd h.2 hne
      | cons => rfl
    simp only [hnonempty, Bool.false_eq_true, if_false]
    by_cases hP0 : p ++ dt0 = []
    · have hp0 : p = [] := (List.append_eq_nil.mp hP0).1
      have hd0 : dt0 = [] := (List.append_eq_nil.mp hP0).2
      have hcne : comp ≠ [] := by
        intro hc
        apply hhead hp0
        rw [hdt_eq, hd0, hc]; rfl
      rw [hP0]
      simp only [rfind, List.nil_append]
      have : comp.isEmpty = false := by
        cases comp with
        | nil => exact absurd rfl hcne
        | cons => rfl
      simp only [this, Bool.false_eq_true, if_false]
      have := ih [] [] ft (by rw [← hk0, hd0]) (Or.inl rfl) (Or.inl rfl) (by simp)
      rw [hp0]
      simpa using this
    · obtain ⟨P0, hP0eq⟩ := dir_like_eq_concat _ hP hP0
      rw [hP0eq, rfind_concat]
      simp only
      have : (P0 ++ ['/'] ++ comp).take (P0.length + 1) = P0 ++ ['/'] := by
        rw [List.take_append_of_le_length (by simp)]
        apply List.take_of_length_le; simp
      rw [this, ← hP0eq]
      apply ih dt0 p ft hk0 hdt0 hp
      intro hp0
      cases hdt0e : dt0 with
      | nil => simp
      | cons y ys =>
        have := hhead hp0
        rw [hdt_eq, hdt0e] at this
        simpa using this
theorem no_common_dir_cons (c : Char) (a b : List Char) (hc : c ≠ '/')
    (h : no_common_dir a b) : no_common_dir (c :: a) (c :: b) := by
  intro q ha hb
  cases q with
  | nil =>
    obtain ⟨t, ht⟩ := ha
    simp at ht
    exact hc ht.1.symm
  | cons y ys =>
    simp only [List.cons_append] at ha hb
    have hy : y = c := by
      obtain ⟨t, ht⟩ := ha
      simp at ht; exact ht.1
    subst hy
    exact h ys ((List.prefix_cons_inj y).mp ha) ((List.prefix_cons_inj y).mp hb)

theorem mk_lcl_scan_spec (ft : List Char) : ∀ (pre dt : List Char) (ls : Nat), '\x00' ∉ ft →
    ∃ r q ft1 dt1, mk_lcl_scan (pre ++ dt) ft pre.length ls = some r ∧ ft = q ++ ft1 ∧
      dt = q ++ dt1 ∧ no_common_dir ft1 dt1 ∧
      ((q = [] ∧ r = ls) ∨ (q.getLast? = some '/' ∧ r = pre.length + q.length)) := by
  induction ft with
  | nil =>
    intro pre dt ls _
    refine ⟨ls, [], [], dt, rfl, rfl, rfl, ?_, Or.inl ⟨rfl, rfl⟩⟩
    intro q ha _
    simp at ha
  | cons c cs ih =>
    intro pre dt ls hnul
    simp only [List.mem_cons, not_or] at hnul
    have hget : (pre ++ dt).getD pre.length '\x00' = dt.headD '\x00' := by
      cases dt with
      | nil => simp
      | cons x xs =>
        rw [List.getD_eq_getElem?_getD, List.getElem?_append_right (le_refl _)]
        simp
    have hlen : ¬ (pre ++ dt).length < pre.length := by simp
    rw [mk_lcl_scan]
    simp only [hlen, if_false, hget]
    by_cases hcx : c = dt.headD '\x00'
    · cases dt with
      | nil => exact absurd hcx.symm hnul.1
      | cons x dt1 =>
        simp only [List.headD_cons] at hcx
        subst hcx
        simp only [List.headD_cons, ne_eq, not_true_eq_false, if_false]
        have hpre : pre ++ c :: dt1 = (pre ++ [c]) ++ dt1 := by simp
        have hl : pre.length + 1 = (pre ++ [c]).length := by simp
        rw [hpre, hl]
        obtain ⟨r, q, f1, d1, hr, hf, hd, hn, hq⟩ := ih (pre ++ [c]) dt1
          (if c = '/' then (pre ++ [c]).length else ls) hnul.2
        rcases hq with ⟨hq0, hr0⟩ | ⟨hql, hrl⟩
        · by_cases hc : c = '/'
          · refine ⟨r, [c], f1, d1, hr, by simp [hf, hq0], by simp [hd, hq0], hn, Or.inr ⟨by simp [hc], ?_⟩⟩
            rw [hr0, if_pos hc]; simp
          · refine ⟨r, [], c :: f1, c :: d1, hr, by simp [hf, hq0], by simp [hd, hq0],
              no_common_dir_cons c _ _ hc hn, Or.inl ⟨rfl, ?_⟩⟩
            rw [hr0, if_neg hc]
        · refine ⟨r, c :: q, f1, d1, hr, by simp [hf], by simp [hd], hn, Or.inr ⟨?_, ?_⟩⟩
          · have : q ≠ [] := by intro h; rw [h] at hql; simp at hql
            rw [getLast?_cons_of_ne_nil c q this, hql]
          · rw [hrl]; simp; omega
    · simp only [ne_eq, hcx, not_false_eq_true, if_true]
      refine ⟨ls, [], c :: cs, dt, rfl, rfl, rfl, ?_, Or.inl ⟨rfl, rfl⟩⟩
      intro q ha hb
      obtain ⟨t, ht⟩ := ha
      obtain ⟨u, hu⟩ := hb
      cases q with
      | nil =>
        simp at ht hu
        apply hcx
        rw [← hu, ← ht.1]; rfl
      | cons y ys =>
        simp at ht hu
        apply hcx
        rw [← hu, ← ht.1]; rfl
theorem is_canon_loop_cons (acc : Bool) (st : CanonState) (c : Char) (cs : List Char) :
    is_canon_loop acc st (c :: cs) =
      if c = '/' then
        match st with
        | .Empty => false
        | .Dot => false
        | .DotDot => if !acc then false else is_canon_loop acc .Empty cs
        | .First => is_canon_loop false .Empty cs
        | .Plain => is_canon_loop false .Empty cs
      else if c = '.' then
        match st with
        | .First => is_canon_loop acc .Dot cs
        | .Empty => is_canon_loop acc .Dot cs
        | .Dot => is_canon_loop acc .DotDot cs
        | .DotDot => is_canon_loop acc .Plain cs
        | .Plain => is_canon_loop acc .Plain cs
      else is_canon_loop acc .Plain cs := by
  conv_lhs => unfold is_canon_loop

theorem dir_like_tail (c : Char) (q : List Char) (h : dir_like (c :: q)) (hc : c ≠ '/') :
    q ≠ [] ∧ dir_like q := by
  rcases h with h | h
  · exact absurd h (by simp)
  · cases q with
    | nil => simp at h; exact absurd h hc
    | cons y ys =>
      refine ⟨by simp, Or.inr ?_⟩
      rwa [getLast?_cons_of_ne_nil c _ (by simp)] at h

theorem dir_like_tail' (c : Char) (q : List Char) (h : dir_like (c :: q)) : dir_like q := by
  cases q with
  | nil => exact Or.inl rfl
  | cons y ys =>
    rcases h with h | h
    · exact absurd h (by simp)
    · right; rwa [getLast?_cons_of_ne_nil c _ (by simp)] at h

/-- Once `..` is no more accepted, no `../` can follow a `/`. -/
theorem is_canon_loop_false_up (q : List Char) : ∀ (st : CanonState) (r : List Char),
    (q = [] → st = .Empty) → dir_like q →
    is_canon_loop false st (q ++ '.' :: '.' :: '/' :: r) = false := by
  induction q with
  | nil =>
    intro st r hst _
    rw [hst rfl]
    simp [is_canon_loop]
  | cons c cs ih =>
    intro st r _ hq
    rw [List.cons_append, is_canon_loop_cons]
    by_cases hc : c = '/'
    · have := ih .Empty r (fun _ => rfl) (dir_like_tail' c cs hq)
      cases st <;> simp [hc, this]
    · obtain ⟨hne, hd⟩ := dir_like_tail c cs hq hc
      have h := fun st => ih st r (fun h => absurd h hne) hd
      by_cases hdot : c = '.'
      · cases st <;> simp [hc, hdot, h]
      · simp [hc, hdot, h]

theorem is_canon_loop_plain_up (q : List Char) : ∀ (acc : Bool) (r : List Char),
    q ≠ [] → dir_like q →
    is_canon_loop acc .Plain (q ++ '.' :: '.' :: '/' :: r) = false := by
  induction q with
  | nil => intro _ _ h; exact absurd rfl h
  | cons c cs ih =>
    intro acc r _ hq
    rw [List.cons_append, is_canon_loop_cons]
    by_cases hc : c = '/'
    · simp [hc, is_canon_loop_false_up cs .Empty r (fun _ => rfl) (dir_like_tail' c cs hq)]
    · obtain ⟨hne, hd⟩ := dir_like_tail c cs hq hc
      by_cases hdot : c = '.'
      · simp [hc, hdot, ih acc r hne hd]
      · simp [hc, hdot, ih acc r hne hd]

/-- In a canonical name, a `../` that starts a component is only preceded by `../`. -/
theorem ups_of_is_canon_loop (n : Nat) : ∀ (p : List Char), p.length ≤ n →
    ∀ (acc : Bool) (st : CanonState) (r : List Char), (st = .First ∨ st = .Empty) →
    dir_like p → is_canon_loop acc st (p ++ '.' :: '.' :: '/' :: r) = true →
    ∃ k, p = ups_n k := by
  induction n with
  | zero =>
    intro p hp _ _ _ _ _ _
    exact ⟨0, List.length_eq_zero.mp (Nat.le_zero.mp hp)⟩
  | succ n ih =>
    intro p hp acc st r hst hd hcan
    cases p with
    | nil => exact ⟨0, rfl⟩
    | cons c p1 =>
      rw [List.cons_append, is_canon_loop_cons] at hcan
      by_cases hc : c = '/'
      · exfalso
        have := is_canon_loop_false_up p1 .Empty r (fun _ => rfl) (dir_like_tail' c p1 hd)
        rcases hst with h | h <;> simp [hc, h, this] at hcan
      · obtain ⟨hne1, hd1⟩ := dir_like_tail c p1 hd hc
        by_cases hdot : c = '.'
        · have hcan1 : is_canon_loop acc .Dot (p1 ++ '.' :: '.' :: '/' :: r) = true := by
            rcases hst with h | h <;> simpa [hc, hdot, h] using hcan
          cases p1 with
          | nil => exact absurd rfl hne1
          | cons c2 p2 =>
            rw [List.cons_append, is_canon_loop_cons] at hcan1
            by_cases hc2 : c2 = '/'
            · simp [hc2] at hcan1
            · obtain ⟨hne2, hd2⟩ := dir_like_tail c2 p2 hd1 hc2
              by_cases hdot2 : c2 = '.'
              · simp only [hc2, hdot2, if_false, if_true] at hcan1
                cases p2 with
                | nil => exact absurd rfl hne2
                | cons c3 p3 =>
                  rw [List.cons_append, is_canon_loop_cons] at hcan1
                  by_cases hc3 : c3 = '/'
                  · simp only [hc3, if_true] at hcan1
                    cases acc with
                    | false => simp at hcan1
                    | true =>
                      simp only [Bool.not_true, Bool.false_eq_true, if_false] at hcan1
                      have hlen : p3.length ≤ n := by
                        simp only [List.length_cons] at hp; omega
                      obtain ⟨k, hk⟩ := ih p3 hlen true .Empty r (Or.inr rfl)
                        (dir_like_tail' c3 p3 hd2) hcan1
                      exact ⟨k + 1, by rw [hdot, hdot2, hc3, hk]; rfl⟩
                  · obtain ⟨hne3, hd3⟩ := dir_like_tail c3 p3 hd2 hc3
                    by_cases hdot3 : c3 = '.'
                    · simp [hc3, hdot3, is_canon_loop_plain_up p3 acc r hne3 hd3] at hcan1
                    · simp [hc3, hdot3, is_canon_loop_plain_up p3 acc r hne3 hd3] at hcan1
              · simp [hc2, hdot2, is_canon_loop_plain_up p2 acc r hne2 hd2] at hcan1
        · simp [hc, hdot, is_canon_loop_plain_up p1 acc r hne1 hd1] at hcan

theorem is_canon_loop_slash_slash (q : List Char) : ∀ (acc : Bool) (st : CanonState)
    (r : List Char), is_canon_loop acc st (q ++ '/' :: '/' :: r) = false := by
  induction q with
  | nil =>
    intro acc st r
    cases st <;> cases acc <;> simp [is_canon_loop]
  | cons c cs ih =>
    intro acc st r
    rw [List.cons_append, is_canon_loop_cons]
    by_cases hc : c = '/'
    · cases st <;> cases acc <;> simp [hc, ih]
    · by_cases hdot : c = '.'
      · cases st <;> simp [hc, hdot, ih]
      · simp [hc, hdot, ih]
theorem ups_n_succ_right (k : Nat) : ups_n (k + 1) = ups_n k ++ ['.', '.', '/'] := by
  induction k with
  | zero => rfl
  | succ k ih =>
    calc ups_n (k + 1 + 1) = '.' :: '.' :: '/' :: ups_n (k + 1) := rfl
      _ = '.' :: '.' :: '/' :: (ups_n k ++ ['.', '.', '/']) := by rw [ih]
      _ = ups_n (k + 1) ++ ['.', '.', '/'] := rfl

theorem ups_n_prefix_leading_ups (k : Nat) (x : List Char) :
    ups_n k <+: leading_ups (ups_n k ++ x) := by
  induction k with
  | zero => exact List.nil_prefix
  | succ k ih =>
    show '.' :: '.' :: '/' :: ups_n k <+: leading_ups ('.' :: '.' :: '/' :: (ups_n k ++ x))
    rw [leading_ups]
    exact (List.prefix_cons_inj _).mpr ((List.prefix_cons_inj _).mpr
      ((List.prefix_cons_inj _).mpr ih))

theorem dir_like_of_append (q dt : List Char) (h : dir_like (q ++ dt)) : dir_like dt := by
  cases dt with
  | nil => exact Or.inl rfl
  | cons y ys =>
    rcases h with h | h
    · simp at h
    · right
      rwa [List.getLast?_append_of_ne_nil _ (by simp)] at h

/-- C1, as amended : for every canonical name `f` without NUL that is not empty, is not `d`
itself and whose leading run of `../` also starts `d`, and every `d` that is empty or ends with
`/`, `f` and `d` being both absolute or both relative, `mk_glb(mk_lcl(f,d),d)` is `f` and no
`SWEAR` fails on the way. -/
theorem C1_mk_glb_mk_lcl_roundtrip (f d : List Char)
    (hcanon : is_canon f = true) (hd : d = [] ∨ d.getLast? = some '/')
    (habs : is_abs f = is_abs_s d)
    (hnul : '\x00' ∉ f) (hne : f ≠ []) (hfd : f ≠ d) (hups : leading_ups f <+: d) :
    mk_glb_mk_lcl f d = some f := by
  obtain ⟨r, q, ft, dt, hr, hf, hdd, hn, hq⟩ := mk_lcl_scan_spec f [] d 0 hnul
  simp only [List.nil_append, List.length_nil, Nat.zero_add] at hr
  have hrq : r = q.length := by
    rcases hq with ⟨h0, hr0⟩ | ⟨_, hr0⟩
    · rw [hr0, h0]; rfl
    · simpa using hr0
  have hqd : dir_like q := by
    rcases hq with ⟨h0, _⟩ | ⟨h1, _⟩
    · exact Or.inl h0
    · exact Or.inr h1
  have hdt : dir_like dt := dir_like_of_append q dt (hdd ▸ hd)
  -- the tail of `f` is not a `../`
  have hft : ∀ r1, ft = '.' :: '.' :: '/' :: r1 → False := by
    intro r1 hr1
    have hc : is_canon_loop true .First (q ++ '.' :: '.' :: '/' :: r1) = true := by
      rw [← hr1, ← hf]; exact hcanon
    obtain ⟨k, hk⟩ := ups_of_is_canon_loop q.length q (le_refl _) true .First r1 (Or.inl rfl)
      hqd hc
    have h1 : ups_n (k + 1) <+: leading_ups f := by
      have := ups_n_prefix_leading_ups (k + 1) r1
      rw [ups_n_succ_right, List.append_assoc] at this
      rw [hf, hr1, hk, ups_n_succ_right]
      exact this
    have h2 : ups_n k ++ ['.', '.', '/'] <+: ups_n k ++ dt := by
      rw [← ups_n_succ_right, ← hk, ← hdd]
      exact h1.trans hups
    have h3 : ['.', '.', '/'] <+: dt := (List.prefix_append_right_inj _).mp h2
    exact hn ['.', '.'] ⟨r1, by rw [hr1]; rfl⟩ h3
  -- the head of `dt` when nothing is common
  have hhead : q = [] → dt.head? ≠ some '/' := by
    intro hq0 hh
    have hd0 : d = dt := by rw [hdd, hq0]; rfl
    have hf0 : f = ft := by rw [hf, hq0]; rfl
    have h1 : is_abs_s d = true := by rw [hd0]; simp [is_abs_s, hh]
    rw [← habs] at h1
    cases hft' : ft with
    | nil => exact hne (hf0.trans hft')
    | cons c cs =>
      have hc : c = '/' := by
        rw [hf0, hft'] at h1
        simpa [is_abs] using h1
      cases hdt' : dt with
      | nil => rw [hdt'] at hh; simp at hh
      | cons y ys =>
        have hy : y = '/' := by rw [hdt'] at hh; simpa using hh
        exact hn [] ⟨cs, by rw [hft', hc]; rfl⟩ ⟨ys, by rw [hdt', hy]; rfl⟩
  -- the local name is relative
  have hrel : is_abs (ups_n (dt.count '/') ++ ft) = false := by
    cases hk : dt.count '/' with
    | succ k => simp [ups_n, is_abs]
    | zero =>
      have hdt0 : dt = [] := by
        by_contra hne'
        obtain ⟨s0, hs0⟩ := dir_like_eq_concat dt hdt hne'
        rw [hs0] at hk
        simp at hk
      cases hft' : ft with
      | nil =>
        exfalso; apply hfd
        rw [hf, hdd, hft', hdt0]
      | cons c cs =>
        by_cases hc : c = '/'
        · exfalso
          by_cases hq0 : q = []
          · have h1 : is_abs f = true := by rw [hf, hq0, hft', hc]; rfl
            have h2 : is_abs_s d = false := by rw [hdd, hq0, hdt0]; rfl
            rw [habs, h2] at h1
            exact Bool.false_ne_true h1
          · obtain ⟨q0, hq0'⟩ := dir_like_eq_concat q hqd hq0
            have := is_canon_loop_slash_slash q0 true .First cs
            have hcan : is_canon_loop true .First (q0 ++ '/' :: '/' :: cs) = true := by
              have : f = q0 ++ '/' :: '/' :: cs := by
                rw [hf, hq0', hft', hc]; simp
              rw [← this]; exact hcanon
            rw [this] at hcan
            exact Bool.false_ne_true hcan
        · simp [ups_n, is_abs, hc]
  have hcond : (!(d.isEmpty || d.getLast? == some '/')) = false := by
    rcases hd with h | h
    · simp [h]
    · simp [h]
  have hdrop_d : d.drop q.length = dt := by rw [hdd]; simp
  have hdrop_f : f.drop q.length = ft := by rw [hf]; simp
  have hlen : ¬ (d.length < q.length ∨ f.length < q.length) := by
    rw [hdd, hf]; simp
  unfold mk_glb_mk_lcl mk_lcl
  simp only [habs, ne_eq, not_true_eq_false, if_false, hcond, Bool.false_eq_true, hr, hrq, hlen,
    hdrop_d, hdrop_f, Option.some_bind, mk_lcl_ups_eq]
  unfold mk_glb
  simp only [hrel, Bool.false_eq_true, if_false]
  have := mk_glb_loop_strip (dt.count '/') dt q ft rfl hdt hqd hhead
  rw [← hdd] at this
  rw [this, mk_glb_loop.eq_2 q ft hft, hf]

/-- C1, witness : `f = a/b` seen from `d = a/c/`, the local name being `../b`. -/
theorem C1_roundtrip_witness :
    mk_lcl "a/b".toList "a/c/".toList = some "../b".toList
      ∧ mk_glb_mk_lcl "a/b".toList "a/c/".toList = some "a/b".toList :=
  ⟨by decide, C1_mk_glb_mk_lcl_roundtrip "a/b".toList "a/c/".toList (by decide) (by decide)
    (by decide) (by decide) (by decide) (by decide) (by decide)⟩

/-- C1, as stated, fails : `../a` is canonical and relative as `b/` is, and a `SWEAR` of `mk_glb`
fails on `mk_lcl("../a","b/") = "../../a"` ; `a/` is canonical and `mk_glb(mk_lcl("a/","a/"),"a/")`
is the empty name ; the empty name is canonical and absolute as `/` is, and a `SWEAR` of `mk_glb`
fails on `mk_lcl("","/") = "../"` ; a name that holds a NUL where `d` ends makes the first loop of
`mk_lcl` read `dir_s` past its end. -/
theorem C1_roundtrip_counterexample :
    (is_canon "../a".toList = true ∧ is_abs "../a".toList = is_abs_s "b/".toList
        ∧ "b/".toList.getLast? = some '/'
        ∧ mk_lcl "../a".toList "b/".toList = some "../../a".toList
        ∧ mk_glb_mk_lcl "../a".toList "b/".toList = none)
      ∧ (is_canon "a/".toList = true ∧ is_abs "a/".toList = is_abs_s "a/".toList
        ∧ mk_glb_mk_lcl "a/".toList "a/".toList = some [])
      ∧ (is_canon [] = true ∧ is_abs [] = is_abs_s "/".toList
        ∧ mk_lcl [] "/".toList = some "../".toList
        ∧ mk_glb_mk_lcl [] "/".toList = none)
      ∧ (is_canon ['\x00', 'x'] = true ∧ is_abs ['\x00', 'x'] = is_abs_s []
        ∧ mk_glb_mk_lcl ['\x00', 'x'] [] = none) := by
  decide

/-! ## C2 : lexical normalisation when there is no link -/

theorem next_comp_nil : next_comp [] = [] := rfl

theorem next_comp_slash (cs : List Char) : next_comp ('/' :: cs) = [] := by
  simp [next_comp]

theorem next_comp_cons (c : Char) (cs : List Char) (hc : c ≠ '/') :
    next_comp (c :: cs) = c :: next_comp cs := by
  simp [next_comp, List.takeWhile_cons, hc]

theorem next_comp_length_le (rest : List Char) : (next_comp rest).length ≤ rest.length := by
  induction rest with
  | nil => simp [next_comp]
  | cons c cs ih =>
    by_cases hc : c = '/'
    · subst hc; rw [next_comp_slash]; simp
    · rw [next_comp_cons c cs hc]; simp; exact ih

theorem next_comp_no_slash (rest : List Char) : '/' ∉ next_comp rest := by
  induction rest with
  | nil => simp [next_comp]
  | cons c cs ih =>
    by_cases hc : c = '/'
    · subst hc; rw [next_comp_slash]; simp
    · rw [next_comp_cons c cs hc]
      simp only [List.mem_cons, not_or]
      exact ⟨fun h => hc h.symm, ih⟩

theorem after_comp_nil : after_comp [] = none := by
  simp [after_comp, is_last, next_comp]

theorem after_comp_slash (cs : List Char) : after_comp ('/' :: cs) = some cs := by
  simp [after_comp, is_last, next_comp_slash]

theorem after_comp_cons (c : Char) (cs : List Char) (hc : c ≠ '/') :
    after_comp (c :: cs) = after_comp cs := by
  simp [after_comp, is_last, next_comp_cons c cs hc]

theorem components_eq (rest : List Char) :
    components rest = next_comp rest ::
      (match after_comp rest with
       | none => []
       | some r => components r) := by
  induction rest with
  | nil => simp [components, next_comp_nil, after_comp_nil]
  | cons c cs ih =>
    by_cases hc : c = '/'
    · subst hc
      simp [components, next_comp_slash, after_comp_slash]
    · rw [components, if_neg hc, ih, next_comp_cons c cs hc, after_comp_cons c cs hc]

theorem after_comp_length (rest r : List Char) (h : after_comp rest = some r) :
    r.length < rest.length := by
  induction rest with
  | nil => rw [after_comp_nil] at h; cases h
  | cons c cs ih =>
    by_cases hc : c = '/'
    · subst hc
      rw [after_comp_slash] at h
      cases h; simp
    · rw [after_comp_cons c cs hc] at h
      have := ih h
      simp only [List.length_cons]; omega

theorem after_comp_none_iff (rest : List Char) : after_comp rest = none ↔ is_last rest = true := by
  unfold after_comp
  by_cases h : is_last rest = true <;> simp [h]

theorem abs_path_append (a b : List (List Char)) : abs_path (a ++ b) = abs_path a ++ abs_path b := by
  simp [abs_path]

theorem abs_path_concat (a : List (List Char)) (c : List Char) :
    abs_path (a ++ [c]) = abs_path a ++ '/' :: c := by
  simp [abs_path]

theorem rfind_abs_path_concat (a : List (List Char)) (c : List Char) (hc : '/' ∉ c) :
    rfind (abs_path (a ++ [c])) '/' = some (abs_path a).length := by
  rw [abs_path_concat]
  have : abs_path a ++ '/' :: c = (abs_path a ++ ['/']) ++ c := by simp
  rw [this, rfind_append_of_not_mem _ _ _ hc, rfind_concat]

theorem record_lnk_some (rp : RealPath) (st st1 : SolveState) (nxt : List Char)
    (h : record_lnk rp st nxt = some st1) :
    st1.real = st.real ∧ st1.cur = st.cur ∧ st1.n_lnks = st.n_lnks ∧ st1.exists_ = st.exists_
      ∧ st1.in_repo = st.in_repo ∧ st1.in_tmp = st.in_tmp ∧ st1.in_admin = st.in_admin
      ∧ st1.in_proc = st.in_proc ∧ st1.is_in_tmp = st.is_in_tmp ∧ st1.mapped = st.mapped := by
  unfold record_lnk at h
  by_cases h1 : (!st.is_in_tmp && !st.in_proc.ok) = true
  · rw [if_pos h1] at h
    by_cases h2 : st.in_repo.ok = true
    · rw [if_pos h2] at h
      by_cases h3 : st.real.length < rp._root_dir_sz1
      · rw [if_pos h3] at h; cases h
      · rw [if_neg h3] at h
        by_cases h4 : (!nxt.isEmpty) = true
        · rw [if_pos h4] at h; cases h; simp
        · rw [if_neg h4] at h; cases h; simp
    · rw [if_neg h2] at h
      cases h5 : rp._find_src_idx st.real with
      | none => rw [h5] at h; cases h
      | some i =>
        rw [h5] at h
        by_cases h4 : (!nxt.isEmpty) = true
        · simp only [h4, if_true] at h; cases h; simp
        · simp only [h4, if_false] at h; cases h; simp
  · rw [if_neg h1] at h; cases h; simp

theorem record_lnk_nil (rp : RealPath) (st st1 : SolveState)
    (h : record_lnk rp st [] = some st1) : st1 = st := by
  unfold record_lnk at h
  simp only [List.isEmpty_nil, Bool.not_true, Bool.false_eq_true, if_false] at h
  by_cases h1 : (!st.is_in_tmp && !st.in_proc.ok) = true
  · rw [if_pos h1] at h
    by_cases h2 : st.in_repo.ok = true
    · rw [if_pos h2] at h
      by_cases h3 : st.real.length < rp._root_dir_sz1
      · rw [if_pos h3] at h; cases h
      · rw [if_neg h3] at h; cases h; rfl
    · rw [if_neg h2] at h
      cases h5 : rp._find_src_idx st.real with
      | none => rw [h5] at h; cases h
      | some i => rw [h5] at h; cases h; rfl
  · rw [if_neg h1] at h; cases h; rfl

theorem handle_lnk_no_lnk (w : World) (rp : RealPath) (st : SolveState) (last : Bool)
    (prev : Nat) (hw : ∀ p, w.read_lnk p = []) :
    ∃ st1, handle_lnk w rp st last prev = .next st1 ∧ st1.real = st.real ∧ st1.cur = st.cur
      ∧ st1.lnks = st.lnks ∧ st1.n_lnks = st.n_lnks := by
  unfold handle_lnk
  simp only [hw]
  split
  · exact ⟨_, rfl, rfl, rfl, rfl, rfl⟩
  · rename_i st2 h
    have h2 := record_lnk_nil rp _ _ h
    subst h2
    unfold follow_lnk
    simp only [List.isEmpty_nil, if_true]
    split_ifs <;> exact ⟨_, rfl, rfl, rfl, rfl, rfl⟩
theorem comp_dot_iff (comp : List Char) :
    (comp.head? = some '.' ∧ comp.length = 1) ↔ comp = ['.'] := by
  constructor
  · rintro ⟨h1, h2⟩
    match comp, h1, h2 with
    | [c], h1, _ => simp at h1; rw [h1]
  · rintro rfl; exact ⟨rfl, rfl⟩

theorem comp_dotdot_iff (comp : List Char) :
    (comp.head? = some '.' ∧ comp.length = 2 ∧ comp.getD 1 '\x00' = '.') ↔ comp = ['.', '.'] := by
  constructor
  · rintro ⟨h1, h2, h3⟩
    match comp, h1, h2, h3 with
    | [c, d], h1, _, h3 =>
      simp at h1 h3
      rw [h1, h3]
  · rintro rfl; exact ⟨rfl, rfl, rfl⟩

theorem solve_body_skip (w : World) (rp : RealPath) (no_follow : Bool) (st : SolveState)
    (rest : List Char) (h : next_comp rest = [] ∨ next_comp rest = ['.']) :
    solve_body w rp no_follow st rest = some (.next { st with cur := after_comp rest }) := by
  unfold solve_body
  simp only [comp_dot_iff, comp_dotdot_iff]
  rcases h with h | h <;> simp [h]

theorem solve_body_dotdot (w : World) (rp : RealPath) (no_follow : Bool) (st : SolveState)
    (rest : List Char) (h : next_comp rest = ['.', '.']) :
    solve_body w rp no_follow st rest =
      if !st.real.isEmpty then
        (rfind st.real '/').map fun i =>
          .next { st with cur := after_comp rest, real := st.real.take i }
      else some (.next { st with cur := after_comp rest }) := by
  unfold solve_body
  simp only [comp_dot_iff, comp_dotdot_iff]
  simp [h]

theorem solve_body_plain (w : World) (rp : RealPath) (no_follow : Bool) (st : SolveState)
    (rest : List Char) (h0 : next_comp rest ≠ []) (h1 : next_comp rest ≠ ['.'])
    (h2 : next_comp rest ≠ ['.', '.']) :
    solve_body w rp no_follow st rest =
      if lnk_wanted w rp no_follow
          (push_comp rp { st with cur := after_comp rest } (next_comp rest)) (is_last rest) then
        some (handle_lnk w rp (push_comp rp { st with cur := after_comp rest } (next_comp rest))
          (is_last rest) st.real.length)
      else some (.next (push_comp rp { st with cur := after_comp rest } (next_comp rest))) := by
  unfold solve_body
  simp only [comp_dot_iff, comp_dotdot_iff]
  have h0' : (next_comp rest).isEmpty = false := by
    cases h : next_comp rest with
    | nil => exact absurd h h0
    | cons => rfl
  simp [h0', h1, h2]

theorem solve_body_no_lnk (w : World) (rp : RealPath) (no_follow : Bool) (st : SolveState)
    (rest : List Char) (kept : List (List Char)) (hw : ∀ p, w.read_lnk p = [])
    (hreal : st.real = abs_path kept) (hkept : ∀ c ∈ kept, '/' ∉ c) :
    ∃ st1, solve_body w rp no_follow st rest = some (.next st1)
      ∧ st1.real = abs_path (norm_step kept (next_comp rest))
      ∧ st1.cur = after_comp rest ∧ st1.lnks = st.lnks := by
  by_cases h0 : next_comp rest = []
  · rw [solve_body_skip w rp no_follow st rest (Or.inl h0)]
    exact ⟨_, rfl, by simp [norm_step, h0, hreal], rfl, rfl⟩
  by_cases h1 : next_comp rest = ['.']
  · rw [solve_body_skip w rp no_follow st rest (Or.inr h1)]
    exact ⟨_, rfl, by simp [norm_step, h1, hreal], rfl, rfl⟩
  by_cases h2 : next_comp rest = ['.', '.']
  · rw [solve_body_dotdot w rp no_follow st rest h2]
    rcases List.eq_nil_or_concat kept with hk | ⟨k0, c, hk⟩
    · subst hk
      have : st.real = [] := hreal
      simp only [this, List.isEmpty_nil, Bool.not_true, Bool.false_eq_true, if_false]
      exact ⟨_, rfl, by simp [norm_step, h2, abs_path], rfl, rfl⟩
    · rw [List.concat_eq_append] at hk
      subst hk
      have hc : '/' ∉ c := hkept c (by simp)
      have hne : (abs_path (k0 ++ [c])).isEmpty = false := by
        rw [abs_path_concat]; cases abs_path k0 <;> rfl
      simp only [hreal, hne, Bool.not_false, if_true, rfind_abs_path_concat k0 c hc,
        Option.map_some']
      refine ⟨_, rfl, ?_, rfl, rfl⟩
      simp [norm_step, h2, abs_path_concat]
  · rw [solve_body_plain w rp no_follow st rest h0 h1 h2]
    have hn : norm_step kept (next_comp rest) = kept ++ [next_comp rest] := by
      simp [norm_step, h0, h1, h2]
    rw [hn, abs_path_concat, ← hreal]
    split_ifs
    · obtain ⟨st1, hst1, hr, hc, hl, _⟩ := handle_lnk_no_lnk w rp
        (push_comp rp { st with cur := after_comp rest } (next_comp rest))
        (is_last rest) st.real.length hw
      exact ⟨st1, by rw [hst1], hr, hc, hl⟩
    · exact ⟨_, rfl, rfl, rfl, rfl⟩

theorem solve_incr_real (rp : RealPath) (st : SolveState) :
    (solve_incr rp st).real = st.real ∧ (solve_incr rp st).cur = st.cur
      ∧ (solve_incr rp st).lnks = st.lnks ∧ (solve_incr rp st).n_lnks = st.n_lnks
      ∧ (solve_incr rp st).in_admin = st.in_admin ∧ (solve_incr rp st).exists_ = st.exists_
      ∧ (solve_incr rp st).mapped = st.mapped :=
  ⟨rfl, rfl, rfl, rfl, rfl, rfl, rfl⟩

theorem norm_step_no_slash (kept : List (List Char)) (comp : List Char)
    (hkept : ∀ c ∈ kept, '/' ∉ c) (hcomp : '/' ∉ comp) :
    ∀ c ∈ norm_step kept comp, '/' ∉ c := by
  unfold norm_step
  split_ifs
  · exact hkept
  · intro c hc; exact hkept c (List.mem_of_mem_dropLast hc)
  · intro c hc
    rcases List.mem_append.mp hc with h | h
    · exact hkept c h
    · simp at h; rw [h]; exact hcomp

theorem solve_loop_no_lnk (w : World) (rp : RealPath) (no_follow : Bool)
    (hw : ∀ p, w.read_lnk p = []) (fuel : Nat) :
    ∀ (st : SolveState) (rest : List Char) (kept : List (List Char)), st.cur = some rest →
      st.real = abs_path kept → (∀ c ∈ kept, '/' ∉ c) → rest.length + 2 ≤ fuel →
      ∃ st1, solve_loop w rp no_follow fuel st = some (.fall st1)
        ∧ st1.real = abs_path (lex_norm kept (components rest)) ∧ st1.lnks = st.lnks := by
  induction fuel with
  | zero => intro _ _ _ _ _ _ h; omega
  | succ fuel ih =>
    intro st rest kept hcur hreal hkept hfuel
    obtain ⟨st1, hb, hr1, hc1, hl1⟩ := solve_body_no_lnk w rp no_follow st rest kept hw hreal hkept
    rw [solve_loop, hcur]
    simp only [hb]
    rw [components_eq]
    have hks := norm_step_no_slash kept _ hkept (next_comp_no_slash rest)
    cases hac : after_comp rest with
    | none =>
      rw [hac] at hc1
      cases fuel with
      | zero => omega
      | succ f =>
        rw [solve_loop]
        simp only [(solve_incr_real rp st1).2.1, hc1]
        exact ⟨_, rfl, by simp [lex_norm, (solve_incr_real rp st1).1, hr1],
          by rw [(solve_incr_real rp st1).2.2.1, hl1]⟩
    | some r =>
      rw [hac] at hc1
      have hlen : r.length + 2 ≤ fuel := by
        have := after_comp_length rest r hac
        omega
      obtain ⟨st2, h2, hr2, hl2⟩ := ih (solve_incr rp st1) r _
        (by rw [(solve_incr_real rp st1).2.1, hc1]) (by rw [(solve_incr_real rp st1).1, hr1])
        hks hlen
      exact ⟨st2, h2, by simpa [lex_norm] using hr2,
        by rw [hl2, (solve_incr_real rp st1).2.2.1, hl1]⟩
theorem components_no_slash (rest : List Char) : ∀ c ∈ components rest, '/' ∉ c := by
  induction rest with
  | nil => intro c hc; simp [components] at hc; simp [hc]
  | cons x xs ih =>
    intro c hc
    by_cases hx : x = '/'
    · subst hx
      simp only [components, if_true, List.mem_cons] at hc
      rcases hc with h | h
      · simp [h]
      · exact ih c h
    · rw [components, if_neg hx] at hc
      cases hcs : components xs with
      | nil =>
        rw [hcs] at hc
        simp at hc
        rw [hc]; simp; exact fun h => hx h.symm
      | cons h t =>
        rw [hcs] at hc ih
        simp only [List.mem_cons] at hc
        rcases hc with h1 | h1
        · rw [h1]
          simp only [List.mem_cons, not_or]
          exact ⟨fun h => hx h.symm, ih h (by simp)⟩
        · exact ih c (by simp [h1])

theorem norm_step_plain (kept : List (List Char)) (comp : List Char)
    (hkept : ∀ c ∈ kept, plain_comp c) (hcomp : '/' ∉ comp) :
    ∀ c ∈ norm_step kept comp, plain_comp c := by
  unfold norm_step
  split_ifs with h1 h2
  · exact hkept
  · intro c hc; exact hkept c (List.mem_of_mem_dropLast hc)
  · intro c hc
    rcases List.mem_append.mp hc with h | h
    · exact hkept c h
    · simp at h; rw [h]
      exact ⟨fun h0 => h1 (Or.inl h0), fun h0 => h1 (Or.inr h0), h2, hcomp⟩

theorem lex_norm_plain (comps : List (List Char)) : ∀ (kept : List (List Char)),
    (∀ c ∈ kept, plain_comp c) → (∀ c ∈ comps, '/' ∉ c) →
    ∀ c ∈ lex_norm kept comps, plain_comp c := by
  induction comps with
  | nil => intro kept hk _; exact hk
  | cons x xs ih =>
    intro kept hk hc
    exact ih (norm_step kept x) (norm_step_plain kept x hk (hc x (by simp)))
      (fun c h => hc c (by simp [h]))

/-- C2 : when `read_lnk` never finds a link, for every absolute `file` the loop of
`RealPath::solve` ends, within `file.size()+1` tests of its condition, without any link
recorded and with `real` being the lexical normalisation of `file` (empty components and `.` are
dropped, `..` removes the last kept component and does nothing at the root) ; no component of it
is empty, `.` or `..`, and the report is what the final classification makes of this `real`. -/
theorem C2_solve_lexical_normalisation (w : World) (rp : RealPath) (at_ : Int)
    (file : List Char) (no_follow : Bool) (fuel : Nat)
    (hw : ∀ p, w.read_lnk p = []) (habs : file.head? = some '/')
    (hfuel : file.length + 1 ≤ fuel) :
    ∃ st0 st, solve_start w rp at_ file = some st0
      ∧ solve_loop w rp no_follow fuel st0 = some (.fall st)
      ∧ st.real = abs_path (lex_norm [] (components file))
      ∧ st.lnks = []
      ∧ RealPath.solve fuel w rp at_ file no_follow = some (solve_finish rp no_follow st)
      ∧ ∀ c ∈ lex_norm [] (components file), plain_comp c := by
  obtain ⟨rest, hfile⟩ : ∃ rest, file = '/' :: rest := by
    cases file with
    | nil => simp at habs
    | cons c cs => simp at habs; exact ⟨cs, by rw [habs]⟩
  subst hfile
  have hstart : ∃ st0, solve_start w rp at_ ('/' :: rest) = some st0 ∧ st0.cur = some rest
      ∧ st0.real = [] ∧ st0.lnks = [] := by
    unfold solve_start
    simp
  obtain ⟨st0, hs0, hcur, hreal, hlnks⟩ := hstart
  obtain ⟨st, hloop, hr, hl⟩ := solve_loop_no_lnk w rp no_follow hw fuel st0 rest []
    hcur (by rw [hreal]; rfl) (by simp) (by simp at hfuel; omega)
  have hcomp : lex_norm [] (components ('/' :: rest)) = lex_norm [] (components rest) := by
    simp [components, lex_norm, norm_step]
  refine ⟨st0, st, hs0, hloop, by rw [hcomp, hr], by rw [hl, hlnks], ?_, ?_⟩
  · unfold RealPath.solve
    simp only [hs0, hloop]
  · exact lex_norm_plain _ [] (by simp) (components_no_slash _)

/-- C2, witness : `/a/./b//../c/..` in a world without links, its normalisation is `/a`. -/
theorem C2_lexical_witness :
    abs_path (lex_norm [] (components "/a/./b//../c/..".toList)) = "/a".toList ∧ ∃ st0 st, solve_start no_lnk_world repo_rp Fd_Cwd "/a/./b//../c/..".toList = some st0
      ∧ solve_loop no_lnk_world repo_rp false 20 st0 = some (.fall st)
      ∧ st.real = abs_path (lex_norm [] (components "/a/./b//../c/..".toList))
      ∧ st.lnks = []
      ∧ RealPath.solve 20 no_lnk_world repo_rp Fd_Cwd "/a/./b//../c/..".toList false
          = some (solve_finish repo_rp false st)
      ∧ ∀ c ∈ lex_norm [] (components "/a/./b//../c/..".toList), plain_comp c :=
  ⟨by decide,
    C2_solve_lexical_normalisation no_lnk_world repo_rp Fd_Cwd "/a/./b//../c/..".toList false 20
      (fun _ => rfl) (by decide) (by decide)⟩


/-! ## C5 : following a link -/

theorem follow_lnk_next (w : World) (rp : RealPath) (st st1 : SolveState) (nxt : List Char)
    (last : Bool) (prev : Nat) (h : follow_lnk w rp st nxt last prev = .next st1) :
    (st1.n_lnks = st.n_lnks ∧ st1.real = st.real ∧ st1.cur = st.cur ∧ st1.lnks = st.lnks
        ∧ nxt = [])
      ∨ (st1.n_lnks = st.n_lnks + 1 ∧ nxt ≠ [] ∧ (st.n_lnks : Int) < _get_symloop_max w
        ∧ st1.lnks = st.lnks
        ∧ st1.real = (if nxt.head? = some '/' then [] else st.real.take prev)
        ∧ st1.cur = some ((if !last then nxt ++ '/' :: st.cur.getD [] else nxt).drop
            (if nxt.head? = some '/' then 1 else 0))) := by
  unfold follow_lnk at h
  by_cases h0 : nxt.isEmpty = true
  · rw [if_pos h0] at h
    left
    have hn : nxt = [] := List.isEmpty_iff.mp h0
    split_ifs at h <;> (cases h; exact ⟨rfl, rfl, rfl, rfl, hn⟩)
  · rw [if_neg h0] at h
    have hn : nxt ≠ [] := fun hh => h0 (by rw [hh]; rfl)
    by_cases h1 : (st.n_lnks : Int) ≥ _get_symloop_max w
    · rw [if_pos h1] at h; cases h
    · rw [if_neg h1] at h
      right
      have hhead : (if !last then nxt ++ '/' :: st.cur.getD [] else nxt).head? = nxt.head? := by
        cases nxt with
        | nil => exact absurd rfl hn
        | cons c cs => cases last <;> rfl
      simp only [hhead] at h
      by_cases h2 : nxt.head? = some '/'
      · simp only [h2, if_true] at h ⊢
        cases h
        exact ⟨rfl, hn, by omega, rfl, rfl, rfl⟩
      · simp only [h2, if_false] at h ⊢
        cases h
        exact ⟨rfl, hn, by omega, rfl, rfl, by simp⟩

theorem handle_lnk_next (w : World) (rp : RealPath) (st st1 : SolveState) (last : Bool)
    (prev : Nat) (h : handle_lnk w rp st last prev = .next st1)
    (hf : st1.n_lnks = st.n_lnks + 1) :
    w.read_lnk (lnk_path rp st) ≠ [] ∧ (st.n_lnks : Int) < _get_symloop_max w
      ∧ st1.real = (if (w.read_lnk (lnk_path rp st)).head? = some '/' then []
          else st.real.take prev)
      ∧ st1.cur = some ((if !last then w.read_lnk (lnk_path rp st) ++ '/' :: st.cur.getD []
          else w.read_lnk (lnk_path rp st)).drop
            (if (w.read_lnk (lnk_path rp st)).head? = some '/' then 1 else 0)) := by
  unfold handle_lnk at h
  simp only at h
  cases hr : record_lnk rp { st with mapped := st.mapped || (rp.has_tmp_view && st.is_in_tmp) }
      (w.read_lnk (lnk_path rp st)) with
  | none =>
    rw [hr] at h
    cases h
    simp at hf
  | some st2 =>
    rw [hr] at h
    simp only at h
    obtain ⟨e1, e2, e3, _⟩ := record_lnk_some rp _ _ _ hr
    simp only at e1 e2 e3
    rcases follow_lnk_next w rp st2 st1 _ last prev h with ⟨a, _⟩ | ⟨_, b, c, _, d, e⟩
    · rw [a, e3] at hf; omega
    · rw [e3] at c
      rw [e1] at d
      rw [e2] at e
      exact ⟨b, c, d, e⟩
theorem solve_body_followed (w : World) (rp : RealPath) (no_follow : Bool)
    (st st1 : SolveState) (rest : List Char)
    (hbody : solve_body w rp no_follow st rest = some (.next st1))
    (hfollow : st1.n_lnks = st.n_lnks + 1) :
    handle_lnk w rp (push_comp rp { st with cur := after_comp rest } (next_comp rest))
      (is_last rest) st.real.length = .next st1 := by
  by_cases h0 : next_comp rest = []
  · rw [solve_body_skip w rp no_follow st rest (Or.inl h0)] at hbody
    cases hbody; simp at hfollow
  by_cases h1 : next_comp rest = ['.']
  · rw [solve_body_skip w rp no_follow st rest (Or.inr h1)] at hbody
    cases hbody; simp at hfollow
  by_cases h2 : next_comp rest = ['.', '.']
  · rw [solve_body_dotdot w rp no_follow st rest h2] at hbody
    split_ifs at hbody
    · cases hr : rfind st.real '/' with
      | none => rw [hr] at hbody; cases hbody
      | some i => rw [hr] at hbody; cases hbody; simp at hfollow
    · cases hbody; simp at hfollow
  · rw [solve_body_plain w rp no_follow st rest h0 h1 h2] at hbody
    split_ifs at hbody
    · exact Option.some.inj hbody
    · cases hbody; simp [push_comp] at hfollow

/-- C5 : whenever a pass through the body of the loop of `RealPath::solve` follows a link whose
target is relative, the walk goes on from the directory that holds the link (`real` is what it
was before the component), on the target followed by `/` and the unconsumed tail. So, with link
support `Full` and the cwd at the root of the repo `/repo`, where `a/b` is the only link and
leads to `d/e` of the repo, its target being `../d/e` or `/repo/d/e` : the path `a/b/c` is
reported in `Repo` with `real = d/e/c` and `lnks = [a/b]`. A target is resolved from the
directory of the link : were the target of `a/b` the text `d/e`, the link would lead to `a/d/e`
and `real` would be `a/d/e/c`. -/
theorem C5_follow_relative_lnk (w : World) (rp : RealPath) (no_follow : Bool)
    (st st1 : SolveState) (rest : List Char)
    (hbody : solve_body w rp no_follow st rest = some (.next st1))
    (hfollow : st1.n_lnks = st.n_lnks + 1)
    (hrel : (w.read_lnk (lnk_path rp { st with real := st.real ++ '/' :: next_comp rest })).head?
      ≠ some '/') :
    (w.read_lnk (lnk_path rp { st with real := st.real ++ '/' :: next_comp rest }) ≠ []
      ∧ st1.real = st.real
      ∧ st1.cur = some (w.read_lnk (lnk_path rp { st with real := st.real ++ '/' :: next_comp rest })
          ++ match after_comp rest with
             | none => []
             | some tail => '/' :: tail))
    ∧ (∀ reliable_dirs : Bool, ∀ target ∈ ["../d/e".toList, "/repo/d/e".toList],
        RealPath.solve 8 (ab_world target)
          { repo_rp with _env := { repo_rp._env with reliable_dirs := reliable_dirs } }
          Fd_Cwd "a/b/c".toList false
        = some { real := "d/e/c".toList, lnks := ["a/b".toList], file_accessed := .Yes,
                 file_loc := .Repo, mapped := false })
    ∧ (∀ reliable_dirs : Bool,
        RealPath.solve 8 (ab_world "d/e".toList)
          { repo_rp with _env := { repo_rp._env with reliable_dirs := reliable_dirs } }
          Fd_Cwd "a/b/c".toList false
        = some { real := "a/d/e/c".toList, lnks := ["a/b".toList], file_accessed := .Yes,
                 file_loc := .Repo, mapped := false }) := by
  refine ⟨?_, by decide, by decide⟩
  have h := solve_body_followed w rp no_follow st st1 rest hbody hfollow
  obtain ⟨a, _, c, d⟩ := handle_lnk_next w rp _ st1 _ _ h (by simpa [push_comp] using hfollow)
  have hp : lnk_path rp (push_comp rp { st with cur := after_comp rest } (next_comp rest))
      = lnk_path rp { st with real := st.real ++ '/' :: next_comp rest } := rfl
  rw [hp] at a c d
  refine ⟨a, ?_, ?_⟩
  · rw [c, if_neg hrel]
    simp [push_comp]
  · rw [d, if_neg hrel]
    simp only [List.drop_zero, push_comp]
    cases hac : after_comp rest with
    | none =>
      have : is_last rest = true := (after_comp_none_iff rest).mp hac
      simp [this]
    | some tail =>
      have : is_last rest = false := by
        cases hl : is_last rest with
        | false => rfl
        | true => rw [(after_comp_none_iff rest).mpr hl] at hac; cases hac
      simp [this]

/-- C5, witness : the pass through the body that reads `b` of `a/b/c`, `a/b` being a link to
`../d/e` ; the walk goes on from `/repo/a` on `../d/e/c`. -/
theorem C5_follow_witness :
    solve_body (ab_world "../d/e".toList) repo_rp false
        { cur := some "b/c".toList, real := "/repo/a".toList, in_repo := { ok := true, dvg := 5 } }
        "b/c".toList
      = some (.next { lnks := ["a/b".toList], n_lnks := 1, cur := some "../d/e/c".toList,
                      real := "/repo/a".toList, in_repo := { ok := true, dvg := 5 },
                      in_admin := { ok := false, dvg := 6 } })
    ∧ RealPath.solve 8 (ab_world "../d/e".toList) repo_rp Fd_Cwd "a/b/c".toList false
        = some { real := "d/e/c".toList, lnks := ["a/b".toList], file_accessed := .Yes,
                 file_loc := .Repo, mapped := false } :=
  ⟨by decide,
    (C5_follow_relative_lnk (ab_world "../d/e".toList) repo_rp false
      { cur := some "b/c".toList, real := "/repo/a".toList, in_repo := { ok := true, dvg := 5 } }
      { lnks := ["a/b".toList], n_lnks := 1, cur := some "../d/e/c".toList,
        real := "/repo/a".toList, in_repo := { ok := true, dvg := 5 },
        in_admin := { ok := false, dvg := 6 } }
      "b/c".toList (by decide) (by decide) (by decide)).2.1 false "../d/e".toList (by decide)⟩

/-! ## C3 : termination and the bound on links -/

theorem rfind_isSome_of_mem (s : List Char) (c : Char) (h : c ∈ s) : ∃ i, rfind s c = some i := by
  induction s with
  | nil => simp at h
  | cons x xs ih =>
    rw [rfind_cons]
    cases hr : rfind xs c with
    | some i => exact ⟨i + 1, rfl⟩
    | none =>
      simp only
      by_cases hx : x = c
      · exact ⟨0, by simp [hx]⟩
      · have : c ∈ xs := by
          rcases List.mem_cons.mp h with h1 | h1
          · exact absurd h1.symm hx
          · exact h1
        obtain ⟨i, hi⟩ := ih this
        rw [hi] at hr; cases hr

theorem abs_like_take (s : List Char) (h : abs_like s) (n : Nat) : abs_like (s.take n) := by
  cases n with
  | zero => left; simp
  | succ n =>
    cases s with
    | nil => left; rfl
    | cons c cs =>
      right
      rcases h with h | h
      · cases h
      · simpa using h

theorem record_lnk_lnks (rp : RealPath) (st st1 : SolveState) (nxt : List Char)
    (h : record_lnk rp st nxt = some st1) :
    st1.lnks = st.lnks
      ∨ (nxt ≠ [] ∧ st.is_in_tmp = false ∧ st.in_proc.ok = false
        ∧ ((st.in_repo.ok = true ∧ rp._root_dir_sz1 ≤ st.real.length
            ∧ st1.lnks = st.lnks ++ [st.real.drop rp._root_dir_sz1])
          ∨ (st.in_repo.ok = false ∧ ∃ l, st1.lnks = st.lnks ++ [l]))) := by
  unfold record_lnk at h
  by_cases h1 : (!st.is_in_tmp && !st.in_proc.ok) = true
  · rw [if_pos h1] at h
    have h1' : st.is_in_tmp = false ∧ st.in_proc.ok = false := by
      simpa using h1
    by_cases h2 : st.in_repo.ok = true
    · rw [if_pos h2] at h
      by_cases h3 : st.real.length < rp._root_dir_sz1
      · rw [if_pos h3] at h; cases h
      · rw [if_neg h3] at h
        by_cases h4 : (!nxt.isEmpty) = true
        · rw [if_pos h4] at h; cases h
          right
          refine ⟨?_, h1'.1, h1'.2, Or.inl ⟨h2, by omega, rfl⟩⟩
          intro hn; rw [hn] at h4; simp at h4
        · rw [if_neg h4] at h; cases h; left; rfl
    · rw [if_neg h2] at h
      cases h5 : rp._find_src_idx st.real with
      | none => rw [h5] at h; cases h
      | some i =>
        rw [h5] at h
        by_cases h4 : (!nxt.isEmpty) = true
        · simp only [h4, if_true] at h; cases h
          right
          refine ⟨?_, h1'.1, h1'.2, Or.inr ⟨by simpa using h2, _, rfl⟩⟩
          intro hn; rw [hn] at h4; simp at h4
        · simp only [h4, if_false] at h; cases h; left; rfl
  · rw [if_neg h1] at h; cases h; left; rfl

theorem record_lnk_grows (rp : RealPath) (st st1 : SolveState) (nxt : List Char)
    (h : record_lnk rp st nxt = some st1) : st.lnks <+: st1.lnks := by
  rcases record_lnk_lnks rp st st1 nxt h with h | ⟨_, _, _, ⟨_, _, h⟩ | ⟨_, l, h⟩⟩
  · rw [h]
  · rw [h]; exact List.prefix_append _ _
  · rw [h]; exact List.prefix_append _ _

theorem handle_lnk_cases (w : World) (rp : RealPath) (st : SolveState) (last : Bool)
    (prev : Nat) (habs : abs_like st.real) :
    (∃ r, handle_lnk w rp st last prev = .ret r)
      ∨ ∃ st1, handle_lnk w rp st last prev = .next st1 ∧ abs_like st1.real
        ∧ st.lnks <+: st1.lnks
        ∧ ((st1.n_lnks = st.n_lnks ∧ st1.cur = st.cur)
          ∨ (st1.n_lnks = st.n_lnks + 1 ∧ (st.n_lnks : Int) < _get_symloop_max w)) := by
  unfold handle_lnk
  simp only
  cases hr : record_lnk rp { st with mapped := st.mapped || (rp.has_tmp_view && st.is_in_tmp) }
      (w.read_lnk (lnk_path rp st)) with
  | none => exact Or.inr ⟨_, rfl, habs, List.prefix_refl _, Or.inl ⟨rfl, rfl⟩⟩
  | some st2 =>
    simp only
    obtain ⟨e1, e2, e3, _⟩ := record_lnk_some rp _ _ _ hr
    simp only at e1 e2 e3
    have hl : st.lnks <+: st2.lnks := record_lnk_grows rp { st with mapped := st.mapped || (rp.has_tmp_view && st.is_in_tmp) } _ _ hr
    cases hf : follow_lnk w rp st2 (w.read_lnk (lnk_path rp st)) last prev with
    | ret r => exact Or.inl ⟨r, rfl⟩
    | next st1 =>
      right
      refine ⟨st1, rfl, ?_⟩
      rcases follow_lnk_next w rp st2 st1 _ last prev hf with
        ⟨a, b, c, d, _⟩ | ⟨a, _, c, d, e, _⟩
      · exact ⟨by rw [b, e1]; exact habs, by rw [d]; exact hl,
          Or.inl ⟨by rw [a, e3], by rw [c, e2]⟩⟩
      · refine ⟨?_, by rw [d]; exact hl, Or.inr ⟨by rw [a, e3], by rw [← e3]; exact c⟩⟩
        rw [e]
        split_ifs
        · left; rfl
        · rw [e1]; exact abs_like_take _ habs _

theorem solve_body_cases (w : World) (rp : RealPath) (no_follow : Bool) (st : SolveState)
    (rest : List Char) (habs : abs_like st.real) :
    (∃ r, solve_body w rp no_follow st rest = some (.ret r))
      ∨ ∃ st1, solve_body w rp no_follow st rest = some (.next st1) ∧ abs_like st1.real
        ∧ st.lnks <+: st1.lnks
        ∧ ((st1.n_lnks = st.n_lnks ∧ st1.cur = after_comp rest)
          ∨ (st1.n_lnks = st.n_lnks + 1 ∧ (st.n_lnks : Int) < _get_symloop_max w)) := by
  by_cases h0 : next_comp rest = []
  · rw [solve_body_skip w rp no_follow st rest (Or.inl h0)]
    exact Or.inr ⟨_, rfl, habs, List.prefix_refl _, Or.inl ⟨rfl, rfl⟩⟩
  by_cases h1 : next_comp rest = ['.']
  · rw [solve_body_skip w rp no_follow st rest (Or.inr h1)]
    exact Or.inr ⟨_, rfl, habs, List.prefix_refl _, Or.inl ⟨rfl, rfl⟩⟩
  by_cases h2 : next_comp rest = ['.', '.']
  · rw [solve_body_dotdot w rp no_follow st rest h2]
    right
    cases hre : st.real with
    | nil =>
      refine ⟨{ st with cur := after_comp rest }, by simp [hre], ?_, List.prefix_refl _,
        Or.inl ⟨rfl, rfl⟩⟩
      exact habs
    | cons c cs =>
      have hc : c = '/' := by
        rcases habs with h | h
        · rw [hre] at h; cases h
        · rw [hre] at h; simpa using h
      obtain ⟨i, hi⟩ := rfind_isSome_of_mem (c :: cs) '/' (by simp [hc])
      refine ⟨{ st with cur := after_comp rest, real := (c :: cs).take i }, by simp [hi, hre], ?_,
        List.prefix_refl _, Or.inl ⟨rfl, rfl⟩⟩
      exact abs_like_take _ (Or.inr (by simp [hc])) _
  · rw [solve_body_plain w rp no_follow st rest h0 h1 h2]
    have hp : abs_like (push_comp rp { st with cur := after_comp rest } (next_comp rest)).real := by
      right
      show (st.real ++ '/' :: next_comp rest).head? = some '/'
      rcases habs with h | h
      · rw [h]; rfl
      · cases hre : st.real with
        | nil => rfl
        | cons c cs => rw [hre] at h; simpa using h
    split_ifs
    · rcases handle_lnk_cases w rp _ (is_last rest) st.real.length hp with ⟨r, hr⟩ | ⟨st1, a, b, c, d⟩
      · exact Or.inl ⟨r, by rw [hr]⟩
      · exact Or.inr ⟨st1, by rw [a], b, c, d⟩
    · exact Or.inr ⟨_, rfl, hp, List.prefix_refl _, Or.inl ⟨rfl, rfl⟩⟩
theorem solve_loop_succ (w : World) (rp : RealPath) (no_follow : Bool) (fuel : Nat) :
    ∀ (st : SolveState) (e : LoopExit), solve_loop w rp no_follow fuel st = some e →
      solve_loop w rp no_follow (fuel + 1) st = some e := by
  induction fuel with
  | zero => intro _ _ h; cases h
  | succ fuel ih =>
    intro st e h
    rw [solve_loop] at h ⊢
    cases hc : st.cur with
    | none => rw [hc] at h; exact h
    | some rest =>
      rw [hc] at h
      simp only at h ⊢
      cases hb : solve_body w rp no_follow st rest with
      | none => rw [hb] at h; cases h
      | some fl =>
        rw [hb] at h
        cases fl with
        | ret r => exact h
        | next st1 => exact ih _ _ h

theorem solve_loop_mono (w : World) (rp : RealPath) (no_follow : Bool) (st : SolveState)
    (e : LoopExit) (fuel fuel1 : Nat) (hle : fuel ≤ fuel1)
    (h : solve_loop w rp no_follow fuel st = some e) :
    solve_loop w rp no_follow fuel1 st = some e := by
  induction hle with
  | refl => exact h
  | step _ ih => exact solve_loop_succ w rp no_follow _ st e ih

theorem solve_loop_step (w : World) (rp : RealPath) (no_follow : Bool) (fuel : Nat)
    (st st1 : SolveState) (rest : List Char) (hc : st.cur = some rest)
    (hb : solve_body w rp no_follow st rest = some (.next st1)) :
    solve_loop w rp no_follow (fuel + 1) st = solve_loop w rp no_follow fuel (solve_incr rp st1) := by
  rw [solve_loop, hc]
  simp only [hb]

theorem cur_size_after_comp (rest : List Char) : cur_size (after_comp rest) ≤ rest.length := by
  cases h : after_comp rest with
  | none => simp [cur_size]
  | some r =>
    have := after_comp_length rest r h
    simp only [cur_size]; omega

theorem solve_loop_terminates (w : World) (rp : RealPath) (no_follow : Bool) (k : Nat) :
    ∀ (n : Nat) (st : SolveState), abs_like st.real →
      _get_symloop_max w - (st.n_lnks : Int) ≤ (k : Int) → cur_size st.cur ≤ n →
      ∃ fuel e, solve_loop w rp no_follow fuel st = some e := by
  induction k using Nat.strong_induction_on with
  | _ k ihk =>
    intro n
    induction n with
    | zero =>
      intro st _ _ hn
      cases hc : st.cur with
      | none => exact ⟨1, .fall st, by rw [solve_loop, hc]⟩
      | some r => rw [hc] at hn; simp [cur_size] at hn
    | succ n ihn =>
      intro st habs hk hn
      cases hc : st.cur with
      | none => exact ⟨1, .fall st, by rw [solve_loop, hc]⟩
      | some rest =>
        rw [hc] at hn
        simp only [cur_size] at hn
        rcases solve_body_cases w rp no_follow st rest habs with
          ⟨r, hr⟩ | ⟨st1, hb, habs1, _, ⟨hn1, hc1⟩ | ⟨hn1, hlt⟩⟩
        · exact ⟨1, .ret r, by rw [solve_loop, hc]; simp only [hr]⟩
        · obtain ⟨fuel, e, he⟩ := ihn (solve_incr rp st1) habs1
            (by rw [(solve_incr_real rp st1).2.2.2.1, hn1]; exact hk)
            (by
              rw [(solve_incr_real rp st1).2.1, hc1]
              have := cur_size_after_comp rest
              omega)
          exact ⟨fuel + 1, e, by rw [solve_loop_step w rp no_follow fuel st st1 rest hc hb, he]⟩
        · have hk1 : 1 ≤ k := by omega
          obtain ⟨fuel, e, he⟩ := ihk (k - 1) (by omega) (cur_size (solve_incr rp st1).cur)
            (solve_incr rp st1) habs1
            (by rw [(solve_incr_real rp st1).2.2.2.1, hn1]; push_cast; omega) (le_refl _)
          exact ⟨fuel + 1, e, by rw [solve_loop_step w rp no_follow fuel st st1 rest hc hb, he]⟩

theorem solve_start_abs_like (w : World) (rp : RealPath) (at_ : Int) (file : List Char)
    (st0 : SolveState) (h : solve_start w rp at_ file = some st0) :
    abs_like st0.real ∧ st0.n_lnks = 0 ∧ st0.lnks = [] := by
  unfold solve_start at h
  simp only [Option.map_eq_some'] at h
  obtain ⟨real, hr, hst⟩ := h
  subst hst
  refine ⟨?_, rfl, rfl⟩
  show abs_like real
  split_ifs at hr with h1 h2 h3
  · cases hr; left; rfl
  · cases hr; left; rfl
  · cases hr
    simp only [is_abs, Bool.not_eq_true', Bool.or_eq_false_iff, not_and, Bool.not_eq_false] at h2
    by_cases he : (solve_anchor w rp at_).isEmpty = true
    · left; exact List.isEmpty_iff.mp he
    · right
      have := h2 (by simpa using he)
      simpa using this

theorem follow_lnk_ret (w : World) (rp : RealPath) (st : SolveState) (nxt : List Char)
    (last : Bool) (prev : Nat) (r : SolveReport) (h : follow_lnk w rp st nxt last prev = .ret r) :
    nxt ≠ [] ∧ _get_symloop_max w ≤ (st.n_lnks : Int)
      ∧ r = { real := [], lnks := st.lnks, file_accessed := .No, file_loc := .Ext,
              mapped := false } := by
  unfold follow_lnk at h
  by_cases h0 : nxt.isEmpty = true
  · rw [if_pos h0] at h; cases h
  · rw [if_neg h0] at h
    have hn : nxt ≠ [] := fun hh => h0 (by rw [hh]; rfl)
    by_cases h1 : (st.n_lnks : Int) ≥ _get_symloop_max w
    · rw [if_pos h1] at h; cases h
      exact ⟨hn, h1, rfl⟩
    · rw [if_neg h1] at h
      simp only at h
      split_ifs at h

theorem solve_body_ret (w : World) (rp : RealPath) (no_follow : Bool) (st : SolveState)
    (rest : List Char) (r : SolveReport)
    (h : solve_body w rp no_follow st rest = some (.ret r)) :
    w.read_lnk (lnk_path rp { st with real := st.real ++ '/' :: next_comp rest }) ≠ []
      ∧ _get_symloop_max w ≤ (st.n_lnks : Int)
      ∧ ∃ st2, record_lnk rp
            { push_comp rp { st with cur := after_comp rest } (next_comp rest) with
              mapped := st.mapped || (rp.has_tmp_view && st.is_in_tmp) }
            (w.read_lnk (lnk_path rp { st with real := st.real ++ '/' :: next_comp rest }))
          = some st2
        ∧ r = { real := [], lnks := st2.lnks, file_accessed := .No, file_loc := .Ext,
                mapped := false } := by
  by_cases h0 : next_comp rest = []
  · rw [solve_body_skip w rp no_follow st rest (Or.inl h0)] at h; cases h
  by_cases h1 : next_comp rest = ['.']
  · rw [solve_body_skip w rp no_follow st rest (Or.inr h1)] at h; cases h
  by_cases h2 : next_comp rest = ['.', '.']
  · rw [solve_body_dotdot w rp no_follow st rest h2] at h
    split_ifs at h
    · cases hr : rfind st.real '/' with
      | none => rw [hr] at h; cases h
      | some i => rw [hr] at h; cases h
    · cases h
  · rw [solve_body_plain w rp no_follow st rest h0 h1 h2] at h
    split_ifs at h
    · have h := Option.some.inj h
      unfold handle_lnk at h
      simp only at h
      cases hr : record_lnk rp
          { push_comp rp { st with cur := after_comp rest } (next_comp rest) with
            mapped := st.mapped || (rp.has_tmp_view && st.is_in_tmp) }
          (w.read_lnk (lnk_path rp { st with real := st.real ++ '/' :: next_comp rest })) with
      | none =>
        exfalso
        have hr' := hr
        simp only [push_comp, lnk_path] at hr' h
        rw [hr'] at h
        cases h
      | some st2 =>
        have hr' := hr
        simp only [push_comp, lnk_path] at hr' h
        rw [hr'] at h
        simp only at h
        obtain ⟨a, b, c⟩ := follow_lnk_ret w rp st2 _ _ _ r h
        obtain ⟨_, _, e3, _⟩ := record_lnk_some rp _ _ _ hr
        refine ⟨a, ?_, st2, rfl, c⟩
        rw [e3] at b
        exact b
    · cases h

theorem solve_loop_bound (w : World) (rp : RealPath) (no_follow : Bool) (fuel : Nat) :
    ∀ (st0 : SolveState) (e : LoopExit), abs_like st0.real →
      (st0.n_lnks : Int) ≤ _get_symloop_max w →
      solve_loop w rp no_follow fuel st0 = some e →
      match e with
      | .fall st => (st.n_lnks : Int) ≤ _get_symloop_max w
      | .ret r => r.real = [] ∧ r.file_accessed = .No ∧ r.file_loc = .Ext
          ∧ r.mapped = false := by
  induction fuel with
  | zero => intro _ _ _ _ h; cases h
  | succ fuel ih =>
    intro st0 e habs hn h
    rw [solve_loop] at h
    cases hc : st0.cur with
    | none => rw [hc] at h; cases h; exact hn
    | some rest =>
      rw [hc] at h
      simp only at h
      cases hb : solve_body w rp no_follow st0 rest with
      | none => rw [hb] at h; cases h
      | some fl =>
        rw [hb] at h
        cases fl with
        | ret r =>
          cases h
          obtain ⟨_, _, st2, _, hr⟩ := solve_body_ret w rp no_follow st0 rest r hb
          rw [hr]; exact ⟨rfl, rfl, rfl, rfl⟩
        | next st1 =>
          simp only at h
          rcases solve_body_cases w rp no_follow st0 rest habs with
            ⟨r, hr⟩ | ⟨st1', hb', habs1, _, hcase⟩
          · rw [hr] at hb; cases hb
          · rw [hb'] at hb
            cases hb
            apply ih (solve_incr rp st1) e habs1 _ h
            rw [(solve_incr_real rp st1).2.2.2.1]
            rcases hcase with ⟨a, _⟩ | ⟨a, b⟩
            · rw [a]; exact hn
            · rw [a]; push_cast; omega

theorem solve_loop_reach (w : World) (rp : RealPath) (no_follow : Bool) :
    ∀ (k : Nat) (st0 st : SolveState) (f : Nat),
      solve_reach w rp no_follow k st0 = some st →
      solve_loop w rp no_follow (k + f) st0 = solve_loop w rp no_follow f st := by
  intro k
  induction k with
  | zero =>
    intro st0 st f h
    rw [solve_reach] at h
    cases h
    rw [Nat.zero_add]
  | succ k ih =>
    intro st0 st f h
    rw [solve_reach] at h
    cases hc : st0.cur with
    | none => rw [hc] at h; cases h
    | some rest =>
      rw [hc] at h
      simp only at h
      cases hb : solve_body w rp no_follow st0 rest with
      | none => rw [hb] at h; cases h
      | some fl =>
        cases fl with
        | ret r => rw [hb] at h; cases h
        | next st1 =>
          rw [hb] at h
          simp only at h
          have e : k + 1 + f = (k + f) + 1 := by omega
          rw [e, solve_loop_step w rp no_follow (k + f) st0 st1 rest hc hb]
          exact ih _ _ f h

/-- A link that is wanted, read with a non-empty target and recorded : at the bound on links
the body returns, below the bound the link is followed. -/
theorem solve_body_at_bound (w : World) (rp : RealPath) (no_follow : Bool)
    (st st2 : SolveState) (rest : List Char)
    (h0 : next_comp rest ≠ []) (h1 : next_comp rest ≠ ['.']) (h2 : next_comp rest ≠ ['.', '.'])
    (hw : lnk_wanted w rp no_follow
        (push_comp rp { st with cur := after_comp rest } (next_comp rest)) (is_last rest) = true)
    (hn : w.read_lnk (lnk_path rp { st with real := st.real ++ '/' :: next_comp rest }) ≠ [])
    (hr : record_lnk rp
        { push_comp rp { st with cur := after_comp rest } (next_comp rest) with
          mapped := st.mapped || (rp.has_tmp_view && st.is_in_tmp) }
        (w.read_lnk (lnk_path rp { st with real := st.real ++ '/' :: next_comp rest }))
      = some st2) :
    (_get_symloop_max w ≤ (st.n_lnks : Int) →
        solve_body w rp no_follow st rest
          = some (.ret { real := [], lnks := st2.lnks, file_accessed := .No, file_loc := .Ext,
                         mapped := false }))
      ∧ ((st.n_lnks : Int) < _get_symloop_max w →
          ∃ st1, solve_body w rp no_follow st rest = some (.next st1)
            ∧ st1.n_lnks = st.n_lnks + 1) := by
  have hr1 : record_lnk rp
        { push_comp rp { st with cur := after_comp rest } (next_comp rest) with
          mapped := (push_comp rp { st with cur := after_comp rest } (next_comp rest)).mapped
            || (rp.has_tmp_view
                && (push_comp rp { st with cur := after_comp rest } (next_comp rest)).is_in_tmp) }
        (w.read_lnk (lnk_path rp
          (push_comp rp { st with cur := after_comp rest } (next_comp rest))))
      = some st2 := hr
  have hb : solve_body w rp no_follow st rest
      = some (follow_lnk w rp st2
          (w.read_lnk (lnk_path rp { st with real := st.real ++ '/' :: next_comp rest }))
          (is_last rest) st.real.length) := by
    rw [solve_body_plain w rp no_follow st rest h0 h1 h2, if_pos hw]
    unfold handle_lnk
    simp only [hr1]
    rfl
  have hn2 : st2.n_lnks = st.n_lnks := (record_lnk_some rp _ _ _ hr).2.2.1
  have he : (w.read_lnk (lnk_path rp { st with real := st.real ++ '/' :: next_comp rest })).isEmpty
      = false := by
    cases hh : w.read_lnk (lnk_path rp { st with real := st.real ++ '/' :: next_comp rest }) with
    | nil => exact absurd hh hn
    | cons => rfl
  refine ⟨fun hge => ?_, fun hlt => ?_⟩
  · rw [hb]
    unfold follow_lnk
    rw [he, hn2]
    simp only [Bool.false_eq_true, if_false]
    rw [if_pos hge]
  · rw [hb]
    unfold follow_lnk
    rw [he, hn2]
    simp only [Bool.false_eq_true, if_false]
    rw [if_neg (by omega)]
    split_ifs <;> exact ⟨_, rfl, rfl⟩

/-- C3 : `RealPath::solve` terminates, whatever the input and the world : from some number of
iterations of its loop on, it returns one and the same report. The count `n_lnks` of followed
links never exceeds `_get_symloop_max()` when the loop is left. A `return` from within the
loop is taken when a link with a non-empty target is read while `n_lnks` has reached the
bound ; the report then holds an empty `real` and, as `lnks`, the links recorded so far, the
link just read being recorded as any other is. Conversely, when the body of the loop handles a
link that it reads with a non-empty target and records : if `n_lnks` has reached the bound, the
body returns this very report, and if it has not, the link is followed and counted ; and when
this happens at the bound after `k` passes of the walk of `solve`, `solve` returns this report
as soon as its loop is given more than `k` iterations. -/
theorem C3_solve_terminates (w : World) (rp : RealPath) (at_ : Int) (file : List Char)
    (no_follow : Bool) :
    (∃ fuel r, ∀ fuel1, fuel ≤ fuel1 → RealPath.solve fuel1 w rp at_ file no_follow = some r)
    ∧ (∀ fuel st0 st, solve_start w rp at_ file = some st0 →
        solve_loop w rp no_follow fuel st0 = some (.fall st) →
        (st.n_lnks : Int) ≤ _get_symloop_max w)
    ∧ (∀ fuel st0 r, solve_start w rp at_ file = some st0 →
        solve_loop w rp no_follow fuel st0 = some (.ret r) →
        r.real = [] ∧ r.file_accessed = .No ∧ r.file_loc = .Ext ∧ r.mapped = false)
    ∧ (∀ st rest r, solve_body w rp no_follow st rest = some (.ret r) →
        w.read_lnk (lnk_path rp { st with real := st.real ++ '/' :: next_comp rest }) ≠ []
        ∧ _get_symloop_max w ≤ (st.n_lnks : Int)
        ∧ ∃ st2, record_lnk rp
              { push_comp rp { st with cur := after_comp rest } (next_comp rest) with
                mapped := st.mapped || (rp.has_tmp_view && st.is_in_tmp) }
              (w.read_lnk (lnk_path rp { st with real := st.real ++ '/' :: next_comp rest }))
            = some st2
          ∧ r = { real := [], lnks := st2.lnks, file_accessed := .No, file_loc := .Ext,
                  mapped := false })
    ∧ (∀ st rest st2,
        next_comp rest ≠ [] → next_comp rest ≠ ['.'] → next_comp rest ≠ ['.', '.'] →
        lnk_wanted w rp no_follow
            (push_comp rp { st with cur := after_comp rest } (next_comp rest)) (is_last rest)
          = true →
        w.read_lnk (lnk_path rp { st with real := st.real ++ '/' :: next_comp rest }) ≠ [] →
        record_lnk rp
            { push_comp rp { st with cur := after_comp rest } (next_comp rest) with
              mapped := st.mapped || (rp.has_tmp_view && st.is_in_tmp) }
            (w.read_lnk (lnk_path rp { st with real := st.real ++ '/' :: next_comp rest }))
          = some st2 →
        (_get_symloop_max w ≤ (st.n_lnks : Int) →
            solve_body w rp no_follow st rest
              = some (.ret { real := [], lnks := st2.lnks, file_accessed := .No,
                             file_loc := .Ext, mapped := false }))
        ∧ ((st.n_lnks : Int) < _get_symloop_max w →
            ∃ st1, solve_body w rp no_follow st rest = some (.next st1)
              ∧ st1.n_lnks = st.n_lnks + 1))
    ∧ (∀ k st0 st rest st2 fuel, solve_start w rp at_ file = some st0 →
        solve_reach w rp no_follow k st0 = some st → st.cur = some rest →
        next_comp rest ≠ [] → next_comp rest ≠ ['.'] → next_comp rest ≠ ['.', '.'] →
        lnk_wanted w rp no_follow
            (push_comp rp { st with cur := after_comp rest } (next_comp rest)) (is_last rest)
          = true →
        w.read_lnk (lnk_path rp { st with real := st.real ++ '/' :: next_comp rest }) ≠ [] →
        record_lnk rp
            { push_comp rp { st with cur := after_comp rest } (next_comp rest) with
              mapped := st.mapped || (rp.has_tmp_view && st.is_in_tmp) }
            (w.read_lnk (lnk_path rp { st with real := st.real ++ '/' :: next_comp rest }))
          = some st2 →
        _get_symloop_max w ≤ (st.n_lnks : Int) → k < fuel →
        RealPath.solve fuel w rp at_ file no_follow
          = some { real := [], lnks := st2.lnks, file_accessed := .No, file_loc := .Ext,
                   mapped := false }) := by
  have hmax : (0 : Int) ≤ _get_symloop_max w := by
    unfold _get_symloop_max
    split_ifs with h
    · exact h
    · decide
  refine ⟨?_, ?_, ?_, fun st rest r h => solve_body_ret w rp no_follow st rest r h,
    fun st rest st2 h0 h1 h2 hw hn hr =>
      solve_body_at_bound w rp no_follow st st2 rest h0 h1 h2 hw hn hr, ?_⟩
  · cases hs : solve_start w rp at_ file with
    | none =>
      exact ⟨0, {}, fun fuel1 _ => by unfold RealPath.solve; rw [hs]⟩
    | some st0 =>
      obtain ⟨habs, hn0, _⟩ := solve_start_abs_like w rp at_ file st0 hs
      obtain ⟨fuel, e, he⟩ := solve_loop_terminates w rp no_follow (_get_symloop_max w).toNat
        (cur_size st0.cur) st0 habs (by rw [hn0]; simp) (le_refl _)
      cases e with
      | fall st =>
        refine ⟨fuel, solve_finish rp no_follow st, fun fuel1 hle => ?_⟩
        unfold RealPath.solve
        simp only [hs, solve_loop_mono w rp no_follow st0 _ fuel fuel1 hle he]
      | ret r =>
        refine ⟨fuel, r, fun fuel1 hle => ?_⟩
        unfold RealPath.solve
        simp only [hs, solve_loop_mono w rp no_follow st0 _ fuel fuel1 hle he]
  · intro fuel st0 st hs hl
    obtain ⟨habs, hn0, _⟩ := solve_start_abs_like w rp at_ file st0 hs
    exact solve_loop_bound w rp no_follow fuel st0 _ habs (by rw [hn0]; exact_mod_cast hmax) hl
  · intro fuel st0 r hs hl
    obtain ⟨habs, hn0, _⟩ := solve_start_abs_like w rp at_ file st0 hs
    exact solve_loop_bound w rp no_follow fuel st0 _ habs (by rw [hn0]; exact_mod_cast hmax) hl
  · intro k st0 st rest st2 fuel hs hreach hc h0 h1 h2 hw hn hr hge hk
    have hb := (solve_body_at_bound w rp no_follow st st2 rest h0 h1 h2 hw hn hr).1 hge
    have hl : solve_loop w rp no_follow (k + 1) st0
        = some (.ret { real := [], lnks := st2.lnks, file_accessed := .No, file_loc := .Ext,
                       mapped := false }) := by
      rw [solve_loop_reach w rp no_follow k st0 st 1 hreach, solve_loop, hc]
      simp only [hb]
    unfold RealPath.solve
    simp only [hs, solve_loop_mono w rp no_follow st0 _ (k + 1) fuel (by omega) hl]

/-- C3, witness : `/repo/a` being a link to itself and the bound on links being 2, the walk of
`a` follows the link twice, then reads it at the bound : `solve` returns an empty `real` and
the link as recorded three times. -/
theorem C3_loop_witness :
    RealPath.solve 8 loop_world repo_rp Fd_Cwd "a".toList false
      = some { real := [], lnks := ["a".toList, "a".toList, "a".toList], file_accessed := .No,
               file_loc := .Ext, mapped := false } :=
  (C3_solve_terminates loop_world repo_rp Fd_Cwd "a".toList false).2.2.2.2.2 2
    { cur := some "a".toList, real := "/repo".toList, in_repo := { ok := true, dvg := 5 },
      in_tmp := { ok := false, dvg := 1 }, in_admin := { ok := false, dvg := 5 },
      in_proc := { ok := false, dvg := 1 } }
    { lnks := ["a".toList, "a".toList], cur := some "a".toList, real := "/repo".toList,
      in_repo := { ok := true, dvg := 5 }, in_tmp := { ok := false, dvg := 1 },
      in_admin := { ok := false, dvg := 6 }, in_proc := { ok := false, dvg := 1 }, n_lnks := 2 }
    "a".toList
    { lnks := ["a".toList, "a".toList, "a".toList], cur := none, real := "/repo/a".toList,
      in_repo := { ok := true, dvg := 5 }, in_tmp := { ok := false, dvg := 1 },
      in_admin := { ok := false, dvg := 6 }, in_proc := { ok := false, dvg := 1 }, n_lnks := 2 }
    8 (by decide) (by decide) (by decide) (by decide) (by decide) (by decide) (by decide)
    (by decide) (by decide) (by decide) (by decide)

/-! ## C6 : the report of a path under tmp -/

theorem Dvg.scan_none (domain chk : List Char) (n : Nat) : ∀ (start : Nat),
    (∀ i, start ≤ i → i < start + n → domain.getD i '\x00' = chk.getD i '\x00') →
    Dvg.scan domain chk n start = none := by
  induction n with
  | zero => intro _ _; rfl
  | succ n ih =>
    intro start h
    rw [Dvg.scan]
    have h0 := h start (le_refl _) (by omega)
    simp only [h0, ne_eq, not_true_eq_false, if_false]
    exact ih (start + 1) (fun i h1 h2 => h i (by omega) (by omega))

theorem getD_eq_of_starts (domain chk : List Char) (h : domain <+: chk) (i : Nat)
    (hi : i < domain.length) : domain.getD i '\x00' = chk.getD i '\x00' := by
  obtain ⟨t, ht⟩ := h
  subst ht
  rw [List.getD_eq_getElem?_getD, List.getD_eq_getElem?_getD, List.getElem?_append_left hi]

/-- Completeness of `_Dvg::update`, whatever the object holds before : a `chk` that is the
domain or lies inside it is seen as such. -/
theorem Dvg.update_ok_of_inside (d : Dvg) (domain chk : List Char)
    (h : at_or_inside domain chk) : (d.update domain chk).ok = true := by
  have hpre : domain <+: chk := by
    rcases h with h | h
    · rw [h]
    · exact (List.prefix_append domain ['/']).trans h
  have hlen : domain.length ≤ chk.length := hpre.length_le
  unfold Dvg.update
  simp only [hlen, decide_True, if_true]
  rw [Dvg.scan_none domain chk _ d.dvg (fun i _ h2 => getD_eq_of_starts domain chk hpre i (by omega))]
  simp only
  rcases h with h | h
  · simp [h]
  · obtain ⟨t, ht⟩ := h
    have : domain.length < chk.length := by rw [← ht]; simp
    simp only [this, if_true]
    rw [← ht, List.getD_eq_getElem?_getD, List.append_assoc,
      List.getElem?_append_right (le_refl _)]
    simp

theorem tmp_synced_incr (rp : RealPath) (st : SolveState) : tmp_synced rp (solve_incr rp st) :=
  ⟨st.in_tmp, rfl, rfl⟩

theorem tmp_synced_start (w : World) (rp : RealPath) (at_ : Int) (file : List Char)
    (st0 : SolveState) (h : solve_start w rp at_ file = some st0) : tmp_synced rp st0 := by
  unfold solve_start at h
  simp only [Option.map_eq_some'] at h
  obtain ⟨real, _, hst⟩ := h
  subst hst
  exact ⟨{}, rfl, rfl⟩

theorem solve_loop_fall_synced (w : World) (rp : RealPath) (no_follow : Bool) (fuel : Nat) :
    ∀ (st0 st : SolveState), tmp_synced rp st0 →
      solve_loop w rp no_follow fuel st0 = some (.fall st) → tmp_synced rp st := by
  induction fuel with
  | zero => intro _ _ _ h; cases h
  | succ fuel ih =>
    intro st0 st hs h
    rw [solve_loop] at h
    cases hc : st0.cur with
    | none =>
      rw [hc] at h
      cases h; exact hs
    | some rest =>
      rw [hc] at h
      simp only at h
      cases hb : solve_body w rp no_follow st0 rest with
      | none => rw [hb] at h; cases h
      | some fl =>
        rw [hb] at h
        cases fl with
        | ret r => cases h
        | next st1 => exact ih _ _ (tmp_synced_incr rp st1) h

theorem init_tmp_view (AdminDir : List Char) (rpe : RealPathEnv) (cwd : List Char) (p : Int)
    (rp : RealPath) (h : RealPath.init AdminDir rpe cwd p = some rp) :
    rp._env = rpe ∧ rp.has_tmp_view = !rpe.tmp_view.isEmpty
      ∧ rp._tmp_view = (if !rpe.tmp_view.isEmpty then rpe.tmp_view else rpe.tmp_dir)
      ∧ rp._admin_dir = rpe.root_dir ++ '/' :: AdminDir
      ∧ rp._root_dir_sz1 = rpe.root_dir.length + 1 ∧ rp.cwd_ = cwd ∧ rp.pid = p := by
  unfold RealPath.init at h
  split_ifs at h
  simp only [Option.map_eq_some'] at h
  obtain ⟨abs, _, hrp⟩ := h
  subst hrp
  exact ⟨rfl, rfl, rfl, rfl, rfl, rfl, rfl⟩

/-- C6, as amended : when a tmp view is configured and the path resolved by `RealPath::solve`,
which is in view space, is the tmp view or lies inside it, the report is in `Tmp`, its `mapped`
flag is true and its `real` is in disk form : `tmp_dir` followed by what follows `tmp_view` in
the resolved path. -/
theorem C6_tmp_real_in_disk_form (AdminDir : List Char) (rpe : RealPathEnv) (cwd : List Char)
    (p : Int) (rp : RealPath) (w : World) (at_ : Int) (file : List Char) (no_follow : Bool)
    (fuel : Nat) (st0 st : SolveState)
    (hinit : RealPath.init AdminDir rpe cwd p = some rp)
    (hview : rpe.tmp_view ≠ [])
    (hstart : solve_start w rp at_ file = some st0)
    (hloop : solve_loop w rp no_follow fuel st0 = some (.fall st))
    (hin : at_or_inside rpe.tmp_view st.real) :
    RealPath.solve fuel w rp at_ file no_follow =
      some { real := rpe.tmp_dir ++ st.real.drop rpe.tmp_view.length, lnks := st.lnks,
             file_accessed := .No, file_loc := .Tmp, mapped := true } := by
  obtain ⟨henv, hhas, htv, _⟩ := init_tmp_view AdminDir rpe cwd p rp hinit
  have hne : rpe.tmp_view.isEmpty = false := by
    cases h : rpe.tmp_view with
    | nil => exact absurd h hview
    | cons => rfl
  simp only [hne, Bool.not_false, if_true] at hhas htv
  obtain ⟨d, hd, his⟩ := solve_loop_fall_synced w rp no_follow fuel st0 st
    (tmp_synced_start w rp at_ file st0 hstart) hloop
  have hok : st.in_tmp.ok = true := by
    rw [hd, htv]; exact Dvg.update_ok_of_inside d _ _ hin
  have his' : st.is_in_tmp = true := by rw [his, htv, hne, hok]; rfl
  unfold RealPath.solve
  simp only [hstart, hloop]
  unfold solve_finish
  simp [his', hhas, henv, htv]

/-- C6, witness : the tmp dir `/disk` seen as `/view`, the path `/view/a/../x`. -/
theorem C6_tmp_witness :
    RealPath.solve 8 no_lnk_world view_rp Fd_Cwd "/view/a/../x".toList false =
      some { real := "/disk/x".toList, lnks := [], file_accessed := .No, file_loc := .Tmp,
             mapped := true } :=
  C6_tmp_real_in_disk_form "LMAKE".toList
    { lnk_support := .Full, root_dir := "/repo".toList, tmp_dir := "/disk".toList,
      tmp_view := "/view".toList }
    "/repo".toList 0 view_rp no_lnk_world Fd_Cwd "/view/a/../x".toList false 8
    ((solve_start no_lnk_world view_rp Fd_Cwd "/view/a/../x".toList).getD {})
    { real := "/view/x".toList, exists_ := true, cur := none,
      in_repo := { ok := false, dvg := 1 }, in_tmp := { ok := true, dvg := 5 },
      in_admin := { ok := false, dvg := 1 }, in_proc := { ok := false, dvg := 1 },
      is_in_tmp := true, mapped := true }
    (by decide) (by decide) (by decide) (by decide)
    (Or.inr ⟨"x".toList, by decide⟩)

/-- C6, as stated, fails : with the tmp dir `/disk` seen as `/view`, the path `/view/x` lies
under tmp and the `real` of its report is `/disk/x`, which does not start with the view. -/
theorem C6_view_form_counterexample :
    RealPath.solve 8 no_lnk_world view_rp Fd_Cwd "/view/x".toList false =
        some { real := "/disk/x".toList, lnks := [], file_accessed := .No, file_loc := .Tmp,
               mapped := true }
      ∧ starts_with "/disk/x".toList view_rp._env.tmp_view = false := by
  decide

/-! ## C4 : the links that are recorded -/

theorem Dvg.scan_some (domain chk : List Char) (n : Nat) : ∀ (start i : Nat),
    Dvg.scan domain chk n start = some i →
    start ≤ i ∧ i < start + n
      ∧ ∀ j, start ≤ j → j < i → domain.getD j '\x00' = chk.getD j '\x00' := by
  induction n with
  | zero => intro _ _ h; cases h
  | succ n ih =>
    intro start i h
    rw [Dvg.scan] at h
    by_cases hne : domain.getD start '\x00' ≠ chk.getD start '\x00'
    · rw [if_pos hne] at h
      cases h
      exact ⟨le_refl _, by omega, fun j h1 h2 => by omega⟩
    · rw [if_neg hne] at h
      obtain ⟨a, b, c⟩ := ih (start + 1) i h
      refine ⟨by omega, by omega, fun j h1 h2 => ?_⟩
      by_cases hj : j = start
      · rw [hj]; exact not_not.mp hne
      · exact c j (by omega) h2

theorem Dvg.scan_none_agree (domain chk : List Char) (n : Nat) : ∀ (start : Nat),
    Dvg.scan domain chk n start = none →
    ∀ j, start ≤ j → j < start + n → domain.getD j '\x00' = chk.getD j '\x00' := by
  induction n with
  | zero => intro _ _ j h1 h2; omega
  | succ n ih =>
    intro start h j h1 h2
    rw [Dvg.scan] at h
    by_cases hne : domain.getD start '\x00' ≠ chk.getD start '\x00'
    · rw [if_pos hne] at h; cases h
    · rw [if_neg hne] at h
      by_cases hj : j = start
      · rw [hj]; exact not_not.mp hne
      · exact ih (start + 1) h j (by omega) (by omega)

theorem prefix_of_getD (domain chk : List Char) (hlen : domain.length ≤ chk.length)
    (h : ∀ j, j < domain.length → domain.getD j '\x00' = chk.getD j '\x00') :
    domain <+: chk := by
  rw [List.prefix_iff_eq_take]
  apply List.ext_getElem
  · simp [hlen]
  · intro i h1 h2
    have := h i h1
    rw [List.getD_eq_getElem _ _ h1, List.getD_eq_getElem _ _ (by omega)] at this
    rw [this, List.getElem_take]

theorem getD_eq_of_comparable (a b : List Char) (h : a <+: b ∨ b <+: a) (j : Nat)
    (ha : j < a.length) (hb : j < b.length) : a.getD j '\x00' = b.getD j '\x00' := by
  rcases h with h | h
  · exact getD_eq_of_starts a b h j ha
  · exact (getD_eq_of_starts b a h j hb).symm

/-- Soundness of `_Dvg::update` under its contract : when the object was left by an update
against `chk_old` and `chk` is `chk_old` lengthened or shortened, `ok` tells that `chk` is the
domain or lies inside it. -/
theorem Dvg.update_sound (d : Dvg) (domain chk_old chk : List Char)
    (hd : d.dvg ≤ chk_old.length) (hold : d.agrees domain chk_old)
    (hrel : chk <+: chk_old ∨ chk_old <+: chk) :
    (d.update domain chk).dvg ≤ chk.length ∧ (d.update domain chk).agrees domain chk
      ∧ ((d.update domain chk).ok = true → at_or_inside domain chk) := by
  have hA : ∀ j, j < d.dvg → j < domain.length → j < chk.length →
      domain.getD j '\x00' = chk.getD j '\x00' := by
    intro j h1 h2 h3
    rw [hold j h1 h2 (by omega)]
    exact (getD_eq_of_comparable chk chk_old hrel j h3 (by omega)).symm
  have hupd : ∀ m : Nat, (m = if domain.length ≤ chk.length then domain.length else chk.length) →
      d.update domain chk =
        match Dvg.scan domain chk (m - d.dvg) d.dvg with
        | some i => { ok := false, dvg := i }
        | none =>
          if domain.length < chk.length then
            { ok := chk.getD domain.length '\x00' == '/', dvg := m }
          else { ok := decide (domain.length ≤ chk.length), dvg := m } := by
    intro m hm
    subst hm
    unfold Dvg.update
    simp only [decide_eq_true_eq]
  obtain ⟨m, hm⟩ : ∃ m : Nat, m = if domain.length ≤ chk.length then domain.length
      else chk.length := ⟨_, rfl⟩
  have hm1 : m ≤ chk.length := by rw [hm]; split_ifs <;> omega
  have hm2 : m ≤ domain.length := by rw [hm]; split_ifs <;> omega
  rw [hupd m hm]
  cases hs : Dvg.scan domain chk (m - d.dvg) d.dvg with
  | some i =>
    simp only
    obtain ⟨a, b, c⟩ := Dvg.scan_some domain chk _ _ i hs
    refine ⟨by omega, ?_, by simp⟩
    intro j h1 h2 h3
    simp only at h1
    by_cases hj : j < d.dvg
    · exact hA j hj h2 h3
    · exact c j (by omega) h1
  | none =>
    simp only
    have hn := Dvg.scan_none_agree domain chk _ _ hs
    have hagree : ∀ j, j < m → domain.getD j '\x00' = chk.getD j '\x00' := by
      intro j h1
      by_cases hj : j < d.dvg
      · exact hA j hj (by omega) (by omega)
      · exact hn j (by omega) (by omega)
    by_cases hlt : domain.length < chk.length
    · have hle : domain.length ≤ chk.length := by omega
      have hmd : m = domain.length := by rw [hm, if_pos hle]
      rw [if_pos hlt]
      refine ⟨hm1, fun j h1 _ _ => hagree j h1, ?_⟩
      intro hok
      simp only at hok
      right
      have hp := prefix_of_getD domain chk hle (fun j hj => hagree j (by omega))
      obtain ⟨t, ht⟩ := hp
      cases t with
      | nil => simp at ht; rw [ht] at hlt; omega
      | cons x xs =>
        have hx : x = '/' := by
          rw [← ht, List.getD_eq_getElem?_getD, List.getElem?_append_right (le_refl _)] at hok
          simpa using hok
        exact ⟨xs, by rw [← ht, hx]; simp⟩
    · rw [if_neg hlt]
      refine ⟨hm1, fun j h1 _ _ => hagree j h1, ?_⟩
      intro hok
      simp only [decide_eq_true_eq] at hok
      have hmd : m = domain.length := by rw [hm, if_pos hok]
      left
      have hp := prefix_of_getD domain chk hok (fun j hj => hagree j (by omega))
      exact (hp.eq_of_length (by omega)).symm
theorem at_or_inside_of_inside_push (dom parent comp : List Char) (hc : '/' ∉ comp)
    (h : inside dom (parent ++ '/' :: comp)) : at_or_inside dom parent := by
  have h2 : parent <+: parent ++ '/' :: comp := List.prefix_append _ _
  rcases List.prefix_or_prefix_of_prefix h h2 with h3 | h3
  · exact Or.inr h3
  · obtain ⟨s, hs⟩ := h3
    obtain ⟨t, ht⟩ := h
    cases s with
    | nil =>
      right
      simp at hs
      show dom ++ ['/'] <+: parent
      rw [hs]
    | cons x s1 =>
      have h4 : parent ++ (x :: s1 ++ t) = parent ++ '/' :: comp := by
        rw [← List.append_assoc, hs, ht]
      have h5 := List.append_cancel_left h4
      simp only [List.cons_append, List.cons.injEq] at h5
      obtain ⟨hx, h6⟩ := h5
      have hs1 : s1 = [] := by
        by_contra hne
        have h7 : (parent ++ x :: s1).getLast? = s1.getLast? := by
          rw [List.getLast?_append_of_ne_nil _ (by simp), getLast?_cons_of_ne_nil x s1 hne]
        rw [hs] at h7
        simp at h7
        have h8 : '/' ∈ s1 := List.mem_of_getLast?_eq_some h7.symm
        apply hc
        rw [← h6]
        exact List.mem_append_left _ h8
      left
      rw [hs1, hx] at hs
      exact (List.append_cancel_right hs)

theorem lnk_wanted_repo (w : World) (rp : RealPath) (no_follow : Bool) (st : SolveState)
    (last : Bool) (h : lnk_wanted w rp no_follow st last = true) (h1 : st.is_in_tmp = false)
    (h2 : st.in_proc.ok = false) : st.in_repo.ok = true ∧ st.in_admin.ok = false := by
  unfold lnk_wanted at h
  rw [h1, h2] at h
  simp only [Bool.false_eq_true, if_false] at h
  split_ifs at h with a b c d e
  · simp at d c
    exact ⟨d, c⟩

theorem Dvg.not_inside_of_update (d : Dvg) (domain chk : List Char)
    (h : (d.update domain chk).ok = false) : ¬ at_or_inside domain chk := by
  intro hin
  rw [Dvg.update_ok_of_inside d domain chk hin] at h
  cases h

theorem recorded_lnk_of_push (w : World) (rp : RealPath) (st : SolveState) (comp : List Char)
    (hsz : rp._root_dir_sz1 = rp._env.root_dir.length + 1) (hinv : walk_inv w rp st)
    (hc0 : comp ≠ []) (hc : '/' ∉ comp)
    (htmp : st.is_in_tmp = false) (hproc : st.in_proc.ok = false) (hrepo : st.in_repo.ok = true)
    (hadmin : (st.in_admin.update rp._admin_dir (st.real ++ '/' :: comp)).ok = false)
    (hnxt : w.read_lnk (st.real ++ '/' :: comp) ≠ []) :
    recorded_lnk w rp ((st.real ++ '/' :: comp).drop rp._root_dir_sz1) := by
  obtain ⟨⟨dt, hdt, hist⟩, ⟨dp, hdp⟩, _, _, hsound, _⟩ := hinv
  have hroot : ∃ l, l ≠ [] ∧ st.real ++ '/' :: comp = rp._env.root_dir ++ '/' :: l := by
    rcases hsound hrepo with h | ⟨t, ht⟩
    · exact ⟨comp, hc0, by rw [h]⟩
    · exact ⟨t ++ '/' :: comp, by simp, by rw [← ht]; simp⟩
  obtain ⟨l, hl0, hl⟩ := hroot
  have hdrop : (st.real ++ '/' :: comp).drop rp._root_dir_sz1 = l := by
    rw [hl, hsz]
    have : rp._env.root_dir ++ '/' :: l = (rp._env.root_dir ++ ['/']) ++ l := by simp
    rw [this]
    exact List.drop_left' (by simp)
  rw [hdrop, recorded_lnk, ← hl]
  refine ⟨hl0, hnxt, ?_, ?_, ?_⟩
  · intro hne hin
    have h1 := at_or_inside_of_inside_push _ _ _ hc hin
    have hok : st.in_tmp.ok = true := by rw [hdt]; exact Dvg.update_ok_of_inside dt _ _ h1
    rw [hist, hok] at htmp
    have : rp._tmp_view.isEmpty = false := by
      cases h : rp._tmp_view with
      | nil => exact absurd h hne
      | cons => rfl
    rw [this] at htmp
    cases htmp
  · intro hin
    have h1 := at_or_inside_of_inside_push _ _ _ hc hin
    rw [hdp, Dvg.update_ok_of_inside dp _ _ h1] at hproc
    cases hproc
  · exact Dvg.not_inside_of_update _ _ _ hadmin
theorem follow_lnk_keeps (w : World) (rp : RealPath) (st st1 : SolveState) (nxt : List Char)
    (last : Bool) (prev : Nat) (h : follow_lnk w rp st nxt last prev = .next st1) :
    st1.in_repo = st.in_repo ∧ st1.lnks = st.lnks := by
  unfold follow_lnk at h
  by_cases h0 : nxt.isEmpty = true
  · rw [if_pos h0] at h
    split_ifs at h <;> (cases h; exact ⟨rfl, rfl⟩)
  · rw [if_neg h0] at h
    by_cases h1 : (st.n_lnks : Int) ≥ _get_symloop_max w
    · rw [if_pos h1] at h; cases h
    · rw [if_neg h1] at h
      simp only at h
      by_cases h2 : (if !last then nxt ++ '/' :: st.cur.getD [] else nxt).head? = some '/'
      · rw [if_pos h2] at h; cases h; exact ⟨rfl, rfl⟩
      · rw [if_neg h2] at h; cases h; exact ⟨rfl, rfl⟩

theorem solve_finish_lnks (rp : RealPath) (no_follow : Bool) (st : SolveState) :
    (solve_finish rp no_follow st).lnks = st.lnks := by
  unfold solve_finish
  simp only
  repeat' split
  all_goals rfl

theorem solve_body_inv (w : World) (rp : RealPath) (no_follow : Bool) (st : SolveState)
    (rest : List Char) (fl : Flow)
    (hsz : rp._root_dir_sz1 = rp._env.root_dir.length + 1) (hinv : walk_inv w rp st)
    (hb : solve_body w rp no_follow st rest = some fl) :
    match fl with
    | .next st1 => (∀ l ∈ st1.lnks, recorded_lnk w rp l) ∧ st1.in_repo = st.in_repo
        ∧ (st1.real <+: st.real ∨ st.real <+: st1.real)
    | .ret r => ∀ l ∈ r.lnks, recorded_lnk w rp l := by
  have hlnks := hinv.2.2.2.2.2
  by_cases h0 : next_comp rest = []
  · rw [solve_body_skip w rp no_follow st rest (Or.inl h0)] at hb
    cases hb; exact ⟨hlnks, rfl, Or.inl (List.prefix_refl _)⟩
  by_cases h1 : next_comp rest = ['.']
  · rw [solve_body_skip w rp no_follow st rest (Or.inr h1)] at hb
    cases hb; exact ⟨hlnks, rfl, Or.inl (List.prefix_refl _)⟩
  by_cases h2 : next_comp rest = ['.', '.']
  · rw [solve_body_dotdot w rp no_follow st rest h2] at hb
    split_ifs at hb
    · cases hr : rfind st.real '/' with
      | none => rw [hr] at hb; cases hb
      | some i =>
        rw [hr] at hb; cases hb
        exact ⟨hlnks, rfl, Or.inl (List.take_prefix _ _)⟩
    · cases hb; exact ⟨hlnks, rfl, Or.inl (List.prefix_refl _)⟩
  · rw [solve_body_plain w rp no_follow st rest h0 h1 h2] at hb
    by_cases hw : lnk_wanted w rp no_follow
        (push_comp rp { st with cur := after_comp rest } (next_comp rest)) (is_last rest) = true
    · rw [if_pos hw] at hb
      have hb := Option.some.inj hb
      unfold handle_lnk at hb
      simp only at hb
      cases hr : record_lnk rp
          { push_comp rp { st with cur := after_comp rest } (next_comp rest) with
            mapped := st.mapped || (rp.has_tmp_view && st.is_in_tmp) }
          (w.read_lnk (lnk_path rp
            (push_comp rp { st with cur := after_comp rest } (next_comp rest)))) with
      | none =>
        have hr' := hr
        simp only [push_comp] at hr' hb
        rw [hr'] at hb
        subst hb
        exact ⟨hlnks, rfl, Or.inr (List.prefix_append _ _)⟩
      | some st2 =>
        have hr' := hr
        simp only [push_comp] at hr' hb
        rw [hr'] at hb
        simp only at hb
        obtain ⟨e1, _, _, _, e5, _⟩ := record_lnk_some rp _ _ _ hr
        have hgood : ∀ l ∈ st2.lnks, recorded_lnk w rp l := by
          rcases record_lnk_lnks rp _ _ _ hr with h | ⟨hn, ht, hp, ⟨hre, _, hl⟩ | ⟨hre, _⟩⟩
          · rw [h]; exact hlnks
          · rw [hl]
            intro l hl'
            rcases List.mem_append.mp hl' with h | h
            · exact hlnks l h
            · simp only [List.mem_singleton] at h
              rw [h]
              have hadm := (lnk_wanted_repo w rp no_follow _ _ hw ht hp).2
              have hpath : lnk_path rp
                  (push_comp rp { st with cur := after_comp rest } (next_comp rest))
                  = st.real ++ '/' :: next_comp rest := by
                unfold lnk_path
                have : (push_comp rp { st with cur := after_comp rest }
                    (next_comp rest)).is_in_tmp = false := ht
                rw [this]; simp [push_comp]
              rw [hpath] at hn
              exact recorded_lnk_of_push w rp st (next_comp rest) hsz hinv h0
                (next_comp_no_slash rest) ht hp hre hadm hn
          · exfalso
            have := (lnk_wanted_repo w rp no_follow _ _ hw ht hp).1
            rw [this] at hre
            cases hre
        cases fl with
        | ret r =>
          obtain ⟨_, _, hrr⟩ := follow_lnk_ret w rp st2 _ _ _ r hb
          show ∀ l ∈ r.lnks, recorded_lnk w rp l
          rw [hrr]; exact hgood
        | next st1 =>
          obtain ⟨k1, k2⟩ := follow_lnk_keeps w rp st2 st1 _ _ _ hb
          refine ⟨by rw [k2]; exact hgood, by rw [k1, e5]; rfl, ?_⟩
          rcases follow_lnk_next w rp st2 st1 _ _ _ hb with ⟨_, b, _⟩ | ⟨_, _, _, _, e, _⟩
          · right; rw [b, e1]; exact List.prefix_append _ _
          · rw [e]
            split_ifs
            · left; exact List.nil_prefix
            · left
              rw [e1]
              show List.take st.real.length (st.real ++ '/' :: next_comp rest) <+: st.real
              rw [List.take_left']
              rfl
    · rw [if_neg hw] at hb
      cases hb
      exact ⟨hlnks, rfl, Or.inr (List.prefix_append _ _)⟩

theorem walk_inv_incr (w : World) (rp : RealPath) (st st1 : SolveState)
    (hinv : walk_inv w rp st) (hl : ∀ l ∈ st1.lnks, recorded_lnk w rp l)
    (hr : st1.in_repo = st.in_repo) (hrel : st1.real <+: st.real ∨ st.real <+: st1.real) :
    walk_inv w rp (solve_incr rp st1) := by
  obtain ⟨_, _, hd, hag, _, _⟩ := hinv
  have := Dvg.update_sound st.in_repo rp._env.root_dir st.real st1.real hd hag hrel
  rw [← hr] at this
  exact ⟨tmp_synced_incr rp st1, ⟨st1.in_proc, rfl⟩, this.1, this.2.1, this.2.2, hl⟩

theorem walk_inv_start (w : World) (rp : RealPath) (at_ : Int) (file : List Char)
    (st0 : SolveState) (h : solve_start w rp at_ file = some st0) : walk_inv w rp st0 := by
  have hs := tmp_synced_start w rp at_ file st0 h
  unfold solve_start at h
  simp only [Option.map_eq_some'] at h
  obtain ⟨real, _, hst⟩ := h
  subst hst
  have := Dvg.update_sound {} rp._env.root_dir real real (Nat.zero_le _)
    (fun j hj => absurd hj (Nat.not_lt_zero j)) (Or.inl (List.prefix_refl _))
  exact ⟨hs, ⟨{}, rfl⟩, this.1, this.2.1, this.2.2, by simp⟩

theorem solve_loop_inv (w : World) (rp : RealPath) (no_follow : Bool)
    (hsz : rp._root_dir_sz1 = rp._env.root_dir.length + 1) (fuel : Nat) :
    ∀ (st0 : SolveState) (e : LoopExit), walk_inv w rp st0 →
      solve_loop w rp no_follow fuel st0 = some e →
      match e with
      | .fall st => ∀ l ∈ st.lnks, recorded_lnk w rp l
      | .ret r => ∀ l ∈ r.lnks, recorded_lnk w rp l := by
  induction fuel with
  | zero => intro _ _ _ h; cases h
  | succ fuel ih =>
    intro st0 e hinv h
    rw [solve_loop] at h
    cases hc : st0.cur with
    | none => rw [hc] at h; cases h; exact hinv.2.2.2.2.2
    | some rest =>
      rw [hc] at h
      simp only at h
      cases hb : solve_body w rp no_follow st0 rest with
      | none => rw [hb] at h; cases h
      | some fl =>
        rw [hb] at h
        have hbi := solve_body_inv w rp no_follow st0 rest fl hsz hinv hb
        cases fl with
        | ret r => cases h; exact hbi
        | next st1 =>
          simp only at h hbi
          exact ih _ e (walk_inv_incr w rp st0 st1 hinv hbi.1 hbi.2.1 hbi.2.2) h

/-- C4 : every entry `l` of the `lnks` of a report of `RealPath::solve` is the name, relative to
the root of the repo, of a link that lies strictly inside the repo and was read with a non-empty
target ; the link is neither strictly inside tmp, nor inside `/proc`, nor is it the admin dir
or inside it. So a link met in tmp, in `/proc`, in the admin dir or out of the repo is never in
`lnks` ; in particular no entry comes from a source dir that is out of the repo. -/
theorem C4_lnks_are_read_repo_links (AdminDir : List Char) (rpe : RealPathEnv) (cwd : List Char)
    (p : Int) (rp : RealPath) (w : World) (at_ : Int) (file : List Char) (no_follow : Bool)
    (fuel : Nat) (r : SolveReport)
    (hinit : RealPath.init AdminDir rpe cwd p = some rp)
    (hsolve : RealPath.solve fuel w rp at_ file no_follow = some r) :
    ∀ l ∈ r.lnks,
      l ≠ [] ∧ w.read_lnk (rpe.root_dir ++ '/' :: l) ≠ []
      ∧ inside rpe.root_dir (rpe.root_dir ++ '/' :: l)
      ∧ (rp._tmp_view ≠ [] → ¬ inside rp._tmp_view (rpe.root_dir ++ '/' :: l))
      ∧ ¬ inside proc (rpe.root_dir ++ '/' :: l)
      ∧ ¬ at_or_inside (rpe.root_dir ++ '/' :: AdminDir) (rpe.root_dir ++ '/' :: l) := by
  obtain ⟨henv, _, _, hadm, hsz, _⟩ := init_tmp_view AdminDir rpe cwd p rp hinit
  rw [← henv] at hsz
  have key : ∀ l ∈ r.lnks, recorded_lnk w rp l := by
    unfold RealPath.solve at hsolve
    cases hs : solve_start w rp at_ file with
    | none =>
      rw [hs] at hsolve
      cases hsolve
      intro l hl
      simp at hl
    | some st0 =>
      rw [hs] at hsolve
      simp only at hsolve
      cases hl : solve_loop w rp no_follow fuel st0 with
      | none => rw [hl] at hsolve; cases hsolve
      | some e =>
        rw [hl] at hsolve
        have := solve_loop_inv w rp no_follow hsz fuel st0 e (walk_inv_start w rp at_ file st0 hs) hl
        cases e with
        | ret r1 => cases hsolve; exact this
        | fall st =>
          cases hsolve
          rw [solve_finish_lnks]
          exact this
  intro l hl
  obtain ⟨a, b, c, d, e⟩ := key l hl
  rw [henv] at b c d e
  rw [hadm] at e
  exact ⟨a, b, ⟨l, by simp⟩, c, d, e⟩

/-- C4, witness : the repo `/repo` where `a/b` is a link to `../d/e`, the path `a/b/c` and the
entry `a/b` of its `lnks`. -/
theorem C4_lnks_witness :
    RealPath.solve 8 (ab_world "../d/e".toList) repo_rp Fd_Cwd "a/b/c".toList false
        = some { real := "d/e/c".toList, lnks := ["a/b".toList], file_accessed := .Yes,
                 file_loc := .Repo, mapped := false }
      ∧ "a/b".toList ≠ []
      ∧ (ab_world "../d/e".toList).read_lnk ("/repo".toList ++ '/' :: "a/b".toList) ≠ []
      ∧ inside "/repo".toList ("/repo".toList ++ '/' :: "a/b".toList)
      ∧ (repo_rp._tmp_view ≠ [] →
          ¬ inside repo_rp._tmp_view ("/repo".toList ++ '/' :: "a/b".toList))
      ∧ ¬ inside proc ("/repo".toList ++ '/' :: "a/b".toList)
      ∧ ¬ at_or_inside ("/repo".toList ++ '/' :: "LMAKE".toList)
          ("/repo".toList ++ '/' :: "a/b".toList) :=
  ⟨by decide,
    C4_lnks_are_read_repo_links "LMAKE".toList
      { lnk_support := .Full, root_dir := "/repo".toList, tmp_dir := "/tmp".toList }
      "/repo".toList 0 repo_rp (ab_world "../d/e".toList) Fd_Cwd "a/b/c".toList false 8
      { real := "d/e/c".toList, lnks := ["a/b".toList], file_accessed := .Yes, file_loc := .Repo,
        mapped := false }
      (by decide) (by decide) "a/b".toList (List.mem_singleton.mpr rfl)⟩

/-! ## C7 : the admin dir after a `..` -/

/-- C7, evaluation of the code where it departs from the claim : in the repo `/repo` of admin
dir `LMAKE`, the path `/repo/LMAKE/../XXXXX` resolves to `/repo/XXXXX`, which is not in the admin
dir, and `RealPath::solve` yet reports it as `Admin` ; so does it for `/repo/LMAKE/..`, which
is the root of the repo, whereas `/repo/XXXXX` reached directly is reported in the repo. -/
theorem C7_admin_kept_after_dotdot :
    RealPath.solve 8 no_lnk_world repo_rp Fd_Cwd "/repo/LMAKE/../XXXXX".toList false
        = some { real := "/repo/XXXXX".toList, lnks := [], file_accessed := .No,
                 file_loc := .Admin, mapped := false }
      ∧ ¬ at_or_inside repo_rp._admin_dir "/repo/XXXXX".toList
      ∧ RealPath.solve 8 no_lnk_world repo_rp Fd_Cwd "/repo/LMAKE/..".toList false
        = some { real := "/repo".toList, lnks := [], file_accessed := .No,
                 file_loc := .Admin, mapped := false }
      ∧ RealPath.solve 8 no_lnk_world repo_rp Fd_Cwd "/repo/XXXXX".toList false
        = some { real := "XXXXX".toList, lnks := [], file_accessed := .Yes,
                 file_loc := .Repo, mapped := false } := by
  refine ⟨by decide, ?_, by decide, by decide⟩
  unfold at_or_inside inside
  rintro (h | h)
  · exact absurd h (by decide)
  · exact absurd (List.isPrefixOf_iff_prefix.mpr h) (by decide)

/-! ## C8 : the link support -/

/-- C9, evaluation of the code where it departs from the claim : with the tmp dir `/disk` seen
as `/view`, `RealPath::chdir("/diskfoo")` sets the cwd to `/viewfoo` although `/diskfoo` is
neither `/disk` nor inside it, and `RealPath::solve` does the same to the directory it reads
from `/proc/self/fd/3` ; a directory inside `/disk` is rewritten as expected. -/
theorem C9_anchor_rewritten_on_char_match :
    (view_rp.chdir "/diskfoo".toList).map (·.cwd_) = some "/viewfoo".toList
      ∧ ¬ at_or_inside view_rp._env.tmp_dir "/diskfoo".toList
      ∧ solve_anchor
          { read_lnk := fun p => if p = "/proc/self/fd/3".toList then "/diskfoo".toList else []
            enoent := fun _ => false, open_dir := fun _ => false, symloop_max := 40 }
          view_rp 3 = "/viewfoo".toList
      ∧ (view_rp.chdir "/disk/foo".toList).map (·.cwd_) = some "/view/foo".toList := by
  refine ⟨by decide, ?_, by decide, by decide⟩
  unfold at_or_inside inside
  rintro (h | h)
  · exact absurd h (by decide)
  · exact absurd (List.isPrefixOf_iff_prefix.mpr h) (by decide)

/-! ## C10 : `_fix_cwd` -/

/-- C10, evaluation of the code where it departs from the claim, tmp dir `/tmp` seen as `/view` :
for `getcwd(nullptr,0)`, which passes `sz=0` and `allocated=Yes`, the buffer `/tmp/x` is returned
as it is instead of `/view/x`, for the match is looked for within the `sz` first bytes ; for
`get_current_dir_name`, which passes `sz=-1`, the buffer is reallocated to `new_len` bytes and
the final NUL is written one byte further ; with a buffer of the caller (`allocated=No`) that is
large enough the result is `/view/x`, and `nullptr` with one that is too small. -/
theorem C10_fix_cwd_getcwd_null_0 :
    getcwd_allocated true 0 = .Yes
      ∧ _fix_cwd "/tmp".toList "/view".toList (some "/tmp/x\x00".toList) 0 .Yes
        = some (some "/tmp/x\x00".toList)
      ∧ _fix_cwd "/tmp".toList "/view".toList (some "/tmp/x\x00".toList) (2 ^ 64 - 1) .Yes = none
      ∧ (_fix_cwd "/tmp".toList "/view".toList (some "/tmp/x\x00\x00".toList) 8 .No).map
          (Option.map c_str) = some (some "/view/x".toList)
      ∧ _fix_cwd "/tmp".toList "/view".toList (some "/tmp/x\x00\x00".toList) 7 .No
        = some none := by
  refine ⟨by decide, by decide, by decide, by decide, by decide⟩

end Disk

namespace Autodep

/-! ## C11 : the flags of a `fopen` mode -/

theorem before_comma_nil : before_comma [] = [] := rfl

theorem before_comma_cons (m : Char) (ms : List Char) :
    before_comma (m :: ms) = if m = '\x00' ∨ m = ',' then [] else m :: before_comma ms := by
  unfold before_comma
  by_cases h0 : m = '\x00'
  · simp [h0]
  · by_cases h1 : m = ','
    · simp [h1]
    · simp [h0, h1]

/-- What the loop of autodep_ld.cc leaves in its five flags. -/
theorem autodep_ld_loop (mode : List Char) (s : ModeBits) :
    autodep_ld.Fopen.mk_flags_loop mode s =
      { a := s.a || (before_comma mode).contains 'a'
        c := s.c || (before_comma mode).contains 'c'
        p := s.p || (before_comma mode).contains '+'
        r := s.r || (before_comma mode).contains 'r'
        w := s.w || (before_comma mode).contains 'w' } := by
  induction mode generalizing s with
  | nil => simp [autodep_ld.Fopen.mk_flags_loop, before_comma_nil]
  | cons m ms ih =>
    rw [autodep_ld.Fopen.mk_flags_loop, before_comma_cons]
    by_cases h : m = '\x00' ∨ m = ','
    · simp [h]
    · rw [if_neg h, if_neg h, ih]
      unfold autodep_ld.Fopen.mk_flags_switch
      by_cases ha : m = 'a'
      · subst ha; simp
      by_cases hc : m = 'c'
      · subst hc; simp
      by_cases hp : m = '+'
      · subst hp; simp
      by_cases hr : m = 'r'
      · subst hr; simp
      by_cases hw : m = 'w'
      · subst hw; simp
      simp [ha, hc, hp, hr, hw, Ne.symm ha, Ne.symm hc, Ne.symm hp, Ne.symm hr, Ne.symm hw]

/-- The two copies of the loop compute the same flags. -/
theorem ld_common_loop (mode : List Char) (s : ModeBits) :
    ld_common.Fopen.mk_flags_loop mode s = autodep_ld.Fopen.mk_flags_loop mode s := by
  induction mode generalizing s with
  | nil => rfl
  | cons m ms ih =>
    rw [ld_common.Fopen.mk_flags_loop, autodep_ld.Fopen.mk_flags_loop, ih]
    rfl

theorem flags_of_bits (fl : OFlags) (pre : List Char) (A C P R W : Bool)
    (hA : pre.contains 'a' = A) (hC : pre.contains 'c' = C) (hP : pre.contains '+' = P)
    (hR : pre.contains 'r' = R) (hW : pre.contains 'w' = W) :
    (if A.toNat + R.toNat + W.toNat ≠ 1 then fl.O_PATH
     else if C then fl.O_PATH
     else (if P then fl.O_RDWR else if R then fl.O_RDONLY else fl.O_WRONLY)
       ||| (if W then fl.O_TRUNC else 0)) =
    (if (access_letters pre).length ≠ 1 ∨ pre.contains 'c' then fl.O_PATH
     else (if pre.contains '+' then fl.O_RDWR
           else if access_letters pre = ['r'] then fl.O_RDONLY else fl.O_WRONLY)
       ||| (if access_letters pre = ['w'] then fl.O_TRUNC else 0)) := by
  have hl : access_letters pre =
      (if A then ['a'] else []) ++ (if R then ['r'] else []) ++ (if W then ['w'] else []) := by
    simp only [access_letters, List.filter, hA, hR, hW]
    cases A <;> cases R <;> cases W <;> rfl
  rw [hl, hC, hP]
  cases A <;> cases R <;> cases W <;> cases C <;> cases P <;> simp

/-- C11 : on every mode, `Fopen::mk_flags` looks only at the characters before the first `,` ; it
returns `O_PATH` unless exactly one of the letters `a`, `r`, `w` occurs and `c` does not, and
otherwise `O_RDWR` with a `+`, else `O_RDONLY` for `r` and `O_WRONLY` for `a` or `w`, with
`O_TRUNC` or-ed in exactly for `w`. The copy of ld_common.x.cc returns the same value as the one
of autodep_ld.cc. -/
theorem C11_mk_flags_of_mode (fl : OFlags) (mode : List Char) :
    autodep_ld.Fopen.mk_flags fl mode = flags_of_mode fl mode
      ∧ ld_common.Fopen.mk_flags fl mode = autodep_ld.Fopen.mk_flags fl mode := by
  constructor
  · unfold autodep_ld.Fopen.mk_flags flags_of_mode
    simp only [autodep_ld_loop]
    exact flags_of_bits fl (before_comma mode) _ _ _ _ _ (by simp) (by simp) (by simp) (by simp)
      (by simp)
  · unfold ld_common.Fopen.mk_flags autodep_ld.Fopen.mk_flags
    rw [ld_common_loop]

end Autodep

namespace Engine

/-! ## C13 : `s_tick` never leaves a null chrono -/

theorem s_tick_eq (st : JobStatics) (is_end : Bool) (h : st.s_chrono ≠ 0) :
    Job.s_tick is_end st =
      some { s_chrono :=
               if st.s_chrono_is_end = false ∧ is_end = true then
                 (if (st.s_chrono + 1) % 2 ^ 32 = 0 then 1 else (st.s_chrono + 1) % 2 ^ 32)
               else st.s_chrono
             s_chrono_is_end := is_end } := by
  unfold Job.s_tick
  rw [if_neg h]
  cases hf : st.s_chrono_is_end <;> cases is_end <;> simp
  split
  · omega
  · rfl

theorem s_tick_ne_zero (st st1 : JobStatics) (is_end : Bool) (h : st.s_chrono ≠ 0)
    (h1 : Job.s_tick is_end st = some st1) : st1.s_chrono ≠ 0 := by
  rw [s_tick_eq st is_end h] at h1
  injection h1 with h1
  subst h1
  simp only
  split
  · split
    · decide
    · assumption
  · exact h

theorem s_ticks_ne_zero (ticks : List Bool) (st : JobStatics) (h : st.s_chrono ≠ 0) :
    ∃ st1, Job.s_ticks ticks st = some st1 ∧ st1.s_chrono ≠ 0 := by
  induction ticks generalizing st with
  | nil => exact ⟨st, rfl, h⟩
  | cons is_end ticks ih =>
    have he := s_tick_eq st is_end h
    have hn := s_tick_ne_zero st _ is_end h he
    rw [Job.s_ticks, he]
    exact ih _ hn

/-- C13 : from a non null `s_chrono`, `s_tick(is_end)` leaves `s_chrono` as it is unless the
stored flag is false and `is_end` is true, in which case `s_chrono` becomes `s_chrono+1` modulo
2^32, or 1 when this is 0 ; the stored flag becomes `is_end` ; and after any sequence of ticks
`s_chrono` is not null. -/
theorem C13_s_tick_non_zero (st : JobStatics) (is_end : Bool) (h : st.s_chrono ≠ 0) :
    Job.s_tick is_end st =
        some { s_chrono :=
                 if st.s_chrono_is_end = false ∧ is_end = true then
                   (if (st.s_chrono + 1) % 2 ^ 32 = 0 then 1 else (st.s_chrono + 1) % 2 ^ 32)
                 else st.s_chrono
               s_chrono_is_end := is_end }
      ∧ ∀ ticks : List Bool, ∃ st1, Job.s_ticks ticks st = some st1 ∧ st1.s_chrono ≠ 0 :=
  ⟨s_tick_eq st is_end h, fun ticks => s_ticks_ne_zero ticks st h⟩

theorem C13_s_tick_witness :
    Job.s_tick true ⟨4294967295, false⟩ = some ⟨1, true⟩
      ∧ ∀ ticks : List Bool,
          ∃ st1, Job.s_ticks ticks ⟨4294967295, false⟩ = some st1 ∧ st1.s_chrono ≠ 0 :=
  ⟨(C13_s_tick_non_zero ⟨4294967295, false⟩ true (by decide)).1.trans (by decide),
   (C13_s_tick_non_zero ⟨4294967295, false⟩ true (by decide)).2⟩

/-! ## C12 : the order of two chronos -/

theorem Chrono_sub_self (s : Nat) : Chrono ((s : Int) - s) = 0 := by
  simp [Chrono]

/-- When the reference is the later of the two chronos, the later one is seen as the older. -/
theorem start_before_end_at_end (e : Bool) (a b : Nat) (ha : a ≠ 0) (hb : b ≠ 0) :
    Job.s_start_before_end ⟨b, e⟩ a b = some false := by
  unfold Job.s_start_before_end
  rw [if_neg (by simp [ha, hb]), Chrono_sub_self]
  simp

/-- When the reference is strictly after both chronos, and less than 2^32 after them, the order
is the chronological one. -/
theorem start_before_end_later (e : Bool) (s a b : Nat) (ha : 0 < a) (hab : a < b) (hbs : b < s)
    (hs : s < a + 2 ^ 32) :
    Job.s_start_before_end ⟨s, e⟩ a b = some true
      ∧ Job.s_start_before_end ⟨s, e⟩ b a = some false := by
  unfold Job.s_start_before_end
  rw [if_neg (by omega), if_neg (by omega)]
  simp only [Chrono, Option.some.injEq, decide_eq_true_eq, decide_eq_false_iff_not]
  norm_num at hs ⊢
  omega

/-- C12 : with `s_chrono` 1, `s_now()` hands out 1, then `s_now(true)` hands out 2 and leaves
`s_chrono` at 2 ; with this reference `s_start_before_end(1,2)` is false and
`s_start_before_end(2,1)` is true. -/
theorem C12_start_before_end_at_reference :
    Job.s_now0 ⟨1, false⟩ = some 1
      ∧ Job.s_now true ⟨1, false⟩ = some (2, ⟨2, true⟩)
      ∧ Job.s_start_before_end ⟨2, true⟩ 1 2 = some false
      ∧ Job.s_start_before_end ⟨2, true⟩ 2 1 = some true := by
  decide

end Engine

namespace Engine

/-! ## C14 : what a job in error and a missing job produce -/

theorem err_not_missing (env : Env) (jd : JobData) (h : jd.err env = true) :
    jd.missing = false := by
  unfold JobData.err at h
  unfold JobData.missing
  cases hr : jd.run_status <;> simp [hr, RunStatus.val, RunStatus.Err] at h ⊢

/-- C14 : a job in error produces every node when `sure` is false, a missing job produces no
node whatever `sure`, and no job is both in error and missing. -/
theorem C14_produces_err_missing (env : Env) (st : Store) (jt : JobTgt) :
    ((st.jobs jt.job).err env = true → ∀ t : Nat, jt.produces env st t false = some true)
      ∧ ((st.jobs jt.job).missing = true →
          ∀ (t : Nat) (sure : Bool), jt.produces env st t sure = some false)
      ∧ ¬ ((st.jobs jt.job).err env = true ∧ (st.jobs jt.job).missing = true) := by
  refine ⟨fun he t => ?_, fun hm t sure => ?_, fun h => ?_⟩
  · unfold JobTgt.produces
    rw [err_not_missing env _ he, he]
    cases jt.is_sure <;> simp
  · unfold JobTgt.produces
    rw [hm]
    simp
  · rw [err_not_missing env _ h.1] at h
    exact Bool.false_ne_true h.2

theorem C14_produces_witness :
    (err_store.jobs 1).err plain_env = true
      ∧ (∀ t : Nat, JobTgt.produces plain_env err_store ⟨1, false⟩ t false = some true)
      ∧ (err_store.jobs 2).missing = true
      ∧ (∀ (t : Nat) (sure : Bool),
          JobTgt.produces plain_env err_store ⟨2, true⟩ t sure = some false) :=
  ⟨by decide, (C14_produces_err_missing plain_env err_store ⟨1, false⟩).1 (by decide),
   by decide, (C14_produces_err_missing plain_env err_store ⟨2, true⟩).2.1 (by decide)⟩

end Engine

namespace Engine

/-! ## C20 : one call of `_gather_prio_job_tgts` -/

theorem JobData.sure_again (env : Env) (nodes : Nat → NodeData) (jd : JobData) :
    JobData.sure env nodes (JobData.sure env nodes jd).2 = JobData.sure env nodes jd := by
  unfold JobData.sure
  by_cases h : jd.match_gen < env.s_match_gen
  · simp only [h, if_true]
    by_cases h1 : jd.rule.is_sure = true
    · by_cases h2 : JobData.sure_deps env nodes jd.deps = true
      · simp [h1, h2]
      · simp [h1, h2]
    · simp [h1]
  · simp [h]

theorem JobTgt.sure_nodes (env : Env) (st : Store) (jt : JobTgt) :
    (jt.sure env st).2.nodes = st.nodes := by
  unfold JobTgt.sure
  split <;> rfl

theorem JobTgt.sure_val_after (env : Env) (st : Store) (jt jt2 : JobTgt) :
    JobTgt.sure_val env (jt.sure env st).2 jt2 = JobTgt.sure_val env st jt2 := by
  unfold JobTgt.sure_val JobTgt.sure
  by_cases h : jt.is_sure = true
  · by_cases h2 : jt2.is_sure = true
    · simp only [h, h2, if_true, Store.set_job]
      by_cases hj : jt2.job = jt.job
      · simp only [hj, if_true]
        rw [JobData.sure_again]
      · simp only [hj, if_false]
    · simp [h2]
  · simp [h]

end Engine

namespace Engine

theorem Buildable.or_Maybe_again (b : Buildable) : (b.or .Maybe).or .Maybe = b.or .Maybe := by
  cases b <;> rfl

theorem tier_job_tgts_cons (env : Env) (name_ : List Char) (lvl : Nat) (p : Int) (rt : RuleTgt)
    (rts : List RuleTgt) :
    tier_job_tgts env name_ lvl p (rt :: rts) =
      if yields_job env name_ lvl rt = true ∧ rt.rule.prio = p then
        job_tgt_of env name_ lvl rt :: tier_job_tgts env name_ lvl p rts
      else tier_job_tgts env name_ lvl p rts := by
  unfold tier_job_tgts
  by_cases h : yields_job env name_ lvl rt = true ∧ rt.rule.prio = p
  · rw [if_pos h, List.filter_cons_of_pos (by simpa using h), List.map_cons]
  · rw [if_neg h, List.filter_cons_of_neg (by simpa using h)]

theorem tier_job_tgts_lower (env : Env) (name_ : List Char) (lvl : Nat) (p : Int)
    (rts : List RuleTgt) (h : ∀ rt ∈ rts, rt.rule.prio < p) :
    tier_job_tgts env name_ lvl p rts = [] := by
  unfold tier_job_tgts
  rw [List.map_eq_nil_iff, List.filter_eq_nil_iff]
  intro rt hrt
  have := h rt hrt
  simp
  intro _
  omega

theorem gather_prio_loop_cons (env : Env) (name_ : List Char) (lvl : Nat) (rt : RuleTgt)
    (rts : List RuleTgt) (acc : GatherAcc) (st : Store) :
    NodeData.gather_prio_loop env name_ lvl (rt :: rts) acc st =
      if rt.rule.is_special then .abort
      else if prio_lt rt.rule.prio acc.prio then .ret (acc, st)
      else
        match JobTgt.of_rule_tgt env rt name_ (lvl + 1) with
        | .error e => .thrown st e
        | .ok jt =>
          if jt.job ≠ 0 then
            NodeData.gather_prio_loop env name_ lvl rts (NodeData.gather_job env rt jt acc st).1.incr
              (NodeData.gather_job env rt jt acc st).2
          else NodeData.gather_prio_loop env name_ lvl rts acc.incr st := by
  rw [NodeData.gather_prio_loop]

theorem rule_tgts_left_NoIdx (rts : List RuleTgt) : rule_tgts_left rts Node.NoIdx = [] := by
  simp [rule_tgts_left]

theorem incr_n (acc : GatherAcc) (k : Nat) (h : acc.n = Node.NoIdx ∨ acc.n = k)
    (hk : k + 1 < Node.NoIdx) :
    acc.incr.n = Node.NoIdx ∧ acc.n = Node.NoIdx ∨ acc.incr.n = k + 1 ∧ acc.n ≠ Node.NoIdx := by
  unfold GatherAcc.incr
  rcases h with h | h
  · left; simp [h]
  · right
    have hne : acc.n ≠ Node.NoIdx := by omega
    rw [if_pos hne]
    simp only [Node.NoIdx] at hk hne ⊢
    refine ⟨?_, hne⟩
    simp only [h]
    omega

/-- The loop, once a job was found at priority `p`. -/
theorem gather_prio_loop_tier (env : Env) (name_ : List Char) (lvl : Nat) (p : Int) :
    ∀ (rest done : List RuleTgt) (acc : GatherAcc) (st : Store) (acc' : GatherAcc) (st' : Store),
      acc.prio = some p →
      (∀ rt ∈ rest, rt.rule.prio ≤ p) →
      rest.Pairwise (fun a b => b.rule.prio ≤ a.rule.prio) →
      (acc.n = Node.NoIdx ∨ acc.n = done.length) →
      (done ++ rest).length < Node.NoIdx →
      NodeData.gather_prio_loop env name_ lvl rest acc st = .ret (acc', st') →
      acc'.jts = acc.jts ++ tier_job_tgts env name_ lvl p rest
        ∧ st'.nodes = st.nodes
        ∧ (∀ jt, JobTgt.sure_val env st' jt = JobTgt.sure_val env st jt)
        ∧ acc'.buildable =
            (if (tier_job_tgts env name_ lvl p rest).any (JobTgt.sure_val env st) then .Yes
             else if tier_job_tgts env name_ lvl p rest = [] then acc.buildable
             else acc.buildable.or .Maybe)
        ∧ rule_tgts_left (done ++ rest) acc'.n =
            (if acc.n = Node.NoIdx ∨ (tier_job_tgts env name_ lvl p rest).any (JobTgt.sure_val env st)
             then [] else rest.filter (fun rt => decide (rt.rule.prio < p))) := by
  intro rest
  induction rest with
  | nil =>
    intro done acc st acc' st' _ _ _ _ _ h
    simp only [NodeData.gather_prio_loop, Ended.ret.injEq, Prod.mk.injEq] at h
    obtain ⟨h1, h2⟩ := h
    subst h1 h2
    simp [tier_job_tgts, rule_tgts_left_NoIdx]
  | cons rt rts ih =>
    intro done acc st acc' st' hp hle hs hn hlen h
    rw [gather_prio_loop_cons] at h
    by_cases hsp : rt.rule.is_special = true
    · rw [if_pos hsp] at h; cases h
    rw [if_neg hsp] at h
    have hrt : rt.rule.prio ≤ p := hle rt (List.mem_cons_self _ _)
    have hs' := List.pairwise_cons.mp hs
    by_cases hlt : prio_lt rt.rule.prio acc.prio = true
    · -- a lower priority : `goto Done`
      rw [if_pos hlt] at h
      simp only [Ended.ret.injEq, Prod.mk.injEq] at h
      obtain ⟨h1, h2⟩ := h
      subst h1 h2
      have hltp : rt.rule.prio < p := by simpa [hp, prio_lt] using hlt
      have hall : ∀ r ∈ rt :: rts, r.rule.prio < p := by
        intro r hr
        rcases List.mem_cons.mp hr with hr | hr
        · subst hr; exact hltp
        · exact lt_of_le_of_lt (hs'.1 r hr) hltp
      rw [tier_job_tgts_lower env name_ lvl p _ hall]
      refine ⟨by simp, rfl, fun _ => rfl, by simp, ?_⟩
      have hf : (rt :: rts).filter (fun r => decide (r.rule.prio < p)) = rt :: rts := by
        rw [List.filter_eq_self]
        intro r hr
        simpa using hall r hr
      rw [hf]
      rcases hn with hn | hn
      · simp [hn, rule_tgts_left_NoIdx]
      · have hne : acc.n ≠ Node.NoIdx := by
          rw [List.length_append] at hlen
          omega
        simp [rule_tgts_left, hne, shorten_by, hn]
    · rw [if_neg hlt] at h
      have hge : ¬ rt.rule.prio < p := by simpa [hp, prio_lt] using hlt
      have heq : rt.rule.prio = p := by omega
      have hlen' : (done ++ [rt] ++ rts).length < Node.NoIdx := by
        simpa [List.append_assoc] using hlen
      have hk : done.length + 1 < Node.NoIdx := by
        simp only [List.length_append, List.length_cons] at hlen
        omega
      have hfilt : (rt :: rts).filter (fun r => decide (r.rule.prio < p))
          = rts.filter (fun r => decide (r.rule.prio < p)) := by
        rw [List.filter_cons_of_neg (by simpa using hge)]
      have hfull : done ++ rt :: rts = done ++ [rt] ++ rts := by simp
      cases hjt : JobTgt.of_rule_tgt env rt name_ (lvl + 1) with
      | error e => rw [hjt] at h; cases h
      | ok jt =>
        rw [hjt] at h
        simp only at h
        by_cases hj : jt.job ≠ 0
        · rw [if_pos hj] at h
          have hy : yields_job env name_ lvl rt = true := by simp [yields_job, hjt, hj]
          have hjo : job_tgt_of env name_ lvl rt = jt := by simp [job_tgt_of, hjt]
          have hn1 : (NodeData.gather_job env rt jt acc st).1.n = Node.NoIdx
              ∨ (NodeData.gather_job env rt jt acc st).1.n = done.length := by
            simp only [NodeData.gather_job]
            rcases hn with hn | hn
            · left; simp [hn]
            · by_cases hsv : (jt.sure env st).1 = true
              · left; simp [hsv]
              · right; simp [hsv, hn]
          have hi := incr_n _ _ hn1 hk
          have hn2 : (NodeData.gather_job env rt jt acc st).1.incr.n = Node.NoIdx
              ∨ (NodeData.gather_job env rt jt acc st).1.incr.n = (done ++ [rt]).length := by
            rcases hi with hi | hi
            · exact Or.inl hi.1
            · right; simpa using hi.1
          have hp1 : (NodeData.gather_job env rt jt acc st).1.incr.prio = some p := by
            simp [NodeData.gather_job, GatherAcc.incr, heq]
            split <;> rfl
          obtain ⟨i1, i2, i3, i4, i5⟩ :=
            ih (done ++ [rt]) _ _ acc' st' hp1 (fun r hr => hle r (List.mem_cons_of_mem _ hr))
              hs'.2 hn2 hlen' h
          have hsv3 : ∀ jt2, JobTgt.sure_val env (NodeData.gather_job env rt jt acc st).2 jt2
              = JobTgt.sure_val env st jt2 := fun jt2 => JobTgt.sure_val_after env st jt jt2
          have hany : (tier_job_tgts env name_ lvl p rts).any
                (JobTgt.sure_val env (NodeData.gather_job env rt jt acc st).2)
              = (tier_job_tgts env name_ lvl p rts).any (JobTgt.sure_val env st) := by
            congr 1
            funext jt2
            exact hsv3 jt2
          rw [hany] at i4 i5
          rw [tier_job_tgts_cons, if_pos ⟨hy, heq⟩, hjo, hfull, hfilt]
          have hjts : (NodeData.gather_job env rt jt acc st).1.incr.jts = acc.jts ++ [jt] := by
            simp [NodeData.gather_job, GatherAcc.incr]
            split <;> rfl
          have hb : (NodeData.gather_job env rt jt acc st).1.incr.buildable
              = if JobTgt.sure_val env st jt then .Yes else acc.buildable.or .Maybe := by
            simp [NodeData.gather_job, GatherAcc.incr, JobTgt.sure_val]
            split <;> rfl
          refine ⟨by rw [i1, hjts]; simp, ?_, ?_, ?_, ?_⟩
          · rw [i2]; exact JobTgt.sure_nodes env st jt
          · intro jt2; rw [i3, hsv3]
          · rw [i4, hb, List.any_cons]
            by_cases hsv : JobTgt.sure_val env st jt = true
            · simp [hsv]
              intros
              rfl
            · simp [hsv, Buildable.or_Maybe_again]
          · rw [i5, List.any_cons]
            by_cases hsv : JobTgt.sure_val env st jt = true
            · have : (NodeData.gather_job env rt jt acc st).1.incr.n = Node.NoIdx := by
                have : (NodeData.gather_job env rt jt acc st).1.n = Node.NoIdx := by
                  simp [NodeData.gather_job]
                  intro hh
                  exact absurd hsv (by simpa [JobTgt.sure_val] using hh)
                simp [GatherAcc.incr, this]
              simp [this, hsv]
            · simp only [hsv, Bool.false_or]
              rcases hi with hi | hi
              · have hgn : acc.n = Node.NoIdx := by
                  have := hi.2
                  simp only [NodeData.gather_job] at this
                  have hsv' : (jt.sure env st).1 = false := by
                    simpa [JobTgt.sure_val] using hsv
                  simpa [hsv'] using this
                simp [hi.1, hgn]
              · have hgn : acc.n ≠ Node.NoIdx := by
                  have := hi.2
                  simp only [NodeData.gather_job] at this
                  have hsv' : (jt.sure env st).1 = false := by
                    simpa [JobTgt.sure_val] using hsv
                  simpa [hsv'] using this
                have hne : (NodeData.gather_job env rt jt acc st).1.incr.n ≠ Node.NoIdx := by
                  rw [hi.1]; omega
                simp [hne, hgn]
        · rw [if_neg hj] at h
          have hj0 : jt.job = 0 := by simpa using hj
          have hy : yields_job env name_ lvl rt = false := by simp [yields_job, hjt, hj0]
          have hi := incr_n acc _ hn hk
          have hn2 : acc.incr.n = Node.NoIdx ∨ acc.incr.n = (done ++ [rt]).length := by
            rcases hi with hi | hi
            · exact Or.inl hi.1
            · right; simpa using hi.1
          have hp1 : acc.incr.prio = some p := by
            simp only [GatherAcc.incr]
            split <;> simpa using hp
          obtain ⟨i1, i2, i3, i4, i5⟩ :=
            ih (done ++ [rt]) _ _ acc' st' hp1 (fun r hr => hle r (List.mem_cons_of_mem _ hr))
              hs'.2 hn2 hlen' h
          have hjts : acc.incr.jts = acc.jts := by
            simp only [GatherAcc.incr]; split <;> rfl
          have hb : acc.incr.buildable = acc.buildable := by
            simp only [GatherAcc.incr]; split <;> rfl
          rw [tier_job_tgts_cons, if_neg (by simp [hy]), hfull, hfilt]
          refine ⟨by rw [i1, hjts], i2, i3, by rw [i4, hb], ?_⟩
          rw [i5]
          rcases hi with hi | hi
          · simp [hi.1, hi.2]
          · have hne : acc.incr.n ≠ Node.NoIdx := by rw [hi.1]; omega
            simp [hne, hi.2]

end Engine

namespace Engine

theorem incr_prio (acc : GatherAcc) : acc.incr.prio = acc.prio := by
  simp only [GatherAcc.incr]; split <;> rfl

theorem incr_jts (acc : GatherAcc) : acc.incr.jts = acc.jts := by
  simp only [GatherAcc.incr]; split <;> rfl

theorem incr_buildable (acc : GatherAcc) : acc.incr.buildable = acc.buildable := by
  simp only [GatherAcc.incr]; split <;> rfl

/-- On a rule target that yields a job, the loop does not depend on the priority it holds when
this is `-Infinity` or the priority of this rule target. -/
theorem gather_prio_loop_first_job (env : Env) (name_ : List Char) (lvl : Nat) (rt : RuleTgt)
    (rts : List RuleTgt) (acc : GatherAcc) (st : Store) (hp : acc.prio = none)
    (hy : yields_job env name_ lvl rt = true) :
    NodeData.gather_prio_loop env name_ lvl (rt :: rts) acc st =
      NodeData.gather_prio_loop env name_ lvl (rt :: rts) { acc with prio := some rt.rule.prio }
        st := by
  rw [gather_prio_loop_cons, gather_prio_loop_cons]
  have h1 : prio_lt rt.rule.prio acc.prio = false := by simp [hp, prio_lt]
  have h2 : prio_lt rt.rule.prio (some rt.rule.prio) = false := by simp [prio_lt]
  simp only [h1, h2]
  cases hjt : JobTgt.of_rule_tgt env rt name_ (lvl + 1) with
  | error e => simp [yields_job, hjt] at hy
  | ok jt =>
    have hj : jt.job ≠ 0 := by simpa [yields_job, hjt] using hy
    simp only [hj, ne_eq, not_false_eq_true, if_true]
    rfl

/-- The loop, before any job was found. -/
theorem gather_prio_loop_first (env : Env) (name_ : List Char) (lvl : Nat) :
    ∀ (rest done : List RuleTgt) (acc : GatherAcc) (st : Store) (acc' : GatherAcc) (st' : Store),
      acc.prio = none → acc.jts = [] → acc.buildable = .No → acc.n = done.length →
      rest.Pairwise (fun a b => b.rule.prio ≤ a.rule.prio) →
      (done ++ rest).length < Node.NoIdx →
      NodeData.gather_prio_loop env name_ lvl rest acc st = .ret (acc', st') →
      st'.nodes = st.nodes
        ∧ (rest.filter (yields_job env name_ lvl) = [] →
            acc'.jts = [] ∧ acc'.buildable = .No ∧ acc'.n = Node.NoIdx)
        ∧ (∀ y ys, rest.filter (yields_job env name_ lvl) = y :: ys →
            acc'.jts = tier_job_tgts env name_ lvl y.rule.prio rest
            ∧ acc'.jts ≠ []
            ∧ acc'.buildable =
                (if (tier_job_tgts env name_ lvl y.rule.prio rest).any (JobTgt.sure_val env st)
                 then .Yes else .Maybe)
            ∧ rule_tgts_left (done ++ rest) acc'.n =
                (if (tier_job_tgts env name_ lvl y.rule.prio rest).any (JobTgt.sure_val env st)
                 then [] else rest.filter (fun rt => decide (rt.rule.prio < y.rule.prio)))) := by
  intro rest
  induction rest with
  | nil =>
    intro done acc st acc' st' _ hj hb _ _ _ h
    simp only [NodeData.gather_prio_loop, Ended.ret.injEq, Prod.mk.injEq] at h
    obtain ⟨h1, h2⟩ := h
    subst h1 h2
    simp [hj, hb]
  | cons rt rts ih =>
    intro done acc st acc' st' hp hj hb hn hs hlen h
    have hs' := List.pairwise_cons.mp hs
    by_cases hy : yields_job env name_ lvl rt = true
    · -- the first job
      rw [gather_prio_loop_first_job env name_ lvl rt rts acc st hp hy] at h
      have hne : acc.n ≠ Node.NoIdx := by
        rw [List.length_append] at hlen; omega
      obtain ⟨i1, i2, _, i4, i5⟩ :=
        gather_prio_loop_tier env name_ lvl rt.rule.prio (rt :: rts) done
          { acc with prio := some rt.rule.prio } st acc' st' rfl
          (by
            intro r hr
            rcases List.mem_cons.mp hr with hr | hr
            · subst hr; exact le_refl _
            · exact hs'.1 r hr)
          hs (Or.inr hn) hlen h
      have hmem : tier_job_tgts env name_ lvl rt.rule.prio (rt :: rts) ≠ [] := by
        rw [tier_job_tgts_cons, if_pos ⟨hy, rfl⟩]
        exact List.cons_ne_nil _ _
      refine ⟨i2, ?_, ?_⟩
      · intro hnil
        rw [List.filter_cons_of_pos hy] at hnil
        cases hnil
      · intro y ys hf
        rw [List.filter_cons_of_pos hy] at hf
        injection hf with hf1 hf2
        subst hf1
        simp only [hj, List.nil_append] at i1
        refine ⟨i1, by rw [i1]; exact hmem, ?_, ?_⟩
        · rw [i4]
          simp only [hmem, if_false, hb]
          split <;> rfl
        · rw [i5]
          simp only [hne, false_or]
    · -- no job for this rule target
      rw [gather_prio_loop_cons] at h
      by_cases hsp : rt.rule.is_special = true
      · rw [if_pos hsp] at h; cases h
      rw [if_neg hsp] at h
      have hlt : prio_lt rt.rule.prio acc.prio = false := by simp [hp, prio_lt]
      rw [hlt] at h
      simp only [Bool.false_eq_true, if_false] at h
      have hk : done.length + 1 < Node.NoIdx := by
        simp only [List.length_append, List.length_cons] at hlen
        omega
      have hlen' : (done ++ [rt] ++ rts).length < Node.NoIdx := by
        simpa [List.append_assoc] using hlen
      have hfull : done ++ rt :: rts = done ++ [rt] ++ rts := by simp
      cases hjt : JobTgt.of_rule_tgt env rt name_ (lvl + 1) with
      | error e => rw [hjt] at h; cases h
      | ok jt =>
        rw [hjt] at h
        simp only at h
        have hj0 : jt.job = 0 := by
          by_contra hc
          exact hy (by simp [yields_job, hjt, hc])
        rw [if_neg (by simp [hj0])] at h
        have hi := incr_n acc _ (Or.inr hn) hk
        have hn2 : acc.incr.n = (done ++ [rt]).length := by
          rcases hi with hi | hi
          · exfalso
            rw [List.length_append] at hlen
            omega
          · simpa using hi.1
        obtain ⟨i1, i2, i3⟩ :=
          ih (done ++ [rt]) acc.incr st acc' st' (by rw [incr_prio, hp]) (by rw [incr_jts, hj])
            (by rw [incr_buildable, hb]) hn2 hs'.2 hlen' h
        rw [List.filter_cons_of_neg hy]
        refine ⟨i1, i2, ?_⟩
        intro y ys hf
        obtain ⟨j1, j2, j3, j4⟩ := i3 y ys hf
        have hyp : y.rule.prio ≤ rt.rule.prio := by
          have : y ∈ rts.filter (yields_job env name_ lvl) := by rw [hf]; exact List.mem_cons_self _ _
          exact hs'.1 y (List.mem_of_mem_filter this)
        have ht : tier_job_tgts env name_ lvl y.rule.prio (rt :: rts)
            = tier_job_tgts env name_ lvl y.rule.prio rts := by
          rw [tier_job_tgts_cons, if_neg (by simp [hy])]
        have hfl : (rt :: rts).filter (fun r => decide (r.rule.prio < y.rule.prio))
            = rts.filter (fun r => decide (r.rule.prio < y.rule.prio)) := by
          rw [List.filter_cons_of_neg (by simpa using hyp)]
        rw [ht, hfl, hfull]
        exact ⟨j1, j2, j3, j4⟩

theorem gather_done_job_tgts (acc : GatherAcc) (nd : NodeData) :
    (NodeData.gather_done acc nd).job_tgts = nd.job_tgts ++ acc.jts := by
  unfold NodeData.gather_done
  by_cases h : acc.jts = []
  · simp only [h, ne_eq, not_true_eq_false, if_false]
    split <;> simp
  · simp only [h, ne_eq, not_false_eq_true, if_true]
    split <;> rfl

theorem gather_done_rule_tgts (acc : GatherAcc) (nd : NodeData) :
    (NodeData.gather_done acc nd).rule_tgts = rule_tgts_left nd.rule_tgts acc.n := by
  unfold NodeData.gather_done rule_tgts_left
  by_cases h : acc.jts = [] <;> by_cases hn : acc.n = Node.NoIdx <;> simp [h, hn]

theorem set_node_same (st : Store) (n : Nat) (nd : NodeData) : (st.set_node n nd).nodes n = nd := by
  simp [Store.set_node]

/-- C20 : one call of `_gather_prio_job_tgts` that returns, on rule targets sorted by non
increasing priority (and fewer than the greatest `RuleIdx`). When no rule target yields a job, it
returns No, `rule_tgts` is empty and `job_tgts` is left as it was. Else, `y` being the first rule
target that yields a job, no rule target that yields a job has a higher priority, the jobs
appended to `job_tgts` are those of the rule targets of the priority of `y` that yield a job ;
when one of them is sure the call returns Yes and `rule_tgts` is empty, else it returns Maybe and
`rule_tgts` is left with its rule targets of a lower priority. -/
theorem C20_gather_prio_job_tgts (env : Env) (n : Nat) (name_ : List Char) (lvl : Nat)
    (st st' : Store) (b : Buildable)
    (hs : (st.nodes n).rule_tgts.Pairwise (fun a b => b.rule.prio ≤ a.rule.prio))
    (hl : (st.nodes n).rule_tgts.length < Node.NoIdx)
    (h : NodeData._gather_prio_job_tgts env n name_ lvl st = .ret (b, st')) :
    ((st.nodes n).rule_tgts.filter (yields_job env name_ lvl) = [] →
        b = .No ∧ (st'.nodes n).rule_tgts = [] ∧ (st'.nodes n).job_tgts = (st.nodes n).job_tgts)
      ∧ (∀ y ys, (st.nodes n).rule_tgts.filter (yields_job env name_ lvl) = y :: ys →
          (∀ rt ∈ (st.nodes n).rule_tgts, yields_job env name_ lvl rt = true →
            rt.rule.prio ≤ y.rule.prio)
          ∧ (st'.nodes n).job_tgts =
              (st.nodes n).job_tgts ++ tier_job_tgts env name_ lvl y.rule.prio (st.nodes n).rule_tgts
          ∧ tier_job_tgts env name_ lvl y.rule.prio (st.nodes n).rule_tgts ≠ []
          ∧ (if (tier_job_tgts env name_ lvl y.rule.prio (st.nodes n).rule_tgts).any
                (JobTgt.sure_val env st)
             then b = .Yes ∧ (st'.nodes n).rule_tgts = []
             else b = .Maybe ∧ (st'.nodes n).rule_tgts =
               (st.nodes n).rule_tgts.filter (fun rt => decide (rt.rule.prio < y.rule.prio)))) := by
  unfold NodeData._gather_prio_job_tgts at h
  by_cases hlcl : Disk.is_lcl name_ = true
  swap
  · simp [hlcl] at h
  simp only [hlcl, Bool.not_true, Bool.false_eq_true, if_false] at h
  cases hg : NodeData.gather_prio_loop env name_ lvl (st.nodes n).rule_tgts {} st with
  | thrown s e => rw [hg] at h; cases h
  | abort => rw [hg] at h; cases h
  | no_fuel => rw [hg] at h; cases h
  | ret r =>
    obtain ⟨acc, st1⟩ := r
    rw [hg] at h
    simp only [Ended.ret.injEq, Prod.mk.injEq] at h
    obtain ⟨hb, hst⟩ := h
    obtain ⟨i1, i2, i3⟩ :=
      gather_prio_loop_first env name_ lvl (st.nodes n).rule_tgts [] {} st acc st1 rfl rfl rfl rfl
        hs (by simpa using hl) hg
    have hnode : st'.nodes n = NodeData.gather_done acc (st.nodes n) := by
      rw [← hst, set_node_same, i1]
    refine ⟨fun hnil => ?_, fun y ys hf => ?_⟩
    · obtain ⟨j1, j2, j3⟩ := i2 hnil
      refine ⟨by rw [← hb, j2], ?_, ?_⟩
      · rw [hnode, gather_done_rule_tgts, j3, rule_tgts_left_NoIdx]
      · rw [hnode, gather_done_job_tgts, j1, List.append_nil]
    · obtain ⟨j1, j2, j3, j4⟩ := i3 y ys hf
      simp only [List.nil_append] at j4
      refine ⟨?_, by rw [hnode, gather_done_job_tgts, j1], by rw [← j1]; exact j2, ?_⟩
      · intro rt hrt hyr
        have hmem : rt ∈ (st.nodes n).rule_tgts.filter (yields_job env name_ lvl) :=
          List.mem_filter.mpr ⟨hrt, hyr⟩
        have hp := List.Pairwise.filter (yields_job env name_ lvl) hs
        rw [hf] at hmem hp
        rcases List.mem_cons.mp hmem with hm | hm
        · rw [hm]
        · exact (List.pairwise_cons.mp hp).1 rt hm
      · by_cases hany : (tier_job_tgts env name_ lvl y.rule.prio (st.nodes n).rule_tgts).any
            (JobTgt.sure_val env st) = true
        · rw [if_pos hany]
          rw [if_pos hany] at j3 j4
          exact ⟨by rw [← hb, j3], by rw [hnode, gather_done_rule_tgts, j4]⟩
        · rw [if_neg hany]
          rw [if_neg hany] at j3 j4
          exact ⟨by rw [← hb, j3], by rw [hnode, gather_done_rule_tgts, j4]⟩

end Engine

namespace Engine

theorem C20_gather_witness :
    ∃ st', NodeData._gather_prio_job_tgts rules_env 1 "a".toList 0 gather_store = .ret (.Yes, st')
      ∧ (st'.nodes 1).job_tgts = [⟨5, true⟩, ⟨6, false⟩] ∧ (st'.nodes 1).rule_tgts = [] := by
  refine ⟨_, rfl, ?_⟩
  have h := (C20_gather_prio_job_tgts rules_env 1 "a".toList 0 gather_store _ .Yes (by decide)
    (by decide) rfl).2 (plain_rt 1 true 5) [plain_rt 1 false 6, plain_rt 0 false 7] (by decide)
  refine ⟨h.2.1.trans (by decide), ?_⟩
  have h4 := h.2.2.2
  rw [if_pos (by decide)] at h4
  exact h4.2

end Engine

namespace Engine

/-! ## C19 : how a call of `set_buildable` leaves the node -/

theorem set_match_gen_true (env : Env) (nd nd' : NodeData)
    (h : nd._set_match_gen env true = some nd') :
    nd'.match_ok env = true ∧ nd'.buildable = nd.buildable ∧ nd'.job_tgts = nd.job_tgts
      ∧ nd'.name = nd.name ∧ nd'.dir = nd.dir
      ∧ (nd.match_gen < env.s_match_gen → nd.buildable ≠ .Unknown) := by
  unfold NodeData._set_match_gen at h
  simp only [Bool.not_true, Bool.false_eq_true, if_false] at h
  by_cases hg : nd.match_gen < env.s_match_gen
  · rw [if_pos hg] at h
    by_cases hu : nd.buildable = .Unknown
    · rw [if_pos hu] at h; cases h
    · rw [if_neg hu] at h
      injection h with h
      subst h
      simp [NodeData.match_ok, hu]
  · rw [if_neg hg] at h
    injection h with h
    subst h
    simp only [NodeData.match_ok, ge_iff_le, decide_eq_true_eq, and_self, and_true, true_and]
    exact ⟨by omega, fun h => absurd h hg⟩

theorem set_match_gen_false (env : Env) (nd : NodeData) :
    nd._set_match_gen env false = some { nd with buildable := .Unknown, match_gen := 0 } := by
  simp [NodeData._set_match_gen]

theorem set_buildable_some (b : Buildable) (nd nd' : NodeData)
    (h : nd._set_buildable b = some nd') : nd' = { nd with buildable := b } ∧ b ≠ .Unknown := by
  unfold NodeData._set_buildable at h
  by_cases hu : b = .Unknown
  · rw [if_pos hu] at h; cases h
  · rw [if_neg hu] at h
    injection h with h
    exact ⟨h.symm, hu⟩

/-- What the label `Return` makes of the node. -/
theorem set_buildable_return_ret (env : Env) (n : Nat) (st : Store) :
    match NodeData.set_buildable_return env n st with
    | .ret st' =>
      ∃ nd', (st.nodes n)._set_match_gen env true = some nd' ∧ st' = st.set_node n nd'
    | .abort => True
    | _ => False := by
  unfold NodeData.set_buildable_return
  cases h : (st.nodes n)._set_match_gen env true with
  | none => trivial
  | some nd => exact ⟨nd, rfl, rfl⟩

/-- What `_set_buildable(b) ; goto Return` makes of the node. -/
theorem set_buildable_to_ret (env : Env) (n : Nat) (b : Buildable) (st : Store) :
    match NodeData.set_buildable_to env n b st with
    | .ret st' =>
      b ≠ .Unknown ∧
      ∃ nd', ({ st.nodes n with buildable := b } : NodeData)._set_match_gen env true = some nd'
        ∧ st' = st.set_node n nd'
    | .abort => True
    | _ => False := by
  unfold NodeData.set_buildable_to
  cases h : (st.nodes n)._set_buildable b with
  | none => trivial
  | some nd =>
    obtain ⟨h1, h2⟩ := set_buildable_some b _ _ h
    subst h1
    simp only
    unfold NodeData.set_buildable_return
    rw [set_node_same]
    cases hm : ({ st.nodes n with buildable := b } : NodeData)._set_match_gen env true with
    | none => trivial
    | some nd' =>
      refine ⟨h2, nd', rfl, ?_⟩
      simp [Store.set_node]
      funext k
      by_cases hk : k = n <;> simp [hk]

/-- After `_set_buildable(b) ; goto Return`, the node is classified `b`, its match is up to date
and its jobs are those it had. -/
theorem set_buildable_to_node (env : Env) (n : Nat) (b : Buildable) (st st' : Store)
    (h : NodeData.set_buildable_to env n b st = .ret st') :
    (st'.nodes n).buildable = b ∧ b ≠ .Unknown ∧ (st'.nodes n).match_ok env = true
      ∧ (st'.nodes n).job_tgts = (st.nodes n).job_tgts := by
  have := set_buildable_to_ret env n b st
  rw [h] at this
  obtain ⟨hb, nd', h1, h2⟩ := this
  subst h2
  rw [set_node_same]
  obtain ⟨i1, i2, i3, _⟩ := set_match_gen_true env _ _ h1
  exact ⟨i2, hb, i1, i3⟩

theorem set_buildable_to_not_thrown (env : Env) (n : Nat) (b : Buildable) (st s : Store)
    (e : List Nat) : NodeData.set_buildable_to env n b st ≠ .thrown s e := by
  intro h
  have := set_buildable_to_ret env n b st
  rw [h] at this
  exact this

theorem set_buildable_to_fuel (env : Env) (n : Nat) (b : Buildable) (st : Store) :
    NodeData.set_buildable_to env n b st ≠ .no_fuel := by
  intro h
  have := set_buildable_to_ret env n b st
  rw [h] at this
  exact this

theorem set_buildable_return_not_thrown (env : Env) (n : Nat) (st s : Store) (e : List Nat) :
    NodeData.set_buildable_return env n st ≠ .thrown s e := by
  intro h
  have := set_buildable_return_ret env n st
  rw [h] at this
  exact this

theorem set_buildable_return_fuel (env : Env) (n : Nat) (st : Store) :
    NodeData.set_buildable_return env n st ≠ .no_fuel := by
  intro h
  have := set_buildable_return_ret env n st
  rw [h] at this
  exact this

theorem gather_job_buildable (env : Env) (rt : RuleTgt) (jt : JobTgt) (acc : GatherAcc)
    (st : Store) (h : acc.buildable = .No ∨ acc.buildable = .Maybe ∨ acc.buildable = .Yes) :
    ((NodeData.gather_job env rt jt acc st).1.buildable = .Maybe
        ∨ (NodeData.gather_job env rt jt acc st).1.buildable = .Yes)
      ∧ (NodeData.gather_job env rt jt acc st).1.jts ≠ []
      ∧ (NodeData.gather_job env rt jt acc st).2.nodes = st.nodes := by
  refine ⟨?_, by simp [NodeData.gather_job], JobTgt.sure_nodes env st jt⟩
  simp only [NodeData.gather_job]
  by_cases hs : (jt.sure env st).1 = true
  · simp [hs]
  · simp only [hs, Bool.false_eq_true, if_false]
    rcases h with h | h | h <;> rw [h] <;> decide

/-- The loop of `_gather_prio_job_tgts` touches no node ; it ends on No without any job, or on
Maybe or Yes with jobs. -/
theorem gather_prio_loop_inv (env : Env) (name_ : List Char) (lvl : Nat) :
    ∀ (rest : List RuleTgt) (acc : GatherAcc) (st : Store),
      (acc.buildable = .No ∧ acc.jts = []
        ∨ (acc.buildable = .Maybe ∨ acc.buildable = .Yes) ∧ acc.jts ≠ []) →
      match NodeData.gather_prio_loop env name_ lvl rest acc st with
      | .ret (acc', st') =>
        st'.nodes = st.nodes
          ∧ (acc'.buildable = .No ∧ acc'.jts = []
            ∨ (acc'.buildable = .Maybe ∨ acc'.buildable = .Yes) ∧ acc'.jts ≠ [])
      | .thrown st' _ => st'.nodes = st.nodes
      | .abort => True
      | .no_fuel => False := by
  intro rest
  induction rest with
  | nil =>
    intro acc st hi
    rw [NodeData.gather_prio_loop]
    exact ⟨rfl, hi⟩
  | cons rt rts ih =>
    intro acc st hi
    rw [gather_prio_loop_cons]
    by_cases hsp : rt.rule.is_special = true
    · rw [if_pos hsp]; trivial
    rw [if_neg hsp]
    by_cases hlt : prio_lt rt.rule.prio acc.prio = true
    · rw [if_pos hlt]; exact ⟨rfl, hi⟩
    rw [if_neg hlt]
    cases hjt : JobTgt.of_rule_tgt env rt name_ (lvl + 1) with
    | error e => exact rfl
    | ok jt =>
      simp only
      by_cases hj : jt.job ≠ 0
      · rw [if_pos hj]
        have hb : acc.buildable = .No ∨ acc.buildable = .Maybe ∨ acc.buildable = .Yes := by
          rcases hi with hi | hi
          · exact Or.inl hi.1
          · exact Or.inr hi.1
        obtain ⟨g1, g2, g3⟩ := gather_job_buildable env rt jt acc st hb
        have := ih (NodeData.gather_job env rt jt acc st).1.incr
          (NodeData.gather_job env rt jt acc st).2
          (Or.inr ⟨by rw [incr_buildable]; exact g1, by rw [incr_jts]; exact g2⟩)
        revert this
        cases NodeData.gather_prio_loop env name_ lvl rts
            (NodeData.gather_job env rt jt acc st).1.incr
            (NodeData.gather_job env rt jt acc st).2 with
        | ret r => intro this; exact ⟨this.1.trans g3, this.2⟩
        | thrown s e => intro this; exact this.trans g3
        | abort => intro _; trivial
        | no_fuel => intro this; exact this
      · rw [if_neg hj]
        exact ih acc.incr st (by rw [incr_buildable, incr_jts]; exact hi)

/-- What a call of `_gather_prio_job_tgts` makes of the node : it returns No and leaves the jobs
as they were, or returns Maybe or Yes ; an exception leaves the nodes as they were. -/
theorem gather_prio_job_tgts_node (env : Env) (n : Nat) (name_ : List Char) (lvl : Nat)
    (st : Store) :
    match NodeData._gather_prio_job_tgts env n name_ lvl st with
    | .ret (b, st') =>
      (∀ k, k ≠ n → st'.nodes k = st.nodes k)
        ∧ (st'.nodes n).name = (st.nodes n).name ∧ (st'.nodes n).dir = (st.nodes n).dir
        ∧ (st'.nodes n).buildable = (st.nodes n).buildable
        ∧ (st'.nodes n).match_gen = (st.nodes n).match_gen
        ∧ (b = .No ∧ (st'.nodes n).job_tgts = (st.nodes n).job_tgts ∨ b = .Maybe ∨ b = .Yes)
    | .thrown st' _ => st'.nodes = st.nodes
    | .abort => True
    | .no_fuel => False := by
  unfold NodeData._gather_prio_job_tgts
  by_cases hl : Disk.is_lcl name_ = true
  swap
  · simp [hl]
  simp only [hl, Bool.not_true, Bool.false_eq_true, if_false]
  have := gather_prio_loop_inv env name_ lvl (st.nodes n).rule_tgts {} st (Or.inl ⟨rfl, rfl⟩)
  revert this
  cases NodeData.gather_prio_loop env name_ lvl (st.nodes n).rule_tgts {} st with
  | ret r =>
    obtain ⟨acc, st1⟩ := r
    intro this
    simp only
    obtain ⟨h1, h2⟩ := this
    refine ⟨fun k hk => by simp [Store.set_node, hk, h1], ?_⟩
    rw [set_node_same, h1]
    have hname : (NodeData.gather_done acc (st.nodes n)).name = (st.nodes n).name := by
      unfold NodeData.gather_done
      by_cases a : acc.jts = [] <;> by_cases c : acc.n = Node.NoIdx <;> simp [a, c]
    have hdir : (NodeData.gather_done acc (st.nodes n)).dir = (st.nodes n).dir := by
      unfold NodeData.gather_done
      by_cases a : acc.jts = [] <;> by_cases c : acc.n = Node.NoIdx <;> simp [a, c]
    have hbld : (NodeData.gather_done acc (st.nodes n)).buildable = (st.nodes n).buildable := by
      unfold NodeData.gather_done
      by_cases a : acc.jts = [] <;> by_cases c : acc.n = Node.NoIdx <;> simp [a, c]
    have hgen : (NodeData.gather_done acc (st.nodes n)).match_gen = (st.nodes n).match_gen := by
      unfold NodeData.gather_done
      by_cases a : acc.jts = [] <;> by_cases c : acc.n = Node.NoIdx <;> simp [a, c]
    refine ⟨hname, hdir, hbld, hgen, ?_⟩
    rcases h2 with h2 | h2
    · left
      refine ⟨h2.1, ?_⟩
      rw [gather_done_job_tgts, h2.2, List.append_nil]
    · right; exact h2.1
  | thrown s e => intro this; exact this
  | abort => intro _; trivial
  | no_fuel => intro this; exact this

end Engine

namespace Engine

theorem or_Maybe_cases (b : Buildable) (h : b = .No ∨ b = .Maybe ∨ b = .Yes) :
    b.or .Maybe = .Maybe ∨ b.or .Maybe = .Yes := by
  rcases h with h | h | h <;> subst h <;> decide

/-- A return of the end of the `try` block leaves the node classified, and with the jobs it had
when it is not buildable. -/
theorem set_buildable_jobs_node (env : Env) (n lvl : Nat) (name_ : List Char) (db : Buildable)
    (st st' : Store) (h : NodeData.set_buildable_jobs env n lvl name_ db st = .ret st') :
    (st'.nodes n).classified env
      ∧ ((st'.nodes n).buildable.val ≤ Buildable.No.val →
          (st'.nodes n).job_tgts = (st.nodes n).job_tgts) := by
  unfold NodeData.set_buildable_jobs at h
  by_cases hl : Disk.is_lcl name_ = true
  swap
  · simp only [hl, Bool.not_false, if_true] at h
    obtain ⟨h1, h2, h3, h4⟩ := set_buildable_to_node env n _ st st' h
    exact ⟨⟨by rw [h1]; decide, by rw [h1]; decide, h3⟩, fun _ => h4⟩
  simp only [hl, Bool.not_true, Bool.false_eq_true, if_false] at h
  have hg := gather_prio_job_tgts_node env n name_ lvl st
  revert h hg
  cases NodeData._gather_prio_job_tgts env n name_ lvl st with
  | ret r =>
    obtain ⟨b, st1⟩ := r
    intro h hg
    simp only at h hg
    obtain ⟨_, _, _, _, _, hb⟩ := hg
    obtain ⟨h1, h2, h3, h4⟩ := set_buildable_to_node env n _ st1 st' h
    have hb3 : b = .No ∨ b = .Maybe ∨ b = .Yes := by
      rcases hb with hb | hb | hb
      · exact Or.inl hb.1
      · exact Or.inr (Or.inl hb)
      · exact Or.inr (Or.inr hb)
    by_cases hdb : db = .Maybe
    · rw [if_pos hdb] at h1
      rcases or_Maybe_cases b hb3 with hc | hc
      · rw [hc] at h1
        exact ⟨⟨by rw [h1]; decide, by rw [h1]; decide, h3⟩,
          fun hno => by rw [h1] at hno; exact absurd hno (by decide)⟩
      · rw [hc] at h1
        exact ⟨⟨by rw [h1]; decide, by rw [h1]; decide, h3⟩,
          fun hno => by rw [h1] at hno; exact absurd hno (by decide)⟩
    · rw [if_neg hdb] at h1
      rcases hb with hb | hb | hb
      · rw [hb.1] at h1
        exact ⟨⟨by rw [h1]; decide, by rw [h1]; decide, h3⟩, fun _ => by rw [h4, hb.2]⟩
      · rw [hb] at h1
        exact ⟨⟨by rw [h1]; decide, by rw [h1]; decide, h3⟩,
          fun hno => by rw [h1] at hno; exact absurd hno (by decide)⟩
      · rw [hb] at h1
        exact ⟨⟨by rw [h1]; decide, by rw [h1]; decide, h3⟩,
          fun hno => by rw [h1] at hno; exact absurd hno (by decide)⟩
  | thrown s e => intro h _; cases h
  | abort => intro h _; cases h
  | no_fuel => intro h _; cases h

theorem set_buildable_jobs_fuel (env : Env) (n lvl : Nat) (name_ : List Char) (db : Buildable)
    (st : Store) : NodeData.set_buildable_jobs env n lvl name_ db st ≠ .no_fuel := by
  unfold NodeData.set_buildable_jobs
  by_cases hl : Disk.is_lcl name_ = true
  swap
  · simp only [hl, Bool.not_false, if_true]
    exact set_buildable_to_fuel env n _ st
  simp only [hl, Bool.not_true, Bool.false_eq_true, if_false]
  have hg := gather_prio_job_tgts_node env n name_ lvl st
  revert hg
  cases NodeData._gather_prio_job_tgts env n name_ lvl st with
  | ret r => intro _; exact set_buildable_to_fuel env n _ _
  | thrown s e => intro _ h; cases h
  | abort => intro _ h; cases h
  | no_fuel => intro hg; exact hg.elim

/-- After `_set_buildable(b) ; goto Return` with a `b` above No, the node is classified and
buildable. -/
theorem set_buildable_to_above (env : Env) (n : Nat) (b : Buildable) (st st' : Store) (Q : Prop)
    (hb1 : b ≠ .Loop) (hb2 : Buildable.No.val < b.val)
    (h : NodeData.set_buildable_to env n b st = .ret st') :
    (st'.nodes n).classified env ∧ ((st'.nodes n).buildable.val ≤ Buildable.No.val → Q) := by
  obtain ⟨h1, h2, h3, _⟩ := set_buildable_to_node env n b st st' h
  exact ⟨⟨by rw [h1]; exact hb1, by rw [h1]; exact h2, h3⟩,
    fun hno => by rw [h1] at hno; omega⟩

/-- A return of the `try` block leaves the node classified. When it is left not buildable, its
jobs are those the node had after the call on its dir, if any. -/
theorem set_buildable_try_node (env : Env) (rec_ : Nat → Nat → Store → Ended Store)
    (n lvl : Nat) (name_ : List Char) (st st' : Store)
    (h : NodeData.set_buildable_try env rec_ n lvl name_ st = .ret st') :
    (st'.nodes n).classified env
      ∧ ((st'.nodes n).buildable.val ≤ Buildable.No.val →
          ((st.nodes n).dir = 0 ∧ (st'.nodes n).job_tgts = (st.nodes n).job_tgts)
          ∨ ((st.nodes n).dir ≠ 0 ∧ ∃ st1, rec_ (st.nodes n).dir (lvl + 1) st = .ret st1
              ∧ (st'.nodes n).job_tgts = (st1.nodes n).job_tgts)) := by
  unfold NodeData.set_buildable_try at h
  by_cases hd : (st.nodes n).dir ≠ 0
  swap
  · rw [if_neg hd] at h
    obtain ⟨h1, h2⟩ := set_buildable_jobs_node env n lvl name_ _ st st' h
    exact ⟨h1, fun hno => Or.inl ⟨by simpa using hd, h2 hno⟩⟩
  rw [if_pos hd] at h
  by_cases hlvl : lvl ≥ env.max_dep_depth
  · rw [if_pos hlvl] at h; cases h
  rw [if_neg hlvl] at h
  cases hr : rec_ (st.nodes n).dir (lvl + 1) st with
  | thrown s e => rw [hr] at h; cases h
  | abort => rw [hr] at h; cases h
  | no_fuel => rw [hr] at h; cases h
  | ret st1 =>
    rw [hr] at h
    simp only at h
    have hjobs : ∀ db : Buildable,
        NodeData.set_buildable_jobs env n lvl name_ db st1 = .ret st' →
        (st'.nodes n).classified env
          ∧ ((st'.nodes n).buildable.val ≤ Buildable.No.val →
              ((st.nodes n).dir = 0 ∧ (st'.nodes n).job_tgts = (st.nodes n).job_tgts)
              ∨ ((st.nodes n).dir ≠ 0 ∧ ∃ s, Ended.ret st1 = Ended.ret s
                  ∧ (st'.nodes n).job_tgts = (s.nodes n).job_tgts)) := by
      intro db hh
      obtain ⟨h1, h2⟩ := set_buildable_jobs_node env n lvl name_ db st1 st' hh
      exact ⟨h1, fun hno => Or.inr ⟨hd, st1, rfl, h2 hno⟩⟩
    cases hdb : (st1.nodes (st1.nodes n).dir).buildable <;> rw [hdb] at h <;> simp only at h <;>
      first
      | exact hjobs _ h
      | exact set_buildable_to_above env n _ st1 st' _ (by decide) (by decide) h
      | cases h

end Engine

namespace Engine

/-! ### The nodes that a call of `set_buildable` touches -/

theorem upd_le_refl (L : Nat) (st : Store) : Store.upd_le L st st :=
  ⟨fun _ => ⟨rfl, rfl⟩, fun _ _ => rfl⟩

theorem upd_le_trans (L : Nat) (a b c : Store) (h1 : Store.upd_le L a b)
    (h2 : Store.upd_le L b c) : Store.upd_le L a c := by
  refine ⟨fun k => ⟨(h2.1 k).1.trans (h1.1 k).1, (h2.1 k).2.trans (h1.1 k).2⟩, fun k hk => ?_⟩
  rw [h2.2 k (by rw [(h1.1 k).1]; exact hk), h1.2 k hk]

theorem upd_le_mono (L L' : Nat) (a b : Store) (h : L ≤ L') (h1 : Store.upd_le L a b) :
    Store.upd_le L' a b :=
  ⟨h1.1, fun k hk => h1.2 k (lt_of_le_of_lt h hk)⟩

theorem upd_le_set_node (L : Nat) (st : Store) (n : Nat) (nd : NodeData)
    (hn : nd.name = (st.nodes n).name) (hd : nd.dir = (st.nodes n).dir)
    (hL : (st.nodes n).name.length ≤ L) : Store.upd_le L st (st.set_node n nd) := by
  refine ⟨fun k => ?_, fun k hk => ?_⟩
  · by_cases h : k = n
    · subst h; simp [Store.set_node, hn, hd]
    · simp [Store.set_node, h]
  · have h : k ≠ n := by
      intro h; subst h; omega
    simp [Store.set_node, h]

theorem upd_le_of_nodes (L : Nat) (a b : Store) (h : b.nodes = a.nodes) : Store.upd_le L a b :=
  ⟨fun k => by rw [h]; exact ⟨rfl, rfl⟩, fun k _ => by rw [h]⟩

theorem dirs_ok_upd (L : Nat) (a b : Store) (h : Store.upd_le L a b) (ha : a.dirs_ok) :
    b.dirs_ok := by
  intro k hk
  rw [(h.1 k).2] at hk ⊢
  rw [(h.1 k).1, (h.1 _).1]
  exact ha k hk

theorem stores_mono (P Q : Store → Prop) (r : Ended Store) (h : ∀ s, P s → Q s)
    (hr : r.stores P) : r.stores Q := by
  cases r with
  | ret s => exact h s hr
  | thrown s e => exact h s hr
  | abort => trivial
  | no_fuel => trivial

theorem return_stores (env : Env) (n : Nat) (st : Store) (L : Nat)
    (hL : (st.nodes n).name.length ≤ L) :
    (NodeData.set_buildable_return env n st).stores (Store.upd_le L st) := by
  have := set_buildable_return_ret env n st
  revert this
  cases NodeData.set_buildable_return env n st with
  | ret s =>
    intro this
    obtain ⟨nd', h1, h2⟩ := this
    subst h2
    obtain ⟨_, _, _, i4, i5, _⟩ := set_match_gen_true env _ _ h1
    exact upd_le_set_node L st n nd' i4 i5 hL
  | thrown s e => intro this; exact this.elim
  | abort => intro _; trivial
  | no_fuel => intro _; trivial

theorem to_stores (env : Env) (n : Nat) (b : Buildable) (st : Store) (L : Nat)
    (hL : (st.nodes n).name.length ≤ L) :
    (NodeData.set_buildable_to env n b st).stores (Store.upd_le L st) := by
  have := set_buildable_to_ret env n b st
  revert this
  cases NodeData.set_buildable_to env n b st with
  | ret s =>
    intro this
    obtain ⟨_, nd', h1, h2⟩ := this
    subst h2
    obtain ⟨_, _, _, i4, i5, _⟩ := set_match_gen_true env _ _ h1
    exact upd_le_set_node L st n nd' i4 i5 hL
  | thrown s e => intro this; exact this.elim
  | abort => intro _; trivial
  | no_fuel => intro _; trivial

theorem jobs_stores (env : Env) (n lvl : Nat) (name_ : List Char) (db : Buildable) (st : Store)
    (L : Nat) (hL : (st.nodes n).name.length ≤ L) :
    (NodeData.set_buildable_jobs env n lvl name_ db st).stores (Store.upd_le L st) := by
  unfold NodeData.set_buildable_jobs
  by_cases hl : Disk.is_lcl name_ = true
  swap
  · simp only [hl, Bool.not_false, if_true]
    exact to_stores env n _ st L hL
  simp only [hl, Bool.not_true, Bool.false_eq_true, if_false]
  have hg := gather_prio_job_tgts_node env n name_ lvl st
  revert hg
  cases NodeData._gather_prio_job_tgts env n name_ lvl st with
  | ret r =>
    obtain ⟨b, st1⟩ := r
    intro hg
    simp only at hg ⊢
    obtain ⟨g1, g2, g3, _⟩ := hg
    have hu : Store.upd_le L st st1 := by
      refine ⟨fun k => ?_, fun k hk => ?_⟩
      · by_cases h : k = n
        · subst h; exact ⟨g2, g3⟩
        · rw [g1 k h]; exact ⟨rfl, rfl⟩
      · have h : k ≠ n := by
          intro h; subst h; omega
        exact g1 k h
    exact stores_mono _ _ _ (fun s hs => upd_le_trans L st st1 s hu hs)
      (to_stores env n _ st1 L (by rw [g2]; exact hL))
  | thrown s e => intro hg; exact upd_le_of_nodes L st s hg
  | abort => intro _; trivial
  | no_fuel => intro _; trivial

theorem try_stores (env : Env) (rec_ : Nat → Nat → Store → Ended Store) (n lvl : Nat)
    (name_ : List Char) (st : Store) (L : Nat)
    (hrec : ∀ d l s, Store.dirs_ok s →
      (rec_ d l s).stores (Store.upd_le (s.nodes d).name.length s))
    (hwf : st.dirs_ok) (hL : (st.nodes n).name.length ≤ L) :
    (NodeData.set_buildable_try env rec_ n lvl name_ st).stores (Store.upd_le L st) := by
  unfold NodeData.set_buildable_try
  by_cases hd : (st.nodes n).dir ≠ 0
  swap
  · rw [if_neg hd]; exact jobs_stores env n lvl name_ _ st L hL
  rw [if_pos hd]
  by_cases hlvl : lvl ≥ env.max_dep_depth
  · rw [if_pos hlvl]; exact upd_le_refl L st
  rw [if_neg hlvl]
  have hr := hrec (st.nodes n).dir (lvl + 1) st hwf
  have hlen := hwf n hd
  revert hr
  cases rec_ (st.nodes n).dir (lvl + 1) st with
  | thrown s e => intro hr; exact upd_le_mono _ L st s (by omega) hr
  | abort => intro _; trivial
  | no_fuel => intro _; trivial
  | ret st1 =>
    intro hr
    have hu : Store.upd_le L st st1 := upd_le_mono _ L st st1 (by omega) hr
    have hL1 : (st1.nodes n).name.length ≤ L := by rw [(hu.1 n).1]; exact hL
    have hto : ∀ b, (NodeData.set_buildable_to env n b st1).stores (Store.upd_le L st) :=
      fun b => stores_mono _ _ _ (fun s hs => upd_le_trans L st st1 s hu hs)
        (to_stores env n b st1 L hL1)
    have hjobs : ∀ db,
        (NodeData.set_buildable_jobs env n lvl name_ db st1).stores (Store.upd_le L st) :=
      fun db => stores_mono _ _ _ (fun s hs => upd_le_trans L st st1 s hu hs)
        (jobs_stores env n lvl name_ db st1 L hL1)
    simp only
    cases (st1.nodes (st1.nodes n).dir).buildable <;> simp only <;>
      first
      | exact hjobs _
      | exact hto _
      | trivial

theorem catch_stores (env : Env) (n : Nat) (r : Ended Store) (st : Store) (L : Nat)
    (hr : r.stores (Store.upd_le L st)) (hL : (st.nodes n).name.length ≤ L) :
    (NodeData.set_buildable_catch env n r).stores (Store.upd_le L st) := by
  cases r with
  | ret s => exact hr
  | abort => trivial
  | no_fuel => trivial
  | thrown s e =>
    simp only [NodeData.set_buildable_catch, set_match_gen_false]
    have hu : Store.upd_le L st s := hr
    exact upd_le_trans L st s _ hu
      (upd_le_set_node L s n _ rfl rfl (by rw [(hu.1 n).1]; exact hL))

theorem gather_special_loop_node (env : Env) (name_ : List Char) (full : List RuleTgt) :
    ∀ (rts : List RuleTgt) (k : Nat) (nd : NodeData) (b : Buildable) (nd' : NodeData),
      NodeData.gather_special_loop env name_ full rts k nd = some (b, nd') →
      nd'.name = nd.name ∧ nd'.dir = nd.dir ∧ nd'.job_tgts = nd.job_tgts
        ∧ nd'.match_gen = nd.match_gen ∧ nd'.buildable = nd.buildable
        ∧ (match (rts.takeWhile (fun rt => rt.rule.is_special)).find?
              (fun rt => env.full_match rt name_) with
           | some rt =>
             rt.rule.special = .GenericSrc ∧ b = .DynSrc ∨ rt.rule.special = .Anti ∧ b = .DynAnti
           | none => b = .Maybe) := by
  intro rts
  induction rts with
  | nil =>
    intro k nd b nd' h
    simp only [NodeData.gather_special_loop, Option.some.injEq, Prod.mk.injEq] at h
    obtain ⟨h1, h2⟩ := h
    subst h1 h2
    simp
  | cons rt rts ih =>
    intro k nd b nd' h
    rw [NodeData.gather_special_loop] at h
    by_cases hsp : rt.rule.is_special = true
    swap
    · simp only [hsp, Bool.not_false, if_true, Option.some.injEq, Prod.mk.injEq] at h
      obtain ⟨h1, h2⟩ := h
      subst h1 h2
      simp [List.takeWhile_cons, hsp]
    simp only [hsp, Bool.not_true, Bool.false_eq_true, if_false] at h
    have ht : List.takeWhile (fun rt => rt.rule.is_special) (rt :: rts)
        = rt :: List.takeWhile (fun rt => rt.rule.is_special) rts := by
      simp [List.takeWhile_cons, hsp]
    by_cases hm : env.full_match rt name_ = true
    · rw [if_pos hm] at h
      have hf : List.find? (fun rt => env.full_match rt name_)
            (rt :: List.takeWhile (fun rt => rt.rule.is_special) rts) = some rt := by
        simp [List.find?_cons, hm]
      rw [ht, hf]
      cases hs : rt.rule.special <;> rw [hs] at h <;> simp only at h <;>
        first
        | (cases h; simp [hs])
        | cases h
    · rw [if_neg hm] at h
      have hf : List.find? (fun rt => env.full_match rt name_)
            (rt :: List.takeWhile (fun rt => rt.rule.is_special) rts)
          = List.find? (fun rt => env.full_match rt name_)
              (List.takeWhile (fun rt => rt.rule.is_special) rts) := by
        simp [List.find?_cons, hm]
      rw [ht, hf]
      exact ih _ nd b nd' h

theorem gather_special_node (env : Env) (nd : NodeData) (b : Buildable) (nd' : NodeData)
    (h : nd._gather_special_rule_tgts env nd.name = some (b, nd')) :
    nd'.name = nd.name ∧ nd'.dir = nd.dir ∧ nd'.job_tgts = []
      ∧ nd'.match_gen = nd.match_gen ∧ nd'.buildable = nd.buildable
      ∧ (match first_special env nd with
         | some rt =>
           rt.rule.special = .GenericSrc ∧ b = .DynSrc ∨ rt.rule.special = .Anti ∧ b = .DynAnti
         | none => b = .Maybe) := by
  unfold NodeData._gather_special_rule_tgts at h
  obtain ⟨h1, h2, h3, h4, h5, h6⟩ := gather_special_loop_node env nd.name _ _ _ _ b nd' h
  exact ⟨h1, h2, h3, h4, h5, h6⟩

theorem set_status_some (s : NodeStatus) (nd nd' : NodeData) (h : nd.set_status s = some nd') :
    nd'.name = nd.name ∧ nd'.dir = nd.dir ∧ nd'.job_tgts = nd.job_tgts
      ∧ nd'.match_gen = nd.match_gen ∧ nd'.buildable = nd.buildable
      ∧ nd'.rule_tgts = nd.rule_tgts
      ∧ ∀ env : Env, nd'.raw_rule_tgts env = nd.raw_rule_tgts env := by
  unfold NodeData.set_status at h
  split at h
  · cases h
  · injection h with h
    subst h
    simp [NodeData.raw_rule_tgts]

end Engine

namespace Engine

theorem catch_ret (env : Env) (n : Nat) (r : Ended Store) (st' : Store)
    (h : NodeData.set_buildable_catch env n r = .ret st') : r = .ret st' := by
  cases r with
  | ret s => exact h
  | thrown s e => simp [NodeData.set_buildable_catch, set_match_gen_false] at h
  | abort => cases h
  | no_fuel => cases h

theorem catch_thrown (env : Env) (n : Nat) (r : Ended Store) (st' : Store) (e : List Nat)
    (h : NodeData.set_buildable_catch env n r = .thrown st' e) :
    (st'.nodes n).buildable = .Unknown ∧ (st'.nodes n).match_gen = 0 := by
  cases r with
  | ret s => cases h
  | thrown s e1 =>
    simp only [NodeData.set_buildable_catch, set_match_gen_false, Ended.thrown.injEq] at h
    obtain ⟨h1, _⟩ := h
    subst h1
    rw [set_node_same]
    exact ⟨rfl, rfl⟩
  | abort => cases h
  | no_fuel => cases h

theorem catch_fuel (env : Env) (n : Nat) (r : Ended Store) (h : r ≠ .no_fuel) :
    NodeData.set_buildable_catch env n r ≠ .no_fuel := by
  cases r with
  | ret s => exact h
  | thrown s e =>
    simp [NodeData.set_buildable_catch, set_match_gen_false]
  | abort => intro hh; cases hh
  | no_fuel => exact absurd rfl h

theorem try_fuel (env : Env) (rec_ : Nat → Nat → Store → Ended Store) (n lvl : Nat)
    (name_ : List Char) (st : Store)
    (hrec : lvl < env.max_dep_depth → ∀ d s, rec_ d (lvl + 1) s ≠ .no_fuel) :
    NodeData.set_buildable_try env rec_ n lvl name_ st ≠ .no_fuel := by
  unfold NodeData.set_buildable_try
  by_cases hd : (st.nodes n).dir ≠ 0
  swap
  · rw [if_neg hd]; exact set_buildable_jobs_fuel env n lvl name_ _ st
  rw [if_pos hd]
  by_cases hlvl : lvl ≥ env.max_dep_depth
  · rw [if_pos hlvl]; intro h; cases h
  rw [if_neg hlvl]
  have hr := hrec (by omega) (st.nodes n).dir st
  revert hr
  cases rec_ (st.nodes n).dir (lvl + 1) st with
  | thrown s e => intro _ h; cases h
  | abort => intro _ h; cases h
  | no_fuel => intro hr; exact absurd rfl hr
  | ret st1 =>
    intro _
    simp only
    cases (st1.nodes (st1.nodes n).dir).buildable <;> simp only <;>
      first
      | exact set_buildable_jobs_fuel env n lvl name_ _ st1
      | exact set_buildable_to_fuel env n _ st1
      | (intro h; cases h)

/-- How `_set_buildable_raw` leaves the node. -/
theorem set_buildable_raw_node (env : Env) (rec_ : Nat → Nat → Store → Ended Store)
    (n lvl : Nat) (st : Store) :
    match NodeData._set_buildable_raw env rec_ n lvl st with
    | .ret st' =>
      (st'.nodes n).classified env
        ∧ (¬ ((st.nodes n).buildable = .Src ∨ (st.nodes n).buildable = .SrcDir
              ∨ (st.nodes n).buildable = .Anti) →
            st.dirs_ok →
            (∀ s s1, Store.dirs_ok s → (s.nodes n).dir ≠ 0 →
              rec_ (s.nodes n).dir (lvl + 1) s = .ret s1 → s1.nodes n = s.nodes n) →
            (st'.nodes n).buildable.val ≤ Buildable.No.val → (st'.nodes n).job_tgts = [])
    | .thrown st' _ => (st'.nodes n).buildable = .Unknown ∧ (st'.nodes n).match_gen = 0
    | .abort => True
    | .no_fuel => True := by
  unfold NodeData._set_buildable_raw
  simp only
  by_cases hsrc : (st.nodes n).buildable = .Src ∨ (st.nodes n).buildable = .SrcDir
      ∨ (st.nodes n).buildable = .Anti
  · rw [if_pos hsrc]
    by_cases hr : (st.nodes n).rule_tgts ≠ []
    · rw [if_pos hr]; trivial
    rw [if_neg hr]
    have := set_buildable_return_ret env n st
    revert this
    cases NodeData.set_buildable_return env n st with
    | ret s =>
      intro this
      obtain ⟨nd', h1, h2⟩ := this
      subst h2
      simp only [set_node_same]
      obtain ⟨i1, i2, _⟩ := set_match_gen_true env _ _ h1
      refine ⟨⟨?_, ?_, i1⟩, fun hc => absurd hsrc hc⟩
      · rw [i2]; rcases hsrc with h | h | h <;> rw [h] <;> decide
      · rw [i2]; rcases hsrc with h | h | h <;> rw [h] <;> decide
    | thrown s e => intro this; exact this.elim
    | abort => intro _; trivial
    | no_fuel => intro _; trivial
  rw [if_neg hsrc]
  cases hs : (st.nodes n).set_status .Unknown with
  | none => trivial
  | some nd1 =>
    simp only
    obtain ⟨s1, s2, s3, s4, s5, s6, s7⟩ := set_status_some _ _ _ hs
    cases hg : nd1._gather_special_rule_tgts env nd1.name with
    | none => trivial
    | some r =>
      obtain ⟨b, nd2⟩ := r
      simp only
      obtain ⟨g1, g2, g3, g4, g5, g6⟩ := gather_special_node env nd1 b nd2 hg
      have hto : ∀ b' : Buildable, b' ≠ .Loop →
          (b'.val ≤ Buildable.No.val ∨ Buildable.No.val < b'.val) →
          match NodeData.set_buildable_to env n b' (st.set_node n nd2) with
          | .ret st' =>
            (st'.nodes n).classified env
              ∧ (¬ ((st.nodes n).buildable = .Src ∨ (st.nodes n).buildable = .SrcDir
                    ∨ (st.nodes n).buildable = .Anti) →
                  st.dirs_ok →
                  (∀ s s1, Store.dirs_ok s → (s.nodes n).dir ≠ 0 →
                    rec_ (s.nodes n).dir (lvl + 1) s = .ret s1 → s1.nodes n = s.nodes n) →
                  (st'.nodes n).buildable.val ≤ Buildable.No.val → (st'.nodes n).job_tgts = [])
          | .thrown st' _ => (st'.nodes n).buildable = .Unknown ∧ (st'.nodes n).match_gen = 0
          | .abort => True
          | .no_fuel => True := by
        intro b' hb' _
        cases ht : NodeData.set_buildable_to env n b' (st.set_node n nd2) with
        | ret s =>
          obtain ⟨h1, h2, h3, h4⟩ := set_buildable_to_node env n b' _ s ht
          refine ⟨⟨by rw [h1]; exact hb', by rw [h1]; exact h2, h3⟩, fun _ _ _ _ => ?_⟩
          rw [h4, set_node_same, g3]
        | thrown s e => exact absurd ht (set_buildable_to_not_thrown env n b' _ s e)
        | abort => trivial
        | no_fuel => trivial
      by_cases hb1 : b.val ≤ Buildable.No.val
      · rw [if_pos hb1]; exact hto _ (by decide) (Or.inl (by decide))
      rw [if_neg hb1]
      by_cases hlong : nd1.name.length > env.path_max
      · rw [if_pos hlong]; exact hto _ (by decide) (Or.inl (by decide))
      rw [if_neg hlong]
      by_cases hb2 : b.val ≥ Buildable.Yes.val
      · rw [if_pos hb2]
        have hbl : b ≠ .Loop := by
          revert g6
          cases first_special env nd1 with
          | none => intro g6; simp only at g6; rw [g6]; decide
          | some rt =>
            intro g6
            simp only at g6
            rcases g6 with g6 | g6 <;> rw [g6.2] <;> decide
        exact hto b hbl (Or.inr (by simp only [Buildable.val] at hb2 ⊢; omega))
      rw [if_neg hb2]
      cases hl : nd2._set_buildable .Loop with
      | none => trivial
      | some nd3 =>
        simp only
        obtain ⟨l1, _⟩ := set_buildable_some _ _ _ hl
        cases hc : NodeData.set_buildable_catch env n
            (NodeData.set_buildable_try env rec_ n lvl nd1.name (st.set_node n nd3)) with
        | ret st' =>
          have ht := catch_ret env n _ st' hc
          obtain ⟨t1, t2⟩ := set_buildable_try_node env rec_ n lvl nd1.name _ st' ht
          refine ⟨t1, fun _ hwf hrec hno => ?_⟩
          have hnd3 : ((st.set_node n nd3).nodes n).job_tgts = [] := by
            rw [set_node_same, l1]; exact g3
          have hwf3 : (st.set_node n nd3).dirs_ok :=
            dirs_ok_upd _ st _
              (upd_le_set_node (st.nodes n).name.length st n nd3
                (by rw [l1]; simp only; rw [g1, s1]) (by rw [l1]; simp only; rw [g2, s2])
                (le_refl _)) hwf
          rcases t2 hno with t | t
          · rw [t.2, hnd3]
          · obtain ⟨hd, st1, hr1, hj⟩ := t
            rw [hj, hrec _ st1 hwf3 hd hr1, hnd3]
        | thrown st' e => exact catch_thrown env n _ st' e hc
        | abort => trivial
        | no_fuel => trivial

theorem set_buildable_raw_fuel (env : Env) (rec_ : Nat → Nat → Store → Ended Store)
    (n lvl : Nat) (st : Store)
    (hrec : lvl < env.max_dep_depth → ∀ d s, rec_ d (lvl + 1) s ≠ .no_fuel) :
    NodeData._set_buildable_raw env rec_ n lvl st ≠ .no_fuel := by
  unfold NodeData._set_buildable_raw
  simp only
  split
  · split
    · intro h; cases h
    · exact set_buildable_return_fuel env n st
  · split
    · intro h; cases h
    · split
      · intro h; cases h
      · split
        · exact set_buildable_to_fuel env n _ _
        · split
          · exact set_buildable_to_fuel env n _ _
          · split
            · exact set_buildable_to_fuel env n _ _
            · split
              · intro h; cases h
              · exact catch_fuel env n _ (try_fuel env rec_ n lvl _ _ hrec)

/-- With more fuel than the dep depth that is left, `set_buildable` does not run out of fuel. -/
theorem set_buildable_fuel (env : Env) :
    ∀ (fuel n lvl : Nat) (st : Store), env.max_dep_depth - lvl < fuel →
      NodeData.set_buildable env fuel n lvl st ≠ .no_fuel := by
  intro fuel
  induction fuel with
  | zero => intro n lvl st h; omega
  | succ fuel ih =>
    intro n lvl st h
    rw [NodeData.set_buildable]
    split
    · intro hh; cases hh
    · exact set_buildable_raw_fuel env _ n lvl st
        (fun hl d s => ih d (lvl + 1) s (by omega))

theorem raw_stores (env : Env) (rec_ : Nat → Nat → Store → Ended Store) (n lvl : Nat)
    (st : Store)
    (hrec : ∀ d l s, Store.dirs_ok s →
      (rec_ d l s).stores (Store.upd_le (s.nodes d).name.length s))
    (hwf : st.dirs_ok) :
    (NodeData._set_buildable_raw env rec_ n lvl st).stores
      (Store.upd_le (st.nodes n).name.length st) := by
  unfold NodeData._set_buildable_raw
  simp only
  split
  · split
    · trivial
    · exact return_stores env n st _ (le_refl _)
  · cases hs : (st.nodes n).set_status .Unknown with
    | none => trivial
    | some nd1 =>
      simp only
      obtain ⟨s1, s2, _⟩ := set_status_some _ _ _ hs
      cases hg : nd1._gather_special_rule_tgts env nd1.name with
      | none => trivial
      | some r =>
        obtain ⟨b, nd2⟩ := r
        simp only
        obtain ⟨g1, g2, _⟩ := gather_special_node env nd1 b nd2 hg
        have hu2 : Store.upd_le (st.nodes n).name.length st (st.set_node n nd2) :=
          upd_le_set_node _ st n nd2 (by rw [g1, s1]) (by rw [g2, s2]) (le_refl _)
        have hto : ∀ b', (NodeData.set_buildable_to env n b' (st.set_node n nd2)).stores
            (Store.upd_le (st.nodes n).name.length st) :=
          fun b' => stores_mono _ _ _ (fun s hs => upd_le_trans _ st _ s hu2 hs)
            (to_stores env n b' _ _ (by rw [set_node_same, g1, s1]))
        split
        · exact hto _
        · split
          · exact hto _
          · split
            · exact hto _
            · cases hl : nd2._set_buildable .Loop with
              | none => trivial
              | some nd3 =>
                simp only
                obtain ⟨l1, _⟩ := set_buildable_some _ _ _ hl
                have hu3 : Store.upd_le (st.nodes n).name.length st (st.set_node n nd3) :=
                  upd_le_set_node _ st n nd3 (by rw [l1]; simp only; rw [g1, s1])
                    (by rw [l1]; simp only; rw [g2, s2]) (le_refl _)
                have hwf3 := dirs_ok_upd _ st _ hu3 hwf
                have hL3 : ((st.set_node n nd3).nodes n).name.length ≤ (st.nodes n).name.length := by
                  rw [(hu3.1 n).1]
                have ht := try_stores env rec_ n lvl nd1.name (st.set_node n nd3)
                  (st.nodes n).name.length hrec hwf3 hL3
                have hc := catch_stores env n _ (st.set_node n nd3) (st.nodes n).name.length ht hL3
                exact stores_mono _ _ _ (fun s hs => upd_le_trans _ st _ s hu3 hs) hc

/-- A call of `set_buildable` on a node keeps the names and the dirs, and touches no node of a
longer name. -/
theorem set_buildable_stores (env : Env) :
    ∀ (fuel n lvl : Nat) (st : Store), st.dirs_ok →
      (NodeData.set_buildable env fuel n lvl st).stores
        (Store.upd_le (st.nodes n).name.length st) := by
  intro fuel
  induction fuel with
  | zero => intro n lvl st _; trivial
  | succ fuel ih =>
    intro n lvl st hwf
    rw [NodeData.set_buildable]
    split
    · exact upd_le_refl _ st
    · exact raw_stores env _ n lvl st (fun d l s hs => ih d l s hs) hwf

end Engine

namespace Engine

/-- C19 : a call of `set_buildable` on a node whose match, when it is up to date, is neither
Unknown nor Loop. With more fuel than the dep depth that is left the call ends. When it returns,
the buildable of the node is neither Loop nor Unknown and `match_ok()` holds ; when it leaves by
the exception of an infinite dep path, the buildable of the node is Unknown (hence not Loop) and
its `match_gen` is 0. -/
theorem C19_set_buildable_ended (env : Env) (fuel n lvl : Nat) (st : Store)
    (hinv : (st.nodes n).match_ok env = true →
      (st.nodes n).buildable ≠ .Loop ∧ (st.nodes n).buildable ≠ .Unknown) :
    (env.max_dep_depth - lvl < fuel → NodeData.set_buildable env fuel n lvl st ≠ .no_fuel)
      ∧ match NodeData.set_buildable env fuel n lvl st with
        | .ret st' =>
          (st'.nodes n).buildable ≠ .Loop ∧ (st'.nodes n).buildable ≠ .Unknown
            ∧ (st'.nodes n).match_ok env = true
        | .thrown st' _ =>
          (st'.nodes n).buildable = .Unknown ∧ (st'.nodes n).buildable ≠ .Loop
            ∧ (st'.nodes n).match_gen = 0
        | .abort => True
        | .no_fuel => True := by
  refine ⟨set_buildable_fuel env fuel n lvl st, ?_⟩
  cases fuel with
  | zero => rw [NodeData.set_buildable]; trivial
  | succ fuel =>
    rw [NodeData.set_buildable]
    by_cases hm : (st.nodes n).match_ok env = true
    · rw [if_pos hm]
      exact ⟨(hinv hm).1, (hinv hm).2, hm⟩
    · rw [if_neg hm]
      have := set_buildable_raw_node env (NodeData.set_buildable env fuel) n lvl st
      revert this
      cases NodeData._set_buildable_raw env (NodeData.set_buildable env fuel) n lvl st with
      | ret s => intro this; exact this.1
      | thrown s e => intro this; exact ⟨this.1, by rw [this.1]; decide, this.2⟩
      | abort => intro _; trivial
      | no_fuel => intro _; trivial

theorem C19_set_buildable_witness :
    (NodeData.set_buildable rules_env 5 6 0 fresh_store).view 6
        = some (true, { name := "d/e".toList, dir := 5, buildable := .No, match_gen := 1 })
      ∧ (NodeData.set_buildable rules_env 5 6 4 fresh_store).view 6
        = some (false, { name := "d/e".toList, dir := 5, buildable := .Unknown, match_gen := 0 })
      ∧ NodeData.set_buildable rules_env 5 6 0 fresh_store ≠ .no_fuel
      ∧ match NodeData.set_buildable rules_env 5 6 4 fresh_store with
        | .ret st' =>
          (st'.nodes 6).buildable ≠ .Loop ∧ (st'.nodes 6).buildable ≠ .Unknown
            ∧ (st'.nodes 6).match_ok rules_env = true
        | .thrown st' _ =>
          (st'.nodes 6).buildable = .Unknown ∧ (st'.nodes 6).buildable ≠ .Loop
            ∧ (st'.nodes 6).match_gen = 0
        | .abort => True
        | .no_fuel => True :=
  ⟨by decide, by decide,
   (C19_set_buildable_ended rules_env 5 6 0 fresh_store (by decide)).1 (by decide),
   (C19_set_buildable_ended rules_env 5 6 4 fresh_store (by decide)).2⟩

/-! ## C17 : a node that is not buildable has no job -/

theorem fresh_store_dirs_ok : fresh_store.dirs_ok := by
  intro k hk
  by_cases h6 : k = 6
  · subst h6; decide
  · exfalso
    apply hk
    simp only [fresh_store]
    split_ifs <;> rfl

theorem stale_store_dirs_ok : stale_store.dirs_ok :=
  dirs_ok_upd 3 fresh_store stale_store
    (upd_le_set_node 3 fresh_store 6 _ (by decide) (by decide) (by decide)) fresh_store_dirs_ok

/-- C17 : in a store where the dir of a node has a shorter name than the node, a call of
`set_buildable` that returns, on a node that was not Src, SrcDir nor Anti, and that had no job if
it was up to date and not buildable, leaves the node without job when it leaves it with a
buildable below or equal to No. -/
theorem C17_not_buildable_no_job (env : Env) (fuel n lvl : Nat) (st st' : Store)
    (hwf : st.dirs_ok)
    (hinv : (st.nodes n).match_ok env = true →
      (st.nodes n).buildable.val ≤ Buildable.No.val → (st.nodes n).job_tgts = [])
    (hsrc : ¬ ((st.nodes n).buildable = .Src ∨ (st.nodes n).buildable = .SrcDir
      ∨ (st.nodes n).buildable = .Anti))
    (h : NodeData.set_buildable env fuel n lvl st = .ret st')
    (hno : (st'.nodes n).buildable.val ≤ Buildable.No.val) :
    (st'.nodes n).job_tgts = [] := by
  cases fuel with
  | zero => rw [NodeData.set_buildable] at h; cases h
  | succ fuel =>
    rw [NodeData.set_buildable] at h
    by_cases hm : (st.nodes n).match_ok env = true
    · rw [if_pos hm] at h
      injection h with h
      subst h
      exact hinv hm hno
    · rw [if_neg hm] at h
      have := set_buildable_raw_node env (NodeData.set_buildable env fuel) n lvl st
      rw [h] at this
      refine this.2 hsrc hwf (fun s s1 hs hd hr => ?_) hno
      have hst := set_buildable_stores env fuel (s.nodes n).dir (lvl + 1) s hs
      rw [hr] at hst
      exact hst.2 n (hs n hd)

theorem C17_no_job_witness :
    (stale_store.nodes 6).job_tgts = [⟨5, true⟩]
      ∧ ∃ st', NodeData.set_buildable rules_env 5 6 0 stale_store = .ret st'
          ∧ (st'.nodes 6).buildable = .No ∧ (st'.nodes 6).job_tgts = [] := by
  refine ⟨by decide, _, rfl, by decide, ?_⟩
  exact C17_not_buildable_no_job rules_env 5 6 0 stale_store _ stale_store_dirs_ok (by decide)
    (by decide) rfl (by decide)

/-! ## C18 : the names that are too long -/

theorem gather_special_loop_none (env : Env) (name_ : List Char) (full : List RuleTgt) :
    ∀ (rts : List RuleTgt) (k : Nat) (nd : NodeData),
      NodeData.gather_special_loop env name_ full rts k nd = none →
      ∃ rt, (rts.takeWhile (fun rt => rt.rule.is_special)).find?
            (fun rt => env.full_match rt name_) = some rt
          ∧ rt.rule.special ≠ .GenericSrc ∧ rt.rule.special ≠ .Anti := by
  intro rts
  induction rts with
  | nil => intro k nd h; simp [NodeData.gather_special_loop] at h
  | cons rt rts ih =>
    intro k nd h
    rw [NodeData.gather_special_loop] at h
    by_cases hsp : rt.rule.is_special = true
    swap
    · simp [hsp] at h
    simp only [hsp, Bool.not_true, Bool.false_eq_true, if_false] at h
    have ht : List.takeWhile (fun rt => rt.rule.is_special) (rt :: rts)
        = rt :: List.takeWhile (fun rt => rt.rule.is_special) rts := by
      simp [List.takeWhile_cons, hsp]
    by_cases hm : env.full_match rt name_ = true
    · rw [if_pos hm] at h
      refine ⟨rt, by rw [ht]; simp [List.find?_cons, hm], ?_, ?_⟩
      · intro hs; rw [hs] at h; cases h
      · intro hs; rw [hs] at h; cases h
    · rw [if_neg hm] at h
      obtain ⟨r, h1, h2⟩ := ih _ nd h
      exact ⟨r, by rw [ht]; simpa [List.find?_cons, hm] using h1, h2⟩

theorem first_special_set_status (env : Env) (nd nd1 : NodeData)
    (hs : nd.set_status .Unknown = some nd1) : first_special env nd1 = first_special env nd := by
  obtain ⟨s1, _, _, _, _, _, s7⟩ := set_status_some _ _ _ hs
  unfold first_special
  rw [s7 env, s1]

theorem set_buildable_to_not_abort (env : Env) (n : Nat) (b : Buildable) (st : Store)
    (hb : b ≠ .Unknown) : NodeData.set_buildable_to env n b st ≠ .abort := by
  unfold NodeData.set_buildable_to
  simp only [NodeData._set_buildable, hb, if_false]
  unfold NodeData.set_buildable_return
  simp only [set_node_same, NodeData._set_match_gen, Bool.not_true, Bool.false_eq_true, if_false,
    hb]
  by_cases hg : (st.nodes n).match_gen < env.s_match_gen
  · simp [hg]
  · simp [hg]

/-- C18, amended : a call of `set_buildable`, with fuel, on a node whose match is out of date,
that is not Src, SrcDir nor Anti and whose name is longer than `path_max`, does not leave by an
exception ; when it returns, the node is classified No if the first of its leading special rule
targets that matches its name is an anti rule, and LongName otherwise, in particular when it is a
generic source rule ; it is stopped by a `FAIL` only when this rule target is neither. -/
theorem C18_long_name (env : Env) (fuel n lvl : Nat) (st : Store)
    (hm : (st.nodes n).match_ok env = false)
    (hsrc : ¬ ((st.nodes n).buildable = .Src ∨ (st.nodes n).buildable = .SrcDir
      ∨ (st.nodes n).buildable = .Anti))
    (hlong : env.path_max < (st.nodes n).name.length) :
    match NodeData.set_buildable env (fuel + 1) n lvl st with
    | .ret st' =>
      (st'.nodes n).buildable =
        (match first_special env (st.nodes n) with
         | some rt => if rt.rule.special = .Anti then .No else .LongName
         | none => .LongName)
    | .thrown _ _ => False
    | .abort =>
      ∃ rt, first_special env (st.nodes n) = some rt
        ∧ rt.rule.special ≠ .GenericSrc ∧ rt.rule.special ≠ .Anti
    | .no_fuel => False := by
  rw [NodeData.set_buildable, hm]
  simp only [Bool.false_eq_true, if_false]
  unfold NodeData._set_buildable_raw
  simp only
  rw [if_neg hsrc]
  cases hs : (st.nodes n).set_status .Unknown with
  | none => simp [NodeData.set_status, NodeStatus.val] at hs
  | some nd1 =>
  simp only
  have hfs := first_special_set_status env _ _ hs
  obtain ⟨s1, _⟩ := set_status_some _ _ _ hs
  rw [← s1] at hlong
  cases hg : nd1._gather_special_rule_tgts env nd1.name with
  | none =>
    simp only
    obtain ⟨rt, h1, h2⟩ := gather_special_loop_none env _ _ _ _ _ hg
    exact ⟨rt, by rw [← hfs]; exact h1, h2⟩
  | some r =>
    obtain ⟨b, nd2⟩ := r
    simp only
    obtain ⟨_, _, _, _, _, g6⟩ := gather_special_node env nd1 b nd2 hg
    rw [hfs] at g6
    have hto : ∀ b' : Buildable, b' ≠ .Unknown →
        ∃ st', NodeData.set_buildable_to env n b' (st.set_node n nd2) = .ret st'
          ∧ (st'.nodes n).buildable = b' := by
      intro b' hb'
      have hr := set_buildable_to_ret env n b' (st.set_node n nd2)
      cases ht : NodeData.set_buildable_to env n b' (st.set_node n nd2) with
      | ret s => exact ⟨s, rfl, (set_buildable_to_node env n b' _ s ht).1⟩
      | thrown s e => exact absurd ht (set_buildable_to_not_thrown env n b' _ s e)
      | no_fuel => exact absurd ht (set_buildable_to_fuel env n b' _)
      | abort => exact absurd ht (set_buildable_to_not_abort env n b' _ hb')
    revert g6
    cases hf : first_special env (st.nodes n) with
    | none =>
      intro g6
      simp only at g6
      subst g6
      rw [if_neg (by decide), if_pos hlong]
      obtain ⟨s, h1, h2⟩ := hto .LongName (by decide)
      rw [h1]
      exact h2
    | some rt =>
      intro g6
      simp only at g6
      rcases g6 with g6 | g6
      · rw [g6.2, if_neg (by decide), if_pos hlong]
        obtain ⟨s, h1, h2⟩ := hto .LongName (by decide)
        rw [h1]
        simp only [g6.1]
        exact h2
      · rw [g6.2, if_pos (by decide)]
        obtain ⟨s, h1, h2⟩ := hto .No (by decide)
        rw [h1]
        simp only [g6.1]
        exact h2

theorem C18_long_name_witness :
    (NodeData.set_buildable rules_env 5 3 0 fresh_store).view 3
        = some (true, { name := "y_long_name".toList, buildable := .LongName, match_gen := 1,
                        rule_tgts := [gsrc_rt] })
      ∧ match NodeData.set_buildable rules_env 5 3 0 fresh_store with
        | .ret st' =>
          (st'.nodes 3).buildable =
            (match first_special rules_env (fresh_store.nodes 3) with
             | some rt => if rt.rule.special = .Anti then .No else .LongName
             | none => .LongName)
        | .thrown _ _ => False
        | .abort =>
          ∃ rt, first_special rules_env (fresh_store.nodes 3) = some rt
            ∧ rt.rule.special ≠ .GenericSrc ∧ rt.rule.special ≠ .Anti
        | .no_fuel => False :=
  ⟨by decide, C18_long_name rules_env 4 3 0 fresh_store (by decide) (by decide) (by decide)⟩

/-- C18, as stated, fails : the name `x_long_name` is longer than the `path_max` of 10, its node
was never analysed, an anti rule matches it and `set_buildable` classifies the node No, not
LongName. -/
theorem C18_anti_rule_counterexample :
    rules_env.path_max = 10 ∧ (fresh_store.nodes 2).name.length = 11
      ∧ (fresh_store.nodes 2).buildable = .Unknown
      ∧ first_special rules_env (fresh_store.nodes 2) = some anti_rt
      ∧ (NodeData.set_buildable rules_env 5 2 0 fresh_store).view 2
        = some (true, { name := "x_long_name".toList, buildable := .No, match_gen := 1,
                        rule_tgts := [anti_rt] }) := by
  decide

end Engine

namespace Engine

open Disk (Bool3)

/-! ## C16 : the reason for which a job is made -/

theorem make_reason_worded (env : Env) (n : Nat) (s : MakeState) (jt : JobTgt)
    (manual_ : Option Bool3) (action : RunAction) (reason : JobReason) (manual1 : Option Bool3)
    (s1 : MakeState)
    (h : NodeData.make_reason env n s jt manual_ = some (action, reason, manual1, s1)) :
    reason = worded_reason env n s jt manual_ := by
  unfold NodeData.make_reason at h
  unfold worded_reason
  cases ha : s.ri.action <;> rw [ha] at h <;> simp only at h
  case None => cases h
  case Run => cases h
  case Makable =>
    simp only [Option.some.injEq, Prod.mk.injEq] at h
    simp [← h.2.1]
  case Status =>
    simp only [Option.some.injEq, Prod.mk.injEq] at h
    simp [← h.2.1]
  case Dsk =>
    cases hp : jt.produces env s.st n false with
    | none => rw [hp] at h; cases h
    | some b =>
      rw [hp] at h
      cases b with
      | false =>
        simp only [Option.some.injEq, Prod.mk.injEq] at h
        simp [← h.2.1]
      | true =>
        simp only at h
        simp only [true_and, if_true]
        by_cases hj : (s.st.nodes n).has_actual_job s.st = true
        swap
        · simp only [hj, Bool.not_false, if_true, Option.some.injEq, Prod.mk.injEq] at h
          simp [← h.2.1, hj]
        simp only [hj, Bool.not_true, Bool.false_eq_true, if_false] at h
        rw [if_neg (by simp [hj])]
        by_cases hold : (s.st.jobs jt.job).rule.old = true
        · simp [NodeData.has_actual_job_of, hold] at h
        have hof : (s.st.nodes n).has_actual_job_of s.st jt.job
            = some (decide ((s.st.nodes n).actual_job_tgt.job = jt.job)) := by
          simp [NodeData.has_actual_job_of, hold]
        rw [hof] at h
        by_cases he : (s.st.nodes n).actual_job_tgt.job = jt.job
        · simp only [he, decide_True] at h
          rw [if_neg (by simp [he])]
          have hm : (NodeData.make_manual env n s manual_).1 = manual_answer env n s manual_ := by
            unfold NodeData.make_manual manual_answer
            cases manual_ <;> rfl
          rw [hm] at h
          cases hans : manual_answer env n s manual_ <;> rw [hans] at h <;>
            simp only [Option.some.injEq, Prod.mk.injEq] at h <;> exact h.2.1.symm
        · simp only [he, decide_False, Option.some.injEq, Prod.mk.injEq] at h
          rw [if_pos he]
          exact h.2.1.symm

/-- C16 : the job under the iterator is made with the reason that the documentation words, and
the loop of the label `Make` starts with a manual check answered Maybe for a node that is flagged
unlinked, not answered yet for another node. -/
theorem C16_make_reason (env : Env) (n : Nat) (s : MakeState) (it : JobTgtIter) (p : Found)
    (manual_ : Option Bool3) (action : RunAction) (reason : JobReason) (manual1 : Option Bool3)
    (s1 : MakeState)
    (h : NodeData.make_reason env n s (it.deref (s.st.nodes n)) manual_
      = some (action, reason, manual1, s1)) :
    reason = worded_reason env n s (it.deref (s.st.nodes n)) manual_
      ∧ NodeData.make_job env n s it p manual_ =
          (let jt := it.deref (s.st.nodes n)
           let s2 := NodeData.make_call env n s1 jt action (worded_reason env n s jt manual_)
           if (s2.jris jt.job).waiting then some (NodeData.add_watcher s2, p, manual1)
           else
             match jt.produces env s2.st n false with
             | none => none
             | some true => some (s2, p.add it.idx, manual1)
             | some false => some (s2, p, manual1))
      ∧ ∀ (fuel : Nat) (multi : Bool),
          NodeData.make_Make env fuel n s multi =
            NodeData.make_loop env n fuel s multi
              (if (s.st.nodes n).unlinked then some .Maybe else none) := by
  have hr := make_reason_worded env n s _ manual_ action reason manual1 s1 h
  refine ⟨hr, ?_, fun _ _ => rfl⟩
  unfold NodeData.make_job
  simp only [h, hr]

end Engine

namespace Engine

theorem C16_reason_witness :
    ∃ action manual1 s1,
      NodeData.make_reason make_env 1 (polluted_state { action := .Dsk, prio_idx := 0 })
          ((JobTgtIter.mk 0 false none).deref
            ((polluted_state { action := .Dsk, prio_idx := 0 }).st.nodes 1)) none
        = some (action, { tag := .PolutedTarget, node := 1 }, manual1, s1)
      ∧ ({ tag := .PolutedTarget, node := 1 } : JobReason)
        = worded_reason make_env 1 (polluted_state { action := .Dsk, prio_idx := 0 })
            ((JobTgtIter.mk 0 false none).deref
              ((polluted_state { action := .Dsk, prio_idx := 0 }).st.nodes 1)) none :=
  ⟨_, _, _, rfl,
    (C16_make_reason make_env 1 (polluted_state { action := .Dsk, prio_idx := 0 })
      ⟨0, false, none⟩ {} none _ _ _ _ rfl).1⟩

end Engine

namespace Engine

open Disk (Bool3)

/-! ## C15 : the status of a node when `_make_raw` is through with it -/

theorem Found.add_all (l : List Nat) (hl : ∀ x ∈ l, x ≠ Node.NoIdx) (m : Bool) :
    l.foldl Found.add { multi := m }
      = { prod_idx := l.headD Node.NoIdx, multi := m || decide (2 ≤ l.length) } := by
  cases l with
  | nil => simp
  | cons a l =>
    have ha : a ≠ Node.NoIdx := hl a (List.mem_cons_self _ _)
    have h1 : Found.add { multi := m } a = { prod_idx := a, multi := m } := by
      simp [Found.add]
    rw [List.foldl_cons, h1]
    have h2 : ∀ (l : List Nat) (b : Bool),
        l.foldl Found.add { prod_idx := a, multi := b }
          = { prod_idx := a, multi := b || decide (1 ≤ l.length) } := by
      intro l
      induction l with
      | nil => intro b; simp
      | cons c l ih =>
        intro b
        have : Found.add { prod_idx := a, multi := b } c = { prod_idx := a, multi := true } := by
          simp [Found.add, ha]
        rw [List.foldl_cons, this, ih]
        simp
    rw [h2]
    simp

theorem drop_eq_getD_cons (jts : List JobTgt) (i : Nat) (h : i < jts.length) :
    jts.drop i = jts.getD i {} :: jts.drop (i + 1) := by
  rw [List.drop_eq_getElem_cons h]
  congr 1
  simp [List.getD_eq_getElem?_getD, List.getElem?_eq_getElem h]

theorem drop_eq_nil_of_le (jts : List JobTgt) (i : Nat) (h : jts.length ≤ i) :
    jts.drop i = [] := List.drop_eq_nil_of_le h

/-- An iterator on the whole level is valid when job targets of the level are left. -/
theorem iter_valid (st : Store) (nd : NodeData) (it : JobTgtIter) :
    it.valid st nd = decide (0 < level_len st.jobs (nd.job_tgts.drop it.idx) it._prev_prio) := by
  unfold JobTgtIter.valid
  by_cases h : it.idx < nd.job_tgts.length
  · rw [drop_eq_getD_cons _ _ h, level_len]
    unfold JobTgtIter._cur_prio JobTgtIter.deref
    generalize prio_ge (st.jobs (nd.job_tgts.getD it.idx {}).job).rule.prio it._prev_prio = b
    cases b <;> simp [h]
  · rw [drop_eq_nil_of_le _ _ (by omega)]
    simp [h, level_len]

theorem iter_level (st : Store) (nd : NodeData) (it : JobTgtIter)
    (h : it.valid st nd = true) :
    it.idx < nd.job_tgts.length
      ∧ nd.job_tgts.drop it.idx = it.deref nd :: nd.job_tgts.drop (it.idx + 1)
      ∧ level_len st.jobs (nd.job_tgts.drop it.idx) it._prev_prio
        = level_len st.jobs (nd.job_tgts.drop (it.idx + 1)) (some (it._cur_prio st nd)) + 1 := by
  have hv := h
  unfold JobTgtIter.valid at h
  simp only [Bool.and_eq_true, decide_eq_true_eq] at h
  refine ⟨h.1, drop_eq_getD_cons _ _ h.1, ?_⟩
  rw [drop_eq_getD_cons _ _ h.1]
  simp only [level_len, JobTgtIter._cur_prio, JobTgtIter.deref] at h ⊢
  rw [if_pos h.2]

theorem iter_incr (st : Store) (nd : NodeData) (it : JobTgtIter) (hs : it.single = false)
    (hb : it.idx + 1 < 2 ^ 16) :
    it.incr st nd = { idx := it.idx + 1, single := false, _prev_prio := some (it._cur_prio st nd) } := by
  unfold JobTgtIter.incr
  rw [Nat.mod_eq_of_lt hb]
  simp [hs]


theorem prod_idxs_lt (env : Env) (st : Store) (n : Nat) :
    ∀ (jts : List JobTgt) (i : Nat), ∀ x ∈ prod_idxs env st n jts i, i ≤ x ∧ x < i + jts.length := by
  intro jts
  induction jts with
  | nil => intro i x hx; simp [prod_idxs] at hx
  | cons jt jts ih =>
    intro i x hx
    rw [prod_idxs] at hx
    split at hx
    · rcases List.mem_cons.mp hx with h | h
      · subst h; simp
      · have := ih (i + 1) x h
        simp only [List.length_cons]
        omega
    · have := ih (i + 1) x hx
      simp only [List.length_cons]
      omega

theorem level_len_le (jobs : Nat → JobData) :
    ∀ (jts : List JobTgt) (prev : Option Int), level_len jobs jts prev ≤ jts.length := by
  intro jts
  induction jts with
  | nil => intro prev; simp [level_len]
  | cons jt jts ih =>
    intro prev
    rw [level_len]
    split
    · have := ih (some (jobs jt.job).rule.prio)
      simp only [List.length_cons]
      omega
    · omega

/-- The job targets that are left to a valid iterator : the one it is on, then those that are
left once it is incremented. -/
theorem iter_rest (st : Store) (nd : NodeData) (it : JobTgtIter) (hs : it.single = false)
    (hb : nd.job_tgts.length < 2 ^ 16) (h : it.valid st nd = true) :
    it.rest st nd = it.deref nd :: (it.incr st nd).rest st nd := by
  obtain ⟨h1, h2, h3⟩ := iter_level st nd it h
  rw [iter_incr st nd it hs (by omega)]
  unfold JobTgtIter.rest
  simp only
  rw [h3, h2, List.take_succ_cons]

theorem iter_rest_nil (st : Store) (nd : NodeData) (it : JobTgtIter) (h : it.valid st nd = false) :
    it.rest st nd = [] := by
  rw [iter_valid] at h
  have : level_len st.jobs (nd.job_tgts.drop it.idx) it._prev_prio = 0 := by
    simpa using h
  unfold JobTgtIter.rest
  rw [this, List.take_zero]

theorem iter_incr_idx (st : Store) (nd : NodeData) (it : JobTgtIter) (hs : it.single = false)
    (hb : nd.job_tgts.length < 2 ^ 16) (h : it.valid st nd = true) :
    (it.incr st nd).idx = it.idx + 1 ∧ (it.incr st nd).single = false
      ∧ it.idx < nd.job_tgts.length := by
  obtain ⟨h1, _, _⟩ := iter_level st nd it h
  rw [iter_incr st nd it hs (by omega)]
  exact ⟨rfl, rfl, h1⟩

theorem level_eq_rest (st : Store) (nd : NodeData) (ri : NodeReqInfo) :
    nd.level st ri.prio_idx = (JobTgtIter.of_ri ri).rest st nd := rfl

/-- The fast path, when it goes through the whole level : what it finds is what the jobs of the
level that produce the node give. -/
theorem make_fast_loop_out (env : Env) (n : Nat) (s : MakeState)
    (hb : (s.st.nodes n).job_tgts.length < 2 ^ 16) :
    ∀ (k : Nat) (it : JobTgtIter) (p : Found) (it1 : JobTgtIter) (p1 : Found),
      it.single = false →
      NodeData.make_fast_loop env n s k it p = .out it1 p1 →
      p1 = (prod_idxs env s.st n (it.rest s.st (s.st.nodes n)) it.idx).foldl Found.add p := by
  intro k
  induction k with
  | zero => intro it p it1 p1 _ h; simp [NodeData.make_fast_loop] at h
  | succ k ih =>
    intro it p it1 p1 hs h
    rw [NodeData.make_fast_loop] at h
    by_cases hv : it.valid s.st (s.st.nodes n) = true
    swap
    · have hv1 : it.valid s.st (s.st.nodes n) = false := by simpa using hv
      simp only [hv1, Bool.not_false, if_true, FastEnd.out.injEq] at h
      rw [iter_rest_nil _ _ _ hv1, ← h.2]
      rfl
    simp only [hv, Bool.not_true, Bool.false_eq_true, if_false] at h
    by_cases hd : (s.jris (it.deref (s.st.nodes n)).job).done (s.ri.action.and .Status) = true
    swap
    · simp [hd] at h
    simp only [hd, Bool.not_true, Bool.false_eq_true, if_false] at h
    obtain ⟨hi1, hi2, _⟩ := iter_incr_idx _ _ it hs hb hv
    rw [iter_rest _ _ _ hs hb hv]
    cases hp : (it.deref (s.st.nodes n)).produces env s.st n false with
    | none => rw [hp] at h; cases h
    | some b =>
      rw [hp] at h
      simp only at h
      have := ih _ _ it1 p1 hi2 h
      rw [this, prod_idxs, hi1]
      cases b <;> simp [hp]


theorem Store.frame_refl (n : Nat) (st : Store) : Store.frame n st st :=
  ⟨rfl, rfl, fun _ => rfl⟩

theorem Store.frame_trans (n : Nat) (a b c : Store) (h1 : Store.frame n a b)
    (h2 : Store.frame n b c) : Store.frame n a c :=
  ⟨h2.1.trans h1.1, h2.2.1.trans h1.2.1, fun j => (h2.2.2 j).trans (h1.2.2 j)⟩

theorem Store.kept_refl (st : Store) (j : Nat) : Store.kept st st j := ⟨rfl, rfl, rfl⟩

theorem Store.kept_trans (a b c : Store) (j : Nat) (h1 : Store.kept a b j)
    (h2 : Store.kept b c j) : Store.kept a c j :=
  ⟨h2.1.trans h1.1, h2.2.1.trans h1.2.1, h2.2.2.trans h1.2.2⟩

theorem Store.kept_of_eq (a b : Store) (j : Nat) (h : b.jobs j = a.jobs j) : Store.kept a b j := by
  unfold Store.kept
  rw [h]
  exact ⟨rfl, rfl, rfl⟩

theorem Store.cached_refl (env : Env) (st : Store) : Store.cached env st st := fun _ _ => rfl

theorem Store.cached_trans (env : Env) (a b c : Store) (h1 : Store.cached env a b)
    (h2 : Store.cached env b c) : Store.cached env a c := by
  intro j hj
  have e1 := h1 j hj
  have e2 := h2 j (by rw [e1]; exact hj)
  rw [e2, e1]

theorem level_len_frame (jobs jobs1 : Nat → JobData)
    (h : ∀ j, (jobs1 j).rule = (jobs j).rule) :
    ∀ (l : List JobTgt) (prev : Option Int), level_len jobs1 l prev = level_len jobs l prev := by
  intro l
  induction l with
  | nil => intro prev; rfl
  | cons jt l ih =>
    intro prev
    rw [level_len, level_len, h jt.job, ih]

/-- An iterator sees the same job targets in two stores of the same frame. -/
theorem iter_frame (n : Nat) (st st1 : Store) (h : Store.frame n st st1) (it : JobTgtIter) :
    it.rest st1 (st1.nodes n) = it.rest st (st.nodes n)
      ∧ it.valid st1 (st1.nodes n) = it.valid st (st.nodes n)
      ∧ it.deref (st1.nodes n) = it.deref (st.nodes n)
      ∧ it.incr st1 (st1.nodes n) = it.incr st (st.nodes n) := by
  obtain ⟨h1, _, h3⟩ := h
  have hd : it.deref (st1.nodes n) = it.deref (st.nodes n) := by
    unfold JobTgtIter.deref; rw [h1]
  have hc : it._cur_prio st1 (st1.nodes n) = it._cur_prio st (st.nodes n) := by
    unfold JobTgtIter._cur_prio; rw [hd, h3]
  refine ⟨?_, ?_, hd, ?_⟩
  · unfold JobTgtIter.rest
    rw [h1, level_len_frame _ _ h3]
  · unfold JobTgtIter.valid
    rw [h1, hc]
  · unfold JobTgtIter.incr
    rw [h1, hc]

/-- Whether a job produces the node is read of its outcome, of its rule and of the actual job
of the node. -/
theorem produces_frame (env : Env) (n : Nat) (st st1 : Store) (jt : JobTgt) (b : Bool)
    (h : Store.frame n st st1) (hk : Store.kept st st1 jt.job) :
    jt.produces env st1 n b = jt.produces env st n b := by
  obtain ⟨_, h2, h3⟩ := h
  obtain ⟨k1, k2, k3⟩ := hk
  unfold JobTgt.produces JobData.missing JobData.err NodeData.has_actual_job_tgt
  rw [k1, k2, k3, h2, h3]

theorem prod_idxs_frame (env : Env) (n : Nat) (st st1 : Store) (h : Store.frame n st st1) :
    ∀ (l : List JobTgt) (i : Nat), (∀ jt ∈ l, Store.kept st st1 jt.job) →
      prod_idxs env st1 n l i = prod_idxs env st n l i := by
  intro l
  induction l with
  | nil => intro i _; rfl
  | cons jt l ih =>
    intro i hk
    rw [prod_idxs, prod_idxs, produces_frame env n st st1 jt false h (hk jt (List.mem_cons_self _ _)),
      ih (i + 1) (fun x hx => hk x (List.mem_cons_of_mem _ hx))]

theorem prod_idxs_length (env : Env) (st : Store) (n : Nat) :
    ∀ (l : List JobTgt) (i : Nat),
      (prod_idxs env st n l i).length
        = (l.filter (fun jt => decide (jt.produces env st n false = some true))).length := by
  intro l
  induction l with
  | nil => intro i; rfl
  | cons jt l ih =>
    intro i
    rw [prod_idxs, List.filter_cons]
    by_cases hp : jt.produces env st n false = some true
    · simp [hp, ih]
    · simp [hp, ih]

/-- The indexes of the producers of a level are indexes of `job_tgts`. -/
theorem rest_length (st : Store) (nd : NodeData) (it : JobTgtIter) :
    it.idx + (it.rest st nd).length ≤ max it.idx nd.job_tgts.length := by
  unfold JobTgtIter.rest
  rw [List.length_take, List.length_drop]
  omega

theorem producers_ne_NoIdx (env : Env) (st : Store) (n : Nat) (it : JobTgtIter)
    (hb : (st.nodes n).job_tgts.length ≤ Node.MaxRuleIdx) :
    ∀ x ∈ prod_idxs env st n (it.rest st (st.nodes n)) it.idx, x ≠ Node.NoIdx := by
  intro x hx
  have h1 := prod_idxs_lt env st n _ _ x hx
  have h2 := rest_length st (st.nodes n) it
  have h3 : Node.MaxRuleIdx < Node.NoIdx := by decide
  have h4 : (it.rest st (st.nodes n)).length ≠ 0 := by
    intro h0
    have : it.rest st (st.nodes n) = [] := List.length_eq_zero.mp h0
    rw [this] at hx
    simp [prod_idxs] at hx
  omega

theorem MaxRuleIdx_lt : Node.MaxRuleIdx < 2 ^ 16 := by decide


/-- What `JobData::sure` changes of a job : its cache, when it is out of date. -/
theorem JobData.sure_keeps (env : Env) (nodes : Nat → NodeData) (jd : JobData) :
    (JobData.sure env nodes jd).2.rule = jd.rule
      ∧ (JobData.sure env nodes jd).2.run_status = jd.run_status
      ∧ (JobData.sure env nodes jd).2.status = jd.status
      ∧ (JobData.sure env nodes jd).2.star_targets = jd.star_targets
      ∧ (env.s_match_gen ≤ jd.match_gen → (JobData.sure env nodes jd).2 = jd)
      ∧ ((JobData.sure env nodes jd).1 = true →
          (JobData.sure env nodes jd).2._sure = true
            ∧ env.s_match_gen ≤ (JobData.sure env nodes jd).2.match_gen) := by
  unfold JobData.sure
  by_cases h : jd.match_gen < env.s_match_gen
  · simp only [h, if_true]
    by_cases h1 : jd.rule.is_sure = true
    · by_cases h2 : JobData.sure_deps env nodes jd.deps = true
      · simp [h1, h2]; omega
      · simp [h1, h2]; omega
    · simp [h1]; omega
  · rw [if_neg h]
    exact ⟨rfl, rfl, rfl, rfl, fun _ => rfl, fun hs => ⟨hs, Nat.le_of_not_lt h⟩⟩

/-- What `JobTgt::sure` changes of the store. -/
theorem JobTgt.sure_frame (env : Env) (n : Nat) (st : Store) (jt : JobTgt) :
    (jt.sure env st).2.nodes = st.nodes
      ∧ Store.frame n st (jt.sure env st).2
      ∧ (∀ j, Store.kept st (jt.sure env st).2 j)
      ∧ Store.cached env st (jt.sure env st).2
      ∧ ((jt.sure env st).1 = true → jt.marked env (jt.sure env st).2 = true) := by
  have hn := JobTgt.sure_nodes env st jt
  have hj : ∀ j, (jt.sure env st).2.jobs j
      = if jt.is_sure = true ∧ j = jt.job then (JobData.sure env st.nodes (st.jobs jt.job)).2
        else st.jobs j := by
    intro j
    unfold JobTgt.sure
    by_cases h : jt.is_sure = true
    · by_cases h2 : j = jt.job
      · simp [h, h2, Store.set_job]
      · simp [h, h2, Store.set_job]
    · simp [h]
  have hs := JobData.sure_keeps env st.nodes (st.jobs jt.job)
  refine ⟨hn, ⟨by rw [hn], by rw [hn], ?_⟩, ?_, ?_, ?_⟩
  · intro j
    rw [hj]
    split
    · next h => rw [h.2]; exact hs.1
    · rfl
  · intro j
    unfold Store.kept
    rw [hj]
    split
    · next h => rw [h.2]; exact ⟨hs.2.1, hs.2.2.1, hs.2.2.2.1⟩
    · exact ⟨rfl, rfl, rfl⟩
  · intro j hc
    rw [hj]
    split
    · next h => rw [h.2] at hc ⊢; exact hs.2.2.2.2.1 hc
    · rfl
  · intro h1
    unfold JobTgt.marked
    rw [hj]
    unfold JobTgt.sure at h1
    by_cases h : jt.is_sure = true
    · simp only [h, if_true] at h1
      have := hs.2.2.2.2.2 h1
      simp [h, this.1, this.2]
    · simp [h] at h1

/-- A job target that is known to be sure is sure. -/
theorem JobTgt.marked_sure (env : Env) (st : Store) (jt : JobTgt)
    (h : jt.marked env st = true) : jt.sure_val env st = true := by
  unfold JobTgt.marked at h
  simp only [Bool.and_eq_true, decide_eq_true_eq] at h
  obtain ⟨⟨h1, h2⟩, h3⟩ := h
  unfold JobTgt.sure_val JobTgt.sure JobData.sure
  have : ¬ (st.jobs jt.job).match_gen < env.s_match_gen := by omega
  simp [h1, this, h2]

theorem JobTgt.marked_mono (env : Env) (a b : Store) (jt : JobTgt)
    (hc : Store.cached env a b) (h : jt.marked env a = true) : jt.marked env b = true := by
  unfold JobTgt.marked at h ⊢
  simp only [Bool.and_eq_true, decide_eq_true_eq] at h
  rw [hc jt.job h.2]
  simp [h.1.1, h.1.2, h.2]

theorem JobTgt.counted_mono (env : Env) (n : Nat) (a b : Store) (jt : JobTgt)
    (hf : Store.frame n a b) (hk : ∀ j, Store.kept a b j) (hc : Store.cached env a b)
    (h : jt.counted env a n = true) : jt.counted env b n = true := by
  unfold JobTgt.counted at h ⊢
  simp only [Bool.or_eq_true, decide_eq_true_eq] at h ⊢
  rcases h with h | h
  · exact Or.inl (JobTgt.marked_mono env a b jt hc h)
  · right
    rw [produces_frame env n a b jt false hf (hk jt.job)]
    exact h

theorem set_buildable_frame (n : Nat) (st : Store) (b : Buildable) (nd : NodeData)
    (h : (st.nodes n)._set_buildable b = some nd) :
    Store.frame n st (st.set_node n nd) ∧ (st.set_node n nd).jobs = st.jobs := by
  unfold NodeData._set_buildable at h
  split at h
  · cases h
  · cases h
    exact ⟨⟨by simp [Store.set_node], by simp [Store.set_node], fun _ => rfl⟩, rfl⟩


/-- A turn of the loop of node.cc:433, that goes on from the state `sa` : what the rest of the
loop leaves from `sa` is what the loop leaves from `s`. -/
theorem early_step (env : Env) (n : Nat) (s sa : MakeState) (it : JobTgtIter) (p pa : Found)
    (r : EarlyEnd) (hs : it.single = false) (hb : (s.st.nodes n).job_tgts.length < 2 ^ 16)
    (hv : it.valid s.st (s.st.nodes n) = true)
    (hf : Store.frame n s.st sa.st) (hk : ∀ j, Store.kept s.st sa.st j)
    (hc : Store.cached env s.st sa.st) (hri : sa.ri = s.ri) (hj : sa.jris = s.jris)
    (hp : pa = p ∨ (p.prod_idx = Node.NoIdx ∧ pa.prod_idx ≠ Node.NoIdx
      ∧ (it.deref (s.st.nodes n)).counted env sa.st n = true))
    (hr : r.fits env n sa (it.incr sa.st (sa.st.nodes n)) pa) : r.fits env n s it p := by
  cases r with
  | abort => trivial
  | no_fuel => trivial
  | out s1 =>
    obtain ⟨f1, k1, c1, r1, j1⟩ := hr
    exact ⟨Store.frame_trans n _ _ _ hf f1, fun j => Store.kept_trans _ _ _ j (hk j) (k1 j),
      Store.cached_trans env _ _ _ hc c1, r1.trans hri, j1.trans hj⟩
  | several s1 p1 =>
    obtain ⟨f1, k1, c1, r1, j1, m1, x1, n1⟩ := hr
    have f2 := Store.frame_trans n _ _ _ hf f1
    refine ⟨f2, fun j => Store.kept_trans _ _ _ j (hk j) (k1 j),
      Store.cached_trans env _ _ _ hc c1, r1.trans hri, j1.trans hj, m1, x1, ?_⟩
    obtain ⟨e1, _, e3, _⟩ := iter_frame n s.st s1.st f2 it
    obtain ⟨_, _, _, e4⟩ := iter_frame n s.st sa.st hf it
    obtain ⟨e5, _, _, _⟩ := iter_frame n s.st s1.st f2 (it.incr s.st (s.st.nodes n))
    rw [e1, iter_rest _ _ _ hs hb hv]
    rw [e4, e5] at n1
    have hge : ∀ (a : JobTgt) (l : List JobTgt),
        (l.filter (JobTgt.counted env s1.st n)).length
          ≤ ((a :: l).filter (JobTgt.counted env s1.st n)).length := by
      intro a l
      rw [List.filter_cons]
      split
      · rw [List.length_cons]; omega
      · exact Nat.le_refl _
    have hpos : ∀ (a : JobTgt) (l : List JobTgt), JobTgt.counted env s1.st n a = true →
        ((a :: l).filter (JobTgt.counted env s1.st n)).length
          = (l.filter (JobTgt.counted env s1.st n)).length + 1 := by
      intro a l h
      rw [List.filter_cons, if_pos h, List.length_cons]
    rcases hp with hp | ⟨hp1, hp2, hp3⟩
    · subst hp
      exact Nat.le_trans n1 (hge _ _)
    · rw [if_neg hp2] at n1
      rw [if_pos hp1, hpos _ _ (JobTgt.counted_mono env n sa.st s1.st _ f1 k1 c1 hp3)]
      omega

/-- A turn of the loop of node.cc:433 followed by the rest of the loop. -/
theorem early_rec (env : Env) (n k : Nat)
    (ih : ∀ (s : MakeState) (it : JobTgtIter) (p : Found),
      it.single = false → (s.st.nodes n).job_tgts.length < 2 ^ 16 →
      (NodeData.make_early_loop env n k s it p).fits env n s it p)
    (s sa : MakeState) (it : JobTgtIter) (p pa : Found)
    (hs : it.single = false) (hb : (s.st.nodes n).job_tgts.length < 2 ^ 16)
    (hv : it.valid s.st (s.st.nodes n) = true)
    (hf : Store.frame n s.st sa.st) (hk : ∀ j, Store.kept s.st sa.st j)
    (hc : Store.cached env s.st sa.st) (hri : sa.ri = s.ri) (hj : sa.jris = s.jris)
    (hp : pa = p ∨ (p.prod_idx = Node.NoIdx ∧ pa.prod_idx ≠ Node.NoIdx
      ∧ (it.deref (s.st.nodes n)).counted env sa.st n = true)) :
    (NodeData.make_early_loop env n k sa (it.incr sa.st (sa.st.nodes n)) pa).fits env n s it p := by
  refine early_step env n s sa it p pa _ hs hb hv hf hk hc hri hj hp (ih _ _ _ ?_ ?_)
  · obtain ⟨_, _, _, e4⟩ := iter_frame n s.st sa.st hf it
    rw [e4]
    exact (iter_incr_idx _ _ it hs hb hv).2.1
  · rw [hf.1]; exact hb

/-- The loop of node.cc:433 on a whole level. -/
theorem make_early_loop_fits (env : Env) (n : Nat) :
    ∀ (k : Nat) (s : MakeState) (it : JobTgtIter) (p : Found),
      it.single = false → (s.st.nodes n).job_tgts.length < 2 ^ 16 →
      (NodeData.make_early_loop env n k s it p).fits env n s it p := by
  intro k
  induction k with
  | zero => intro s it p _ _; rw [NodeData.make_early_loop]; trivial
  | succ k ih =>
    intro s it p hs hb
    rw [NodeData.make_early_loop]
    by_cases hv : it.valid s.st (s.st.nodes n) = true
    swap
    · have hv1 : it.valid s.st (s.st.nodes n) = false := by simpa using hv
      simp only [hv1, Bool.not_false, if_true]
      exact ⟨Store.frame_refl _ _, fun j => Store.kept_refl _ j, Store.cached_refl _ _, rfl, rfl⟩
    simp only [hv, Bool.not_true, Bool.false_eq_true, if_false]
    obtain ⟨hi1, hi2, hi3⟩ := iter_incr_idx _ _ it hs hb hv
    obtain ⟨q1, q2, q3, q4, q5⟩ := JobTgt.sure_frame env n s.st (it.deref (s.st.nodes n))
    have hne : it.idx ≠ Node.NoIdx := by
      have : Node.NoIdx = 2 ^ 16 - 1 := rfl
      omega
    have hrest := iter_rest _ _ it hs hb hv
    by_cases hsure : ((it.deref (s.st.nodes n)).sure env s.st).1 = true
    · simp only [hsure, if_true]
      cases hsb : (((it.deref (s.st.nodes n)).sure env s.st).2.nodes n)._set_buildable .Yes with
      | none => trivial
      | some nd =>
        simp only
        obtain ⟨g1, g2⟩ := set_buildable_frame n _ _ nd hsb
        have f1 := Store.frame_trans n _ _ _ q2 g1
        have k1 : ∀ j, Store.kept s.st
            (((it.deref (s.st.nodes n)).sure env s.st).2.set_node n nd) j := by
          intro j
          exact Store.kept_trans _ _ _ j (q3 j) (Store.kept_of_eq _ _ j (by rw [g2]))
        have c1 : Store.cached env s.st
            (((it.deref (s.st.nodes n)).sure env s.st).2.set_node n nd) := by
          intro j hj
          have := q4 j hj
          rw [g2]
          exact this
        have m1 : (it.deref (s.st.nodes n)).counted env
            (((it.deref (s.st.nodes n)).sure env s.st).2.set_node n nd) n = true := by
          unfold JobTgt.counted
          have := q5 hsure
          unfold JobTgt.marked at this ⊢
          rw [g2]
          rw [this]
          rfl
        unfold NodeData.make_early_count
        by_cases hx : p.prod_idx = Node.NoIdx
        · simp only [hx, ne_eq, not_true_eq_false, if_false]
          exact early_rec env n k ih s
            { s with st := ((it.deref (s.st.nodes n)).sure env s.st).2.set_node n nd } it p
            { p with prod_idx := it.idx } hs hb hv f1 k1 c1 rfl rfl (Or.inr ⟨hx, hne, m1⟩)
        · simp only [hx, ne_eq, not_false_eq_true, if_true]
          refine ⟨f1, k1, c1, rfl, rfl, rfl, hx, ?_⟩
          rw [if_neg hx]
          obtain ⟨e1, _, _, _⟩ := iter_frame n s.st _ f1 it
          simp only
          rw [e1, hrest, List.filter_cons, if_pos m1, List.length_cons]
          omega
    · simp only [hsure, Bool.false_eq_true, if_false]
      by_cases hd : (s.jris (it.deref (s.st.nodes n)).job).done .Status = true
      swap
      · simp only [hd, Bool.not_false, if_true]
        exact early_rec env n k ih s
          { s with st := ((it.deref (s.st.nodes n)).sure env s.st).2 } it p p hs hb hv q2 q3 q4
          rfl rfl (Or.inl rfl)
      simp only [hd, Bool.not_true, Bool.false_eq_true, if_false]
      cases hp : (it.deref (s.st.nodes n)).produces env
          ((it.deref (s.st.nodes n)).sure env s.st).2 n false with
      | none => trivial
      | some b =>
        cases b with
        | false =>
          simp only
          exact early_rec env n k ih s
            { s with st := ((it.deref (s.st.nodes n)).sure env s.st).2 } it p p hs hb hv q2 q3 q4
            rfl rfl (Or.inl rfl)
        | true =>
          simp only
          have m1 : (it.deref (s.st.nodes n)).counted env
              ((it.deref (s.st.nodes n)).sure env s.st).2 n = true := by
            unfold JobTgt.counted
            rw [hp]
            simp
          unfold NodeData.make_early_count
          by_cases hx : p.prod_idx = Node.NoIdx
          · simp only [hx, ne_eq, not_true_eq_false, if_false]
            exact early_rec env n k ih s
              { s with st := ((it.deref (s.st.nodes n)).sure env s.st).2 } it p
              { p with prod_idx := it.idx } hs hb hv q2 q3 q4 rfl rfl (Or.inr ⟨hx, hne, m1⟩)
          · simp only [hx, ne_eq, not_false_eq_true, if_true]
            refine ⟨q2, q3, q4, rfl, rfl, rfl, hx, ?_⟩
            rw [if_neg hx]
            obtain ⟨e1, _, _, _⟩ := iter_frame n s.st _ q2 it
            simp only
            rw [e1, hrest, List.filter_cons, if_pos m1, List.length_cons]
            omega


theorem manual_refresh_frame (env : Env) (nd : NodeData) :
    (nd.manual_refresh env).2.job_tgts = nd.job_tgts
      ∧ (nd.manual_refresh env).2.actual_job_tgt = nd.actual_job_tgt := by
  unfold NodeData.manual_refresh _manual_refresh
  simp only
  split
  · exact ⟨rfl, rfl⟩
  · split
    · exact ⟨rfl, rfl⟩
    · split
      · exact ⟨rfl, rfl⟩
      · exact ⟨rfl, rfl⟩

theorem make_manual_frame (env : Env) (n : Nat) (s : MakeState) (m : Option Bool3) :
    Store.frame n s.st (NodeData.make_manual env n s m).2.st
      ∧ (NodeData.make_manual env n s m).2.st.jobs = s.st.jobs
      ∧ (NodeData.make_manual env n s m).2.ri = s.ri
      ∧ (NodeData.make_manual env n s m).2.jris = s.jris := by
  unfold NodeData.make_manual
  cases m with
  | some b => exact ⟨Store.frame_refl _ _, rfl, rfl, rfl⟩
  | none =>
    obtain ⟨h1, h2⟩ := manual_refresh_frame env (s.st.nodes n)
    refine ⟨⟨?_, ?_, fun _ => rfl⟩, rfl, rfl, rfl⟩
    · simp [Store.set_node, h1]
    · simp [Store.set_node, h2]

/-- The choice of the action and of the reason leaves the jobs and the `ReqInfo` as they are. -/
theorem make_reason_frame (env : Env) (n : Nat) (s : MakeState) (jt : JobTgt)
    (m : Option Bool3) (action : RunAction) (reason : JobReason) (m1 : Option Bool3)
    (s1 : MakeState) (h : NodeData.make_reason env n s jt m = some (action, reason, m1, s1)) :
    Store.frame n s.st s1.st ∧ s1.st.jobs = s.st.jobs ∧ s1.ri = s.ri ∧ s1.jris = s.jris := by
  have hm := make_manual_frame env n s m
  have h0 : Store.frame n s.st s.st ∧ s.st.jobs = s.st.jobs ∧ s.ri = s.ri ∧ s.jris = s.jris :=
    ⟨Store.frame_refl _ _, rfl, rfl, rfl⟩
  unfold NodeData.make_reason at h
  cases ha : s.ri.action <;> rw [ha] at h <;> simp only at h
  · cases h
  · cases h; exact h0
  · cases h; exact h0
  · cases hp : jt.produces env s.st n false with
    | none => rw [hp] at h; cases h
    | some b =>
      rw [hp] at h
      cases b with
      | false => cases h; exact h0
      | true =>
        simp only at h
        split at h
        · cases h; exact h0
        · cases ho : (s.st.nodes n).has_actual_job_of s.st jt.job with
          | none => rw [ho] at h; cases h
          | some c =>
            rw [ho] at h
            cases c with
            | false => cases h; exact h0
            | true =>
              simp only at h
              cases hr : (NodeData.make_manual env n s m).1 <;> rw [hr] at h <;> cases h <;>
                exact hm
  · cases h

theorem make_call_frame (env : Env) (n : Nat) (s : MakeState) (jt : JobTgt)
    (action : RunAction) (reason : JobReason) :
    Store.frame n s.st (NodeData.make_call env n s jt action reason).st
      ∧ (∀ j, j ≠ jt.job → (NodeData.make_call env n s jt action reason).st.jobs j = s.st.jobs j)
      ∧ (NodeData.make_call env n s jt action reason).ri = s.ri := by
  unfold NodeData.make_call
  refine ⟨⟨rfl, rfl, ?_⟩, ?_, rfl⟩
  · intro j
    by_cases hj : j = jt.job
    · simp [Store.set_job, hj]
    · simp [Store.set_job, hj]
  · intro j hj
    simp [Store.set_job, hj]

/-- What the body of the loop that makes the jobs does with the job under the iterator : the
other jobs are untouched, and either the node waits for the job, or the job is counted when it
produces the node. -/
theorem make_job_spec (env : Env) (n : Nat) (s : MakeState) (it : JobTgtIter) (p : Found)
    (m : Option Bool3) (s1 : MakeState) (p1 : Found) (m1 : Option Bool3)
    (h : NodeData.make_job env n s it p m = some (s1, p1, m1)) :
    Store.frame n s.st s1.st
      ∧ (∀ j, j ≠ (it.deref (s.st.nodes n)).job → s1.st.jobs j = s.st.jobs j)
      ∧ ((s1.ri = s.ri
            ∧ p1 = if (it.deref (s.st.nodes n)).produces env s1.st n false = some true
                then p.add it.idx else p)
          ∨ (s1.ri = { s.ri with n_wait := s.ri.n_wait + 1 } ∧ p1 = p)) := by
  unfold NodeData.make_job at h
  simp only at h
  cases hr : NodeData.make_reason env n s (it.deref (s.st.nodes n)) m with
  | none => rw [hr] at h; cases h
  | some r =>
    obtain ⟨action, reason, m2, s2⟩ := r
    rw [hr] at h
    simp only at h
    obtain ⟨f1, j1, r1, _⟩ := make_reason_frame env n s _ m action reason m2 s2 hr
    obtain ⟨f2, j2, r2⟩ := make_call_frame env n s2 (it.deref (s.st.nodes n)) action reason
    have f3 := Store.frame_trans n _ _ _ f1 f2
    have j3 : ∀ j, j ≠ (it.deref (s.st.nodes n)).job →
        (NodeData.make_call env n s2 (it.deref (s.st.nodes n)) action reason).st.jobs j
          = s.st.jobs j := by
      intro j hj
      rw [j2 j hj, j1]
    split at h
    · cases h
      refine ⟨f3, j3, Or.inr ⟨?_, rfl⟩⟩
      unfold NodeData.add_watcher
      simp only
      rw [r2, r1]
    · cases hp : (it.deref (s.st.nodes n)).produces env
          (NodeData.make_call env n s2 (it.deref (s.st.nodes n)) action reason).st n false with
      | none => rw [hp] at h; cases h
      | some b =>
        rw [hp] at h
        cases b with
        | true =>
          cases h
          exact ⟨f3, j3, Or.inl ⟨r2.trans r1, by rw [hp]; simp⟩⟩
        | false =>
          cases h
          exact ⟨f3, j3, Or.inl ⟨r2.trans r1, by rw [hp]; simp⟩⟩


/-- The loop that makes the jobs of a whole level whose jobs are distinct : the jobs that are not
of the level are untouched, the node waits for no fewer jobs than before and, when it waits for
no more, what the loop finds is what the jobs of the level that produce the node at the end
give. -/
theorem make_jobs_loop_spec (env : Env) (n : Nat) :
    ∀ (k : Nat) (s : MakeState) (it : JobTgtIter) (p : Found) (m : Option Bool3)
      (s1 : MakeState) (it1 : JobTgtIter) (p1 : Found) (m1 : Option Bool3),
      it.single = false → (s.st.nodes n).job_tgts.length < 2 ^ 16 →
      ((it.rest s.st (s.st.nodes n)).map (fun jt => jt.job)).Nodup →
      NodeData.make_jobs_loop env n k s it p m = some (some (s1, it1, p1, m1)) →
      Store.frame n s.st s1.st
        ∧ (∀ j, j ∉ (it.rest s.st (s.st.nodes n)).map (fun jt => jt.job) →
            s1.st.jobs j = s.st.jobs j)
        ∧ s.ri.n_wait ≤ s1.ri.n_wait
        ∧ s1.ri = { s.ri with n_wait := s1.ri.n_wait }
        ∧ (s1.ri.n_wait = s.ri.n_wait →
            p1 = (prod_idxs env s1.st n (it.rest s.st (s.st.nodes n)) it.idx).foldl Found.add p) := by
  intro k
  induction k with
  | zero => intro s it p m s1 it1 p1 m1 _ _ _ h; simp [NodeData.make_jobs_loop] at h
  | succ k ih =>
    intro s it p m s1 it1 p1 m1 hs hb hnd h
    rw [NodeData.make_jobs_loop] at h
    by_cases hv : it.valid s.st (s.st.nodes n) = true
    swap
    · have hv1 : it.valid s.st (s.st.nodes n) = false := by simpa using hv
      simp only [hv1, Bool.not_false, if_true, Option.some.injEq, Prod.mk.injEq] at h
      obtain ⟨h1, _, h3, _⟩ := h
      subst h1 h3
      refine ⟨Store.frame_refl _ _, fun _ _ => rfl, Nat.le_refl _, rfl, fun _ => ?_⟩
      rw [iter_rest_nil _ _ _ hv1]
      rfl
    simp only [hv, Bool.not_true, Bool.false_eq_true, if_false] at h
    cases hj : NodeData.make_job env n s it p m with
    | none => rw [hj] at h; cases h
    | some r =>
      obtain ⟨sa, pa, ma⟩ := r
      rw [hj] at h
      simp only at h
      obtain ⟨f1, j1, c1⟩ := make_job_spec env n s it p m sa pa ma hj
      obtain ⟨hi1, hi2, hi3⟩ := iter_incr_idx _ _ it hs hb hv
      have hrest := iter_rest _ _ it hs hb hv
      obtain ⟨_, _, _, e4⟩ := iter_frame n s.st sa.st f1 it
      obtain ⟨e5, _, _, _⟩ := iter_frame n s.st sa.st f1 (it.incr s.st (s.st.nodes n))
      rw [e4] at h
      rw [hrest, List.map_cons, List.nodup_cons] at hnd
      have := ih sa _ pa ma s1 it1 p1 m1 hi2 (by rw [f1.1]; exact hb) (by rw [e5]; exact hnd.2) h
      rw [e5] at this
      obtain ⟨f2, j2, w2, r2, q2⟩ := this
      have hw : s.ri.n_wait ≤ sa.ri.n_wait := by
        rcases c1 with ⟨c, _⟩ | ⟨c, _⟩ <;> rw [c]
        simp only
        omega
      have hri : sa.ri = { s.ri with n_wait := sa.ri.n_wait } := by
        rcases c1 with ⟨c, _⟩ | ⟨c, _⟩ <;> rw [c]
      refine ⟨Store.frame_trans n _ _ _ f1 f2, ?_, Nat.le_trans hw w2, ?_, ?_⟩
      · intro j hjn
        rw [hrest, List.map_cons, List.mem_cons, not_or] at hjn
        rw [j2 j hjn.2, j1 j hjn.1]
      · rw [r2, hri]
      · intro he
        have he1 : sa.ri.n_wait = s.ri.n_wait := by omega
        have := q2 (by omega)
        rw [this, hrest, prod_idxs, hi1]
        rcases c1 with ⟨_, c⟩ | ⟨c, _⟩
        swap
        · rw [c] at he1
          simp only at he1
          omega
        have hk : Store.kept sa.st s1.st (it.deref (s.st.nodes n)).job :=
          Store.kept_of_eq _ _ _ (j2 _ hnd.1)
        rw [produces_frame env n sa.st s1.st _ false f2 hk, c]
        split <;> simp


/-- The loop of node.cc:433 keeps the frame of the store and the `ReqInfo` of the node. -/
theorem make_early_loop_frame (env : Env) (n : Nat) :
    ∀ (k : Nat) (s : MakeState) (it : JobTgtIter) (p : Found),
      match NodeData.make_early_loop env n k s it p with
      | .out s1 => Store.frame n s.st s1.st ∧ s1.ri = s.ri
      | .several s1 _ => Store.frame n s.st s1.st ∧ s1.ri = s.ri
      | .abort => True
      | .no_fuel => True := by
  intro k
  induction k with
  | zero => intro s it p; rw [NodeData.make_early_loop]; trivial
  | succ k ih =>
    intro s it p
    have step : ∀ (sa : MakeState) (ita : JobTgtIter) (pa : Found),
        Store.frame n s.st sa.st → sa.ri = s.ri →
        match NodeData.make_early_loop env n k sa ita pa with
        | .out s1 => Store.frame n s.st s1.st ∧ s1.ri = s.ri
        | .several s1 _ => Store.frame n s.st s1.st ∧ s1.ri = s.ri
        | .abort => True
        | .no_fuel => True := by
      intro sa ita pa hf hr
      have := ih sa ita pa
      cases hl : NodeData.make_early_loop env n k sa ita pa with
      | out s1 =>
        rw [hl] at this
        exact ⟨Store.frame_trans n _ _ _ hf this.1, this.2.trans hr⟩
      | several s1 p1 =>
        rw [hl] at this
        exact ⟨Store.frame_trans n _ _ _ hf this.1, this.2.trans hr⟩
      | abort => trivial
      | no_fuel => trivial
    rw [NodeData.make_early_loop]
    obtain ⟨q1, q2, _, _, _⟩ := JobTgt.sure_frame env n s.st (it.deref (s.st.nodes n))
    by_cases hv : it.valid s.st (s.st.nodes n) = true
    swap
    · have hv1 : it.valid s.st (s.st.nodes n) = false := by simpa using hv
      rw [if_pos (by rw [hv1]; rfl)]
      exact ⟨Store.frame_refl _ _, rfl⟩
    simp only [hv, Bool.not_true, Bool.false_eq_true, if_false]
    by_cases hsure : ((it.deref (s.st.nodes n)).sure env s.st).1 = true
    · simp only [hsure, if_true]
      cases hsb : (((it.deref (s.st.nodes n)).sure env s.st).2.nodes n)._set_buildable .Yes with
      | none => trivial
      | some nd =>
        simp only
        obtain ⟨g1, _⟩ := set_buildable_frame n _ _ nd hsb
        have f1 := Store.frame_trans n _ _ _ q2 g1
        cases NodeData.make_early_count it p with
        | inl p1 => exact ⟨f1, rfl⟩
        | inr p1 => exact step _ _ _ f1 rfl
    · simp only [hsure, Bool.false_eq_true, if_false]
      by_cases hd : (s.jris (it.deref (s.st.nodes n)).job).done .Status = true
      swap
      · simp only [hd, Bool.not_false, if_true]
        exact step _ _ _ q2 rfl
      simp only [hd, Bool.not_true, Bool.false_eq_true, if_false]
      cases (it.deref (s.st.nodes n)).produces env
          ((it.deref (s.st.nodes n)).sure env s.st).2 n false with
      | none => trivial
      | some b =>
        cases b with
        | false => exact step _ _ _ q2 rfl
        | true =>
          simp only
          cases NodeData.make_early_count it p with
          | inl p1 => exact ⟨q2, rfl⟩
          | inr p1 => exact step _ _ _ q2 rfl

theorem Found.add_keeps (p : Found) (i : Nat) :
    (p.prod_idx ≠ Node.NoIdx → (p.add i).prod_idx ≠ Node.NoIdx)
      ∧ ((p.add i).prod_idx = Node.NoIdx → (p.add i).multi = p.multi) := by
  unfold Found.add
  by_cases h : p.prod_idx = Node.NoIdx
  · simp [h]
  · simp [h]

/-- The loop that makes the jobs keeps the frame of the store and the `ReqInfo` of the node but
for `n_wait`, and leaves `multi` as it is as long as no job is found. -/
theorem make_jobs_loop_frame (env : Env) (n : Nat) :
    ∀ (k : Nat) (s : MakeState) (it : JobTgtIter) (p : Found) (m : Option Bool3)
      (s1 : MakeState) (it1 : JobTgtIter) (p1 : Found) (m1 : Option Bool3),
      NodeData.make_jobs_loop env n k s it p m = some (some (s1, it1, p1, m1)) →
      Store.frame n s.st s1.st
        ∧ s1.ri = { s.ri with n_wait := s1.ri.n_wait }
        ∧ (p.prod_idx ≠ Node.NoIdx → p1.prod_idx ≠ Node.NoIdx)
        ∧ (p1.prod_idx = Node.NoIdx → p1.multi = p.multi) := by
  intro k
  induction k with
  | zero => intro s it p m s1 it1 p1 m1 h; simp [NodeData.make_jobs_loop] at h
  | succ k ih =>
    intro s it p m s1 it1 p1 m1 h
    rw [NodeData.make_jobs_loop] at h
    split at h
    · simp only [Option.some.injEq, Prod.mk.injEq] at h
      obtain ⟨h1, _, h3, _⟩ := h
      subst h1 h3
      exact ⟨Store.frame_refl _ _, rfl, fun h => h, fun _ => rfl⟩
    · cases hj : NodeData.make_job env n s it p m with
      | none => rw [hj] at h; cases h
      | some r =>
        obtain ⟨sa, pa, ma⟩ := r
        rw [hj] at h
        simp only at h
        obtain ⟨f1, _, c1⟩ := make_job_spec env n s it p m sa pa ma hj
        obtain ⟨f2, r2, a2, b2⟩ := ih _ _ _ _ _ _ _ _ h
        have hri : sa.ri = { s.ri with n_wait := sa.ri.n_wait } := by
          rcases c1 with ⟨c, _⟩ | ⟨c, _⟩ <;> rw [c]
        have hp : (p.prod_idx ≠ Node.NoIdx → pa.prod_idx ≠ Node.NoIdx)
            ∧ (pa.prod_idx = Node.NoIdx → pa.multi = p.multi) := by
          rcases c1 with ⟨_, c⟩ | ⟨_, c⟩
          · rw [c]
            split
            · exact Found.add_keeps p it.idx
            · exact ⟨fun h => h, fun _ => rfl⟩
          · rw [c]
            exact ⟨fun h => h, fun _ => rfl⟩
        refine ⟨Store.frame_trans n _ _ _ f1 f2, ?_, fun h => a2 (hp.1 h), ?_⟩
        · rw [r2, hri]
        · intro h0
          have h1 : pa.prod_idx = Node.NoIdx := by
            by_contra hne
            exact a2 hne h0
          rw [b2 h0, hp.2 h1]

/-- The end of a turn of the loop of `Make` keeps the frame of the store and what the `ReqInfo`
holds of the request, and passes `multi` as it is to the next turn. -/
theorem make_level_frame (env : Env) (n : Nat) (s : MakeState) (multi : Bool)
    (m : Option Bool3) :
    match NodeData.make_level env n s multi m with
    | .DoWakeup s1 _ =>
      Store.frame n s.st s1.st ∧ s1.ri.single = s.ri.single ∧ s1.ri.prio_idx = s.ri.prio_idx
    | .next s1 multi1 _ => s1.ri.single = s.ri.single ∧ multi1 = multi
    | .Done _ => True
    | .abort => True
    | .no_fuel => True := by
  unfold NodeData.make_level
  simp only
  have hE : ∀ e : EarlyEnd,
      (e = .out s ∨ e = NodeData.make_early_loop env n ((s.st.nodes n).job_tgts.length + 1) s
        (JobTgtIter.of_ri s.ri) { multi := multi }) →
      match e with
      | .out s1 => Store.frame n s.st s1.st ∧ s1.ri = s.ri
      | .several s1 _ => Store.frame n s.st s1.st ∧ s1.ri = s.ri
      | .abort => True
      | .no_fuel => True := by
    intro e he
    rcases he with he | he
    · rw [he]; exact ⟨Store.frame_refl _ _, rfl⟩
    · rw [he]; exact make_early_loop_frame env n _ _ _ _
  generalize hgen : (if (!s.ri.single) = true then
      NodeData.make_early_loop env n ((s.st.nodes n).job_tgts.length + 1) s
        (JobTgtIter.of_ri s.ri) { multi := multi } else EarlyEnd.out s) = e
  have he := hE e (by rw [← hgen]; split; exact Or.inr rfl; exact Or.inl rfl)
  cases e with
  | several s1 p => exact ⟨he.1, by rw [he.2], by rw [he.2]⟩
  | abort => trivial
  | no_fuel => trivial
  | out s1 =>
    simp only
    obtain ⟨f1, r1⟩ := he
    generalize hit : (if (!s.ri.single) = true then
      (JobTgtIter.of_ri s.ri).reset s1.ri.prio_idx else JobTgtIter.of_ri s.ri) = it1
    cases hl : NodeData.make_jobs_loop env n ((s1.st.nodes n).job_tgts.length + 1)
        { s1 with ri := { s1.ri with n_wait := s1.ri.n_wait + 1 } } it1 { multi := multi } m with
    | none => trivial
    | some o =>
      cases o with
      | none => trivial
      | some r =>
        obtain ⟨s3, it3, p, m3⟩ := r
        simp only
        obtain ⟨f2, r2, _, b2⟩ := make_jobs_loop_frame env n _ _ _ _ _ _ _ _ _ hl
        simp only at f2 r2
        by_cases hw : ({ s3.ri with n_wait := s3.ri.n_wait - 1 } : NodeReqInfo).waiting = true
        · rw [if_pos hw]; trivial
        rw [if_neg hw]
        by_cases hx : p.prod_idx ≠ Node.NoIdx
        · rw [if_pos hx]
          refine ⟨Store.frame_trans n _ _ _ f1 f2, ?_, ?_⟩
          · simp only; rw [r2]; simp only; rw [r1]
          · simp only; rw [r2]; simp only; rw [r1]
        · rw [if_neg hx]
          refine ⟨?_, ?_⟩
          · simp only; rw [r2]; simp only; rw [r1]
          · simp only [ne_eq, not_not] at hx
            exact b2 hx


theorem filter_length_le (l : List JobTgt) (f g : JobTgt → Bool)
    (h : ∀ a ∈ l, f a = true → g a = true) : (l.filter f).length ≤ (l.filter g).length := by
  induction l with
  | nil => simp
  | cons a l ih =>
    have ih1 := ih (fun x hx => h x (List.mem_cons_of_mem _ hx))
    rw [List.filter_cons, List.filter_cons]
    by_cases hf : f a = true
    · rw [if_pos hf, if_pos (h a (List.mem_cons_self _ _) hf), List.length_cons, List.length_cons]
      omega
    · rw [if_neg hf]
      split
      · rw [List.length_cons]; omega
      · exact ih1

/-- What is found by the count of the jobs of the level that produce the node fits the level. -/
theorem fits_of_fold (env : Env) (n : Nat) (s : MakeState) (p : Found)
    (hb : (s.st.nodes n).job_tgts.length ≤ Node.MaxRuleIdx)
    (h : p = (NodeData.producers env s.st n s.ri.prio_idx).foldl Found.add { multi := false }) :
    p.fits env n s := by
  have hne : ∀ x ∈ NodeData.producers env s.st n s.ri.prio_idx, x ≠ Node.NoIdx :=
    producers_ne_NoIdx env s.st n (JobTgtIter.of_ri s.ri) hb
  rw [Found.add_all _ hne] at h
  unfold Found.fits
  generalize NodeData.producers env s.st n s.ri.prio_idx = l at h hne
  subst h
  cases l with
  | nil => simp
  | cons a l =>
    have ha : a ≠ Node.NoIdx := hne a (List.mem_cons_self _ _)
    simp only [List.headD_cons, List.length_cons, Bool.false_or, decide_eq_false_iff_not,
      decide_eq_true_eq, ne_eq, ha, not_false_eq_true, false_implies, true_implies, true_and]
    refine ⟨fun h => ?_, fun h => h⟩
    have : l.length = 0 := by omega
    rw [List.length_eq_zero.mp this]

/-- A job target that is counted produces the node, when no job that is sure is missing. -/
theorem counted_produces (env : Env) (n : Nat) (st : Store) (jt : JobTgt)
    (hsure : jt.sure_val env st = true → (st.jobs jt.job).missing = false)
    (h : jt.counted env st n = true) : jt.produces env st n false = some true := by
  unfold JobTgt.counted at h
  simp only [Bool.or_eq_true, decide_eq_true_eq] at h
  rcases h with h | h
  · have hm := hsure (JobTgt.marked_sure env st jt h)
    unfold JobTgt.marked at h
    simp only [Bool.and_eq_true, decide_eq_true_eq] at h
    unfold JobTgt.produces
    simp [hm, h.1.1]
  · exact h

/-- The end of a turn of the loop of `Make` that goes to `DoWakeup`, for a level that is gone
through entirely, whose jobs are distinct and none of which is both sure and missing : what was
found fits the level. -/
theorem make_level_fits (env : Env) (n : Nat) (s : MakeState) (m : Option Bool3)
    (s1 : MakeState) (p : Found) (hs : s.ri.single = false)
    (h : NodeData.make_level env n s false m = .DoWakeup s1 p)
    (hlen : (s1.st.nodes n).job_tgts.length ≤ Node.MaxRuleIdx)
    (hnd : (((s1.st.nodes n).level s1.st s1.ri.prio_idx).map (fun jt => jt.job)).Nodup)
    (hsure : ∀ jt ∈ (s1.st.nodes n).level s1.st s1.ri.prio_idx,
      jt.sure_val env s1.st = true → (s1.st.jobs jt.job).missing = false) :
    p.fits env n s1 := by
  have hfr := make_level_frame env n s false m
  rw [h] at hfr
  obtain ⟨f0, _, hpi⟩ := hfr
  have hlt := MaxRuleIdx_lt
  have hb : (s.st.nodes n).job_tgts.length < 2 ^ 16 := by rw [← f0.1]; omega
  unfold NodeData.make_level at h
  simp only [hs, Bool.not_false, if_true] at h
  have hfit := make_early_loop_fits env n ((s.st.nodes n).job_tgts.length + 1) s
    (JobTgtIter.of_ri s.ri) { multi := false } hs hb
  cases hE : NodeData.make_early_loop env n ((s.st.nodes n).job_tgts.length + 1) s
      (JobTgtIter.of_ri s.ri) { multi := false } with
  | abort => rw [hE] at h; cases h
  | no_fuel => rw [hE] at h; cases h
  | several sE pE =>
    rw [hE] at h hfit
    cases h
    obtain ⟨_, _, _, r1, _, m1, x1, c1⟩ := hfit
    rw [if_pos rfl] at c1
    have hlv : (s1.st.nodes n).level s1.st s1.ri.prio_idx
        = (JobTgtIter.of_ri s.ri).rest s1.st (s1.st.nodes n) := by
      rw [r1]; rfl
    have hle := filter_length_le _ (JobTgt.counted env s1.st n)
      (fun jt => decide (jt.produces env s1.st n false = some true))
      (fun jt hjt hc => by
        have := counted_produces env n s1.st jt (hsure jt (by rw [hlv]; exact hjt)) hc
        simp [this])
    unfold Found.fits NodeData.producers
    rw [prod_idxs_length, hlv]
    refine ⟨fun h0 => absurd h0 x1, fun _ => ⟨fun h0 => ?_, fun _ => by omega⟩⟩
    rw [m1] at h0
    cases h0
  | out sE =>
    rw [hE] at h hfit
    simp only at h
    obtain ⟨f1, _, _, r1, _⟩ := hfit
    have hit : (JobTgtIter.of_ri s.ri).reset sE.ri.prio_idx = JobTgtIter.of_ri s.ri := by
      rw [r1]; rfl
    rw [hit] at h
    cases hl : NodeData.make_jobs_loop env n ((sE.st.nodes n).job_tgts.length + 1)
        { sE with ri := { sE.ri with n_wait := sE.ri.n_wait + 1 } } (JobTgtIter.of_ri s.ri)
        { multi := false } m with
    | none => rw [hl] at h; cases h
    | some o =>
      rw [hl] at h
      cases o with
      | none => cases h
      | some r =>
        obtain ⟨s3, it3, pM, m3⟩ := r
        simp only at h
        by_cases hw : ({ s3.ri with n_wait := s3.ri.n_wait - 1 } : NodeReqInfo).waiting = true
        · rw [if_pos hw] at h; cases h
        rw [if_neg hw] at h
        by_cases hx : pM.prod_idx ≠ Node.NoIdx
        swap
        · rw [if_neg hx] at h; cases h
        rw [if_pos hx] at h
        cases h
        obtain ⟨f2, r2, _, _⟩ := make_jobs_loop_frame env n _ _ _ _ _ _ _ _ _ hl
        simp only at f2 r2
        obtain ⟨e1, _, _, _⟩ := iter_frame n sE.st s3.st f2 (JobTgtIter.of_ri s.ri)
        have hp3 : s3.ri.prio_idx = s.ri.prio_idx := by rw [r2]; simp only; rw [r1]
        have hlv : (s3.st.nodes n).level s3.st s3.ri.prio_idx
            = (JobTgtIter.of_ri s.ri).rest sE.st (sE.st.nodes n) := by
          rw [← e1, hp3]; rfl
        simp only at hnd hlen
        rw [hlv] at hnd
        obtain ⟨_, _, w2, _, q2⟩ := make_jobs_loop_spec env n _
          { sE with ri := { sE.ri with n_wait := sE.ri.n_wait + 1 } } _ _ _ _ _ _ _ hs
          (by show (sE.st.nodes n).job_tgts.length < 2 ^ 16; rw [f1.1]; exact hb) hnd hl
        simp only at w2 q2
        have hnw : s3.ri.n_wait = sE.ri.n_wait + 1 := by
          unfold NodeReqInfo.waiting at hw
          simp only [ne_eq, decide_eq_true_eq, not_not] at hw
          omega
        have hq := q2 hnw
        apply fits_of_fold env n _ _ hlen
        show p = List.foldl Found.add { multi := false }
          (NodeData.producers env s3.st n s3.ri.prio_idx)
        unfold NodeData.producers
        rw [hlv, hp3]
        exact hq


theorem status_set_None (nd : NodeData) :
    ({ nd with _conform_idx := (2 ^ 16 - NodeStatus.None.val) % 2 ^ 16 } : NodeData).status
      = .None := by
  unfold NodeData.status
  have h1 : (2 ^ 16 - NodeStatus.None.val) % 2 ^ 16 = 65532 := by decide
  have h2 : Node.MaxRuleIdx = 65528 := by decide
  simp only [h1, h2]
  rfl

theorem status_set_Multi (nd : NodeData) :
    ({ nd with _conform_idx := (2 ^ 16 - NodeStatus.Multi.val) % 2 ^ 16 } : NodeData).status
      = .Multi := by
  unfold NodeData.status
  have h1 : (2 ^ 16 - NodeStatus.Multi.val) % 2 ^ 16 = 65535 := by decide
  have h2 : Node.MaxRuleIdx = 65528 := by decide
  simp only [h1, h2]
  rfl

theorem set_status_conform (st : NodeStatus) (nd nd1 : NodeData)
    (h0 : st = .None ∨ st = .Multi) (h : nd.set_status st = some nd1) :
    nd1 = { nd with _conform_idx := nd1._conform_idx } ∧ nd1.status = st := by
  unfold NodeData.set_status at h
  split at h
  · cases h
  · have h1 := (Option.some.inj h).symm
    subst h1
    refine ⟨rfl, ?_⟩
    rcases h0 with h0 | h0
    · subst h0; exact status_set_None nd
    · subst h0; exact status_set_Multi nd

/-- The label `DoWakeup` : it changes `_conform_idx` in the node and `done_` in its `ReqInfo`,
and sets the status after what was found. -/
theorem make_DoWakeup_spec (env : Env) (n : Nat) (s0 : MakeState) (p : Found) (s1 : MakeState)
    (h : NodeData.make_DoWakeup env n s0 p = some s1) :
    (∃ c, s1.st = s0.st.set_node n { s0.st.nodes n with _conform_idx := c })
      ∧ s1.ri = { s0.ri with done_ := s0.ri.action }
      ∧ (p.prod_idx = Node.NoIdx → (s1.st.nodes n).status = .None)
      ∧ (p.prod_idx ≠ Node.NoIdx → p.multi = false →
          (s1.st.nodes n).status = .Plain ∧ (s1.st.nodes n).conform_idx = p.prod_idx)
      ∧ (p.prod_idx ≠ Node.NoIdx → p.multi = true → (s1.st.nodes n).status = .Multi) := by
  unfold NodeData.make_DoWakeup at h
  simp only at h
  have key : ∀ (o : Option NodeData) (P : NodeData → Prop),
      (∀ nd, o = some nd → nd = { s0.st.nodes n with _conform_idx := nd._conform_idx } ∧ P nd) →
      (match o with
        | none => none
        | some nd => some ({ s0 with st := s0.st.set_node n nd,
                                     ri := { s0.ri with done_ := s0.ri.action } } : MakeState))
        = some s1 →
      (∃ c, s1.st = s0.st.set_node n { s0.st.nodes n with _conform_idx := c })
        ∧ s1.ri = { s0.ri with done_ := s0.ri.action } ∧ P (s1.st.nodes n) := by
    intro o P ho hm
    cases o with
    | none => cases hm
    | some nd =>
      cases hm
      obtain ⟨e, hP⟩ := ho nd rfl
      refine ⟨⟨nd._conform_idx, ?_⟩, rfl, ?_⟩
      · show s0.st.set_node n nd = _
        rw [← e]
      · show P ((s0.st.set_node n nd).nodes n)
        simp only [Store.set_node, if_true]
        exact hP
  by_cases hx : p.prod_idx = Node.NoIdx
  · rw [if_pos hx] at h
    obtain ⟨a, b, c⟩ := key _ (fun nd => nd.status = .None)
      (fun nd hnd => set_status_conform .None _ nd (Or.inl rfl) hnd) h
    exact ⟨a, b, fun _ => c, fun h0 => absurd hx h0, fun h0 => absurd hx h0⟩
  · rw [if_neg hx] at h
    by_cases hm : p.multi = true
    · simp only [hm, Bool.not_true, Bool.false_eq_true, if_false] at h
      obtain ⟨a, b, c⟩ := key _ (fun nd => nd.status = .Multi)
        (fun nd hnd => by
          cases hs : (s0.st.nodes n).set_status .Multi with
          | none => rw [hs] at hnd; cases hnd
          | some nd2 =>
            rw [hs] at hnd
            simp only at hnd
            split at hnd
            · cases hnd
              exact set_status_conform .Multi _ nd (Or.inr rfl) hs
            · cases hnd) h
      exact ⟨a, b, fun h0 => absurd h0 hx, fun _ h0 => (by rw [hm] at h0; cases h0),
        fun _ _ => c⟩
    · have hm1 : p.multi = false := by simpa using hm
      simp only [hm1, Bool.not_false, if_true] at h
      obtain ⟨a, b, c⟩ := key _
        (fun nd => nd.status = .Plain ∧ nd.conform_idx = p.prod_idx)
        (fun nd hnd => by
          unfold NodeData.set_conform_idx at hnd
          split at hnd
          · next hle =>
            cases hnd
            refine ⟨rfl, ?_, ?_⟩
            · unfold NodeData.status
              simp only
              rw [if_neg (by omega)]
            · unfold NodeData.conform_idx
              simp only
              rw [if_pos hle]
          · cases hnd) h
      exact ⟨a, b, fun h0 => absurd h0 hx, fun _ _ => c,
        fun _ h0 => (by rw [hm1] at h0; cases h0)⟩


theorem gather_prio_loop_not_thrown (env : Env)
    (h0 : ∀ rt name_ lvl, ∃ j, env.new_job rt name_ lvl = .ok j) (name_ : List Char)
    (lvl : Nat) :
    ∀ (rts : List RuleTgt) (acc : GatherAcc) (st st1 : Store) (e : List Nat),
      NodeData.gather_prio_loop env name_ lvl rts acc st ≠ .thrown st1 e := by
  intro rts
  induction rts with
  | nil => intro acc st st1 e h; rw [NodeData.gather_prio_loop] at h; cases h
  | cons rt rts ih =>
    intro acc st st1 e h
    rw [NodeData.gather_prio_loop] at h
    split at h
    · cases h
    · split at h
      · cases h
      · obtain ⟨j, hj⟩ := h0 rt name_ (lvl + 1)
        unfold JobTgt.of_rule_tgt at h
        rw [hj] at h
        simp only at h
        split at h
        · exact ih _ _ _ _ h
        · exact ih _ _ _ _ h

/-- The jobs are gathered without any exception when no infinite recursion is detected as a job
is created. -/
theorem gather_req_not_thrown (env : Env)
    (h0 : ∀ rt name_ lvl, ∃ j, env.new_job rt name_ lvl = .ok j) (n lvl : Nat)
    (st st1 : Store) (e : List Nat) :
    NodeData._gather_prio_job_tgts_req env n lvl st ≠ .thrown st1 e := by
  intro h
  unfold NodeData._gather_prio_job_tgts_req at h
  split at h
  · cases h
  · unfold NodeData._gather_prio_job_tgts at h
    split at h
    · cases h
    · cases hg : NodeData.gather_prio_loop env (st.nodes n).name lvl (st.nodes n).rule_tgts {} st with
      | ret r => rw [hg] at h; cases h
      | thrown s2 e2 => exact gather_prio_loop_not_thrown env h0 _ _ _ _ _ _ _ hg
      | abort => rw [hg] at h; cases h
      | no_fuel => rw [hg] at h; cases h

theorem producers_nil (env : Env) (st : Store) (n i : Nat)
    (h : (st.nodes n).job_tgts.length ≤ i) : NodeData.producers env st n i = [] := by
  unfold NodeData.producers NodeData.level
  rw [List.drop_eq_nil_of_le h]
  rfl

/-- A turn of the loop of `Make` keeps `single`, and passes `multi` as it is to the next turn. -/
theorem make_pass_frame (env : Env) (n : Nat) (s : MakeState) (multi : Bool)
    (m : Option Bool3) :
    (∀ s1 p, NodeData.make_pass env n s multi m = .DoWakeup s1 p → s1.ri.single = s.ri.single)
      ∧ (∀ s1 multi1 m1, NodeData.make_pass env n s multi m = .next s1 multi1 m1 →
          s1.ri.single = s.ri.single ∧ multi1 = multi) := by
  have hlev : ∀ (s0 : MakeState), s0.ri = s.ri →
      (∀ s1 p, NodeData.make_level env n s0 multi m = .DoWakeup s1 p →
          s1.ri.single = s.ri.single)
        ∧ (∀ s1 multi1 m1, NodeData.make_level env n s0 multi m = .next s1 multi1 m1 →
            s1.ri.single = s.ri.single ∧ multi1 = multi) := by
    intro s0 hr
    have := make_level_frame env n s0 multi m
    refine ⟨fun s1 p h => ?_, fun s1 multi1 m1 h => ?_⟩
    · rw [h] at this
      rw [this.2.1, hr]
    · rw [h] at this
      rw [this.1, hr]
      exact ⟨rfl, this.2⟩
  unfold NodeData.make_pass
  by_cases hc : s.ri.prio_idx ≥ (s.st.nodes n).job_tgts.length
  swap
  · rw [if_neg hc]
    exact hlev s rfl
  rw [if_pos hc]
  by_cases hs : s.ri.single = true
  · rw [if_pos hs]
    exact ⟨fun _ _ h => (by cases h), fun _ _ _ h => (by cases h)⟩
  rw [if_neg hs]
  cases hg : NodeData._gather_prio_job_tgts_req env n 0 s.st with
  | ret r =>
    obtain ⟨b, st1⟩ := r
    simp only
    split
    · exact ⟨fun _ _ h => (by cases h; rfl), fun _ _ _ h => (by cases h)⟩
    · exact hlev _ rfl
  | thrown st1 e =>
    simp only
    cases NodeData.set_infinite env n e st1 with
    | none => exact ⟨fun _ _ h => (by cases h), fun _ _ _ h => (by cases h)⟩
    | some st2 => exact ⟨fun _ _ h => (by cases h; rfl), fun _ _ _ h => (by cases h)⟩
  | abort => exact ⟨fun _ _ h => (by cases h), fun _ _ _ h => (by cases h)⟩
  | no_fuel => exact ⟨fun _ _ h => (by cases h), fun _ _ _ h => (by cases h)⟩

/-- A turn of the loop of `Make` that goes to `DoWakeup` : what was found fits the level. -/
theorem make_pass_fits (env : Env) (n : Nat) (s : MakeState) (m : Option Bool3)
    (s1 : MakeState) (p : Found)
    (h0 : ∀ rt name_ lvl, ∃ j, env.new_job rt name_ lvl = .ok j)
    (hs : s.ri.single = false)
    (h : NodeData.make_pass env n s false m = .DoWakeup s1 p)
    (hlen : (s1.st.nodes n).job_tgts.length ≤ Node.MaxRuleIdx)
    (hnd : (((s1.st.nodes n).level s1.st s1.ri.prio_idx).map (fun jt => jt.job)).Nodup)
    (hsure : ∀ jt ∈ (s1.st.nodes n).level s1.st s1.ri.prio_idx,
      jt.sure_val env s1.st = true → (s1.st.jobs jt.job).missing = false) :
    p.fits env n s1 := by
  unfold NodeData.make_pass at h
  by_cases hc : s.ri.prio_idx ≥ (s.st.nodes n).job_tgts.length
  swap
  · rw [if_neg hc] at h
    exact make_level_fits env n s m s1 p hs h hlen hnd hsure
  rw [if_pos hc] at h
  simp only [hs, Bool.false_eq_true, if_false] at h
  cases hg : NodeData._gather_prio_job_tgts_req env n 0 s.st with
  | ret r =>
    obtain ⟨b, st1⟩ := r
    rw [hg] at h
    simp only at h
    split at h
    · next hc2 =>
      cases h
      unfold Found.fits
      refine ⟨fun _ => producers_nil env _ n _ hc2, fun hne => absurd rfl hne⟩
    · refine make_level_fits env n _ m s1 p ?_ h hlen hnd hsure
      exact hs
  | thrown st1 e => exact absurd hg (gather_req_not_thrown env h0 n 0 s.st st1 e)
  | abort => rw [hg] at h; cases h
  | no_fuel => rw [hg] at h; cases h

theorem make_loop_single (env : Env) (n : Nat) :
    ∀ (fuel : Nat) (s : MakeState) (multi : Bool) (m : Option Bool3) (s1 : MakeState)
      (p : Found), NodeData.make_loop env n fuel s multi m = .DoWakeup s1 p →
      s1.ri.single = s.ri.single := by
  intro fuel
  induction fuel with
  | zero => intro s multi m s1 p h; rw [NodeData.make_loop] at h; cases h
  | succ fuel ih =>
    intro s multi m s1 p h
    rw [NodeData.make_loop] at h
    obtain ⟨a, b⟩ := make_pass_frame env n s multi m
    cases hp : NodeData.make_pass env n s multi m with
    | DoWakeup s2 p2 =>
      rw [hp] at h
      cases h
      exact a _ _ hp
    | Done s2 => rw [hp] at h; cases h
    | next s2 multi2 m2 =>
      rw [hp] at h
      rw [ih _ _ _ _ _ h]
      exact (b _ _ _ hp).1
    | abort => rw [hp] at h; cases h
    | no_fuel => rw [hp] at h; cases h

/-- The loop of `Make` that goes to `DoWakeup` : what was found fits the level. -/
theorem make_loop_fits (env : Env) (n : Nat) (s1 : MakeState) (p : Found)
    (h0 : ∀ rt name_ lvl, ∃ j, env.new_job rt name_ lvl = .ok j)
    (hlen : (s1.st.nodes n).job_tgts.length ≤ Node.MaxRuleIdx)
    (hnd : (((s1.st.nodes n).level s1.st s1.ri.prio_idx).map (fun jt => jt.job)).Nodup)
    (hsure : ∀ jt ∈ (s1.st.nodes n).level s1.st s1.ri.prio_idx,
      jt.sure_val env s1.st = true → (s1.st.jobs jt.job).missing = false) :
    ∀ (fuel : Nat) (s : MakeState) (m : Option Bool3), s.ri.single = false →
      NodeData.make_loop env n fuel s false m = .DoWakeup s1 p → p.fits env n s1 := by
  intro fuel
  induction fuel with
  | zero => intro s m _ h; rw [NodeData.make_loop] at h; cases h
  | succ fuel ih =>
    intro s m hs h
    rw [NodeData.make_loop] at h
    obtain ⟨_, b⟩ := make_pass_frame env n s false m
    cases hp : NodeData.make_pass env n s false m with
    | DoWakeup s2 p2 =>
      rw [hp] at h
      cases h
      exact make_pass_fits env n s m s1 p h0 hs hp hlen hnd hsure
    | Done s2 => rw [hp] at h; cases h
    | next s2 multi2 m2 =>
      rw [hp] at h
      obtain ⟨b1, b2⟩ := b _ _ _ hp
      subst b2
      exact ih s2 m2 (by rw [b1]; exact hs) h
    | abort => rw [hp] at h; cases h
    | no_fuel => rw [hp] at h; cases h


theorem sure_deps_congr (env : Env) (nodes nodes1 : Nat → NodeData)
    (h : ∀ k, (nodes1 k).buildable = (nodes k).buildable) :
    ∀ ds : List Dep, JobData.sure_deps env nodes1 ds = JobData.sure_deps env nodes ds := by
  intro ds
  induction ds with
  | nil => rfl
  | cons d ds ih => rw [JobData.sure_deps, JobData.sure_deps, ih, h]

/-- Whether a job target is sure is read of the jobs and of the buildable of the nodes. -/
theorem sure_val_congr (env : Env) (st st1 : Store) (jt : JobTgt) (hj : st1.jobs = st.jobs)
    (hb : ∀ k, (st1.nodes k).buildable = (st.nodes k).buildable) :
    jt.sure_val env st1 = jt.sure_val env st := by
  unfold JobTgt.sure_val JobTgt.sure JobData.sure
  rw [hj]
  simp only [sure_deps_congr env st.nodes st1.nodes hb]
  split <;> rfl

/-- What the label `DoWakeup` keeps of the state. -/
theorem make_DoWakeup_keeps (env : Env) (n : Nat) (s0 : MakeState) (p : Found) (s1 : MakeState)
    (h : NodeData.make_DoWakeup env n s0 p = some s1) :
    Store.frame n s0.st s1.st ∧ s1.st.jobs = s0.st.jobs
      ∧ (∀ k, (s1.st.nodes k).buildable = (s0.st.nodes k).buildable)
      ∧ s1.ri.prio_idx = s0.ri.prio_idx ∧ s1.ri.single = s0.ri.single
      ∧ s1.ri.done_ = s1.ri.action := by
  obtain ⟨⟨c, hc⟩, hr, _⟩ := make_DoWakeup_spec env n s0 p s1 h
  rw [hc, hr]
  refine ⟨⟨?_, ?_, fun _ => rfl⟩, rfl, ?_, rfl, rfl, rfl⟩
  · simp [Store.set_node]
  · simp [Store.set_node]
  · intro k
    by_cases hk : k = n
    · subst hk; simp [Store.set_node]
    · simp [Store.set_node, hk]

/-- The level and its producers are the same before and after the label `DoWakeup`. -/
theorem make_DoWakeup_level (env : Env) (n : Nat) (s0 : MakeState) (p : Found) (s1 : MakeState)
    (h : NodeData.make_DoWakeup env n s0 p = some s1) :
    (s1.st.nodes n).level s1.st s1.ri.prio_idx = (s0.st.nodes n).level s0.st s0.ri.prio_idx
      ∧ NodeData.producers env s1.st n s1.ri.prio_idx
        = NodeData.producers env s0.st n s0.ri.prio_idx := by
  obtain ⟨f, hj, _, hp, _, _⟩ := make_DoWakeup_keeps env n s0 p s1 h
  have hl : (s1.st.nodes n).level s1.st s1.ri.prio_idx
      = (s0.st.nodes n).level s0.st s0.ri.prio_idx := by
    rw [hp]
    exact (iter_frame n s0.st s1.st f (JobTgtIter.of_ri s0.ri)).1
  refine ⟨hl, ?_⟩
  unfold NodeData.producers
  rw [hl, hp]
  exact prod_idxs_frame env n s0.st s1.st f _ _
    (fun jt _ => Store.kept_of_eq _ _ _ (by rw [hj]))

/-- The status that the label `DoWakeup` gives to the node, when what was found fits the
level. -/
theorem woken_of_fits (env : Env) (n : Nat) (s0 : MakeState) (p : Found) (s1 : MakeState)
    (h : NodeData.make_DoWakeup env n s0 p = some s1) (hfit : p.fits env n s0) :
    s1.ri.done_ = s1.ri.action
      ∧ (NodeData.producers env s1.st n s1.ri.prio_idx = [] → (s1.st.nodes n).status = .None)
      ∧ (∀ i, NodeData.producers env s1.st n s1.ri.prio_idx = [i] →
          (s1.st.nodes n).status = .Plain ∧ (s1.st.nodes n).conform_idx = i)
      ∧ (2 ≤ (NodeData.producers env s1.st n s1.ri.prio_idx).length →
          (s1.st.nodes n).status = .Multi) := by
  obtain ⟨_, _, a, b, c⟩ := make_DoWakeup_spec env n s0 p s1 h
  obtain ⟨_, _, _, _, _, hd⟩ := make_DoWakeup_keeps env n s0 p s1 h
  obtain ⟨_, hp⟩ := make_DoWakeup_level env n s0 p s1 h
  rw [hp]
  obtain ⟨f1, f2⟩ := hfit
  have hm : p.multi = false ∨ p.multi = true := by cases p.multi <;> simp
  refine ⟨hd, fun h0 => ?_, fun i h0 => ?_, fun h0 => ?_⟩
  · apply a
    by_contra hx
    rcases hm with hm | hm
    · rw [(f2 hx).1 hm] at h0; cases h0
    · have := (f2 hx).2 hm
      rw [h0] at this
      simp at this
  · have hx : p.prod_idx ≠ Node.NoIdx := by
      intro hx
      rw [f1 hx] at h0
      cases h0
    rcases hm with hm | hm
    · have := (f2 hx).1 hm
      rw [h0] at this
      have hi : i = p.prod_idx := by simpa using this
      rw [hi]
      exact b hx hm
    · have := (f2 hx).2 hm
      rw [h0] at this
      simp at this
  · have hx : p.prod_idx ≠ Node.NoIdx := by
      intro hx
      rw [f1 hx] at h0
      simp at h0
    rcases hm with hm | hm
    · rw [(f2 hx).1 hm] at h0
      simp at h0
    · exact c hx hm

/-- What ends after the label `DoWakeup` went through it. -/
theorem make_end_woken (env : Env) (n : Nat) (g : Goto) (s1 : MakeState) (p : Found)
    (h : NodeData.make_end env n g = .woken s1 p) :
    ∃ s0, g = .DoWakeup s0 p ∧ NodeData.make_DoWakeup env n s0 p = some s1 := by
  cases g with
  | DoWakeup s0 p0 =>
    unfold NodeData.make_end at h
    simp only at h
    cases hw : NodeData.make_DoWakeup env n s0 p0 with
    | none => rw [hw] at h; cases h
    | some s2 =>
      rw [hw] at h
      cases h
      exact ⟨s0, rfl, hw⟩
  | Make _ _ => cases h
  | Wakeup _ => cases h
  | Done _ => cases h
  | abort => cases h
  | no_fuel => cases h

/-- The jump to `DoWakeup` of the `else` branch of node.cc:393 is the one of the fast path. -/
theorem make_check_DoWakeup (env : Env) (n : Nat) (s s0 : MakeState) (p : Found)
    (h : NodeData.make_check env n s = .DoWakeup s0 p) :
    s0 = s ∧ ∃ it1, NodeData.make_fast_loop env n s ((s.st.nodes n).job_tgts.length + 1)
      (JobTgtIter.of_ri s.ri) {} = .out it1 p := by
  unfold NodeData.make_check at h
  split at h
  · split at h
    · cases h
    · split at h
      · cases h
      · split at h
        · cases h
        · cases h
  · cases hf : NodeData.make_fast_loop env n s ((s.st.nodes n).job_tgts.length + 1)
        (JobTgtIter.of_ri s.ri) {} with
    | retry multi => rw [hf] at h; cases h
    | out it1 p1 =>
      rw [hf] at h
      simp only at h
      split at h
      · cases h
        exact ⟨rfl, it1, rfl⟩
      · cases h
    | abort => rw [hf] at h; cases h
    | no_fuel => rw [hf] at h; cases h

/-- The status of a node that `_make_raw` is through with, from its label `Make` on. -/
theorem woken_of_Make (env : Env) (fuel n : Nat) (s s1 : MakeState) (p : Found)
    (h : NodeData.make_end env n (NodeData.make_Make env fuel n s false) = .woken s1 p)
    (hjob : ∀ rt name_ lvl, ∃ j, env.new_job rt name_ lvl = .ok j)
    (hsingle : s1.ri.single = false)
    (hlen : (s1.st.nodes n).job_tgts.length ≤ Node.MaxRuleIdx)
    (hnd : (((s1.st.nodes n).level s1.st s1.ri.prio_idx).map (fun jt => jt.job)).Nodup)
    (hsure : ∀ jt ∈ (s1.st.nodes n).level s1.st s1.ri.prio_idx,
      jt.sure_val env s1.st = true → (s1.st.jobs jt.job).missing = false) :
    s1.ri.done_ = s1.ri.action
      ∧ (NodeData.producers env s1.st n s1.ri.prio_idx = [] → (s1.st.nodes n).status = .None)
      ∧ (∀ i, NodeData.producers env s1.st n s1.ri.prio_idx = [i] →
          (s1.st.nodes n).status = .Plain ∧ (s1.st.nodes n).conform_idx = i)
      ∧ (2 ≤ (NodeData.producers env s1.st n s1.ri.prio_idx).length →
          (s1.st.nodes n).status = .Multi) := by
  obtain ⟨s0, hg, hw⟩ := make_end_woken env n _ s1 p h
  obtain ⟨f, hj, hb, _, hs, _⟩ := make_DoWakeup_keeps env n s0 p s1 hw
  obtain ⟨hl, _⟩ := make_DoWakeup_level env n s0 p s1 hw
  unfold NodeData.make_Make at hg
  have hs0 := make_loop_single env n _ _ _ _ _ _ hg
  refine woken_of_fits env n s0 p s1 hw
    (make_loop_fits env n s0 p hjob ?_ ?_ ?_ fuel s _ ?_ hg)
  · rw [← f.1]; exact hlen
  · rw [← hl]; exact hnd
  · intro jt hjt hsv
    rw [← hl] at hjt
    rw [← sure_val_congr env s0.st s1.st jt hj hb] at hsv
    have := hsure jt hjt hsv
    rw [hj] at this
    exact this
  · rw [← hs0, ← hs]; exact hsingle


/-- C15, amended : when `NodeData::_make_raw` reaches `DoWakeup`, from its label `Make` or from
the `else` of node.cc:393 when the fast path does not leave for `Make` with `multi` set, for a
priority level that it went through entirely (`single` is not set), no infinite recursion being
detected as the jobs are created, the node having no more than `MaxRuleIdx` job targets, the
jobs of the level being distinct and none of them being both sure and missing : `done_` is the
requested action ; the status of the node is None when no job of the level produces it ; it is
Plain, `conform_idx` being the index of the job, when exactly one job of the level produces
it ; it is Multi when two or more jobs of the level produce it. -/
theorem C15_woken_status (env : Env) (fuel n : Nat) (s s1 : MakeState) (p : Found)
    (hrun : NodeData._make_raw_Make env fuel n s = .woken s1 p
      ∨ (NodeData._make_raw_check env fuel n s = .woken s1 p
          ∧ ∀ s2, NodeData.make_check env n s ≠ .Make s2 true))
    (hjob : ∀ rt name_ lvl, ∃ j, env.new_job rt name_ lvl = .ok j)
    (hsingle : s1.ri.single = false)
    (hlen : (s1.st.nodes n).job_tgts.length ≤ Node.MaxRuleIdx)
    (hnd : (((s1.st.nodes n).level s1.st s1.ri.prio_idx).map (fun jt => jt.job)).Nodup)
    (hsure : ∀ jt ∈ (s1.st.nodes n).level s1.st s1.ri.prio_idx,
      jt.sure_val env s1.st = true → (s1.st.jobs jt.job).missing = false) :
    s1.ri.done_ = s1.ri.action
      ∧ (NodeData.producers env s1.st n s1.ri.prio_idx = [] → (s1.st.nodes n).status = .None)
      ∧ (∀ i, NodeData.producers env s1.st n s1.ri.prio_idx = [i] →
          (s1.st.nodes n).status = .Plain ∧ (s1.st.nodes n).conform_idx = i)
      ∧ (2 ≤ (NodeData.producers env s1.st n s1.ri.prio_idx).length →
          (s1.st.nodes n).status = .Multi) := by
  rcases hrun with hrun | ⟨hrun, hstale⟩
  · exact woken_of_Make env fuel n s s1 p hrun hjob hsingle hlen hnd hsure
  · unfold NodeData._make_raw_check at hrun
    cases hc : NodeData.make_check env n s with
    | Make sa multi =>
      rw [hc] at hrun
      simp only at hrun
      cases multi with
      | true => exact absurd hc (hstale sa)
      | false => exact woken_of_Make env fuel n sa s1 p hrun hjob hsingle hlen hnd hsure
    | DoWakeup s0 p0 =>
      rw [hc] at hrun
      simp only at hrun
      obtain ⟨s2, hg, hw⟩ := make_end_woken env n _ s1 p hrun
      have e1 : s2 = s0 := by cases hg; rfl
      have e2 : p0 = p := by cases hg; rfl
      rw [e2] at hc
      obtain ⟨h1, it1, hf⟩ := make_check_DoWakeup env n s s0 p hc
      rw [e1, h1] at hw
      obtain ⟨f, _, _, _, hs, _⟩ := make_DoWakeup_keeps env n s p s1 hw
      have hlen0 : (s.st.nodes n).job_tgts.length ≤ Node.MaxRuleIdx := by
        rw [← f.1]; exact hlen
      have hlt := MaxRuleIdx_lt
      have := make_fast_loop_out env n s (by omega) _ _ _ it1 p
        (show (JobTgtIter.of_ri s.ri).single = false by rw [← hsingle, hs]; rfl) hf
      exact woken_of_fits env n s p s1 hw (fits_of_fold env n s p hlen0 this)
    | Wakeup sa => rw [hc] at hrun; cases hrun
    | Done sa => rw [hc] at hrun; cases hrun
    | abort => rw [hc] at hrun; cases hrun
    | no_fuel => rw [hc] at hrun; cases hrun

/-- C15, an instance : node 1 of `made_store` is asked for, no job being done yet ; the jobs 5 and
6 of the first level are made, both produce the node, and the node is Multi. -/
theorem C15_woken_witness :
    NodeData.producers make_env (asked_run.state asked_state).st 1
        (asked_run.state asked_state).ri.prio_idx = [0, 1]
      ∧ ((asked_run.state asked_state).st.nodes 1).status = .Multi
      ∧ (asked_run.state asked_state).ri.done_ = .Dsk := by
  have h := C15_woken_status make_env 4 1 asked_state (asked_run.state asked_state)
    asked_run.found (Or.inl (by rfl)) (fun rt _ _ => ⟨rt.tgt_idx, rfl⟩) (by decide) (by decide)
    (by decide) (by decide)
  exact ⟨by decide, h.2.2.2 (by decide), h.1.trans (by decide)⟩

/-- C15, as it is worded, fails for a node that is regenerated : `_make_raw` looks at the conform
job only. In `regen_state` the jobs 5 and 6 of the level of node 1 are distinct, done and both
produce the node, and `_make_raw` leaves the node Plain, with job 5 as its conform job. -/
theorem C15_single_counterexample :
    regen_run.view 1 = some ⟨true, .Plain, 0, .Yes, .Dsk, 0, 0⟩
      ∧ NodeData.producers make_env (regen_run.state regen_state).st 1
          (regen_run.state regen_state).ri.prio_idx = [0, 1]
      ∧ (((regen_run.state regen_state).st.nodes 1).level (regen_run.state regen_state).st
          (regen_run.state regen_state).ri.prio_idx).map (fun jt => jt.job) = [5, 6]
      ∧ (∀ j ∈ [5, 6], ((regen_run.state regen_state).jris j).done .Dsk = true)
      ∧ ((regen_run.state regen_state).st.nodes 1).status ≠ .Multi := by decide

end Engine

namespace Engine

/-! ## C21 : the done level of a node for a zombie request -/

/-- C21, amended : for a request whose zombie flag is set, `NodeReqInfo::update` returns unless
`make_action` is at least `Dec` while `n_wait` is null (its `SWEAR`) ; when it returns with a null
`n_wait`, `done_` is `Dsk`, whatever `run_action`, `make_action`, the node and the prior state ;
when it returns with a `n_wait` that is not null, `done_` is left as it was. -/
theorem C21_zombie_done (run_action : RunAction) (make_action : NodeMakeAction)
    (node : NodeData) (ri : NodeReqInfo) :
    (NodeReqInfo.update true run_action make_action node ri = none
        ↔ make_action = .Wakeup ∧ ri.n_wait = 0)
      ∧ ∀ ri1, NodeReqInfo.update true run_action make_action node ri = some ri1 →
          (ri1.n_wait = 0 → ri1.done_ = .Dsk) ∧ (ri1.n_wait ≠ 0 → ri1.done_ = ri.done_) := by
  have tail : ∀ (r0 : NodeReqInfo) (ri1 : NodeReqInfo),
      (let ri2 : NodeReqInfo :=
        if run_action.val > r0.action.val then
          { r0 with action := run_action
                    prio_idx := if run_action ≠ .Dsk then Node.NoIdx else r0.prio_idx }
        else r0
       if ri2.n_wait ≠ 0 then ri2
       else if true = true then { ri2 with done_ := .Dsk }
       else if node.buildable.val ≥ Buildable.Yes.val ∧ ri2.action = .Makable then
         { ri2 with done_ := .Makable }
       else ri2) = ri1 →
      (ri1.n_wait = 0 → ri1.done_ = .Dsk) ∧ (ri1.n_wait ≠ 0 → ri1.done_ = r0.done_) := by
    intro r0 ri1 h
    subst h
    by_cases ha : run_action.val > r0.action.val <;> by_cases hn : r0.n_wait = 0 <;>
      simp [ha, hn]
  unfold NodeReqInfo.update
  cases make_action
  · refine ⟨?_, ?_⟩
    · simp [NodeMakeAction.val, NodeMakeAction.Dec]
    · intro ri1 h
      rw [if_neg (by decide)] at h
      exact tail ri ri1 (Option.some.inj h)
  · by_cases hn : ri.n_wait = 0
    · refine ⟨?_, ?_⟩
      · simp [NodeMakeAction.val, NodeMakeAction.Dec, hn]
      · intro ri1 h
        rw [if_pos (by decide), if_pos hn] at h
        cases h
    · refine ⟨?_, ?_⟩
      · simp [NodeMakeAction.val, NodeMakeAction.Dec, hn]
      · intro ri1 h
        rw [if_pos (by decide), if_neg hn] at h
        exact tail { ri with n_wait := ri.n_wait - 1 } ri1 (Option.some.inj h)

/-- C21, an instance : the node waits for nothing, the request is zombie, and `done_` snaps to
`Dsk`. -/
theorem C21_zombie_witness :
    ∃ ri1, NodeReqInfo.update true .Status .Wakeup {} { n_wait := 1 } = some ri1
      ∧ ri1.n_wait = 0 ∧ ri1.done_ = .Dsk :=
  ⟨_, rfl, rfl,
    ((C21_zombie_done .Status .Wakeup {} { n_wait := 1 }).2 _ rfl).1 rfl⟩

/-- C21, as it is worded, fails : the request is zombie, the node still waits for one job, and
`update` returns with `done_` as it was, `None`, not `Dsk`. -/
theorem C21_waiting_counterexample :
    NodeReqInfo.update true .Status .None {} { n_wait := 1 }
      = some { action := .Status, n_wait := 1, done_ := .None } := by decide

end Engine

namespace Engine

open Disk (Bool3)

/-! ## C27 : the manual check of a node -/

/-- C27 : `NodeData::manual(d)` answers No exactly when the crc is `None` and `d` is null, or the
crc is not `None` and `d` is not null and is the recorded date ; Maybe exactly when the crc is not
`None` and `d` is null ; Yes in every other case, that is when the crc is `None` and `d` is not
null, or the crc is not `None` and `d` is neither null nor the recorded date, older or newer. -/
theorem C27_manual (nd : NodeData) (d : Nat) :
    (nd.manual d = .No
        ↔ (nd.crc = Crc.None ∧ d = 0) ∨ (nd.crc ≠ Crc.None ∧ d ≠ 0 ∧ d = nd.date))
      ∧ (nd.manual d = .Maybe ↔ nd.crc ≠ Crc.None ∧ d = 0)
      ∧ (nd.manual d = .Yes
        ↔ (nd.crc = Crc.None ∧ d ≠ 0)
          ∨ (nd.crc ≠ Crc.None ∧ d ≠ 0 ∧ (d < nd.date ∨ nd.date < d))) := by
  have hlt : (d < nd.date ∨ nd.date < d) ↔ d ≠ nd.date := by omega
  rw [hlt]
  unfold NodeData.manual
  by_cases hc : nd.crc = Crc.None
  · by_cases hd : d = 0
    · rw [if_pos hc, if_pos hd]
      simp [hc, hd]
    · rw [if_pos hc, if_neg hd]
      simp [hc, hd]
  · rw [if_neg hc]
    by_cases hd : d = 0
    · rw [if_pos hd]
      simp [hc, hd]
    · rw [if_neg hd]
      by_cases he : d = nd.date
      · rw [if_pos he]
        have hd1 : nd.date ≠ 0 := by rw [← he]; exact hd
        simp [hc, hd1, he]
      · rw [if_neg he]
        simp [hc, hd, he]

end Engine

namespace Engine

/-! ## C29 : the status and the conform index in `_conform_idx` -/

theorem neg_status_code (s : NodeStatus) (h : s ≠ .Plain) :
    Node.MaxRuleIdx < (2 ^ 16 - s.val) % 2 ^ 16
      ∧ NodeStatus.of_val (2 ^ 16 - (2 ^ 16 - s.val) % 2 ^ 16) = s := by
  cases s
  · exact absurd rfl h
  all_goals exact ⟨by decide, by decide⟩

/-- C29 : after `conform_idx(i)` with `i` up to `MaxRuleIdx`, the status is Plain and the conform
index is `i` ; after `status(s)` with `s` other than Plain, Unknown included, `_conform_idx` is
the negation of `s` modulo 2^16, the status is `s` and the conform index is `NoIdx` ; the two
setters never store the same value ; a node that was just constructed has the status Unknown. -/
theorem C29_conform_idx_encoding (nd : NodeData) :
    (∀ i, i ≤ Node.MaxRuleIdx →
        ∃ nd1, nd.set_conform_idx i = some nd1 ∧ nd1.status = .Plain ∧ nd1.conform_idx = i)
      ∧ (∀ s, s ≠ NodeStatus.Plain →
          ∃ nd1, nd.set_status s = some nd1 ∧ nd1._conform_idx = (2 ^ 16 - s.val) % 2 ^ 16
            ∧ nd1.status = s ∧ nd1.conform_idx = Node.NoIdx)
      ∧ (∀ i s, i ≤ Node.MaxRuleIdx → s ≠ NodeStatus.Plain → i ≠ (2 ^ 16 - s.val) % 2 ^ 16)
      ∧ ({} : NodeData).status = .Unknown := by
  refine ⟨fun i hi => ?_, fun s hs => ?_, fun i s hi hs => ?_, ?_⟩
  · refine ⟨{ nd with _conform_idx := i }, ?_, ?_, ?_⟩
    · unfold NodeData.set_conform_idx
      rw [if_pos hi]
    · unfold NodeData.status
      rw [if_neg (by show ¬ i > Node.MaxRuleIdx; omega)]
    · unfold NodeData.conform_idx
      rw [if_pos (by show i ≤ Node.MaxRuleIdx; exact hi)]
  · obtain ⟨h1, h2⟩ := neg_status_code s hs
    have hv : s.val ≠ 0 := by
      cases s
      · exact absurd rfl hs
      all_goals decide
    refine ⟨{ nd with _conform_idx := (2 ^ 16 - s.val) % 2 ^ 16 }, ?_, rfl, ?_, ?_⟩
    · unfold NodeData.set_status
      rw [if_neg hv]
    · unfold NodeData.status
      rw [if_pos (by show (2 ^ 16 - s.val) % 2 ^ 16 > Node.MaxRuleIdx; exact h1)]
      exact h2
    · unfold NodeData.conform_idx
      rw [if_neg (by show ¬ (2 ^ 16 - s.val) % 2 ^ 16 ≤ Node.MaxRuleIdx; omega)]
  · have := (neg_status_code s hs).1
    omega
  · exact (neg_status_code .Unknown (by decide)).2

/-- C29, an instance : index 3 of a node, then the status Multi. -/
theorem C29_encoding_witness :
    (∃ nd1, ({} : NodeData).set_conform_idx 3 = some nd1 ∧ nd1.status = .Plain
        ∧ nd1.conform_idx = 3)
      ∧ (∃ nd1, ({} : NodeData).set_status .Multi = some nd1 ∧ nd1._conform_idx = 65535
          ∧ nd1.status = .Multi ∧ nd1.conform_idx = Node.NoIdx) :=
  ⟨(C29_conform_idx_encoding {}).1 3 (by decide),
    (C29_conform_idx_encoding {}).2.1 .Multi (by decide)⟩

end Engine

namespace Hash

/-! ## C30 : links and regular files in a `Crc` -/

theorem bit_0_cases (v : Nat) (b : Bool) :
    bit_0 v b % 2 = (if b then 1 else 0) ∧ (6 ≤ v → 6 ≤ bit_0 v b) ∧ bit_0 v b ≤ v + 1 := by
  unfold bit_0
  cases b <;> simp <;> omega

/-- C30, amended : for every 64 bits value `v` and every boolean `l`, the crc built by `Crc(v,l)`
has `is_lnk()` equal to `l` and `is_reg()` equal to not `l` exactly when its value is none of 0
(the code of Unknown), 3 (the code of None) and 5, hence as soon as `v` is at least 6 ; for every
crc, `is_lnk()` and `is_reg()` are not both true ; `Crc(FileTag)` is None for the tags None and
Dir, Lnk for Lnk, Reg for Reg and Exe, Empty for Empty. -/
theorem C30_is_lnk_is_reg (v : Nat) (l : Bool) (c : Crc) :
    (((Crc.of_val v l).is_lnk = l ∧ (Crc.of_val v l).is_reg = !l)
        ↔ (Crc.of_val v l)._val ≠ 0 ∧ (Crc.of_val v l)._val ≠ 3 ∧ (Crc.of_val v l)._val ≠ 5)
      ∧ (6 ≤ v % 2 ^ 64 → (Crc.of_val v l).is_lnk = l ∧ (Crc.of_val v l).is_reg = !l)
      ∧ ¬ (c.is_lnk = true ∧ c.is_reg = true)
      ∧ Crc.of_tag .None = Crc.None ∧ Crc.of_tag .Dir = Crc.None ∧ Crc.of_tag .Lnk = Crc.Lnk
      ∧ Crc.of_tag .Reg = Crc.Reg ∧ Crc.of_tag .Exe = Crc.Reg
      ∧ Crc.of_tag .Empty = Crc.Empty := by
  have key : ∀ (x : Nat), x % 2 = (if l then 1 else 0) →
      ((({ _val := x } : Crc).is_lnk = l ∧ ({ _val := x } : Crc).is_reg = !l)
        ↔ x ≠ 0 ∧ x ≠ 3 ∧ x ≠ 5) := by
    intro x hx
    by_cases hp : 6 ≤ x
    · have h0 : x ≠ 0 ∧ x ≠ 3 ∧ x ≠ 5 := by omega
      simp only [Crc.is_lnk, Crc.is_reg, Crc._plain, CrcSpecial.N, ge_iff_le, hp, decide_True,
        if_true, hx, h0, ne_eq, not_false_eq_true, and_self, iff_true]
      cases l <;> simp
    · have hx6 : x = 0 ∨ x = 1 ∨ x = 2 ∨ x = 3 ∨ x = 4 ∨ x = 5 := by omega
      rcases hx6 with h | h | h | h | h | h <;> subst h <;> cases l <;>
        first
        | (exfalso; revert hx; decide)
        | decide
  obtain ⟨b1, b2, _⟩ := bit_0_cases (v % 2 ^ 64) l
  refine ⟨key _ b1, fun h6 => ?_, ?_, rfl, rfl, rfl, rfl, rfl, rfl⟩
  · have := b2 h6
    exact (key _ b1).mpr (by omega)
  · intro h
    unfold Crc.is_lnk Crc.is_reg at h
    by_cases hp : c._plain = true
    · simp only [hp, if_true] at h
      revert h
      cases decide (c._val % 2 ≠ 0) <;> simp
    · simp only [hp, Bool.false_eq_true, if_false, decide_eq_true_eq, Bool.or_eq_true] at h
      obtain ⟨h1, h2⟩ := h
      rw [h1] at h2
      revert h2
      decide

/-- C30, an instance : the crc built of 6 as a link. -/
theorem C30_plain_witness :
    6 ≤ 6 % 2 ^ 64 ∧ (Crc.of_val 6 true).is_lnk = true ∧ (Crc.of_val 6 true).is_reg = !true :=
  ⟨by decide, (C30_is_lnk_is_reg 6 true {}).2.1 (by decide)⟩

/-- C30, as it is worded, fails : `Crc(0,false)` is `Crc::Unknown`, that is not a regular file ;
`Crc(3,true)` is `Crc::None`, that is not a link. -/
theorem C30_special_counterexample :
    Crc.of_val 0 false = Crc.Unknown ∧ (Crc.of_val 0 false).is_reg = false
      ∧ Crc.of_val 3 true = Crc.None ∧ (Crc.of_val 3 true).is_lnk = false := by decide

end Hash

namespace JobExec

/-! ## C22 : the lines of the live output -/

theorem rfind_some_split (s : List Char) (c : Char) :
    ∀ i, Disk.rfind s c = some i →
      (s.take (i + 1)).getLast? = some c ∧ c ∉ s.drop (i + 1) := by
  induction s with
  | nil => intro i h; cases h
  | cons x xs ih =>
    intro i h
    rw [Disk.rfind] at h
    cases hr : Disk.rfind xs c with
    | some j =>
      rw [hr] at h
      cases h
      obtain ⟨h1, h2⟩ := ih j hr
      refine ⟨?_, by simpa using h2⟩
      rw [List.take_succ_cons]
      cases ht : xs.take (j + 1) with
      | nil => rw [ht] at h1; cases h1
      | cons y ys => rw [ht] at h1; rw [List.getLast?_cons_cons]; exact h1
    | none =>
      rw [hr] at h
      simp only at h
      split at h
      · next hx =>
        cases h
        subst hx
        refine ⟨by simp, ?_⟩
        intro hm
        obtain ⟨k, hk⟩ := Disk.rfind_isSome_of_mem xs x (by simpa using hm)
        rw [hk] at hr
        cases hr
      · cases h

theorem rfind_none_not_mem (s : List Char) (c : Char) (h : Disk.rfind s c = none) : c ∉ s := by
  intro hm
  obtain ⟨k, hk⟩ := Disk.rfind_isSome_of_mem s c hm
  rw [hk] at h
  cases h

/-- One call of the callback : the message ends with a newline, nothing is lost, and no newline
is kept. -/
theorem live_out_cb_step (buf txt : List Char) :
    (∀ m, (live_out_cb buf txt).1 = some m → m.getLast? = some '\n')
      ∧ ((live_out_cb buf txt).1.getD []) ++ (live_out_cb buf txt).2 = buf ++ txt
      ∧ '\n' ∉ (live_out_cb buf txt).2 := by
  cases hr : Disk.rfind (buf ++ txt) '\n' with
  | none =>
    have e : live_out_cb buf txt = (none, buf ++ txt) := by
      unfold live_out_cb
      simp only [hr]
    rw [e]
    exact ⟨fun m h => (by cases h), by simp, rfind_none_not_mem _ _ hr⟩
  | some pos =>
    have e : live_out_cb buf txt
        = (some ((buf ++ txt).take (pos + 1)), (buf ++ txt).drop (pos + 1)) := by
      unfold live_out_cb
      simp only [hr]
    rw [e]
    obtain ⟨h1, h2⟩ := rfind_some_split _ _ pos hr
    refine ⟨fun m h => ?_, by simp, h2⟩
    cases h
    exact h1

theorem live_out_run_spec :
    ∀ (chunks : List (List Char)) (buf : List Char),
      (∀ m ∈ (live_out_run chunks buf).1, m.getLast? = some '\n')
        ∧ (live_out_run chunks buf).1.flatten ++ (live_out_run chunks buf).2 = buf ++ chunks.flatten
        ∧ ('\n' ∉ buf → '\n' ∉ (live_out_run chunks buf).2) := by
  intro chunks
  induction chunks with
  | nil => intro buf; simp [live_out_run]
  | cons txt txts ih =>
    intro buf
    obtain ⟨s1, s2, s3⟩ := live_out_cb_step buf txt
    obtain ⟨i1, i2, i3⟩ := ih (live_out_cb buf txt).2
    rw [live_out_run]
    simp only
    cases hm : (live_out_cb buf txt).1 with
    | none =>
      rw [hm] at s2
      simp only [Option.getD_none, List.nil_append] at s2
      refine ⟨i1, ?_, fun _ => i3 s3⟩
      simp only [List.flatten_cons]
      rw [i2, s2, List.append_assoc]
    | some m =>
      rw [hm] at s2
      simp only [Option.getD_some] at s2
      refine ⟨?_, ?_, fun _ => i3 s3⟩
      · intro x hx
        rcases List.mem_cons.mp hx with h | h
        · rw [h]; exact s1 m hm
        · exact i1 x h
      · simp only [List.flatten_cons]
        rw [List.append_assoc, i2, ← List.append_assoc, s2, List.append_assoc]

theorem live_out_run_append (a b : List (List Char)) :
    ∀ buf, live_out_run (a ++ b) buf
      = ((live_out_run a buf).1 ++ (live_out_run b (live_out_run a buf).2).1,
          (live_out_run b (live_out_run a buf).2).2) := by
  induction a with
  | nil => intro buf; simp [live_out_run]
  | cons txt txts ih =>
    intro buf
    rw [List.cons_append, live_out_run, live_out_run, ih]
    cases (live_out_cb buf txt).1 <;> simp

/-- C22 : the callback `live_out_cb` being fed any sequence of chunks, from an empty
`live_out_buf` : each message it sent ends with a newline ; the messages sent so far, followed by
`live_out_buf`, are the chunks received so far ; `live_out_buf` holds no newline ; and what was
sent after some of the chunks is the beginning of what is sent after more of them. -/
theorem C22_live_out_lines (chunks more : List (List Char)) :
    (∀ m ∈ (live_out_run chunks []).1, m.getLast? = some '\n')
      ∧ (live_out_run chunks []).1.flatten ++ (live_out_run chunks []).2 = chunks.flatten
      ∧ '\n' ∉ (live_out_run chunks []).2
      ∧ (live_out_run (chunks ++ more) []).1
          = (live_out_run chunks []).1 ++ (live_out_run more (live_out_run chunks []).2).1 := by
  obtain ⟨h1, h2, h3⟩ := live_out_run_spec chunks []
  refine ⟨h1, by simpa using h2, h3 (by simp), ?_⟩
  rw [live_out_run_append]

/-- C22, an instance : the chunks `ab`, `c` newline `d` and `e` newline are sent as the two lines
`abc` and `de`. -/
theorem C22_live_out_witness :
    live_out_run ["ab".toList, "c\nd".toList, "e\n".toList] []
        = (["abc\n".toList, "de\n".toList], [])
      ∧ (∀ m ∈ (live_out_run ["ab".toList, "c\nd".toList, "e\n".toList] []).1,
          m.getLast? = some '\n')
      ∧ '\n' ∉ (live_out_run ["ab".toList, "c\nd".toList] []).2 :=
  ⟨by decide, (C22_live_out_lines ["ab".toList, "c\nd".toList, "e\n".toList] []).1,
    (C22_live_out_lines ["ab".toList, "c\nd".toList] []).2.2.1⟩

end JobExec

namespace Engine

/-! ## C28 : the job targets of a priority level -/

/-- The loop of `prio_job_tgts`, past the first job target, on job targets whose priority is at
most the one of the first : it counts the leading ones that have this priority. -/
theorem prio_job_tgts_loop_count (st : Store) (p : Int) :
    ∀ (l : List JobTgt) (sz : Nat), (∀ x ∈ l, x.prio st ≤ p) → sz + l.length < 2 ^ 16 →
      NodeData.prio_job_tgts_loop st l (some p) sz
        = sz + (l.takeWhile (fun jt => decide (jt.prio st = p))).length := by
  intro l
  induction l with
  | nil => intro sz _ _; simp [NodeData.prio_job_tgts_loop]
  | cons x l ih =>
    intro sz hle hsz
    have hx := hle x (List.mem_cons_self _ _)
    simp only [List.length_cons] at hsz
    rw [NodeData.prio_job_tgts_loop]
    by_cases hp : x.prio st = p
    · have h1 : prio_lt (st.jobs x.job).rule.prio (some p) = false := by
        unfold JobTgt.prio at hp
        simp [prio_lt, hp]
      rw [h1]
      simp only [Bool.false_eq_true, if_false]
      have h2 : (st.jobs x.job).rule.prio = p := hp
      rw [h2, Nat.mod_eq_of_lt (by omega),
        ih (sz + 1) (fun y hy => hle y (List.mem_cons_of_mem _ hy)) (by omega),
        List.takeWhile_cons, if_pos (by simpa using hp), List.length_cons]
      omega
    · have h1 : prio_lt (st.jobs x.job).rule.prio (some p) = true := by
        unfold JobTgt.prio at hp hx
        simp only [prio_lt, decide_eq_true_eq]
        omega
      rw [h1]
      simp only [if_true]
      rw [List.takeWhile_cons, if_neg (by simpa using hp)]
      rfl

theorem take_takeWhile_length (l : List JobTgt) (f : JobTgt → Bool) :
    l.take (l.takeWhile f).length = l.takeWhile f := by
  induction l with
  | nil => rfl
  | cons x l ih =>
    rw [List.takeWhile_cons]
    split
    · rw [List.length_cons, List.take_succ_cons, ih]
    · rfl

/-- On job targets ordered by priority whose first ones have the priority `p`, those that have
the priority `p` are the leading ones. -/
theorem filter_eq_takeWhile (st : Store) (p : Int) :
    ∀ (l : List JobTgt), by_prio st l → (∀ x ∈ l, x.prio st ≤ p) →
      l.filter (fun jt => decide (jt.prio st = p))
        = l.takeWhile (fun jt => decide (jt.prio st = p)) := by
  intro l
  induction l with
  | nil => intro _ _; rfl
  | cons x l ih =>
    intro hs hle
    unfold by_prio at hs
    rw [List.pairwise_cons] at hs
    rw [List.filter_cons, List.takeWhile_cons]
    by_cases hp : x.prio st = p
    · rw [if_pos (by simpa using hp), if_pos (by simpa using hp),
        ih hs.2 (fun y hy => hle y (List.mem_cons_of_mem _ hy))]
    · rw [if_neg (by simpa using hp), if_neg (by simpa using hp)]
      have hx := hle x (List.mem_cons_self _ _)
      apply List.filter_eq_nil_iff.mpr
      intro y hy
      have := hs.1 y hy
      simp only [decide_eq_true_eq]
      omega

theorem by_prio_drop (st : Store) (l : List JobTgt) (i : Nat) (h : by_prio st l) :
    by_prio st (l.drop i) :=
  List.Pairwise.sublist (List.drop_sublist i l) h

/-- The job targets from index `i` on, `i` being an index of `job_tgts`. -/
theorem drop_getD_cons (l : List JobTgt) (i : Nat) (h : i < l.length) :
    l.drop i = l.getD i {} :: l.drop (i + 1) := by
  rw [List.drop_eq_getElem_cons h]
  congr 1
  simp [List.getD_eq_getElem?_getD, List.getElem?_eq_getElem h]

theorem by_prio_le (st : Store) (l : List JobTgt) (i : Nat) (h : by_prio st l)
    (hi : i < l.length) : ∀ x ∈ l.drop (i + 1), x.prio st ≤ (l.getD i {}).prio st := by
  have := by_prio_drop st l i h
  rw [drop_getD_cons l i hi] at this
  unfold by_prio at this
  rw [List.pairwise_cons] at this
  exact this.1

/-- The level that starts at an index of job targets ordered by priority. -/
theorem prio_job_tgts_block (st : Store) (nd : NodeData) (i : Nat)
    (hs : by_prio st nd.job_tgts) (hlen : nd.job_tgts.length < 2 ^ 16)
    (hi : i < nd.job_tgts.length) :
    nd.prio_job_tgts st i
      = some ((nd.job_tgts.drop i).takeWhile
          (fun jt => decide (jt.prio st = (nd.job_tgts.getD i {}).prio st))) := by
  unfold NodeData.prio_job_tgts
  have hN : i ≠ Node.NoIdx := by
    have : Node.NoIdx = 2 ^ 16 - 1 := rfl
    omega
  rw [if_neg hN, if_neg (by omega)]
  congr 1
  rw [drop_getD_cons _ i hi, NodeData.prio_job_tgts_loop]
  have h1 : prio_lt (st.jobs (nd.job_tgts.getD i {}).job).rule.prio none = false := rfl
  rw [h1]
  simp only [Bool.false_eq_true, if_false]
  have hl : (nd.job_tgts.drop (i + 1)).length < nd.job_tgts.length := by
    rw [List.length_drop]; omega
  have := prio_job_tgts_loop_count st ((nd.job_tgts.getD i {}).prio st)
    (nd.job_tgts.drop (i + 1)) 1 (by_prio_le st _ i hs hi) (by omega)
  unfold JobTgt.prio at this
  rw [Nat.zero_add, Nat.mod_eq_of_lt (by omega), this]
  unfold JobTgt.prio
  rw [List.takeWhile_cons, if_pos (by simp), Nat.add_comm, List.take_succ_cons,
    take_takeWhile_length]

theorem rewind_spec (st : Store) (nd : NodeData) (p : Int) :
    ∀ c, NodeData.rewind st nd p c ≤ c
      ∧ (∀ j, NodeData.rewind st nd p c ≤ j → j < c → (nd.job_tgts.getD j {}).prio st = p)
      ∧ (NodeData.rewind st nd p c = 0
          ∨ (nd.job_tgts.getD (NodeData.rewind st nd p c - 1) {}).prio st ≠ p) := by
  intro c
  induction c with
  | zero => exact ⟨Nat.le_refl _, fun j _ h => absurd h (Nat.not_lt_zero _), Or.inl rfl⟩
  | succ c ih =>
    rw [NodeData.rewind]
    by_cases hp : (st.jobs (nd.job_tgts.getD c {}).job).rule.prio = p
    · rw [if_pos hp]
      obtain ⟨h1, h2, h3⟩ := ih
      refine ⟨by omega, fun j hj hjc => ?_, h3⟩
      by_cases hc : j = c
      · rw [hc]; exact hp
      · exact h2 j hj (by omega)
    · rw [if_neg hp]
      exact ⟨Nat.le_refl _, fun j hj hjc => (by omega), Or.inr hp⟩

theorem by_prio_idx (st : Store) (l : List JobTgt) (h : by_prio st l) (i j : Nat) (hij : i < j)
    (hj : j < l.length) : (l.getD j {}).prio st ≤ (l.getD i {}).prio st := by
  have hi : i < l.length := by omega
  have := (List.pairwise_iff_getElem.mp h) i j hi hj hij
  simpa [List.getD_eq_getElem?_getD, List.getElem?_eq_getElem hi,
    List.getElem?_eq_getElem hj] using this

/-- C28 : for job targets ordered by non increasing priority, fewer than 2^16 as they are
indexed by a `RuleIdx` : `prio_job_tgts(i)` is empty for `i` equal to `NoIdx` or to the size of
`job_tgts` and, for an index `i` of `job_tgts`, it holds the job targets from index `i` on as long
as they have the priority of `job_tgts[i]` ; when the status is Plain, `conform_idx()` being an
index of `job_tgts`, `conform_job_tgts()` holds the job targets that have the priority of
`job_tgts[conform_idx()]`, all of them, and `job_tgts[conform_idx()]` is one of them. -/
theorem C28_prio_job_tgts (st : Store) (nd : NodeData) (hs : by_prio st nd.job_tgts)
    (hlen : nd.job_tgts.length < 2 ^ 16) :
    nd.prio_job_tgts st Node.NoIdx = some []
      ∧ nd.prio_job_tgts st nd.job_tgts.length = some []
      ∧ (∀ i, i < nd.job_tgts.length →
          nd.prio_job_tgts st i
            = some ((nd.job_tgts.drop i).takeWhile
                (fun jt => decide (jt.prio st = (nd.job_tgts.getD i {}).prio st))))
      ∧ (nd.status = .Plain → nd.conform_idx < nd.job_tgts.length →
          nd.conform_job_tgts st
              = some (nd.job_tgts.filter
                  (fun jt => decide (jt.prio st = (nd.job_tgts.getD nd.conform_idx {}).prio st)))
            ∧ nd.job_tgts.getD nd.conform_idx {}
                ∈ nd.job_tgts.filter
                  (fun jt => decide (jt.prio st = (nd.job_tgts.getD nd.conform_idx {}).prio st))) := by
  refine ⟨?_, ?_, fun i hi => prio_job_tgts_block st nd i hs hlen hi, fun hst hc => ?_⟩
  · unfold NodeData.prio_job_tgts
    rw [if_pos rfl]
  · unfold NodeData.prio_job_tgts
    by_cases h : nd.job_tgts.length = Node.NoIdx
    · rw [if_pos h]
    · rw [if_neg h, if_pos (Nat.le_refl _), if_pos rfl]
  · obtain ⟨r1, r2, r3⟩ := rewind_spec st nd ((nd.job_tgts.getD nd.conform_idx {}).prio st)
      nd.conform_idx
    generalize hf : NodeData.rewind st nd ((nd.job_tgts.getD nd.conform_idx {}).prio st)
      nd.conform_idx = f at r1 r2 r3
    generalize hp : (nd.job_tgts.getD nd.conform_idx {}).prio st = p at r2 r3 hf
    have hfl : f < nd.job_tgts.length := by omega
    have hpf : (nd.job_tgts.getD f {}).prio st = p := by
      by_cases hfc : f = nd.conform_idx
      · rw [hfc]; exact hp
      · exact r2 f (Nat.le_refl _) (by omega)
    have hmem : nd.job_tgts.getD nd.conform_idx {} ∈ nd.job_tgts := by
      rw [List.getD_eq_getElem?_getD, List.getElem?_eq_getElem hc]
      exact List.getElem_mem _
    refine ⟨?_, List.mem_filter.mpr ⟨hmem, by simpa using hp⟩⟩
    unfold NodeData.conform_job_tgts
    rw [if_neg (by simpa using hst)]
    simp only
    rw [if_neg (by omega)]
    have hp1 : (st.jobs (nd.job_tgts.getD nd.conform_idx {}).job).rule.prio = p := hp
    rw [hp1]
    have hf1 : NodeData.rewind st nd p nd.conform_idx = f := hf
    rw [hf1, prio_job_tgts_block st nd f hs hlen hfl, hpf]
    congr 1
    have hsplit : nd.job_tgts = nd.job_tgts.take f ++ nd.job_tgts.drop f :=
      (List.take_append_drop f nd.job_tgts).symm
    have hpre : (nd.job_tgts.take f).filter (fun jt => decide (jt.prio st = p)) = [] := by
      apply List.filter_eq_nil_iff.mpr
      intro x hx
      obtain ⟨j, hj, hxj⟩ := List.mem_iff_getElem.mp hx
      rw [List.length_take] at hj
      rw [List.getElem_take] at hxj
      have hjf : j < f := by omega
      have hjl : j < nd.job_tgts.length := by omega
      have hxd : x = nd.job_tgts.getD j {} := by
        rw [← hxj, List.getD_eq_getElem?_getD, List.getElem?_eq_getElem hjl]
        rfl
      rcases r3 with h0 | hne
      · omega
      · have h1 : p ≤ (nd.job_tgts.getD (f - 1) {}).prio st := by
          have := by_prio_idx st _ hs (f - 1) f (by omega) hfl
          rw [hpf] at this
          exact this
        have h2 : (nd.job_tgts.getD (f - 1) {}).prio st ≤ x.prio st := by
          by_cases hjj : j = f - 1
          · rw [hxd, hjj]
          · rw [hxd]
            exact by_prio_idx st _ hs j (f - 1) (by omega) (by omega)
        simp only [decide_eq_true_eq]
        omega
    have hpost : (nd.job_tgts.drop f).filter (fun jt => decide (jt.prio st = p))
        = (nd.job_tgts.drop f).takeWhile (fun jt => decide (jt.prio st = p)) := by
      apply filter_eq_takeWhile st p _ (by_prio_drop st _ f hs)
      intro x hx
      rw [drop_getD_cons _ f hfl] at hx
      rcases List.mem_cons.mp hx with h | h
      · rw [h, hpf]
      · have := by_prio_le st _ f hs hfl x h
        rw [hpf] at this
        exact this
    conv_rhs => rw [hsplit]
    rw [List.filter_append, hpre, hpost, List.nil_append]

/-- C28, an instance : node 1 of `made_store`, whose jobs 5 and 6 have priority 1 and whose job
7 has priority 0, with job 6, at index 1, as its conform job. -/
theorem C28_prio_witness :
    by_prio made_store (made_store.nodes 1).job_tgts
      ∧ (made_store.nodes 1).prio_job_tgts made_store 0 = some [⟨5, true⟩, ⟨6, false⟩]
      ∧ NodeData.conform_job_tgts made_store { made_store.nodes 1 with _conform_idx := 1 }
          = some [⟨5, true⟩, ⟨6, false⟩] := by
  have hs : by_prio made_store (made_store.nodes 1).job_tgts := by
    unfold by_prio
    decide
  have h := C28_prio_job_tgts made_store { made_store.nodes 1 with _conform_idx := 1 } hs
    (by decide)
  exact ⟨hs, (h.2.2.1 0 (by decide)).trans (by decide),
    (h.2.2.2 (by decide) (by decide)).1.trans (by decide)⟩

end Engine

namespace Disk

/-! ## C26 : the canonical names -/

theorem comp_split (s : List Char) :
    s = next_comp s ++ (match after_comp s with
      | none => []
      | some r => '/' :: r) := by
  induction s with
  | nil => rw [next_comp_nil, after_comp_nil]; rfl
  | cons c cs ih =>
    by_cases hc : c = '/'
    · subst hc
      rw [next_comp_slash, after_comp_slash]
      rfl
    · rw [next_comp_cons c cs hc, after_comp_cons c cs hc, List.cons_append, ← ih]

theorem is_canon_loop_plain (acc : Bool) (tail : List Char) :
    ∀ comp : List Char, '/' ∉ comp →
      is_canon_loop acc .Plain (comp ++ tail) = is_canon_loop acc .Plain tail := by
  intro comp
  induction comp with
  | nil => intro _; rfl
  | cons c cs ih =>
    intro h
    simp only [List.mem_cons, not_or] at h
    rw [List.cons_append, is_canon_loop_cons, if_neg (Ne.symm h.1)]
    by_cases hd : c = '.'
    · rw [if_pos hd]; exact ih h.2
    · rw [if_neg hd]; exact ih h.2

theorem is_canon_loop_start (acc : Bool) (st : CanonState) (hst : st = .First ∨ st = .Empty)
    (c : Char) (rest : List Char) (hc : c ≠ '/') :
    is_canon_loop acc st (c :: rest)
      = is_canon_loop acc (if c = '.' then .Dot else .Plain) rest := by
  rw [is_canon_loop_cons, if_neg hc]
  rcases hst with h1 | h1 <;> subst h1 <;> by_cases hd : c = '.' <;> simp [hd]

/-- The loop of `is_canon` reads a component from the start of it. -/
theorem is_canon_loop_comp (acc : Bool) (st : CanonState) (hst : st = .First ∨ st = .Empty)
    (comp tail : List Char) (h : '/' ∉ comp) :
    is_canon_loop acc st (comp ++ tail) = is_canon_loop acc (canon_state_after st comp) tail := by
  unfold canon_state_after
  cases comp with
  | nil => rfl
  | cons c cs =>
    simp only [List.mem_cons, not_or] at h
    rw [if_neg (by simp), List.cons_append, is_canon_loop_start acc st hst c _ (Ne.symm h.1)]
    by_cases hc : c = '.'
    swap
    · rw [if_neg hc, if_neg (by simp [hc]), if_neg (by simp [hc])]
      exact is_canon_loop_plain acc tail cs h.2
    subst hc
    rw [if_pos rfl]
    cases cs with
    | nil => rfl
    | cons d ds =>
      simp only [List.mem_cons, not_or] at h
      rw [if_neg (by simp), List.cons_append, is_canon_loop_cons, if_neg (Ne.symm h.2.1)]
      by_cases hd : d = '.'
      swap
      · rw [if_neg hd, if_neg (by simp [hd])]
        exact is_canon_loop_plain acc tail ds h.2.2
      subst hd
      rw [if_pos rfl]
      simp only
      cases ds with
      | nil => rfl
      | cons e es =>
        simp only [List.mem_cons, not_or] at h
        rw [if_neg (by simp), List.cons_append, is_canon_loop_cons, if_neg (Ne.symm h.2.2.1)]
        by_cases he : e = '.'
        · rw [if_pos he]
          exact is_canon_loop_plain acc tail es h.2.2.2
        · rw [if_neg he]
          exact is_canon_loop_plain acc tail es h.2.2.2

/-- The loop of `is_canon` on the last component. -/
theorem is_canon_loop_last (acc : Bool) (st : CanonState) (hst : st = .First ∨ st = .Empty)
    (comp : List Char) (h : '/' ∉ comp) :
    is_canon_loop acc st comp = (decide (comp ≠ ['.']) && decide (comp ≠ ['.', '.'])) := by
  have := is_canon_loop_comp acc st hst comp [] h
  rw [List.append_nil] at this
  rw [this]
  unfold canon_state_after
  by_cases h0 : comp = []
  · rw [if_pos h0, h0]
    rcases hst with h1 | h1 <;> rw [h1] <;> rfl
  · rw [if_neg h0]
    by_cases h1 : comp = ['.']
    · rw [if_pos h1, h1]; rfl
    · rw [if_neg h1]
      by_cases h2 : comp = ['.', '.']
      · rw [if_pos h2, h2]; rfl
      · rw [if_neg h2]
        simp [h1, h2, is_canon_loop]

/-- The loop of `is_canon` on a component that is followed by a `/`. -/
theorem is_canon_loop_next (acc : Bool) (st : CanonState) (hst : st = .First ∨ st = .Empty)
    (comp r : List Char) (h : '/' ∉ comp) :
    is_canon_loop acc st (comp ++ '/' :: r) =
      if comp = [] then decide (st = .First) && is_canon_loop false .Empty r
      else if comp = ['.'] then false
      else if comp = ['.', '.'] then acc && is_canon_loop acc .Empty r
      else is_canon_loop false .Empty r := by
  rw [is_canon_loop_comp acc st hst comp _ h, is_canon_loop_cons, if_pos rfl]
  unfold canon_state_after
  by_cases h0 : comp = []
  · rw [if_pos h0, if_pos h0]
    rcases hst with h1 | h1 <;> rw [h1] <;> simp
  · rw [if_neg h0, if_neg h0]
    by_cases h1 : comp = ['.']
    · rw [if_pos h1, if_pos h1]
    · rw [if_neg h1, if_neg h1]
      by_cases h2 : comp = ['.', '.']
      · rw [if_pos h2, if_pos h2]
        cases acc <;> simp
      · rw [if_neg h2, if_neg h2]


theorem components_ne_nil (s : List Char) : components s ≠ [] := by
  rw [components_eq]
  exact List.cons_ne_nil _ _

theorem canon_left_single (acc first : Bool) (c : List Char) :
    canon_left acc first [c] ↔ c ≠ ['.'] ∧ c ≠ ['.', '.'] := by
  unfold canon_left
  have he : [] ∉ (if first = true then ([c] : List (List Char)).tail.dropLast
      else ([c] : List (List Char)).dropLast) := by
    cases first <;> simp
  have hk : (∃ k, k < ([c] : List (List Char)).length
      ∧ (∀ x ∈ ([c] : List (List Char)).take k, x = ['.', '.'])
      ∧ ['.', '.'] ∉ ([c] : List (List Char)).drop k) ↔ c ≠ ['.', '.'] := by
    constructor
    · rintro ⟨k, hk, _, h2⟩
      have : k = 0 := by simpa using hk
      subst this
      simpa [eq_comm] using h2
    · intro h
      exact ⟨0, by simp, by simp, by simpa [eq_comm] using h⟩
  cases acc
  · simp only [Bool.false_eq_true, if_false, List.mem_singleton]
    constructor
    · rintro ⟨h1, _, h3⟩
      exact ⟨fun h => h1 h.symm, fun h => h3 h.symm⟩
    · rintro ⟨h1, h3⟩
      exact ⟨fun h => h1 h.symm, he, fun h => h3 h.symm⟩
  · simp only [if_true, hk, List.mem_singleton]
    constructor
    · rintro ⟨h1, _, h3⟩
      exact ⟨fun h => h1 h.symm, h3⟩
    · rintro ⟨h1, h3⟩
      exact ⟨fun h => h1 h.symm, he, h3⟩

theorem canon_left_cons (acc first : Bool) (c : List Char) (cs : List (List Char))
    (hcs : cs ≠ []) :
    canon_left acc first (c :: cs) ↔
      c ≠ ['.'] ∧ (first = true ∨ c ≠ [])
        ∧ ((c ≠ ['.', '.'] ∧ canon_left false false cs)
          ∨ (c = ['.', '.'] ∧ acc = true ∧ canon_left true false cs)) := by
  obtain ⟨d, ds, hd⟩ := List.exists_cons_of_ne_nil hcs
  have hdl : (c :: cs).dropLast = c :: cs.dropLast := by
    rw [hd]; rfl
  have hk : (∃ k, k < (c :: cs).length ∧ (∀ x ∈ (c :: cs).take k, x = ['.', '.'])
        ∧ ['.', '.'] ∉ (c :: cs).drop k)
      ↔ (c ≠ ['.', '.'] ∧ ['.', '.'] ∉ cs)
        ∨ (c = ['.', '.'] ∧ ∃ k, k < cs.length ∧ (∀ x ∈ cs.take k, x = ['.', '.'])
            ∧ ['.', '.'] ∉ cs.drop k) := by
    constructor
    · rintro ⟨k, hk, h1, h2⟩
      cases k with
      | zero =>
        left
        simp only [List.drop_zero, List.mem_cons, not_or] at h2
        exact ⟨fun h => h2.1 h.symm, h2.2⟩
      | succ k =>
        right
        simp only [List.take_succ_cons, List.mem_cons, forall_eq_or_imp, List.drop_succ_cons,
          List.length_cons] at h1 h2 hk
        exact ⟨h1.1, k, by omega, h1.2, h2⟩
    · rintro (⟨h1, h2⟩ | ⟨h1, k, hk, h2, h3⟩)
      · refine ⟨0, by simp, by simp, ?_⟩
        simp only [List.drop_zero, List.mem_cons, not_or]
        exact ⟨fun h => h1 h.symm, h2⟩
      · refine ⟨k + 1, by simp only [List.length_cons]; omega, ?_, ?_⟩
        · simp only [List.take_succ_cons, List.mem_cons, forall_eq_or_imp]
          exact ⟨h1, h2⟩
        · simpa using h3
  unfold canon_left
  simp only [List.mem_cons, not_or, List.tail_cons, hdl]
  cases acc <;> cases first <;>
    simp only [Bool.false_eq_true, if_false, if_true, hk, List.mem_cons, not_or, false_or,
      true_or, true_and, and_false, or_false, false_and, and_true]
  all_goals
    by_cases h2 : c = ['.', '.']
    · subst h2
      simp
      try tauto
    · simp [h2, eq_comm]
      try tauto


/-- The loop of `is_canon`, from the start of a component, accepts what `canon_left` words. -/
theorem is_canon_loop_left : ∀ (n : Nat) (s : List Char), s.length ≤ n →
    ∀ (acc : Bool) (st : CanonState), (st = .First ∨ st = .Empty) →
      (is_canon_loop acc st s = true ↔ canon_left acc (decide (st = .First)) (components s)) := by
  intro n
  induction n using Nat.strong_induction_on with
  | _ n ih =>
    intro s hs acc st hst
    have hsplit := comp_split s
    have hcomp := components_eq s
    have hno := next_comp_no_slash s
    cases ha : after_comp s with
    | none =>
      rw [ha] at hsplit hcomp
      simp only [List.append_nil] at hsplit
      rw [hcomp, canon_left_single]
      conv_lhs => rw [hsplit]
      rw [is_canon_loop_last acc st hst _ hno]
      simp
    | some r =>
      rw [ha] at hsplit hcomp
      simp only at hsplit hcomp
      have hr := after_comp_length s r ha
      have ihr : ∀ acc1, is_canon_loop acc1 .Empty r = true
          ↔ canon_left acc1 false (components r) := by
        intro acc1
        have := ih r.length (by omega) r (Nat.le_refl _) acc1 .Empty (Or.inr rfl)
        simpa using this
      rw [hcomp, canon_left_cons _ _ _ _ (components_ne_nil r)]
      conv_lhs => rw [hsplit]
      rw [is_canon_loop_next acc st hst _ r hno]
      by_cases h0 : next_comp s = []
      · rw [if_pos h0, h0]
        simp only [Bool.and_eq_true, decide_eq_true_eq, ihr]
        simp
      · rw [if_neg h0]
        by_cases h1 : next_comp s = ['.']
        · rw [if_pos h1]
          simp [h1]
        · rw [if_neg h1]
          by_cases h2 : next_comp s = ['.', '.']
          · rw [if_pos h2]
            simp only [Bool.and_eq_true, ihr]
            simp only [h2]
            constructor
            · rintro ⟨ha1, ha2⟩
              subst ha1
              exact ⟨by simp, Or.inr (by simp), Or.inr ⟨trivial, rfl, ha2⟩⟩
            · rintro ⟨_, _, h | h⟩
              · exact absurd rfl h.1
              · obtain ⟨_, hacc, hl⟩ := h
                subst hacc
                exact ⟨rfl, hl⟩
          · rw [if_neg h2, ihr]
            constructor
            · intro h
              exact ⟨h1, Or.inr h0, Or.inl ⟨h2, h⟩⟩
            · rintro ⟨_, _, h | h⟩
              · exact h.2
              · exact absurd h.1 h2

/-- C26 : `is_canon(name)` is true exactly when, of the components of `name`, its pieces between
the `/`, none is `.`, none is empty but the first one and the last one, and those that are `..`
are the first ones, the last of them being followed by another component. Hence the empty name,
`/`, `a/`, `../a` and `...` are canonical, and `..`, `a//b`, `./a`, `a/..`, `/../a` and `a/../b`
are not. -/
theorem C26_is_canon_worded (name : List Char) :
    (is_canon name = true ↔ canon_worded name)
      ∧ is_canon "".toList = true ∧ is_canon "/".toList = true ∧ is_canon "a/".toList = true
      ∧ is_canon "../a".toList = true ∧ is_canon "...".toList = true
      ∧ is_canon "..".toList = false ∧ is_canon "a//b".toList = false
      ∧ is_canon "./a".toList = false ∧ is_canon "a/..".toList = false
      ∧ is_canon "/../a".toList = false ∧ is_canon "a/../b".toList = false := by
  refine ⟨?_, by decide, by decide, by decide, by decide, by decide, by decide, by decide,
    by decide, by decide, by decide, by decide⟩
  have := is_canon_loop_left name.length name (Nat.le_refl _) true .First (Or.inl rfl)
  unfold is_canon
  rw [this]
  unfold canon_left canon_worded
  simp

end Disk

namespace Disk

/-! ## C23, C24, C25 : `RealPath::exec` -/

theorem gcount_getline_zero (rest : List Char) : gcount (getline rest 256) = 0 ↔ rest = [] := by
  cases rest with
  | nil => simp [gcount, getline]
  | cons x r =>
    by_cases hx : x = '\n'
    · subst hx; simp [gcount, getline]
    · simp [gcount, getline, List.takeWhile_cons, hx]

theorem exec_interpreter_eq (c : List Char) : exec_interpreter c = hop_interpreter (some c) := by
  unfold exec_interpreter hop_interpreter
  match c with
  | [] => simp
  | [a] => simp
  | a :: b :: r =>
    by_cases ha : a = '#'
    · by_cases hb : b = '!'
      · subst ha; subst hb
        simp [gcount_getline_zero]
      · have hb1 : ¬ '!' = b := fun h => hb h.symm
        simp [hb, hb1]
    · have ha1 : ¬ '#' = a := fun h => ha h.symm
      simp [ha, ha1]

theorem bind_exec_interpreter (o : Option (List Char)) :
    o.bind exec_interpreter = hop_interpreter o := by
  cases o with
  | none => rfl
  | some c => exact exec_interpreter_eq c

theorem within_iff (sr : SolveReport) :
    (sr.file_loc.val > FileLoc.Dep.val ∧ sr.file_loc ≠ .Tmp) ↔ sr.within = false := by
  unfold SolveReport.within
  cases sr.file_loc <;> simp [FileLoc.val, FileLoc.Dep]

theorem hop_accesses_out (sr : SolveReport) (h : sr.within = false) :
    hop_accesses sr = sr.lnks.map fun l => (l, Accesses.of .Lnk) := by
  unfold SolveReport.within at h
  unfold hop_accesses
  cases hl : sr.file_loc <;> simp [hl] at h <;> simp [Accesses.of]

theorem hop_accesses_in (sr : SolveReport) (res : List (List Char × Accesses)) :
    (if sr.file_loc.val ≤ FileLoc.Dep.val then
        (res ++ sr.lnks.map fun l => (l, Accesses.of .Lnk))
          ++ [(sr.real, if sr.file_accessed = .Yes then (Accesses.of .Reg).or (Accesses.of .Lnk)
                        else Accesses.of .Reg)]
      else res ++ sr.lnks.map fun l => (l, Accesses.of .Lnk))
      = res ++ hop_accesses sr := by
  unfold hop_accesses
  cases hl : sr.file_loc <;> cases ha : sr.file_accessed <;>
    simp [FileLoc.val, FileLoc.Dep, Accesses.of, Accesses.or]

/-- One iteration of the loop of `exec`, in the words of the hops. -/
theorem exec_loop_succ (fuel : Nat) (w : World) (files : List Char → Option (List Char))
    (rp : RealPath) (n : Nat) (sr : SolveReport) (res : List (List Char × Accesses)) :
    RealPath.exec_loop fuel w files rp (n + 1) sr res =
      if sr.within = false then .ret (res ++ hop_accesses sr)
      else if sr.mapped then .thrown
      else
        match hop_file rp sr with
        | none => .abort
        | some path =>
          match hop_interpreter (files path) with
          | none => .ret (res ++ hop_accesses sr)
          | some i =>
            match RealPath.solve fuel w rp Fd_Cwd i false with
            | none => .no_fuel
            | some sr1 => RealPath.exec_loop fuel w files rp n sr1 (res ++ hop_accesses sr) := by
  rw [RealPath.exec_loop]
  simp only [within_iff, hop_accesses_in, bind_exec_interpreter]
  by_cases hw : sr.within = false
  · rw [if_pos hw, if_pos hw, hop_accesses_out sr hw]
  · rw [if_neg hw, if_neg hw]
    rfl

theorem exec_hops_succ (fuel : Nat) (w : World) (files : List Char → Option (List Char))
    (rp : RealPath) (n : Nat) (sr : SolveReport) :
    exec_hops fuel w files rp (n + 1) sr =
      sr ::
        (if sr.within = false then []
         else
          match hop_file rp sr with
          | none => []
          | some path =>
            match hop_interpreter (files path) with
            | none => []
            | some i =>
              match RealPath.solve fuel w rp Fd_Cwd i false with
              | none => []
              | some sr1 => exec_hops fuel w files rp n sr1) := by
  rw [exec_hops]
  cases hw : sr.within with
  | false => simp
  | true =>
    cases hf : hop_file rp sr with
    | none => simp [hop_interpreter]
    | some path => simp

theorem exec_hops_length (fuel : Nat) (w : World) (files : List Char → Option (List Char))
    (rp : RealPath) : ∀ (n : Nat) (sr : SolveReport),
    (exec_hops fuel w files rp n sr).length ≤ n
      ∧ (0 < n → (exec_hops fuel w files rp n sr).head? = some sr) := by
  intro n
  induction n with
  | zero => intro sr; simp [exec_hops]
  | succ n ih =>
    intro sr
    rw [exec_hops_succ]
    refine ⟨?_, fun _ => rfl⟩
    simp only [List.length_cons, Nat.add_le_add_iff_right]
    split_ifs
    · simp
    · split
      · simp
      · split
        · simp
        · split
          · simp
          · exact (ih _).1

end Disk

namespace Disk

/-- What the loop of `exec` gives, in the words of the hops. -/
theorem exec_loop_spec (fuel : Nat) (w : World) (files : List Char → Option (List Char))
    (rp : RealPath) : ∀ (n : Nat) (sr : SolveReport) (res : List (List Char × Accesses)),
    (∀ r, RealPath.exec_loop fuel w files rp n sr res = .ret r →
        r = res ++ ((exec_hops fuel w files rp n sr).map hop_accesses).flatten
        ∧ ∀ h ∈ exec_hops fuel w files rp n sr, h.within = true →
            h.mapped = false ∧ hop_file rp h ≠ none)
    ∧ (RealPath.exec_loop fuel w files rp n sr res = .thrown →
        ∃ h ∈ exec_hops fuel w files rp n sr, h.within = true ∧ h.mapped = true)
    ∧ (RealPath.exec_loop fuel w files rp n sr res = .abort →
        ∃ h ∈ exec_hops fuel w files rp n sr, h.within = true ∧ hop_file rp h = none) := by
  intro n
  induction n with
  | zero =>
    intro sr res
    refine ⟨fun r h => ?_, fun h => ?_, fun h => ?_⟩
    · rw [RealPath.exec_loop] at h
      cases h
      simp [exec_hops]
    · rw [RealPath.exec_loop] at h; cases h
    · rw [RealPath.exec_loop] at h; cases h
  | succ n ih =>
    intro sr res
    rw [exec_loop_succ, exec_hops_succ]
    by_cases hw : sr.within = false
    · rw [if_pos hw, if_pos hw]
      refine ⟨fun r h => ?_, (fun h => by cases h), (fun h => by cases h)⟩
      cases h
      refine ⟨(by simp), fun h hh hin => ?_⟩
      simp only [List.mem_singleton] at hh
      subst hh
      rw [hw] at hin
      cases hin
    · rw [if_neg hw, if_neg hw]
      have hw1 : sr.within = true := by simpa using hw
      by_cases hm : sr.mapped = true
      · rw [if_pos hm]
        exact ⟨(fun r h => by cases h), fun _ => ⟨sr, (by simp), hw1, hm⟩, (fun h => by cases h)⟩
      · rw [if_neg hm]
        have hm1 : sr.mapped = false := by simpa using hm
        cases hf : hop_file rp sr with
        | none =>
          exact ⟨(fun r h => by cases h), (fun h => by cases h), fun _ => ⟨sr, (by simp), hw1, hf⟩⟩
        | some path =>
          have hf1 : hop_file rp sr ≠ none := by rw [hf]; simp
          simp only []
          cases hi : hop_interpreter (files path) with
          | none =>
            simp only []
            refine ⟨fun r h => ?_, (fun h => by cases h), (fun h => by cases h)⟩
            cases h
            refine ⟨(by simp), fun h hh _ => ?_⟩
            simp only [List.mem_singleton] at hh
            subst hh
            exact ⟨hm1, hf1⟩
          | some i =>
            simp only []
            cases hs : RealPath.solve fuel w rp Fd_Cwd i false with
            | none =>
              simp only []
              exact ⟨(fun r h => by cases h), (fun h => by cases h), (fun h => by cases h)⟩
            | some sr1 =>
              simp only []
              obtain ⟨i1, i2, i3⟩ := ih sr1 (res ++ hop_accesses sr)
              refine ⟨fun r h => ?_, fun h => ?_, fun h => ?_⟩
              · obtain ⟨e, hall⟩ := i1 r h
                refine ⟨(by rw [e]; simp), fun h hh hin => ?_⟩
                rcases List.mem_cons.1 hh with rfl | hh
                · exact ⟨hm1, hf1⟩
                · exact hall h hh hin
              · obtain ⟨h1, hh, hp⟩ := i2 h
                exact ⟨h1, List.mem_cons_of_mem _ hh, hp⟩
              · obtain ⟨h1, hh, hp⟩ := i3 h
                exact ⟨h1, List.mem_cons_of_mem _ hh, hp⟩

/-- The loop of `solve` ends : from some number of iterations on, `solve` returns one and the
same report. -/
theorem solve_returns (w : World) (rp : RealPath) (at_ : Int) (file : List Char)
    (no_follow : Bool) :
    ∃ fuel r, ∀ fuel1, fuel ≤ fuel1 → RealPath.solve fuel1 w rp at_ file no_follow = some r := by
  cases hs : solve_start w rp at_ file with
  | none =>
    exact ⟨0, {}, fun fuel1 _ => by unfold RealPath.solve; rw [hs]⟩
  | some st0 =>
    obtain ⟨habs, hn0, _⟩ := solve_start_abs_like w rp at_ file st0 hs
    obtain ⟨fuel, e, he⟩ := solve_loop_terminates w rp no_follow (_get_symloop_max w).toNat
      (cur_size st0.cur) st0 habs (by rw [hn0]; simp) (le_refl _)
    cases e with
    | fall st =>
      refine ⟨fuel, solve_finish rp no_follow st, fun fuel1 hle => ?_⟩
      unfold RealPath.solve
      simp only [hs, solve_loop_mono w rp no_follow st0 _ fuel fuel1 hle he]
    | ret r =>
      refine ⟨fuel, r, fun fuel1 hle => ?_⟩
      unfold RealPath.solve
      simp only [hs, solve_loop_mono w rp no_follow st0 _ fuel fuel1 hle he]

/-- The loop of `exec` ends : from some number of iterations given to `solve` on, it ends one
and the same way. -/
theorem exec_loop_ends (w : World) (files : List Char → Option (List Char)) (rp : RealPath) :
    ∀ (n : Nat) (sr : SolveReport) (res : List (List Char × Accesses)),
    ∃ fuel e, e ≠ ExecEnd.no_fuel
      ∧ ∀ fuel1, fuel ≤ fuel1 → RealPath.exec_loop fuel1 w files rp n sr res = e := by
  intro n
  induction n with
  | zero =>
    intro sr res
    exact ⟨0, .ret res, (by simp), fun _ _ => by rw [RealPath.exec_loop]⟩
  | succ n ih =>
    intro sr res
    by_cases hw : sr.within = false
    · exact ⟨0, .ret (res ++ hop_accesses sr), (by simp),
        fun fuel1 _ => by rw [exec_loop_succ, if_pos hw]⟩
    · by_cases hm : sr.mapped = true
      · exact ⟨0, .thrown, (by simp), fun fuel1 _ => by rw [exec_loop_succ, if_neg hw, if_pos hm]⟩
      · cases hf : hop_file rp sr with
        | none =>
          exact ⟨0, .abort, (by simp),
            fun fuel1 _ => by rw [exec_loop_succ, if_neg hw, if_neg hm, hf]⟩
        | some path =>
          cases hi : hop_interpreter (files path) with
          | none =>
            exact ⟨0, .ret (res ++ hop_accesses sr), (by simp),
              fun fuel1 _ => by rw [exec_loop_succ, if_neg hw, if_neg hm, hf]; simp only [hi]⟩
          | some i =>
            obtain ⟨f1, sr1, h1⟩ := solve_returns w rp Fd_Cwd i false
            obtain ⟨f2, e, he, h2⟩ := ih sr1 (res ++ hop_accesses sr)
            refine ⟨max f1 f2, e, he, fun fuel1 hle => ?_⟩
            rw [exec_loop_succ, if_neg hw, if_neg hm, hf]
            simp only [hi, h1 fuel1 (le_of_max_le_left hle)]
            exact h2 fuel1 (le_of_max_le_right hle)

end Disk

namespace Disk

theorem find_append (word x : List Char) (c : Char) (h : c ∉ word) :
    find (word ++ c :: x) c = some word.length := by
  unfold find
  rw [if_pos (by simp)]
  congr 1
  induction word with
  | nil => simp
  | cons a t ih =>
    have ha : a ≠ c := fun e => h (by simp [e])
    have ht : c ∉ t := fun e => h (by simp [e])
    simp [List.indexOf_cons, ha, ih ht]

theorem getline_blank (word tail : List Char) (hn : '\n' ∉ word) (hl : word.length < 255) :
    (getline (word ++ ' ' :: tail) 256).1
      = word ++ ' ' :: (tail.takeWhile (· ≠ '\n')).take (254 - word.length) := by
  unfold getline
  simp only []
  have e1 : (word ++ ' ' :: tail).takeWhile (· ≠ '\n')
      = word ++ ' ' :: tail.takeWhile (· ≠ '\n') := by
    rw [List.takeWhile_append_of_pos]
    · rw [List.takeWhile_cons_of_pos (by decide)]
    · intro a ha
      have : a ≠ '\n' := fun e => hn (e ▸ ha)
      simpa using this
  rw [e1, List.take_append_eq_append_take, List.take_of_length_le (by omega)]
  have e2 : 256 - 1 - word.length = (254 - word.length) + 1 := by omega
  rw [e2, List.take_succ_cons]

theorem exec_word_blank (word tail : List Char) (hb : ' ' ∉ word) (hn : '\n' ∉ word)
    (hl : word.length < 255) : exec_word (word ++ ' ' :: tail) = word := by
  have e2 : ∃ z, ((getline (word ++ ' ' :: tail) 256).1
        ++ List.replicate (256 - (getline (word ++ ' ' :: tail) 256).1.length) '\x00').take
          (gcount (getline (word ++ ' ' :: tail) 256)) = word ++ ' ' :: z := by
    unfold gcount
    rw [List.take_append, getline_blank word tail hn hl]
    exact ⟨_, by rw [List.append_assoc]; rfl⟩
  obtain ⟨z, hz⟩ := e2
  unfold exec_word
  simp only [hz, find_append word z ' ' hb, List.take_left']

set_option maxRecDepth 100000 in
theorem exec_interpreter_long :
    exec_interpreter ('#' :: '!' :: List.replicate 300 'a') = some (List.replicate 255 'a') := by
  decide

/-- C25 : the path `exec` passes to `solve` for the next hop is the text that follows `#!` up
to the first blank : it is the interpreter when the interpreter follows `#!` at once, and the
empty path when a blank follows `#!`. For the line `#! /bin/sh -e`, the next hop resolves the
empty path, not `/bin/sh` : in a repo whose script `s` starts with `#! /repo/bin/sh -e`, the
interpreter `bin/sh` is not among the accesses of `exec`, while it is for the script `v`, the
same without the blank. Of a long line, the 255 characters that follow `#!` are considered. -/
theorem C25_interpreter_word :
    (∀ word tail : List Char, ' ' ∉ word → '\n' ∉ word → word.length < 255 →
        exec_interpreter ('#' :: '!' :: (word ++ ' ' :: tail)) = some word)
    ∧ (∀ tail : List Char, exec_interpreter ('#' :: '!' :: ' ' :: tail) = some [])
    ∧ exec_interpreter "#! /bin/sh -e\necho\n".toList = some []
    ∧ exec_interpreter "#!/bin/sh -e\necho\n".toList = some "/bin/sh".toList
    ∧ exec_interpreter ('#' :: '!' :: List.replicate 300 'a') = some (List.replicate 255 'a')
    ∧ RealPath.exec 100 no_lnk_world script_files repo_rp
          { real := "s".toList, file_accessed := .Yes, file_loc := .Repo }
        = .ret [("s".toList, { Lnk := true, Reg := true })]
    ∧ RealPath.exec 100 no_lnk_world script_files repo_rp
          { real := "v".toList, file_accessed := .Yes, file_loc := .Repo }
        = .ret [("v".toList, { Lnk := true, Reg := true }),
                ("bin/sh".toList, { Lnk := true, Reg := true })] := by
  have general : ∀ word tail : List Char, ' ' ∉ word → '\n' ∉ word → word.length < 255 →
      exec_interpreter ('#' :: '!' :: (word ++ ' ' :: tail)) = some word := by
    intro word tail hb hn hl
    unfold exec_interpreter
    have h0 : ¬ gcount (getline (word ++ ' ' :: tail) 256) = 0 := by
      rw [gcount_getline_zero]; simp
    simp [h0, exec_word_blank word tail hb hn hl]
  refine ⟨general, fun tail => general [] tail (by simp) (by simp) (by simp), by decide,
    by decide, exec_interpreter_long, by decide, by decide⟩

/-- The interpreter of a script whose line is `#!/bin/sh -e` is `/bin/sh`. -/
theorem C25_interpreter_witness :
    exec_interpreter "#!/bin/sh -e".toList = some "/bin/sh".toList :=
  C25_interpreter_word.1 "/bin/sh".toList "-e".toList (by decide) (by decide) (by decide)

end Disk

namespace Disk

/-- C23 : `RealPath::exec` ends whatever its input, and follows the hops of `exec_hops` : the
file it is given, then at most 4 further files reached through `#!` lines, the chain stopping
at the first file that is outside the repo, the source dirs and tmp, that cannot be read, that
does not start with `#!`, or that holds nothing after `#!`. When it returns, its result lists,
in hop order, every recorded link of each hop with access `Lnk` and every file of a hop that
lies in the repo or in a source dir with access `Reg`, and `Lnk` when `file_accessed` is `Yes` ;
and it only returns when no hop within the repo, the source dirs and tmp has `mapped` set. -/
theorem C23_exec_hops (w : World) (files : List Char → Option (List Char)) (rp : RealPath)
    (sr : SolveReport) :
    (∃ fuel e, e ≠ ExecEnd.no_fuel
        ∧ ∀ fuel1, fuel ≤ fuel1 → RealPath.exec fuel1 w files rp sr = e)
    ∧ ∀ fuel,
        (exec_hops fuel w files rp 5 sr).length ≤ 5
        ∧ (exec_hops fuel w files rp 5 sr).head? = some sr
        ∧ ∀ res, RealPath.exec fuel w files rp sr = .ret res →
            res = ((exec_hops fuel w files rp 5 sr).map hop_accesses).flatten
            ∧ ∀ h ∈ exec_hops fuel w files rp 5 sr, h.within = true → h.mapped = false := by
  refine ⟨exec_loop_ends w files rp 5 sr [], fun fuel => ?_⟩
  refine ⟨(exec_hops_length fuel w files rp 5 sr).1,
    (exec_hops_length fuel w files rp 5 sr).2 (by decide), fun res h => ?_⟩
  obtain ⟨e, hall⟩ := (exec_loop_spec fuel w files rp 5 sr []).1 res h
  exact ⟨by simpa using e, fun h hh hin => (hall h hh hin).1⟩

/-- The accesses of `exec` on the script `v`, whose interpreter is in the repo, are those of its
two hops. -/
theorem C23_exec_witness :
    RealPath.exec 100 no_lnk_world script_files repo_rp
        { real := "v".toList, file_accessed := .Yes, file_loc := .Repo }
      = .ret [("v".toList, { Lnk := true, Reg := true }),
              ("bin/sh".toList, { Lnk := true, Reg := true })]
    ∧ [("v".toList, ({ Lnk := true, Reg := true } : Accesses)),
        ("bin/sh".toList, { Lnk := true, Reg := true })]
      = ((exec_hops 100 no_lnk_world script_files repo_rp 5
            { real := "v".toList, file_accessed := .Yes, file_loc := .Repo }).map
          hop_accesses).flatten :=
  ⟨by decide,
    (((C23_exec_hops no_lnk_world script_files repo_rp
        { real := "v".toList, file_accessed := .Yes, file_loc := .Repo }).2 100).2.2 _
      (by decide)).1⟩

/-- C23, as it was worded, fails : with a tmp dir seen as `/view`, the report of `/view/sh` has
`mapped` set and `exec` throws on it, whereas a result was announced ; and `exec` stops at the
file `u`, which lies in the repo, is read and starts with `#!`, since nothing follows `#!` : the
empty path resolves to the directory `d` of the repo, which is not among the accesses. -/
theorem C23_stop_counterexample :
    RealPath.solve 100 no_lnk_world view_rp Fd_Cwd "/view/sh".toList false
        = some { real := "/disk/sh".toList, file_loc := .Tmp, mapped := true }
    ∧ RealPath.exec 100 no_lnk_world script_files view_rp
          { real := "/disk/sh".toList, file_loc := .Tmp, mapped := true } = .thrown
    ∧ script_files "/repo/u".toList = some ['#', '!']
    ∧ RealPath.solve 100 no_lnk_world sub_rp Fd_Cwd "../u".toList false
        = some { real := "u".toList, file_accessed := .Yes, file_loc := .Repo }
    ∧ RealPath.solve 100 no_lnk_world sub_rp Fd_Cwd [] false
        = some { real := "d".toList, file_accessed := .Yes, file_loc := .Repo }
    ∧ RealPath.exec 100 no_lnk_world script_files sub_rp
          { real := "u".toList, file_accessed := .Yes, file_loc := .Repo }
        = .ret [("u".toList, { Lnk := true, Reg := true })] := by
  refine ⟨by decide, by decide, by decide, by decide, by decide, by decide⟩

/-- C24 : `RealPath::solve` never throws : whatever the state, the world and the input, it
returns a report. `RealPath::exec` ends whatever its input : it returns its accesses, it throws,
or an assertion of `mk_abs` fails. It throws when the report it is given lies in the repo, the
source dirs or tmp and has `mapped` set ; it throws only when a hop within these has `mapped`
set, it does not return when there is such a hop, and the assertion only fails on the file of
a hop within these. -/
theorem C24_exec_throws (w : World) (files : List Char → Option (List Char)) (rp : RealPath)
    (at_ : Int) (file : List Char) (no_follow : Bool) (sr : SolveReport) :
    (∃ fuel r, ∀ fuel1, fuel ≤ fuel1 → RealPath.solve fuel1 w rp at_ file no_follow = some r)
    ∧ (∃ fuel e, e ≠ ExecEnd.no_fuel
        ∧ ∀ fuel1, fuel ≤ fuel1 → RealPath.exec fuel1 w files rp sr = e)
    ∧ ∀ fuel,
        (sr.within = true → sr.mapped = true → RealPath.exec fuel w files rp sr = .thrown)
        ∧ (RealPath.exec fuel w files rp sr = .thrown →
            ∃ h ∈ exec_hops fuel w files rp 5 sr, h.within = true ∧ h.mapped = true)
        ∧ (∀ res, RealPath.exec fuel w files rp sr = .ret res →
            ∀ h ∈ exec_hops fuel w files rp 5 sr, h.within = true → h.mapped = false)
        ∧ (RealPath.exec fuel w files rp sr = .abort →
            ∃ h ∈ exec_hops fuel w files rp 5 sr, h.within = true ∧ hop_file rp h = none) := by
  refine ⟨solve_returns w rp at_ file no_follow, exec_loop_ends w files rp 5 sr [],
    fun fuel => ⟨fun hw hm => ?_, (exec_loop_spec fuel w files rp 5 sr []).2.1,
      fun res h hop hh hin => (((exec_loop_spec fuel w files rp 5 sr []).1 res h).2 hop hh hin).1,
      (exec_loop_spec fuel w files rp 5 sr []).2.2⟩⟩
  unfold RealPath.exec
  rw [exec_loop_succ, if_neg (by rw [hw]; simp), if_pos hm]

/-- The report of a file of a tmp dir seen as `/view` makes `exec` throw. -/
theorem C24_exec_witness :
    RealPath.exec 100 no_lnk_world script_files view_rp
        { real := "/disk/x".toList, file_loc := .Tmp, mapped := true } = .thrown :=
  ((C24_exec_throws no_lnk_world script_files view_rp Fd_Cwd [] false
      { real := "/disk/x".toList, file_loc := .Tmp, mapped := true }).2.2 100).1
    (by decide) (by decide)

/-- C24, as it was worded, fails : with a tmp dir seen as `/view`, `exec` throws on the script
`t` of the repo, whose interpreter `/view/sh` gives a hop with `mapped` set. -/
theorem C24_mapped_counterexample :
    RealPath.solve 100 no_lnk_world view_rp Fd_Cwd "t".toList false
        = some { real := "t".toList, file_accessed := .Yes, file_loc := .Repo }
    ∧ exec_hops 100 no_lnk_world script_files view_rp 5
          { real := "t".toList, file_accessed := .Yes, file_loc := .Repo }
        = [{ real := "t".toList, file_accessed := .Yes, file_loc := .Repo },
           { real := "/disk/sh".toList, file_loc := .Tmp, mapped := true }]
    ∧ RealPath.exec 100 no_lnk_world script_files view_rp
          { real := "t".toList, file_accessed := .Yes, file_loc := .Repo } = .thrown := by
  refine ⟨by decide, by decide, by decide⟩

end Disk
